import Mathlib

/-! DebugEdit: a shallow embedding of `debugedit.c`.

Section buffers are lists of bytes (`List Nat`), pointers are offsets into
them.  Every access outside a buffer is undefined behaviour in C and is
reported as `Fault.undefined`; `error (EXIT_FAILURE, ...)` is `Fault.exit`.
Loops of the C code are recursive functions on a fuel argument that bounds
the number of iterations by the size of the buffer they walk.
-/

namespace DebugEdit

/-! ## Outcomes and byte buffers -/

/-- Ways in which a C function does not return normally. -/
inductive Fault
  /-- undefined behaviour: access outside a buffer, use of a NULL or
  uninitialised pointer -/
  | undefined
  /-- the process exits through `error (EXIT_FAILURE, ...)` -/
  | exit
  /-- the process aborts through a failed `assert` -/
  | abort
  /-- the iteration bound of the model is exhausted -/
  | fuel
  deriving DecidableEq, Repr

/-- Bytes of a string literal. -/
def bytes (s : String) : List Nat := s.toList.map Char.toNat

/-- The C `*p` on buffer `m`. -/
def rd (m : List Nat) (p : Nat) : Except Fault Nat :=
  match m[p]? with
  | some c => .ok c
  | none => .error .undefined

/-- The content of the NUL-terminated string that starts a list of bytes;
`none` when the list holds no NUL. -/
def cstrL : List Nat → Option (List Nat)
  | [] => none
  | c :: t => if c = 0 then some [] else (cstrL t).map (c :: ·)

/-- The NUL-terminated string at `p` in `m` (what `strlen`, `strdup`,
`strchr (p, 0)` walk over). -/
def cstr (m : List Nat) (p : Nat) : Except Fault (List Nat) :=
  match cstrL (m.drop p) with
  | some s => .ok s
  | none => .error .undefined

/-- Store the bytes `bs` at `p` (`memcpy`, `memset`, single stores); the
whole range has to lie inside the buffer. -/
def wr (m : List Nat) (p : Nat) (bs : List Nat) : Except Fault (List Nat) :=
  if p + bs.length ≤ m.length then
    .ok (m.take p ++ bs ++ m.drop (p + bs.length))
  else .error .undefined

/-- Read `n` bytes at `p` (the source range of a `memcpy`/`memmove`). -/
def rdn (m : List Nat) (p n : Nat) : Except Fault (List Nat) :=
  if p + n ≤ m.length then .ok ((m.drop p).take n) else .error .undefined

/-- The width of `size_t`. -/
def SIZE_MOD : Nat := 2 ^ 64

/-- The constant `UINT_MAX`. -/
def UINT_MAX : Nat := 4294967295

/-! ## Configuration -/

/-- The globals set by the front-end: `base_dir`, `dest_dir` (`none` is
`NULL`), `win_path`, and whether `list_file_fd != -1`. -/
structure Config where
  base_dir : Option (List Nat)
  dest_dir : Option (List Nat)
  win_path : Bool
  list_file : Bool
  deriving DecidableEq, Repr

/-! ## Path helpers -/

/-- The C `IS_DIR_SEPARATOR(c)`: `c == '/'`. -/
def IS_DIR_SEPARATOR (c : Nat) : Bool := c == 47

/-- Test `IS_DIR_SEPARATOR (*s)` on the rest of a string (false at the
terminating NUL). -/
def sep_at : List Nat → Bool
  | [] => false
  | c :: _ => IS_DIR_SEPARATOR c

/-- Test `*s == 0 || IS_DIR_SEPARATOR (*s)` on the rest of a string. -/
def end_or_sep : List Nat → Bool
  | [] => true
  | c :: _ => IS_DIR_SEPARATOR c

/-- The loop `while (IS_DIR_SEPARATOR (*s)) s++;`. -/
def skip_seps : List Nat → List Nat
  | [] => []
  | c :: s => if IS_DIR_SEPARATOR c then skip_seps s else c :: s

/-- The loop `while (droot < pre && IS_DIR_SEPARATOR (*pre)) pre--;` over the
output written so far. -/
def back_seps (out : List Nat) (droot : Nat) : Nat → Nat
  | 0 => 0
  | pre + 1 =>
    if droot < pre + 1 && IS_DIR_SEPARATOR (out.getD (pre + 1) 0) then
      back_seps out droot pre
    else pre + 1

/-- The loop `while (droot < pre && ! IS_DIR_SEPARATOR (*pre)) pre--;`. -/
def back_seg (out : List Nat) (droot : Nat) : Nat → Nat
  | 0 => 0
  | pre + 1 =>
    if droot < pre + 1 && !IS_DIR_SEPARATOR (out.getD (pre + 1) 0) then
      back_seg out droot pre
    else pre + 1

/-- The `..` branch of `canonicalize_path`; `s` starts with `..`, `out` is
what has been written from `rv` up to `d`.  When nothing has been written
`pre = d - 1` lies before `droot`, both tests on it fail and the two dots
are copied. -/
def canon_dotdot (droot : Nat) (s out : List Nat) : List Nat × List Nat :=
  if out.length = 0 then (s.drop 2, out ++ s.take 2)
  else
    let pre := back_seps out droot (out.length - 1)
    if droot ≤ pre && !IS_DIR_SEPARATOR (out.getD pre 0) then
      let pre := back_seg out droot pre
      let pre := if droot < pre then pre + 1 else pre
      if pre + 3 = out.length && out.getD pre 0 == 46 && out.getD (pre + 1) 0 == 46 then
        (s.drop 2, out ++ s.take 2)
      else
        (skip_seps (s.drop 2), out.take pre)
    else (s.drop 2, out ++ s.take 2)

/-- One iteration of the main loop of `canonicalize_path`, entered with
`*s != 0`. -/
def canon_step (droot : Nat) (s out : List Nat) : List Nat × List Nat :=
  let r : List Nat × List Nat :=
    if s.head? = some 46 && end_or_sep (s.drop 1) then
      (skip_seps (s.drop 1), out)
    else if s.head? = some 46 && (s.drop 1).head? = some 46 && end_or_sep (s.drop 2) then
      canon_dotdot droot s out
    else
      (s.dropWhile (fun c => !IS_DIR_SEPARATOR c), out ++ s.takeWhile (fun c => !IS_DIR_SEPARATOR c))
  match r.1 with
  | [] => r
  | c :: s1 => if IS_DIR_SEPARATOR c then (skip_seps s1, r.2 ++ [c]) else r

/-- The main loop `while (*s) ...` of `canonicalize_path`; every iteration
consumes at least one byte of `s`, so `s.length` iterations suffice. -/
def canon_loop (droot : Nat) : Nat → List Nat → List Nat → List Nat
  | 0, _, out => out
  | _ + 1, [], out => out
  | fuel + 1, c :: s, out =>
    let r := canon_step droot (c :: s) out
    canon_loop droot fuel r.1 r.2

/-- The final trimming loop `while (droot < d && IS_DIR_SEPARATOR (d[-1])) --d;`. -/
def trim_seps (droot : Nat) (out : List Nat) : Nat → List Nat
  | 0 => out
  | n + 1 =>
    if droot < out.length && IS_DIR_SEPARATOR (out.getD (out.length - 1) 0) then
      trim_seps droot (out.take (out.length - 1)) n
    else out

/-- The start of `canonicalize_path`: the root prefix (`/`, or `//` when the
path starts with exactly two separators) copied to the output, with the
input left after it and its separators. -/
def canon_root (s : List Nat) : List Nat × List Nat :=
  match s with
  | [] => (s, [])
  | c :: s1 =>
    if IS_DIR_SEPARATOR c then
      if sep_at s1 && !sep_at (s1.drop 1) then (skip_seps (s1.drop 1), c :: s1.take 1)
      else (skip_seps s1, [c])
    else (s, [])

/-- The C `canonicalize_path (s, d)` for the bytes `s` of a NUL-terminated string
(no NUL inside): the bytes stored at `d` before the terminating NUL. -/
def canonicalize_path (s : List Nat) : List Nat :=
  let r := canon_root s
  let droot := r.2.length
  let out := canon_loop droot r.1.length r.1 r.2
  let out := trim_seps droot out out.length
  if out.length = 0 then [46] else out

/-- The C `has_prefix (str, prefix)`. -/
def has_prefix (str pre : List Nat) : Bool :=
  if str.length < pre.length then false else str.take pre.length == pre

/-- The C `has_prefix (str, prefix)` for a global that may be `NULL`: `strlen (NULL)`
is undefined. -/
def has_prefix_opt (str : List Nat) (pre : Option (List Nat)) : Except Fault Bool :=
  match pre with
  | some p => .ok ( has_prefix str p)
  | none => .error .undefined

/-- The C `strlen` of a global that may be `NULL`. -/
def strlen_opt (s : Option (List Nat)) : Except Fault Nat :=
  match s with
  | some p => .ok p.length
  | none => .error .undefined

/-- The bytes of a string after `make_win_path`: every `/` becomes `\`. -/
def make_win_path (path : List Nat) : List Nat :=
  path.map (fun c => if c = 47 then 92 else c)

/-- The C `make_win_path (p)` on the string at `p` in `m`. -/
def make_win_path_at (m : List Nat) (p : Nat) : Except Fault (List Nat) := do
  let s ← cstr m p
  wr m p (make_win_path s)

/-! ## Byte reader -/

/-- The loop of `read_uleb128` over the bytes at the pointer: `ret`, `shift`
and the number of bytes consumed so far.  `ret` is an `unsigned int`. -/
def uleb_loop : List Nat → Nat → Nat → Nat → Except Fault (Nat × Nat)
  | [], _, _, _ => .error .undefined
  | c :: t, ret, shift, n =>
    let ret := (ret ||| ((c &&& 0x7f) <<< shift)) % 2 ^ 32
    if c &&& 0x80 ≠ 0 then uleb_loop t ret (shift + 7) (n + 1)
    else .ok (if shift + 7 ≥ 35 then UINT_MAX else ret, n + 1)

/-- The C `read_uleb128 (ptr)`: the value and the advanced pointer. -/
def read_uleb128 (m : List Nat) (p : Nat) : Except Fault (Nat × Nat) := do
  let r ← uleb_loop (m.drop p) 0 0 0
  pure (r.1, p + r.2)

/-- The C `do_read_16 (ptr)`: `buf_read_ule16` or `buf_read_ube16`. -/
def do_read_16 (msb : Bool) (m : List Nat) (p : Nat) : Except Fault Nat := do
  let b0 ← rd m p
  let b1 ← rd m (p + 1)
  pure ((if msb then b1 ||| (b0 <<< 8) else b0 ||| (b1 <<< 8)) % 2 ^ 16)

/-- The C `do_read_32 (ptr)`: `buf_read_ule32` or `buf_read_ube32`. -/
def do_read_32 (msb : Bool) (m : List Nat) (p : Nat) : Except Fault Nat := do
  let b0 ← rd m p
  let b1 ← rd m (p + 1)
  let b2 ← rd m (p + 2)
  let b3 ← rd m (p + 3)
  pure ((if msb then b3 ||| (b2 <<< 8) ||| (b1 <<< 16) ||| (b0 <<< 24)
         else b0 ||| (b1 <<< 8) ||| (b2 <<< 16) ||| (b3 <<< 24)) % 2 ^ 32)

/-! ## Editor state -/

/-- The mutable state of one run: the section buffers
`debug_sections[...].data` (`none` is `NULL`), the sections handed to
`dirty_section`, the string table of `.symtab` with its dirty flag, the
bytes written to the list file, and the globals `ptr_size`, `cu_version`,
`relptr` (as an index into the relocation buffer). -/
structure St where
  debug_info : Option (List Nat)
  debug_abbrev : Option (List Nat)
  debug_line : Option (List Nat)
  debug_str : Option (List Nat)
  strtab : Option (List Nat)
  dirty_info : Bool
  dirty_str : Bool
  dirty_line : Bool
  dirty_strtab : Bool
  sink : List Nat
  ptr_size : Nat
  cu_version : Nat
  relptr : Nat
  deriving DecidableEq, Repr

/-- Bytes sent to the list file by `write (list_file_fd, p, strlen (p) + 1)`
(the write is taken to succeed). -/
def emit (sink p : List Nat) : List Nat := sink ++ p ++ [0]

/-- The C `memset (p, c, n)`; the range has to lie inside the buffer. -/
def memset (m : List Nat) (p c n : Nat) : Except Fault (List Nat) :=
  if p + n ≤ m.length then
    .ok (m.take p ++ List.replicate n c ++ m.drop (p + n))
  else .error .undefined

/-- The C `canonicalize_path (s, d)` with `s` a pointer into `src` and `d` a
pointer into `dst`.  The C function reads `s` and writes `d` byte by byte.
When the two buffers are distinct or `d <= s`, no byte of the source is
overwritten before it is read, and the call amounts to reading the source
string and then storing the result, which is what this definition does.
That is the case at line 644 (`d == s`) and at line 721 whenever the
tables are read from the copy `buf` or dest is not longer than base.  At
line 721 with the tables rewritten in place (no file name under base) and
dest longer than base, `d` is ahead of `s` and the C function reads bytes
it has written; this definition is not meant for that case, and the
theorems below on the rewritten tables have `len(dest) <= len(base)`. -/
def canonicalize_path_at (src : List Nat) (s : Nat) (dst : List Nat) (d : Nat) :
    Except Fault (List Nat) := do
  let str ← cstr src s
  wr dst d (canonicalize_path str ++ [0])

/-! ## Line-program header editor -/

/-- The checks of `edit_dwarf2_line` on the header at `off`; the result is
`none` for `return 1`, else the pointer `dir` to the directory table. -/
def line_header (msb : Bool) (m : List Nat) (off : Nat) : Except Fault (Option Nat) := do
  let len ← do_read_32 msb m off
  let ptr := off + 4
  let endcu := off + 4 + len
  if len = 0xffffffff then pure none
  else if endcu > m.length then pure none
  else
    let value ← do_read_16 msb m ptr
    let ptr := ptr + 2
    if value ≠ 2 ∧ value ≠ 3 ∧ value ≠ 4 then pure none
    else
      let hlen ← do_read_32 msb m ptr
      let endprol := ptr + 4 + hlen
      let ptr := ptr + 4
      if endprol > endcu then pure none
      else
        let v4 := if value ≥ 4 then 1 else 0
        let opcode_base ← rd m (ptr + 4 + v4)
        pure (some (ptr + 4 + v4 + opcode_base))

/-- The walk over the directory table that fills `dirt`: the pointers of
the entries (after `dirt[0]`, the literal ".", for which `dir_table` puts
`none`) and the pointer just past the terminator.  (The counting loop that
sizes the array walks the same bytes.) -/
def dir_table (m : List Nat) : Nat → Nat → List (Option Nat) →
    Except Fault (List (Option Nat) × Nat)
  | 0, _, _ => .error .fuel
  | fuel + 1, ptr, dirt => do
    let c ← rd m ptr
    if c = 0 then pure (dirt, ptr + 1)
    else
      let s ← cstr m ptr
      dir_table m fuel (ptr + s.length + 1) (dirt ++ [some ptr])

/-- The string `dirt[value]`. -/
def dirt_str (m : List Nat) (e : Option Nat) : Except Fault (List Nat) :=
  match e with
  | none => .ok [46]
  | some p => cstr m p

/-- The path joined into the scratch buffer `s` for one file entry. -/
def join_path (comp_dir dir file : List Nat) : List Nat :=
  if file.head? = some 47 then file
  else if dir.head? = some 47 then dir ++ [47] ++ file
  else (if comp_dir.length ≠ 0 then comp_dir ++ [47] else []) ++ dir ++ [47] ++ file

/-- What the file-table loop sends to the list file for the canonical
path `s`; `none` when `p` stays `NULL`. -/
def list_suffix (cfg : Config) (s : List Nat) : Except Fault (Option (List Nat)) :=
  match cfg.base_dir with
  | none => pure (some s)
  | some base =>
    if has_prefix s base then pure (some (s.drop base.length))
    else do
      let b ← has_prefix_opt s cfg.dest_dir
      let n ← strlen_opt cfg.dest_dir
      pure (if b then some (s.drop n) else none)

/-- Result of the first walk over the file table. -/
structure FileScan where
  ret : Nat
  ptr : Nat
  abs_file_cnt : Nat
  sink : List Nat
  deriving DecidableEq, Repr

/-- The update of `abs_file_cnt` for the file name `file` with first
byte `c`. -/
def count_abs (cfg : Config) (c : Nat) (file : List Nat) (abs_file_cnt : Nat) :
    Except Fault Nat :=
  if c = 47 && cfg.dest_dir.isSome then do
    let b ← has_prefix_opt file cfg.base_dir
    pure (if b then abs_file_cnt + 1 else abs_file_cnt)
  else pure abs_file_cnt

/-- The list file after the canonical path `s` of one file entry. -/
def sink_file (cfg : Config) (sink s : List Nat) : Except Fault (List Nat) :=
  if cfg.list_file then do
    let p ← list_suffix cfg s
    match p with
    | some p => pure (emit sink p)
    | none => pure sink
  else pure sink

/-- The first loop over the file table (`/* file table: */`): checks the
directory indices, counts the names under `base_dir`, sends the canonical
paths to the list file. -/
def file_scan (cfg : Config) (comp_dir m : List Nat) (dirt : List (Option Nat)) :
    Nat → Nat → Nat → List Nat → Except Fault FileScan
  | 0, _, _, _ => .error .fuel
  | fuel + 1, ptr, abs_file_cnt, sink => do
    let c ← rd m ptr
    if c = 0 then pure ⟨0, ptr + 1, abs_file_cnt, sink⟩
    else
      let file ← cstr m ptr
      let ptr := ptr + file.length + 1
      let v ← read_uleb128 m ptr
      if v.1 ≥ dirt.length then pure ⟨1, v.2, abs_file_cnt, sink⟩
      else
        let dir ← dirt_str m (dirt.getD v.1 none)
        let cnt ← count_abs cfg c file abs_file_cnt
        let sink ← sink_file cfg sink (canonicalize_path (join_path comp_dir dir file))
        let u1 ← read_uleb128 m v.2
        let u2 ← read_uleb128 m u1.2
        file_scan cfg comp_dir m dirt fuel u2.2 cnt sink

/-- Locals of the rewriting part of `edit_dwarf2_line`: the section buffer,
`srcptr` (into the snapshot `buf` when there is one, else into the
section), `ptr`, `shrank`, `abs_dir_cnt`, and whether `dirty_section
(DEBUG_STR)` was called. -/
structure LineRw where
  mem : List Nat
  srcptr : Nat
  ptr : Nat
  shrank : Nat
  abs_dir_cnt : Nat
  dirty : Bool
  deriving DecidableEq, Repr

/-- The buffer `srcptr` points into. -/
def src_of (buf : Option (List Nat)) (mem : List Nat) : List Nat := buf.getD mem

/-- The body of the loop that rewrites the directory table, for the
entry `orig` at `srcptr` with first byte `c`. -/
def dir_entry (win_path : Bool) (base dest : List Nat) (buf : Option (List Nat))
    (st : LineRw) (c : Nat) (orig : List Nat) : Except Fault LineRw := do
  let len := orig.length + 1
  let pre := c = 47 && has_prefix orig base
  let mem1 ← (if pre then wr st.mem st.ptr dest else pure st.mem)
  let ptr1 := if pre then st.ptr + dest.length else st.ptr
  let readptr := if pre then st.srcptr + base.length else st.srcptr
  let abs_dir_cnt :=
    if pre && dest.length < base.length then st.abs_dir_cnt + 1 else st.abs_dir_cnt
  let srcptr := st.srcptr + len
  let shrank := (st.shrank + (srcptr - readptr)) % SIZE_MOD
  let mem2 ← canonicalize_path_at (src_of buf mem1) readptr mem1 ptr1
  let mem3 ← (if win_path then make_win_path_at mem2 ptr1 else pure mem2)
  let out ← cstr mem3 ptr1
  let len2 := out.length + 1
  let shrank := (shrank + SIZE_MOD - len2 % SIZE_MOD) % SIZE_MOD
  if len2 > len then .error .undefined
  else
    let dirty := st.dirty || ((orig ++ [0]).take len2 != out ++ [0])
    pure ⟨mem3, srcptr, ptr1 + len2, shrank, abs_dir_cnt, dirty⟩

/-- The loop that rewrites the directory table. -/
def dir_rewrite (win_path : Bool) (base dest : List Nat) (buf : Option (List Nat)) :
    Nat → LineRw → Except Fault LineRw
  | 0, _ => .error .fuel
  | fuel + 1, st => do
    let c ← rd (src_of buf st.mem) st.srcptr
    if c = 0 then pure st
    else
      let orig ← cstr (src_of buf st.mem) st.srcptr
      let st ← dir_entry win_path base dest buf st c orig
      dir_rewrite win_path base dest buf fuel st

/-- The filler after the rewritten directory entries (`if (shrank > 0)`). -/
def fill_shrank (st : LineRw) : Except Fault LineRw :=
  if st.shrank > 0 then
    let shrank := st.shrank - 1
    if shrank = 0 then .error .exit
    else do
      let mem ← memset st.mem st.ptr 88 shrank
      let mem ← wr mem (st.ptr + shrank) [0]
      pure { st with mem := mem, ptr := st.ptr + shrank + 1, shrank := shrank }
  else pure st

/-- The filler reserved for the prefixes that get shorter
(`if (abs_dir_cnt + abs_file_cnt != 0)`). -/
def fill_abs (base_len dest_len abs_file_cnt : Nat) (st : LineRw) : Except Fault LineRw :=
  if st.abs_dir_cnt + abs_file_cnt ≠ 0 then
    let len := ((st.abs_dir_cnt + abs_file_cnt) * ((base_len + SIZE_MOD - dest_len) % SIZE_MOD))
      % SIZE_MOD
    if len = 1 then .error .exit
    else do
      let n := (len + SIZE_MOD - 1) % SIZE_MOD
      let mem ← memset st.mem st.ptr 88 n
      let mem ← wr mem (st.ptr + n) [0]
      pure { st with mem := mem, ptr := st.ptr + n + 1 }
  else pure st

/-- The rewrite of one file name `name` (first byte `c`) found at `srcptr`:
the buffer, `ptr` after `ptr += len`, and the dirty mark. -/
def file_name (base dest : List Nat) (buf : Option (List Nat)) (mem : List Nat)
    (srcptr ptr : Nat) (dirty : Bool) (c : Nat) (name : List Nat) :
    Except Fault (List Nat × Nat × Bool) :=
  let len := name.length + 1
  if c = 47 && has_prefix name base then do
    let m ← wr mem ptr dest
    if dest.length < base.length then do
      let tail ← rdn (src_of buf m) (srcptr + base.length) (len - base.length)
      let m ← wr m (ptr + dest.length) tail
      pure (m, ptr + dest.length + len - base.length, true)
    else pure (m, ptr + len, true)
  else if buf.isSome || ptr != srcptr then do
    let bs ← rdn (src_of buf mem) srcptr len
    let m ← wr mem ptr bs
    pure (m, ptr + len, dirty)
  else pure (mem, ptr + len, dirty)

/-- The copy of the three uLEB fields found at `dir`: the buffer, `srcptr`
and `ptr` afterwards. -/
def file_ulebs (buf : Option (List Nat)) (mem : List Nat) (dir ptr : Nat) :
    Except Fault (List Nat × Nat × Nat) := do
  let u1 ← read_uleb128 (src_of buf mem) dir
  let u2 ← read_uleb128 (src_of buf mem) u1.2
  let u3 ← read_uleb128 (src_of buf mem) u2.2
  let p := u3.2
  if buf.isSome || ptr != dir then do
    let bs ← rdn (src_of buf mem) dir (p - dir)
    let m ← wr mem ptr bs
    pure (m, p, ptr + (p - dir))
  else pure (mem, p, ptr + (p - dir))

/-- The loop that rewrites the file table; the result is the buffer, the
final `ptr` and the dirty mark. -/
def file_rewrite (base dest : List Nat) (buf : Option (List Nat)) :
    Nat → List Nat → Nat → Nat → Bool → Except Fault (List Nat × Nat × Bool)
  | 0, _, _, _, _ => .error .fuel
  | fuel + 1, mem, srcptr, ptr, dirty => do
    let c ← rd (src_of buf mem) srcptr
    if c = 0 then pure (mem, ptr, dirty)
    else
      let name ← cstr (src_of buf mem) srcptr
      let r ← file_name base dest buf mem srcptr ptr dirty c name
      let u ← file_ulebs buf r.1 (srcptr + name.length + 1) r.2.1
      file_rewrite base dest buf fuel u.1 u.2.1 u.2.2 r.2.2

/-- The rewriting part of `edit_dwarf2_line` (`if (dest_dir) ...`), entered
with `dir`, with `ptr` just past the terminator of the file table and with
`abs_file_cnt`; the result is the buffer and the dirty mark. -/
def line_rewrite (cfg : Config) (dest : List Nat) (m : List Nat) (dir ptr abs_file_cnt : Nat) :
    Except Fault (List Nat × Bool) := do
  let base_len ← strlen_opt cfg.base_dir
  let base := cfg.base_dir.getD []
  let dest_len := dest.length
  let abs_file_cnt := if dest_len = base_len then 0 else abs_file_cnt
  let buf ← (if abs_file_cnt ≠ 0 then (rdn m dir (ptr - dir)).map some else pure none)
  let srcptr := if abs_file_cnt ≠ 0 then 0 else dir
  let st ← dir_rewrite cfg.win_path base dest buf (m.length + 1) ⟨m, srcptr, dir, 0, 0, false⟩
  let st ← fill_shrank st
  let st ← fill_abs base_len dest_len abs_file_cnt st
  let mem ← wr st.mem st.ptr [0]
  let r ← file_rewrite base dest buf (m.length + 1) mem (st.srcptr + 1) (st.ptr + 1) st.dirty
  let mem ← wr r.1 r.2.1 [0]
  pure (mem, r.2.2)

/-- The C `edit_dwarf2_line (dso, off, comp_dir, phase)`: the return value and the
state afterwards.  `msb` selects the byte order of `do_read_16`/`do_read_32`. -/
def edit_dwarf2_line (cfg : Config) (msb : Bool) (st : St) (off : Nat) (comp_dir : List Nat)
    (phase : Nat) : Except Fault (Nat × St) :=
  if phase ≠ 0 then pure (0, st)
  else
    match st.debug_line with
    | none => pure (0, st)
    | some m => do
      let hdr ← line_header msb m off
      match hdr with
      | none => pure (1, st)
      | some dir =>
        let (dirt, ptr) ← dir_table m (m.length + 1) dir [none]
        let fs ← file_scan cfg comp_dir m dirt (m.length + 1) ptr 0 st.sink
        if fs.ret ≠ 0 then pure (1, { st with sink := fs.sink })
        else
          match cfg.dest_dir with
          | none => pure (0, { st with sink := fs.sink })
          | some dest =>
            let r ← line_rewrite cfg dest m dir fs.ptr fs.abs_file_cnt
            pure (0, { st with debug_line := some r.1, sink := fs.sink,
                               dirty_str := st.dirty_str || r.2 })

/-! ## DWARF constants -/

/-- Modelled from the spec: the attribute, tag and form codes of `dwarf.h`,
a header that is not among the sources; the values are those of the DWARF
standard.  This one is `DW_AT_name`. -/
def DW_AT_name : Nat := 0x03
/-- Modelled from the spec: `DW_AT_stmt_list` of `dwarf.h`. -/
def DW_AT_stmt_list : Nat := 0x10
/-- Modelled from the spec: `DW_AT_comp_dir` of `dwarf.h`. -/
def DW_AT_comp_dir : Nat := 0x1b
/-- Modelled from the spec: `DW_TAG_compile_unit` of `dwarf.h`. -/
def DW_TAG_compile_unit : Nat := 0x11
/-- The constant `DW_TAG_partial_unit`. -/
def DW_TAG_partial_unit : Nat := 0x3c
/-- Modelled from the spec: `DW_FORM_addr` of `dwarf.h`. -/
def DW_FORM_addr : Nat := 0x01
/-- Modelled from the spec: `DW_FORM_block2` of `dwarf.h`. -/
def DW_FORM_block2 : Nat := 0x03
/-- Modelled from the spec: `DW_FORM_block4` of `dwarf.h`. -/
def DW_FORM_block4 : Nat := 0x04
/-- Modelled from the spec: `DW_FORM_data2` of `dwarf.h`. -/
def DW_FORM_data2 : Nat := 0x05
/-- Modelled from the spec: `DW_FORM_data4` of `dwarf.h`. -/
def DW_FORM_data4 : Nat := 0x06
/-- Modelled from the spec: `DW_FORM_data8` of `dwarf.h`. -/
def DW_FORM_data8 : Nat := 0x07
/-- Modelled from the spec: `DW_FORM_string` of `dwarf.h`. -/
def DW_FORM_string : Nat := 0x08
/-- Modelled from the spec: `DW_FORM_block` of `dwarf.h`. -/
def DW_FORM_block : Nat := 0x09
/-- Modelled from the spec: `DW_FORM_block1` of `dwarf.h`. -/
def DW_FORM_block1 : Nat := 0x0a
/-- Modelled from the spec: `DW_FORM_data1` of `dwarf.h`. -/
def DW_FORM_data1 : Nat := 0x0b
/-- Modelled from the spec: `DW_FORM_flag` of `dwarf.h`. -/
def DW_FORM_flag : Nat := 0x0c
/-- Modelled from the spec: `DW_FORM_sdata` of `dwarf.h`. -/
def DW_FORM_sdata : Nat := 0x0d
/-- Modelled from the spec: `DW_FORM_strp` of `dwarf.h`. -/
def DW_FORM_strp : Nat := 0x0e
/-- Modelled from the spec: `DW_FORM_udata` of `dwarf.h`. -/
def DW_FORM_udata : Nat := 0x0f
/-- Modelled from the spec: `DW_FORM_ref_addr` of `dwarf.h`. -/
def DW_FORM_ref_addr : Nat := 0x10
/-- Modelled from the spec: `DW_FORM_ref1` of `dwarf.h`. -/
def DW_FORM_ref1 : Nat := 0x11
/-- Modelled from the spec: `DW_FORM_ref2` of `dwarf.h`. -/
def DW_FORM_ref2 : Nat := 0x12
/-- Modelled from the spec: `DW_FORM_ref4` of `dwarf.h`. -/
def DW_FORM_ref4 : Nat := 0x13
/-- Modelled from the spec: `DW_FORM_ref8` of `dwarf.h`. -/
def DW_FORM_ref8 : Nat := 0x14
/-- Modelled from the spec: `DW_FORM_ref_udata` of `dwarf.h`. -/
def DW_FORM_ref_udata : Nat := 0x15
/-- Modelled from the spec: `DW_FORM_indirect` of `dwarf.h`. -/
def DW_FORM_indirect : Nat := 0x16
/-- The constant `DW_FORM_sec_offset`. -/
def DW_FORM_sec_offset : Nat := 0x17
/-- The constant `DW_FORM_exprloc`. -/
def DW_FORM_exprloc : Nat := 0x18
/-- The constant `DW_FORM_flag_present`. -/
def DW_FORM_flag_present : Nat := 0x19
/-- The constant `DW_FORM_ref_sig8`. -/
def DW_FORM_ref_sig8 : Nat := 0x20
/-- Modelled from the spec: the section type `SHT_RELA` of `elf.h`, a header
that is not among the sources; the value is that of the ELF standard. -/
def SHT_RELA : Nat := 4
/-- Modelled from the spec: the section type `SHT_REL` of `elf.h`. -/
def SHT_REL : Nat := 9
/-- Modelled from the spec: the symbol type `STT_FILE` of `elf.h`. -/
def STT_FILE : Nat := 4

/-! ## Abbreviation table -/

/-- The C `struct abbrev_attr`. -/
structure abbrev_attr where
  attr : Nat
  form : Nat
  deriving DecidableEq, Repr

/-- The C `struct abbrev_tag`; `nattr` is the length of `attr`. -/
structure abbrev_tag where
  entry : Nat
  tag : Nat
  attr : List abbrev_attr
  deriving DecidableEq, Repr

/-- The inner loop of `read_abbrev` over the attribute/form pairs; `none`
is the `return NULL` for an unknown form, else the pairs and the pointer
past the terminating zero attribute. -/
def read_abbrev_attrs (m : List Nat) : Nat → Nat → List abbrev_attr →
    Except Fault (Option (List abbrev_attr × Nat))
  | 0, _, _ => .error .fuel
  | fuel + 1, ptr, acc => do
    let (attr, ptr) ← read_uleb128 m ptr
    if attr = 0 then pure (some (acc, ptr))
    else
      let (form, ptr) ← read_uleb128 m ptr
      if form = 2 || (form > DW_FORM_flag_present && form != DW_FORM_ref_sig8) then pure none
      else read_abbrev_attrs m fuel ptr (acc ++ [⟨attr, form⟩])

/-- The outer loop of `read_abbrev`; the hash table is the list of its
elements, looked up by `entry`. -/
def read_abbrev_loop (m : List Nat) : Nat → Nat → List abbrev_tag →
    Except Fault (Option (List abbrev_tag))
  | 0, _, _ => .error .fuel
  | fuel + 1, ptr, h => do
    let (attr, ptr) ← read_uleb128 m ptr
    if attr = 0 then pure (some h)
    else if h.any (fun t => t.entry == attr) then pure none
    else
      let (tag, ptr) ← read_uleb128 m ptr
      let ptr := ptr + 1
      let r ← read_abbrev_attrs m (m.length + 1) ptr []
      match r with
      | none => pure none
      | some (attrs, ptr) =>
        let (z, ptr) ← read_uleb128 m ptr
        if z ≠ 0 then pure none
        else read_abbrev_loop m fuel ptr (h ++ [⟨attr, tag, attrs⟩])

/-- The C `read_abbrev (dso, ptr)` with `ptr` at offset `off` of `.debug_abbrev`;
`none` is `NULL`.  (Memory allocation is taken to succeed.) -/
def read_abbrev (m : List Nat) (off : Nat) : Except Fault (Option (List abbrev_tag)) :=
  read_abbrev_loop m (m.length + 1) off []

/-- The C `htab_find_with_hash (abbrev, &tag, tag.entry)`. -/
def htab_find (h : List abbrev_tag) (entry : Nat) : Option abbrev_tag :=
  h.find? (fun t => t.entry == entry)

/-! ## Relocation index -/

/-- The `REL` record; `ptr` is an offset from the start of the
`.debug_info` buffer. -/
structure REL where
  ptr : Int
  addend : Nat
  deriving DecidableEq, Repr

/-- What the walker needs besides the state: the configuration, the byte
order, the sorted relocation buffer (`[]` when `relbuf` is `NULL`) and
`reltype`. -/
structure Env where
  cfg : Config
  msb : Bool
  relbuf : List REL
  reltype : Nat
  deriving DecidableEq, Repr

/-- The loop `while (relptr < relend && relptr->ptr < ptr) ++relptr;` over
the records from `relptr` on: the number of records skipped. -/
def rel_skip : List REL → Int → Nat
  | [], _ => 0
  | r :: rs, ptr => if r.ptr < ptr then rel_skip rs ptr + 1 else 0

/-- The C `do_read_32_relocated (ptr)`: the value and the new `relptr`. -/
def do_read_32_relocated (env : Env) (m : List Nat) (relptr ptr : Nat) :
    Except Fault (Nat × Nat) := do
  let dret ← do_read_32 env.msb m ptr
  if env.relbuf.length ≠ 0 then
    let relptr := relptr + rel_skip (env.relbuf.drop relptr) ptr
    match env.relbuf[relptr]? with
    | some r =>
      if r.ptr = ptr then
        if env.reltype = SHT_REL then pure ((dret + r.addend) % 2 ^ 32, relptr)
        else pure (r.addend, relptr)
      else pure (dret, relptr)
    | none => pure (dret, relptr)
  else pure (dret, relptr)

/-! ## DIE attribute editor -/

/-- The guard `phase == 1 && dest_dir && has_prefix (s, base_dir)`; when it
holds the result is `dest_dir`. -/
def rewrite_guard (cfg : Config) (phase : Nat) (s : List Nat) :
    Except Fault (Option (List Nat)) :=
  if phase = 1 then
    match cfg.dest_dir with
    | none => pure none
    | some dest => do
      let b ← has_prefix_opt s cfg.base_dir
      pure (if b then some dest else none)
  else pure none

/-- The rewrite of a string inside `.debug_info`: `memcpy (ptr, dest_dir,
dest_len)` followed, when `dest_len < base_len`, by the `memset` of the
residual bytes with the separator. -/
def rewrite_inline (cfg : Config) (dest : List Nat) (m : List Nat) (p : Nat) :
    Except Fault (List Nat) := do
  let base_len ← strlen_opt cfg.base_dir
  let m ← wr m p dest
  if dest.length < base_len then
    memset m (p + dest.length) (if cfg.win_path then 92 else 47) (base_len - dest.length)
  else pure m

/-- The rewrite of a string inside `.debug_str`: `memcpy (dir, dest_dir,
dest_len)` followed, when `dest_len < base_len`, by the `memmove` of the
rest of the string, terminator included. -/
def rewrite_strp (cfg : Config) (dest : List Nat) (m : List Nat) (p : Nat) :
    Except Fault (List Nat) := do
  let base_len ← strlen_opt cfg.base_dir
  let m ← wr m p dest
  if dest.length < base_len then do
    let tail ← cstr m (p + base_len)
    wr m (p + dest.length) (tail ++ [0])
  else pure m

/-- Locals of `edit_attributes` together with the state. -/
structure AttrSt where
  st : St
  ptr : Nat
  comp_dir : Option (List Nat)
  list_offs : Nat
  found_list_offs : Bool
  deriving DecidableEq, Repr

/-- The value of `.debug_info` during the walk (never `NULL` there). -/
def info_of (st : St) : List Nat := st.debug_info.getD []

/-- The `DW_AT_stmt_list` action of one pass of the attribute loop. -/
def act_stmt_list (env : Env) (attr form : Nat) (a : AttrSt) : Except Fault AttrSt :=
  if attr = DW_AT_stmt_list && (form = DW_FORM_data4 || form = DW_FORM_sec_offset) then do
    let (v, relptr) ← do_read_32_relocated env (info_of a.st) a.st.relptr a.ptr
    pure { a with st := { a.st with relptr := relptr }, list_offs := v, found_list_offs := true }
  else pure a

/-- The guarded rewrite of the string `s` found at `p` inside `.debug_info`
(`if (phase == 1 && dest_dir && has_prefix (...)) ...`); `whole` tells
whether `make_win_path` is applied to the string afterwards, as is done for
`DW_AT_name`. -/
def edit_inline (cfg : Config) (phase : Nat) (whole : Bool) (st : St) (p : Nat)
    (s : List Nat) : Except Fault St := do
  let g ← rewrite_guard cfg phase s
  match g with
  | none => pure st
  | some dest =>
    let m ← rewrite_inline cfg dest (info_of st) p
    let m ← (if whole && cfg.win_path then make_win_path_at m p else pure m)
    pure { st with debug_info := some m, dirty_info := true }

/-- The guarded rewrite of the string `s` found at `off` inside `.debug_str`
(the buffer `str`). -/
def edit_strp (cfg : Config) (phase : Nat) (whole : Bool) (st : St) (str : List Nat)
    (off : Nat) (s : List Nat) : Except Fault St := do
  let g ← rewrite_guard cfg phase s
  match g with
  | none => pure st
  | some dest =>
    let m ← rewrite_strp cfg dest str off
    let m ← (if whole && cfg.win_path then make_win_path_at m off else pure m)
    pure { st with debug_str := some m, dirty_str := true }

/-- The `DW_AT_comp_dir` action of one pass of the attribute loop. -/
def act_comp_dir (env : Env) (phase form : Nat) (a : AttrSt) : Except Fault AttrSt :=
  if form = DW_FORM_string then do
    let s ← cstr (info_of a.st) a.ptr
    let st ← edit_inline env.cfg phase false a.st a.ptr s
    pure { a with st := st, comp_dir := some s }
  else
    match a.st.debug_str with
    | some str =>
      if form = DW_FORM_strp then do
        let r ← do_read_32_relocated env (info_of a.st) a.st.relptr a.ptr
        let s ← cstr str r.1
        let st ← edit_strp env.cfg phase false { a.st with relptr := r.2 } str r.1 s
        pure { a with st := st, comp_dir := some s }
      else pure a
    | none => pure a

/-- Index of the last `/` of a string that starts with `/` (`strrchr (name,
'/') - name`). -/
def last_sep (name : List Nat) : Nat :=
  name.length - 1 - (name.reverse.takeWhile (fun c => c != 47)).length

/-- The `comp_dir` synthesised from an absolute name. -/
def synth_comp_dir (name : List Nat) : List Nat :=
  if last_sep name ≠ 0 then name.take (last_sep name) else [47]

/-- The `comp_dir` after the `DW_AT_name` action for the name `name`. -/
def name_comp_dir (name : List Nat) (comp_dir : Option (List Nat)) : Option (List Nat) :=
  if name.head? = some 47 && comp_dir.isNone then some (synth_comp_dir name) else comp_dir

/-- The `DW_AT_name` action (on a compile or partial unit) of one pass of
the attribute loop.  `name` is left uninitialised, and then dereferenced,
unless the form is `strp` (with `.debug_str` present) or `string`. -/
def act_name (env : Env) (phase form : Nat) (a : AttrSt) : Except Fault AttrSt :=
  match (if form = DW_FORM_strp then a.st.debug_str else none) with
  | some str => do
    let r ← do_read_32_relocated env (info_of a.st) a.st.relptr a.ptr
    let name ← cstr str r.1
    let st ← edit_strp env.cfg phase true { a.st with relptr := r.2 } str r.1 name
    pure { a with st := st, comp_dir := name_comp_dir name a.comp_dir }
  | none =>
    if form = DW_FORM_string && a.st.debug_info.isSome then do
      let name ← cstr (info_of a.st) a.ptr
      let st ← edit_inline env.cfg phase true a.st a.ptr name
      pure { a with st := st, comp_dir := name_comp_dir name a.comp_dir }
    else .error .undefined

/-- The semantic actions of one pass of the `while (1)` body for the
attribute `attr` of an abbreviation with tag `tag`, at form `form`. -/
def attr_actions (env : Env) (phase tag attr form : Nat) (a : AttrSt) : Except Fault AttrSt := do
  let a ← act_stmt_list env attr form a
  if attr = DW_AT_comp_dir then act_comp_dir env phase form a
  else if (tag = DW_TAG_compile_unit || tag = DW_TAG_partial_unit) && attr = DW_AT_name then
    act_name env phase form a
  else pure a

/-- Outcome of the `switch (form)` of `edit_attributes`. -/
inductive FormStep
  /-- the attribute is stepped over; the new pointer -/
  | done (ptr : Nat)
  /-- the form is indirect: the new form and pointer, then `continue` -/
  | again (form ptr : Nat)
  /-- an unknown form: `return NULL` -/
  | unknown
  deriving DecidableEq, Repr

/-- The `switch (form)` of `edit_attributes` together with the `ptr += len`
of the block forms. -/
def form_step (msb : Bool) (ptr_size cu_version : Nat) (m : List Nat) (form ptr : Nat) :
    Except Fault FormStep :=
  if form = DW_FORM_ref_addr then
    pure (.done (if cu_version = 2 then ptr + ptr_size else ptr + 4))
  else if form = DW_FORM_flag_present then pure (.done ptr)
  else if form = DW_FORM_addr then pure (.done (ptr + ptr_size))
  else if form = DW_FORM_ref1 || form = DW_FORM_flag || form = DW_FORM_data1 then
    pure (.done (ptr + 1))
  else if form = DW_FORM_ref2 || form = DW_FORM_data2 then pure (.done (ptr + 2))
  else if form = DW_FORM_ref4 || form = DW_FORM_data4 || form = DW_FORM_sec_offset then
    pure (.done (ptr + 4))
  else if form = DW_FORM_ref8 || form = DW_FORM_data8 || form = DW_FORM_ref_sig8 then
    pure (.done (ptr + 8))
  else if form = DW_FORM_sdata || form = DW_FORM_ref_udata || form = DW_FORM_udata then do
    let (_, p) ← read_uleb128 m ptr
    pure (.done p)
  else if form = DW_FORM_strp then pure (.done (ptr + 4))
  else if form = DW_FORM_string then do
    let s ← cstr m ptr
    pure (.done (ptr + s.length + 1))
  else if form = DW_FORM_indirect then do
    let (f, p) ← read_uleb128 m ptr
    pure (.again f p)
  else if form = DW_FORM_block1 then do
    let len ← rd m ptr
    pure (.done (ptr + 1 + len))
  else if form = DW_FORM_block2 then do
    let len ← do_read_16 msb m ptr
    pure (.done (ptr + 2 + len))
  else if form = DW_FORM_block4 then do
    let len ← do_read_32 msb m ptr
    pure (.done (ptr + 4 + len))
  else if form = DW_FORM_block || form = DW_FORM_exprloc then do
    let (len, p) ← read_uleb128 m ptr
    if len < UINT_MAX then pure (.done (p + len)) else .error .abort
  else pure .unknown

/-- The `while (1)` loop of `edit_attributes` for one attribute; the flag
is `false` for `return NULL`. -/
def attr_loop (env : Env) (phase tag attr : Nat) : Nat → Nat → AttrSt →
    Except Fault (Bool × AttrSt)
  | 0, _, _ => .error .fuel
  | fuel + 1, form, a => do
    let a ← attr_actions env phase tag attr form a
    let r ← form_step env.msb a.st.ptr_size a.st.cu_version (info_of a.st) form a.ptr
    match r with
    | .done p => pure (true, { a with ptr := p })
    | .again f p => attr_loop env phase tag attr fuel f { a with ptr := p }
    | .unknown => pure (false, a)

/-- The `for` loop of `edit_attributes` over the attributes of the
abbreviation; the flag is `false` for `return NULL`. -/
def attrs_loop (env : Env) (phase tag : Nat) : List abbrev_attr → AttrSt →
    Except Fault (Bool × AttrSt)
  | [], a => pure (true, a)
  | at1 :: rest, a => do
    let r ← attr_loop env phase tag at1.attr ((info_of a.st).length + 1) at1.form a
    if r.1 then attrs_loop env phase tag rest r.2 else pure r

/-- What `edit_attributes` sends to the list file for `comp_dir`. -/
def comp_dir_suffix (cfg : Config) (comp_dir : List Nat) : List Nat :=
  match cfg.base_dir with
  | some base =>
    if has_prefix comp_dir base then comp_dir.drop base.length
    else
      match cfg.dest_dir with
      | some dest => if has_prefix comp_dir dest then comp_dir.drop dest.length else comp_dir
      | none => comp_dir
  | none =>
    match cfg.dest_dir with
    | some dest => if has_prefix comp_dir dest then comp_dir.drop dest.length else comp_dir
    | none => comp_dir

/-- The end of `edit_attributes` up to the call of the line-header editor:
the emission of `comp_dir` to the list file. -/
def emit_comp_dir (cfg : Config) (a : AttrSt) : St :=
  match a.comp_dir with
  | some cd =>
    if cfg.list_file then { a.st with sink := emit a.st.sink (comp_dir_suffix cfg cd) }
    else a.st
  | none => a.st

/-- The C `edit_attributes (dso, ptr, t, phase)`: the returned pointer (`none` is
`NULL`) and the state.  The value returned by `edit_dwarf2_line` is not
looked at. -/
def edit_attributes (env : Env) (st : St) (ptr : Nat) (t : abbrev_tag) (phase : Nat) :
    Except Fault (Option Nat × St) := do
  let r ← attrs_loop env phase t.tag t.attr ⟨st, ptr, none, 0, false⟩
  let a := r.2
  if r.1 then
    let st := emit_comp_dir env.cfg a
    match a.comp_dir with
    | some cd =>
      if a.found_list_offs then do
        let r ← edit_dwarf2_line env.cfg env.msb st a.list_offs cd phase
        pure (some a.ptr, r.2)
      else pure (some a.ptr, st)
    | none => pure (some a.ptr, st)
  else pure (none, a.st)

/-! ## Symbol table -/

/-- The fields of a symbol that the editor looks at. -/
structure Sym where
  st_name : Nat
  st_info : Nat
  st_shndx : Nat
  st_value : Nat
  deriving DecidableEq, Repr

/-- The body of the loop of `edit_symtab` for one symbol.  `elf_strptr`
gives `NULL` for an offset outside the string table, and the name is then
dereferenced. -/
def edit_sym (cfg : Config) (st : St) (sym : Sym) : Except Fault St :=
  match st.strtab with
  | none => .error .undefined
  | some tab => do
    let s ← cstr tab sym.st_name
    if sym.st_info % 16 = STT_FILE then
      match cfg.dest_dir with
      | some dest => do
        let b ← has_prefix_opt s cfg.base_dir
        if b then do
          let m ← rewrite_strp cfg dest tab sym.st_name
          let m ← make_win_path_at m sym.st_name
          pure { st with strtab := some m, dirty_strtab := true }
        else pure st
      | none => pure st
    else pure st

/-- The C `edit_symtab (dso, data)` over the symbols of `.symtab`. -/
def edit_symtab (cfg : Config) : St → List Sym → Except Fault St
  | st, [] => pure st
  | st, sym :: rest => do
    let st ← edit_sym cfg st sym
    edit_symtab cfg st rest

/-! ## Editor driver -/

/-- One relocation entry of the relocation section of `.debug_info`
(`r_sym`, `r_type` are the two halves of `r_info`; `r_addend` is 0 for
`SHT_REL`). -/
structure RelEntry where
  r_offset : Nat
  r_sym : Nat
  r_type : Nat
  r_addend : Int
  deriving DecidableEq, Repr

/-- The check of the relocation type against `e_machine`; `false` is the
jump to `fail`. -/
def rtype_ok (e_machine rtype : Nat) : Bool :=
  if e_machine = 2 || e_machine = 18 || e_machine = 43 then rtype = 3 || rtype = 23
  else if e_machine = 3 then rtype = 1
  else if e_machine = 20 || e_machine = 21 then rtype = 1 || rtype = 24
  else if e_machine = 22 then rtype = 4
  else if e_machine = 50 then rtype = 0x65
  else if e_machine = 62 then rtype = 10
  else false

/-- The facts of the object file that the driver reads: `e_ident[EI_DATA]`,
`e_machine`, the symbols of `.symtab` (when the section is there), the
relocation section of `.debug_info` (its `sh_type`, entries and the symbols
of the linked symbol table), `sh_addr` of `.debug_info`, and the indices
`debug_sections[...].sec` of `.debug_str`, `.debug_line`, `.debug_abbrev`. -/
structure Dso where
  ei_data : Nat
  e_machine : Nat
  symtab : Option (List Sym)
  relsec : Option (Nat × List RelEntry × List Sym)
  info_addr : Nat
  str_sec : Nat
  line_sec : Nat
  abbrev_sec : Nat
  deriving DecidableEq, Repr

/-- The loop that fills `relbuf` from the relocation entries. -/
def rel_collect (dso : Dso) (sh_type : Nat) (syms : List Sym) :
    List RelEntry → List REL → Except Fault (List REL)
  | [], acc => pure acc
  | r :: rest, acc =>
    match syms[r.r_sym]? with
    | none => .error .undefined
    | some sym =>
      if sh_type = SHT_REL && sym.st_value = 0 then rel_collect dso sh_type syms rest acc
      else if sym.st_shndx ≠ dso.str_sec ∧ sym.st_shndx ≠ dso.line_sec
          ∧ sym.st_shndx ≠ dso.abbrev_sec then
        rel_collect dso sh_type syms rest acc
      else if !rtype_ok dso.e_machine r.r_type then .error .exit
      else
        let addend := ((r.r_addend + sym.st_value) % 2 ^ 32).toNat
        rel_collect dso sh_type syms rest
          (acc ++ [⟨(r.r_offset : Int) - dso.info_addr, addend⟩])

/-- Insertion of a record into a buffer sorted by `rel_cmp`. -/
def rel_insert (r : REL) : List REL → List REL
  | [] => [r]
  | x :: xs => if r.ptr < x.ptr then r :: x :: xs else x :: rel_insert r xs

/-- The C `qsort (relbuf, ..., rel_cmp)`: a sort by `ptr` (records with equal
pointers keep their order). -/
def rel_sort : List REL → List REL
  | [] => []
  | r :: rs => rel_insert r (rel_sort rs)

/-- Outcome of the walk over one compilation unit or one phase: `return 1`
or going on with the pointer. -/
abbrev Walk := Except Fault (Nat × Option Nat × St)

/-- The loop `while (ptr < endcu)` over the DIEs of one unit.  Result: the
pointer after the loop (`none` after `break` on a `NULL` pointer) or
`return 1`, coded as the first component. -/
def die_loop (env : Env) (abbr : List abbrev_tag) (phase endcu : Nat) :
    Nat → Nat → St → Walk
  | 0, _, _ => .error .fuel
  | fuel + 1, ptr, st =>
    if ptr < endcu then do
      let (entry, ptr) ← read_uleb128 (info_of st) ptr
      if entry = 0 then die_loop env abbr phase endcu fuel ptr st
      else
        match htab_find abbr entry with
        | none => pure (1, some ptr, st)
        | some t =>
          let r ← edit_attributes env st ptr t phase
          match r.1 with
          | none => pure (0, none, r.2)
          | some p => die_loop env abbr phase endcu fuel p r.2
    else pure (0, some ptr, st)

/-- The unit length read at `ptr` and its checks: `none` for `return 1`,
else `endcu`. -/
def cu_length (msb : Bool) (m : List Nat) (ptr : Nat) : Except Fault (Option Nat) := do
  let len ← do_read_32 msb m ptr
  if len = 0xffffffff then pure none
  else if ptr + 4 + len > m.length then pure none
  else pure (some (ptr + 4 + len))

/-- The check of the address-size byte `b` against the global `ptr_size`,
which it sets when that is still 0; the flag is `false` for `return 1`. -/
def cu_ptr_size (st : St) (b : Nat) : Bool × St :=
  if st.ptr_size = 0 then (!(b ≠ 4 ∧ b ≠ 8), { st with ptr_size := b })
  else (!(b ≠ st.ptr_size), st)

/-- The header of the unit at `ptr`: its checks and the abbreviation table.
The first component is `none` for `return 1`, else the pointer past the
header, `endcu` and the table. -/
def cu_header (env : Env) (st : St) (ptr : Nat) :
    Except Fault (Option (Nat × Nat × List abbrev_tag) × St) := do
  let e ← cu_length env.msb (info_of st) ptr
  match e with
  | none => pure (none, st)
  | some endcu =>
    let cu_version ← do_read_16 env.msb (info_of st) (ptr + 4)
    if cu_version ≠ 2 ∧ cu_version ≠ 3 ∧ cu_version ≠ 4 then
      pure (none, { st with cu_version := cu_version })
    else
      let v ← do_read_32_relocated env (info_of st) st.relptr (ptr + 6)
      if v.1 ≥ (st.debug_abbrev.getD []).length then
        pure (none, { st with cu_version := cu_version, relptr := v.2 })
      else
        let b ← rd (info_of st) (ptr + 10)
        let ps := cu_ptr_size { st with cu_version := cu_version, relptr := v.2 } b
        if !ps.1 then pure (none, ps.2)
        else
          let h ← read_abbrev (st.debug_abbrev.getD []) v.1
          match h with
          | none => pure (none, ps.2)
          | some abbr => pure (some (ptr + 11, endcu, abbr), ps.2)

/-- The loop `while (ptr < endsec)` over the units of `.debug_info` in one
phase.  After a `break` with a `NULL` pointer the loop condition holds and
the header is read through that pointer. -/
def cu_loop (env : Env) (phase : Nat) : Nat → Nat → St → Except Fault (Nat × St)
  | 0, _, _ => .error .fuel
  | fuel + 1, ptr, st =>
    if ptr < (info_of st).length then
      if ptr + 11 > (info_of st).length then pure (1, st)
      else do
        let h ← cu_header env st ptr
        match h.1 with
        | none => pure (1, h.2)
        | some (p, endcu, abbr) =>
          let r ← die_loop env abbr phase endcu ((info_of st).length + 1) p h.2
          if r.1 ≠ 0 then pure (1, r.2.2)
          else
            match r.2.1 with
            | none => .error .undefined
            | some q => cu_loop env phase fuel q r.2.2
    else pure (0, st)

/-- The two phases over `.debug_info`. -/
def phases (env : Env) (st : St) : Except Fault (Nat × St) := do
  let r ← cu_loop env 0 ((info_of st).length + 1) 0 { st with relptr := 0 }
  if r.1 ≠ 0 then pure r
  else cu_loop env 1 ((info_of st).length + 1) 0 { r.2 with relptr := 0 }

/-- The relocation buffer built by `edit_dwarf2` (`[]` when `relbuf` ends
up `NULL`). -/
def build_relbuf (dso : Dso) : Except Fault (List REL) :=
  match dso.relsec with
  | some (sh_type, entries, syms) => do
    let l ← rel_collect dso sh_type syms entries []
    pure (rel_sort l)
  | none => pure []

/-- The global `reltype`. -/
def reltype_of (dso : Dso) : Nat :=
  match dso.relsec with
  | some (sh_type, _, _) => sh_type
  | none => 0

/-- The call of `edit_symtab` made when `.symtab` is met. -/
def symtab_pass (cfg : Config) (dso : Dso) (st : St) : Except Fault St :=
  match dso.symtab with
  | some syms => edit_symtab cfg st syms
  | none => pure st

/-- The C `edit_dwarf2 (dso)` once the sections are recorded in the state: the
rewrite of the symbol names (`edit_symtab`, called when `.symtab` is met),
the choice of the byte order, the relocation index, and the two phases. -/
def edit_dwarf2 (cfg : Config) (dso : Dso) (st : St) : Except Fault (Nat × St) := do
  let st ← symtab_pass cfg dso { st with ptr_size := 0 }
  if dso.ei_data ≠ 1 ∧ dso.ei_data ≠ 2 then pure (1, st)
  else
    match st.debug_info with
    | none => pure (0, st)
    | some _ => do
      let relbuf ← build_relbuf dso
      phases ⟨cfg, dso.ei_data = 2, relbuf, reltype_of dso⟩ st

/-! ## Notions used in the statements -/

/-- The section buffers and dirty flags of two states agree. -/
def St.same (s t : St) : Prop :=
  t.debug_info = s.debug_info ∧ t.debug_abbrev = s.debug_abbrev ∧ t.debug_line = s.debug_line ∧
  t.debug_str = s.debug_str ∧ t.strtab = s.strtab ∧ t.dirty_info = s.dirty_info ∧
  t.dirty_str = s.dirty_str ∧ t.dirty_line = s.dirty_line ∧ t.dirty_strtab = s.dirty_strtab

instance (s t : St) : Decidable (St.same s t) := by unfold St.same; infer_instance

/-- The string an attribute of form `string` or `strp` denotes. -/
def attr_string (env : Env) (a : AttrSt) (form : Nat) (s : List Nat) : Prop :=
  (form = DW_FORM_string ∧ cstr (info_of a.st) a.ptr = .ok s) ∨
  (form = DW_FORM_strp ∧ ∃ str r, a.st.debug_str = some str ∧
    do_read_32_relocated env (info_of a.st) a.st.relptr a.ptr = .ok r ∧ cstr str r.1 = .ok s)

/-- What one step of the main loop may do to the rest of the input and to
the output: nothing is invented, nothing gets longer. -/
structure StepOk (s out : List Nat) (r : List Nat × List Nat) : Prop where
  len : r.1.length + r.2.length ≤ s.length + out.length
  mem1 : ∀ c ∈ r.1, c ∈ s
  mem2 : ∀ c ∈ r.2, c ∈ out ∨ c ∈ s

/-- The test `*srcptr == '/' && has_prefix (srcptr, base_dir)` of the
rewriting loops on a table string. -/
def under_base (base e : List Nat) : Bool := e.head? = some 47 && has_prefix e base

/-- The separator translation applied when `win_path` is set. -/
def win (w : Bool) (s : List Nat) : List Nat := if w then make_win_path s else s

/-- The part of a directory entry that is handed to `canonicalize_path`:
what follows the base prefix, or the whole entry. -/
def dir_rest (base e : List Nat) : List Nat :=
  if under_base base e then e.drop base.length else e

/-- The directory entry that the rewrite stores for the entry `e`. -/
def new_dir (w : Bool) (base dest e : List Nat) : List Nat :=
  (if under_base base e then dest else []) ++ win w (canonicalize_path (dir_rest base e))

/-- The file entry (name, bytes of the three uLEB fields) that the rewrite
stores for the entry `f`. -/
def new_file (base dest : List Nat) (f : List Nat × List Nat) : List Nat × List Nat :=
  if under_base base f.1 then (dest ++ f.1.drop base.length, f.2) else f

/-- The bytes of a directory table without its terminator. -/
def encD (ds : List (List Nat)) : List Nat := ds.flatMap (fun e => e ++ [0])

/-- The bytes of a file table without its terminator. -/
def encF (fs : List (List Nat × List Nat)) : List Nat := fs.flatMap (fun f => f.1 ++ 0 :: f.2)

/-- The bytes by which canonicalisation shortens one directory entry (the
contribution of the entry to `shrank`; negative for an empty rest, which
becomes "."). -/
def shr1 (base e : List Nat) : Int :=
  ((dir_rest base e).length : Int) - (canonicalize_path (dir_rest base e)).length

/-- The sum of `shr1` over a directory table. -/
def shr (base : List Nat) (ds : List (List Nat)) : Int := (ds.map (shr1 base)).sum

/-- The number of table strings under the base prefix. -/
def cnt_under (base : List Nat) (ds : List (List Nat)) : Nat := ds.countP (under_base base)

/-- The state of the directory loop after the entries `done`: `m` is the
section before the rewrite, `dir` the start of the table there, `s0` the
start of the table in the buffer that `srcptr` walks. -/
def DirInv (w : Bool) (base dest m : List Nat) (dir s0 : Nat) (done : List (List Nat))
    (st : LineRw) : Prop :=
  st.srcptr = s0 + (encD done).length ∧
  st.ptr = dir + (encD (done.map (new_dir w base dest))).length ∧
  wr m dir (encD (done.map (new_dir w base dest))) = .ok st.mem ∧
  (st.shrank : Int) = (shr base done) % SIZE_MOD ∧
  st.abs_dir_cnt = (if dest.length < base.length then cnt_under base done else 0)

/-- The filler of `n` bytes written after the directory entries: `n - 1`
bytes `X` and a NUL (nothing for `n = 0`). -/
def filler (n : Nat) : List Nat := if n = 0 then [] else List.replicate (n - 1) 88 ++ [0]

/-- The pointer after three consecutive uLEB128 numbers read at `p` (the
directory index, the time and the length of a file entry). -/
def skip3 (m : List Nat) (p : Nat) : Except Fault Nat := do
  let u1 ← read_uleb128 m p
  let u2 ← read_uleb128 m u1.2
  let u3 ← read_uleb128 m u2.2
  pure u3.2

/-- The bytes `ul` are exactly three uLEB128 numbers, whatever follows. -/
def three_ulebs (ul : List Nat) : Prop := ∀ T, skip3 (ul ++ T) 0 = .ok ul.length

/-- A table string: not empty, no NUL inside. -/
def wf_str (e : List Nat) : Prop := e ≠ [] ∧ ∀ x ∈ e, x ≠ 0

/-- A file entry: a table string and three uLEB128 numbers. -/
def wf_file (f : List Nat × List Nat) : Prop := wf_str f.1 ∧ three_ulebs f.2

/-- The state of the file loop after the entries `done`: `mem_a` is the
section when the loop starts, `pF` and `sF` the start values of `ptr` and
`srcptr`. -/
def FileInv (base dest mem_a : List Nat) (pF sF : Nat) (done : List (List Nat × List Nat))
    (mem : List Nat) (srcptr ptr : Nat) : Prop :=
  srcptr = sF + (encF done).length ∧
  ptr = pF + (encF (done.map (new_file base dest))).length ∧
  wr mem_a pF (encF (done.map (new_file base dest))) = .ok mem

/-- The header at `dir` of the section `m` has the directory entries `ds`
and the file entries `fs`: from `dir` on the section holds the entries of
the directory table, its terminator, the entries of the file table and its
terminator. -/
def LineTables (m : List Nat) (dir : Nat) (ds : List (List Nat))
    (fs : List (List Nat × List Nat)) : Prop :=
  (∀ e ∈ ds, wf_str e) ∧ (∀ f ∈ fs, wf_file f) ∧
    ∃ R, m.drop dir = encD ds ++ 0 :: (encF fs ++ 0 :: R)

/-- The directory entries that a filler of `n` bytes makes up. -/
def fill_entries (n : Nat) : List (List Nat) := if n = 0 then [] else [List.replicate (n - 1) 88]

/-- The attributes whose string the editor rewrites: `DW_AT_comp_dir`, and
`DW_AT_name` on a compile or partial unit. -/
def path_attr (tag attr : Nat) : Prop :=
  attr = DW_AT_comp_dir ∨
    ((tag = DW_TAG_compile_unit ∨ tag = DW_TAG_partial_unit) ∧ attr = DW_AT_name)

/-! ## The scenarios of the specification -/

/-- Scenario S1: base `/build/src/`, dest `/proj1/out/`. -/
def s1_cfg : Config := ⟨some (bytes "/build/src/"), some (bytes "/proj1/out/"), false, false⟩

/-- Scenario S1: an attribute pointer at the inline string `/build/src/a`. -/
def s1_a : AttrSt :=
  ⟨⟨some (bytes "/build/src/a" ++ [0]), none, none, none, none, false, false, false, false, [], 8, 4, 0⟩,
    0, none, 0, false⟩

/-- Scenario S2: base `/home/alice/work/`, dest `/src/`. -/
def s2_cfg : Config := ⟨some (bytes "/home/alice/work/"), some (bytes "/src/"), false, false⟩

/-- Scenario S2: an attribute pointer at a `strp` offset (here 1) of the
string `/home/alice/work/proj` in `.debug_str`, which is followed by the
string `tail`. -/
def s2_a : AttrSt :=
  ⟨⟨some [1, 0, 0, 0], none, none, some (65 :: bytes "/home/alice/work/proj" ++ 0 :: bytes "tail" ++ [0]),
      none, false, false, false, false, [], 8, 4, 0⟩,
    0, none, 0, false⟩

/-- A `.debug_line` section that holds one version 2 header (little endian,
`opcode_base` 1) with the directory entries `ds` and the file entries `fs`;
the directory table starts at offset 15. -/
def ex_line (ds : List (List Nat)) (fs : List (List Nat × List Nat)) : List Nat :=
  [(13 + (encD ds).length + (encF fs).length) % 256, (13 + (encD ds).length + (encF fs).length) / 256,
    0, 0, 2, 0, (7 + (encD ds).length + (encF fs).length) % 256,
    (7 + (encD ds).length + (encF fs).length) / 256, 0, 0, 1, 1, 0, 4, 1]
    ++ encD ds ++ 0 :: (encF fs ++ [0])

/-- A state that holds only the `.debug_line` section `m`. -/
def ex_st (m : List Nat) : St :=
  ⟨none, none, some m, none, none, false, false, false, false, [], 0, 0, 0⟩

/-- Base `/build/`, dest `/o/`, no Windows mode, no list file. -/
def c1_cfg : Config := ⟨some (bytes "/build/"), some (bytes "/o/"), false, false⟩

/-- Two directory entries under the base. -/
def c1_ds : List (List Nat) := [bytes "/build/a", bytes "/build/b/c"]

/-- A relative file and a file under the base. -/
def c1_fs : List (List Nat × List Nat) :=
  [(bytes "f.c", [1, 0, 0]), (bytes "/build/g.c", [0, 0, 0])]

/-- The state after the rewrite of `ex_line c1_ds c1_fs` under `c1_cfg`. -/
def c1_st : St :=
  { ex_st (ex_line [bytes "/o/a", bytes "/o/b/c", List.replicate 11 88]
      [(bytes "f.c", [1, 0, 0]), (bytes "/o/g.c", [0, 0, 0])]) with dirty_str := true }

/-- A relative base `b/` with dest `d/`. -/
def rel_cfg : Config := ⟨some (bytes "b/"), some (bytes "d/"), false, false⟩

/-- Scenario S3: base `/a/`, dest `/b/`. -/
def s3_env : Env := ⟨⟨some (bytes "/a/"), some (bytes "/b/"), false, false⟩, false, [], 0⟩

/-- Scenario S3: an attribute pointer at the inline string `/unrelated/dir`. -/
def s3_a : AttrSt :=
  ⟨⟨some (bytes "/unrelated/dir" ++ [0]), none, none, none, none, false, false, false, false, [], 8, 4, 0⟩,
    0, none, 0, false⟩

/-- An abbreviation table with the one abbreviation 1: a compile unit
without children with the attributes `DW_AT_name` (`DW_FORM_string`),
`DW_AT_comp_dir` (`DW_FORM_string`) and `DW_AT_stmt_list` (`DW_FORM_data4`). -/
def ex_abbrev : List Nat := [1, 0x11, 0, 0x03, 0x08, 0x1b, 0x08, 0x10, 0x06, 0, 0, 0]

/-- A `.debug_info` section with one version 2 unit (little endian, pointer
size 8) that holds one DIE of abbreviation 1 with the given name and
`comp_dir` and the line-program offset 0. -/
def ex_info (name cd : List Nat) : List Nat :=
  [(12 + name.length + 1 + cd.length + 1) % 256, (12 + name.length + 1 + cd.length + 1) / 256, 0, 0,
    2, 0, 0, 0, 0, 0, 8, 1] ++ name ++ 0 :: (cd ++ [0, 0, 0, 0, 0])

/-- An object without symbol table and relocations (little endian, machine
`EM_X86_64`). -/
def ex_dso : Dso := ⟨1, 62, none, none, 0, 0, 0, 0⟩

/-- The state of a run on an object with the sections `.debug_info`,
`.debug_abbrev` and `.debug_line`. -/
def ex_obj (info line : List Nat) : St :=
  ⟨some info, some ex_abbrev, some line, none, none, false, false, false, false, [], 0, 0, 0⟩

/-- Base `/build/`, no dest, list file wanted. -/
def c5_cfg : Config := ⟨some (bytes "/build/"), none, false, true⟩

/-- An object with one unit and one line-program header. -/
def c5_obj : St :=
  ex_obj (ex_info (bytes "x.c") (bytes "/build/w")) (ex_line [bytes "/build/a"] [(bytes "f.c", [1, 0, 0])])

/-- The state after the run on `c5_obj` under `c5_cfg`: three strings have
been sent to the list sink. -/
def c5_res : St :=
  { c5_obj with
    sink := bytes "w" ++ 0 :: bytes "a/f.c" ++ 0 :: bytes "w" ++ [0], ptr_size := 8, cu_version := 2 }

/-! ## The shape of a canonical path -/

/-- No two consecutive separators at the positions `i`, `i + 1` with
`droot ≤ i + 1`. -/
def NoDbl (droot : Nat) (out : List Nat) : Prop :=
  ∀ i, droot ≤ i + 1 → ¬ (out[i]? = some 47 ∧ out[i + 1]? = some 47)

/-- No segment `.` from `droot` on: a `.` that starts a segment is followed
by a byte that is not a separator. -/
def NoDot (droot : Nat) (out : List Nat) : Prop :=
  ∀ i, droot ≤ i → out[i]? = some 46 → (i = droot ∨ out[i - 1]? = some 47) →
    ∃ c, out[i + 1]? = some c ∧ c ≠ 47

/-- What holds of the output of `canonicalize_path` while it is built:
it starts with the root prefix and has neither a doubled separator nor a
segment `.` after it. -/
def CanonInv (root out : List Nat) : Prop :=
  root <+: out ∧ NoDbl root.length out ∧ NoDot root.length out

/-- The shape of the result of `canonicalize_path`: not empty; no doubled
separator except at the very start; a separator at the end only for `/` and
`//`; no segment `.` unless the path is `.` itself. -/
def canon_shape (R : List Nat) : Prop :=
  R ≠ [] ∧
  (∀ i, 1 ≤ i → ¬ (R[i]? = some 47 ∧ R[i + 1]? = some 47)) ∧
  (R.getLast? = some 47 → R = [47] ∨ R = [47, 47]) ∧
  (R = [46] ∨ ∀ i, R[i]? = some 46 → (i = 0 ∨ R[i - 1]? = some 47) →
    ∃ c, R[i + 1]? = some c ∧ c ≠ 47)

/-- A segment `..` starts at `i`: `i` is the position after the root or after
a separator, two dots stand there, and the path ends or a separator follows. -/
def dd_seg (out : List Nat) (droot i : Nat) : Prop :=
  (i = droot ∨ out[i - 1]? = some 47) ∧ out[i]? = some 46 ∧ out[i + 1]? = some 46 ∧
    (out[i + 2]? = none ∨ out[i + 2]? = some 47)

/-- From `droot` up to `i` the path consists of segments `..`, each with the
separator after it. -/
def DotsRun (out : List Nat) (droot i : Nat) : Prop :=
  ∀ j, droot ≤ j → j < i → out[j]? = some (if (j - droot) % 3 = 2 then 47 else 46)

/-- Segments `..` stand only at the start (after the root): whatever
precedes one is a run of segments `..`. -/
def DotsFirst (droot : Nat) (out : List Nat) : Prop :=
  ∀ i, droot ≤ i → dd_seg out droot i → DotsRun out droot i

/-- No separator follows the root directly. -/
def FirstOk (droot : Nat) (out : List Nat) : Prop := out[droot]? ≠ some 47

/-- The output is the root alone or ends with a separator: the next byte
written starts a segment. -/
def HeadForm (droot : Nat) (out : List Nat) : Prop :=
  out.length = droot ∨ out[out.length - 1]? = some 47

/-- What holds of the output of `canonicalize_path` while it is built, with
the placement of the segments `..`. -/
def CanonInv2 (root out : List Nat) : Prop :=
  CanonInv root out ∧ FirstOk root.length out ∧ DotsFirst root.length out

/-! ## The front end -/

/-- The trailing-separator step of `main` on one directory option
(`if (d != NULL && d[strlen (d)-1] != '/') ...`): a string that does not
end in `/` gets the byte `sep` appended.  On the empty string the test
reads the byte before the string. -/
def add_sep (d : Option (List Nat)) (sep : Nat) : Except Fault (Option (List Nat)) :=
  match d with
  | none => pure none
  | some s =>
    if s = [] then .error .undefined
    else if s.getLast? ≠ some 47 then pure (some (s ++ [sep]))
    else pure (some s)

/-- The part of `main` between the option parser and the work on the file:
the checks on the values of `--base-dir` and `--dest-dir` (`exit (1)` is
the outcome `Fault.exit`) and then the trailing separators; the result is
`base_dir` and `dest_dir` as the editor uses them.  The allocations are
taken to succeed. -/
def front_end (base dest : Option (List Nat)) (win : Bool) :
    Except Fault (Option (List Nat) × Option (List Nat)) := do
  match dest with
  | none => pure ()
  | some d =>
    match base with
    | none => .error .exit
    | some b => if d.length > b.length then .error .exit else pure ()
  let b ← add_sep base 47
  let d ← add_sep dest (if win then 92 else 47)
  pure (b, d)

/-! ## The rejected line-program headers -/

/-- The header at `off` of the section `m` is one the line-header editor
rejects on its fixed part: the unit length is `0xffffffff`, or the unit
extends past the end of the section, or the version is not 2, 3 or 4, or
the header length extends past the unit. -/
def HeaderRejected (msb : Bool) (m : List Nat) (off : Nat) : Prop :=
  do_read_32 msb m off = .ok 0xffffffff ∨
  (∃ len, do_read_32 msb m off = .ok len ∧ m.length < off + 4 + len) ∨
  (∃ v, do_read_16 msb m (off + 4) = .ok v ∧ v ≠ 2 ∧ v ≠ 3 ∧ v ≠ 4) ∨
  (∃ len hlen, do_read_32 msb m off = .ok len ∧ do_read_32 msb m (off + 6) = .ok hlen ∧
    off + 4 + len < off + 10 + hlen)

/-- The tables at `dir` of the section `m` have a file entry whose
directory index is not below the directory count: the directory table
holds the entries `ds`, and in the file table the entries `fs` are followed
by an entry with the name `name` whose first uLEB128 number `v` is at least
the number of directory entries plus one. -/
def BadIndex (m : List Nat) (dir : Nat) : Prop :=
  ∃ (ds : List (List Nat)) (fs : List (List Nat × List Nat)) (name T : List Nat) (v n : Nat),
    (∀ e ∈ ds, wf_str e) ∧ (∀ f ∈ fs, wf_file f) ∧ wf_str name ∧
    m.drop dir = encD ds ++ 0 :: (encF fs ++ name ++ 0 :: T) ∧
    read_uleb128 T 0 = .ok (v, n) ∧ ds.length + 1 ≤ v

/-- The pointers that the directory walk stores for the entries `ds` of a
table at `ptr`. -/
def dir_ptrs : Nat → List (List Nat) → List (Option Nat)
  | _, [] => []
  | ptr, e :: r => some ptr :: dir_ptrs (ptr + e.length + 1) r

/-! ## More scenarios -/

/-- Scenario S6: the directory entries after the rewrite, the filler
included. -/
def s6_ds : List (List Nat) := [bytes "/o/a", bytes "/o/b/c", List.replicate 11 88]

/-- Scenario S6: the file entries after the rewrite. -/
def s6_fs : List (List Nat × List Nat) :=
  [(bytes "f.c", [1, 0, 0]), (bytes "/o/g.c", [0, 0, 0])]

/-- Scenario S4: base `/build/`, dest `/out/`, Windows mode. -/
def s4_env : Env := ⟨⟨some (bytes "/build/"), some (bytes "/out/"), true, false⟩, false, [], 0⟩

/-- An attribute pointer at the inline string `s`, alone in `.debug_info`. -/
def at_string (s : List Nat) : AttrSt :=
  ⟨⟨some (s ++ [0]), none, none, none, none, false, false, false, false, [], 8, 4, 0⟩,
    0, none, 0, false⟩

/-- An attribute pointer at a `strp` offset 0 of the string `s`, alone in
`.debug_str`. -/
def at_strp (s : List Nat) : AttrSt :=
  ⟨⟨some [0, 0, 0, 0], none, none, some (s ++ [0]), none, false, false, false, false, [], 8, 4, 0⟩,
    0, none, 0, false⟩

/-- Base `/build/`, dest `/o/`, Windows mode. -/
def win_cfg : Config := ⟨some (bytes "/build/"), some (bytes "/o/"), true, false⟩

/-- A header with one file entry, whose directory index 1 is out of range
as there is no directory entry. -/
def bad_index_line : List Nat := ex_line [] [(bytes "f.c", [1, 0, 0])]

/-- A header of version 5 (the other bytes are those of `ex_line [] []`). -/
def v5_line : List Nat := [13, 0, 0, 0, 5, 0, 7, 0, 0, 0, 1, 1, 0, 4, 1, 0, 0]

/-- A header with the unit length `0xffffffff`. -/
def len64_line : List Nat := [255, 255, 255, 255, 2, 0, 7, 0, 0, 0, 1, 1, 0, 4, 1, 0, 0]

/-- A header whose unit length reaches past the end of the section. -/
def long_line : List Nat := [14, 0, 0, 0, 2, 0, 7, 0, 0, 0, 1, 1, 0, 4, 1, 0, 0]

/-- The unit of the examples: name `x.c`, `comp_dir` `/w`. -/
def xw_info : List Nat := ex_info (bytes "x.c") (bytes "/w")

/-! ## Abbreviations with the form 0 -/

/-- An abbreviation table with the one abbreviation 1: a compile unit
without children with the attribute `DW_AT_producer` (0x25) of form 0. -/
def form0_abbrev : List Nat := [1, 0x11, 0, 0x25, 0, 0, 0, 0]

/-- A `.debug_info` section with one version 2 unit (pointer size 8) that
holds one DIE of abbreviation 1 and one more byte. -/
def form0_info : List Nat := [9, 0, 0, 0, 2, 0, 0, 0, 0, 0, 8, 1, 7]

/-- The state of a run on an object with these two sections. -/
def form0_obj : St :=
  ⟨some form0_info, some form0_abbrev, none, none, none, false, false, false, false, [], 0, 0, 0⟩

/-! ## Sequences of relocated reads -/

/-- A sequence of relocated reads at the pointers `ps`, started with the
cursor `relptr`: the values read, each with the cursor after the read. -/
def rel_reads (env : Env) (m : List Nat) : Nat → List Nat → Except Fault (List (Nat × Nat))
  | _, [] => pure []
  | relptr, p :: ps => do
    let r ← do_read_32_relocated env m relptr p
    let rest ← rel_reads env m r.2 ps
    pure (r :: rest)

/-- The value that a relocated read at the pointer `p` is to give for the
raw value `raw`: with a record of the index at exactly `p`, `raw` plus its
addend for a `SHT_REL` section and the addend alone otherwise; without such
a record `raw`. -/
def rel_value (env : Env) (raw p : Nat) : Nat :=
  match env.relbuf.find? (fun r => decide (r.ptr = (p : Int))) with
  | some r => if env.reltype = SHT_REL then (raw + r.addend) % 2 ^ 32 else r.addend
  | none => raw

/-- A relocation index with records at the pointers 4 and 10. -/
def rel_ex : List REL := [⟨4, 100⟩, ⟨10, 7⟩]

/-- Sixteen bytes to read from. -/
def rel_mem : List Nat := [1, 0, 0, 0, 2, 0, 0, 0, 3, 0, 4, 0, 0, 0, 5, 0]

/-! ## The rejected unit headers -/

/-- The length of the LEB128 encoding that starts a list of bytes: the
bytes up to and including the first one without the continuation bit
`0x80`; `none` when every byte has it. -/
def leb_len : List Nat → Option Nat
  | [] => none
  | c :: t => if c &&& 0x80 ≠ 0 then (leb_len t).map (· + 1) else some 1

/-- The number that the unsigned LEB128 encoding at the start of a list of
bytes stands for: seven bits per byte, the low ones first. -/
def leb_val : List Nat → Option Nat
  | [] => none
  | c :: t => if c &&& 0x80 ≠ 0 then (leb_val t).map (fun v => (c &&& 0x7f) + 128 * v) else some c

/-- A block of one byte whose length 1 is encoded in five LEB128 bytes. -/
def long_leb_block : List Nat := [0x81, 0x80, 0x80, 0x80, 0x00, 7]

/-! ## The line-program offset of a DIE -/

/-- An attribute that gives the offset of the line program: a
`DW_AT_stmt_list` of form `data4` or `sec_offset`. -/
def stmt_list_attr (attr form : Nat) : Prop :=
  attr = DW_AT_stmt_list ∧ (form = DW_FORM_data4 ∨ form = DW_FORM_sec_offset)

instance (attr form : Nat) : Decidable (stmt_list_attr attr form) := by
  unfold stmt_list_attr; infer_instance

/-- The abbreviation 1 of `ex_abbrev`. -/
def xw_tag : abbrev_tag :=
  ⟨1, DW_TAG_compile_unit, [⟨DW_AT_name, DW_FORM_string⟩, ⟨DW_AT_comp_dir, DW_FORM_string⟩,
    ⟨DW_AT_stmt_list, DW_FORM_data4⟩]⟩

/-- The state in which the walk comes to the DIE of `xw_info`. -/
def xw_st (line : List Nat) : St := { ex_obj xw_info line with ptr_size := 8, cu_version := 2 }

/-- The locals of `edit_attributes` after the attributes of that DIE. -/
def xw_after (line : List Nat) : AttrSt := ⟨xw_st line, 23, some (bytes "/w"), 0, true⟩

/-! ## The declarations of an abbreviation table -/

/-- The bytes `u` are a LEB128 number that `read_uleb128` reads as `v`,
whatever follows. -/
def is_uleb (u : List Nat) (v : Nat) : Prop := ∀ T, read_uleb128 (u ++ T) 0 = .ok (v, u.length)

/-- One declaration of `.debug_abbrev` as it stands in the section: the
code and the tag (each a LEB128 encoding with the number read from it), the
children byte, the pairs of attribute and form, the encoding of the
terminating zero attribute, and the number that follows it. -/
structure AbbrevDecl where
  code : List Nat × Nat
  tag : List Nat × Nat
  children : Nat
  pairs : List ((List Nat × Nat) × (List Nat × Nat))
  z1 : List Nat
  z2 : List Nat × Nat

/-- The bytes of the pairs of attribute and form. -/
def enc_pairs (ps : List ((List Nat × Nat) × (List Nat × Nat))) : List Nat :=
  ps.flatMap (fun p => p.1.1 ++ p.2.1)

/-- The bytes of a declaration. -/
def AbbrevDecl.enc (d : AbbrevDecl) : List Nat :=
  d.code.1 ++ (d.tag.1 ++ (d.children :: (enc_pairs d.pairs ++ (d.z1 ++ d.z2.1))))

/-- The numbers of a declaration are LEB128 numbers, the code and the
attributes are not 0, and the terminating attribute is 0. -/
def AbbrevDecl.wf (d : AbbrevDecl) : Prop :=
  is_uleb d.code.1 d.code.2 ∧ d.code.2 ≠ 0 ∧ is_uleb d.tag.1 d.tag.2 ∧
  (∀ p ∈ d.pairs, is_uleb p.1.1 p.1.2 ∧ p.1.2 ≠ 0 ∧ is_uleb p.2.1 p.2.2) ∧
  is_uleb d.z1 0 ∧ is_uleb d.z2.1 d.z2.2

/-- The bytes of a sequence of declarations. -/
def enc_decls (ds : List AbbrevDecl) : List Nat := ds.flatMap AbbrevDecl.enc

/-- A declaration of a compile unit with the code 1 and no attributes. -/
def decl_one : AbbrevDecl := ⟨([1], 1), ([0x11], 0x11), 0, [], [0], ([0], 0)⟩

/-- A declaration with the code 2 and one attribute, whose terminating
zero attribute is followed by the number 5. -/
def decl_bad_end : AbbrevDecl := ⟨([2], 2), ([0x11], 0x11), 0, [(([3], 3), ([8], 8))], [0], ([5], 5)⟩

/-! ## The names of the symbols -/

/-- The symbol `x` is one whose name `edit_symtab` rewrites: an `STT_FILE`
symbol whose name in the string table `t` starts with base. -/
def sym_hit (base t : List Nat) (x : Sym) : Prop :=
  x.st_info % 16 = STT_FILE ∧ ∃ S, cstr t x.st_name = .ok S ∧ has_prefix S base = true

/-- The names of the symbols `x` and `y`, each with its terminating NUL,
share no byte of the string table `t`. -/
def sym_apart (t : List Nat) (x y : Sym) : Prop :=
  ∀ Sx Sy, cstr t x.st_name = .ok Sx → cstr t y.st_name = .ok Sy →
    x.st_name + Sx.length < y.st_name ∨ y.st_name + Sy.length < x.st_name

/-- The name that the symbol `x` with the name `S` is to have after
`edit_symtab`. -/
def new_sym_name (base dest S : List Nat) (x : Sym) : List Nat :=
  if x.st_info % 16 = STT_FILE ∧ has_prefix S base = true then
    make_win_path (dest ++ S.drop base.length)
  else S

/-- A string table with the names `/build/x.c` (at 1) and `main` (at 12). -/
def sym_tab : List Nat := 0 :: (bytes "/build/x.c" ++ 0 :: (bytes "main" ++ [0]))

/-- A state that holds only the string table `t`. -/
def sym_st (t : List Nat) : St :=
  ⟨none, none, none, none, some t, false, false, false, false, [], 0, 0, 0⟩

/-! ## The value of an unsigned LEB128 encoding -/

/-- The sum over the bytes `b_i` of a list of `(b_i & 0x7f) * 2^(7i)`. -/
def leb_sum : List Nat → Nat
  | [] => 0
  | c :: t => (c &&& 0x7f) + 128 * leb_sum t

/-- The unsigned LEB128 encoder: seven bits per byte, the low ones first,
the continuation bit `0x80` on every byte but the last; `fuel` bounds the
number of bytes after the first. -/
def leb_enc : Nat → Nat → List Nat
  | 0, v => [v % 128]
  | fuel + 1, v => if v < 128 then [v] else (v % 128 + 128) :: leb_enc fuel (v / 128)

/-- The shortest unsigned LEB128 encoding of `v`. -/
def uleb_enc (v : Nat) : List Nat := leb_enc v v

/-! ## Saturated numbers -/

/-- An abbreviation table with one declaration whose code, tag and
attribute are each given in five LEB128 bytes (`ff ff ff ff 0f`), the
attribute being of form `data1`. -/
def sat_abbrev : List Nat :=
  [0xff, 0xff, 0xff, 0xff, 0x0f, 0xff, 0xff, 0xff, 0xff, 0x0f, 0,
    0xff, 0xff, 0xff, 0xff, 0x0f, 0x0b, 0, 0, 0]

/-- A `.debug_info` section with one version 2 unit (pointer size 8) that
holds one DIE whose abbreviation code is given in five LEB128 bytes,
followed by the one byte of its attribute. -/
def sat_info : List Nat :=
  [13, 0, 0, 0, 2, 0, 0, 0, 0, 0, 8, 0xff, 0xff, 0xff, 0xff, 0x0f, 7]

/-- The state of a run on an object with these two sections. -/
def sat_obj : St :=
  ⟨some sat_info, some sat_abbrev, none, none, none, false, false, false, false, [], 0, 0, 0⟩

/-! ## The records of the relocation index -/

/-- The relocation entry `r` is one that gets a record: its symbol's
section index is that of `.debug_str`, `.debug_line` or `.debug_abbrev`,
and, in a `SHT_REL` section, its symbol's value is not 0. -/
def rel_kept (dso : Dso) (sh_type : Nat) (syms : List Sym) (r : RelEntry) : Bool :=
  match syms[r.r_sym]? with
  | none => false
  | some sym =>
    (sym.st_shndx = dso.str_sec ∨ sym.st_shndx = dso.line_sec ∨ sym.st_shndx = dso.abbrev_sec) ∧
      ¬ (sh_type = SHT_REL ∧ sym.st_value = 0)

/-- The record of the relocation entry `r`: the pointer is the offset
`r_offset - sh_addr` from the base of the buffer of `.debug_info`, the
addend is `(r_addend + st_value) mod 2^32`, with 0 for `r_addend` in a
`SHT_REL` section. -/
def rel_record (dso : Dso) (sh_type : Nat) (syms : List Sym) (r : RelEntry) : REL :=
  ⟨(r.r_offset : Int) - dso.info_addr,
    (((if sh_type = SHT_REL then 0 else r.r_addend)
      + ((syms[r.r_sym]?.map (fun (s : Sym) => s.st_value)).getD 0 : Nat)) % 2 ^ 32).toNat⟩

/-- An object (machine `EM_X86_64`) whose `.debug_info` at address 0x100
has a `SHT_RELA` relocation section with four entries: at 0x116 against
symbol 1, at 0x106 against symbol 2, at 0x120 against symbol 3 (a symbol of
another section), at 0x10c against symbol 1.  The sections `.debug_str`,
`.debug_line`, `.debug_abbrev` have the indices 5, 6, 7. -/
def rel_dso : Dso :=
  ⟨1, 62, none,
    some (SHT_RELA,
      [⟨0x116, 1, 10, 3⟩, ⟨0x106, 2, 10, 0⟩, ⟨0x120, 3, 10, 4⟩, ⟨0x10c, 1, 10, -1⟩],
      [⟨0, 0, 0, 0⟩, ⟨0, 3, 5, 0x40⟩, ⟨0, 3, 7, 0⟩, ⟨0, 3, 2, 8⟩]),
    0x100, 5, 6, 7⟩

/-! ## The table of a well-formed subtable -/

/-- The element that the table is to hold for the declaration `d`: the
code, the tag, and the pairs of attribute and form in their order. -/
def AbbrevDecl.entry (d : AbbrevDecl) : abbrev_tag :=
  ⟨d.code.2, d.tag.2, d.pairs.map (fun p => ⟨p.1.2, p.2.2⟩)⟩

/-- The forms of a well-formed table: the classic forms `0x01`,
`0x03..0x16`, and `sec_offset`, `exprloc`, `flag_present`, `ref_sig8`. -/
def form_allowed (f : Nat) : Prop :=
  f = 0x01 ∨ (0x03 ≤ f ∧ f ≤ 0x16) ∨ f = DW_FORM_sec_offset ∨ f = DW_FORM_exprloc ∨
    f = DW_FORM_flag_present ∨ f = DW_FORM_ref_sig8

/-- A declaration with the code 2, the tag 0x24, the children byte 1 and
the attributes `DW_AT_name` of form `string` and 0x0b of form `data1`. -/
def decl_two : AbbrevDecl :=
  ⟨([2], 2), ([0x24], 0x24), 1, [(([3], 3), ([8], 8)), (([0x0b], 0x0b), ([0x0b], 0x0b))],
    [0], ([0], 0)⟩

/-! ## Forms followed through `DW_FORM_indirect` -/

/-- The form under which the attribute loop handles an attribute declared
with `form` and met at `ptr`, and the pointer at that moment: a
`DW_FORM_indirect` is replaced by the form read at the pointer, as the
`continue` of the loop does (`fuel` bounds the number of replacements). -/
def eff_form (m : List Nat) : Nat → Nat → Nat → Option (Nat × Nat)
  | 0, _, _ => none
  | fuel + 1, form, ptr =>
    if form = DW_FORM_indirect then
      match read_uleb128 m ptr with
      | .ok (f, p) => eff_form m fuel f p
      | .error _ => none
    else some (form, ptr)

/-- The attribute `x`, met at `ptr` of the section `m`, gives the offset of
the line program, which stands at `p`: a `DW_AT_stmt_list` whose form,
declared or read through `DW_FORM_indirect`, is `data4` or `sec_offset`. -/
def stmt_list_at (m : List Nat) (x : abbrev_attr) (ptr p : Nat) : Prop :=
  x.attr = DW_AT_stmt_list ∧
    (eff_form m (m.length + 1) x.form ptr = some (DW_FORM_data4, p) ∨
      eff_form m (m.length + 1) x.form ptr = some (DW_FORM_sec_offset, p))

instance (m : List Nat) (x : abbrev_attr) (ptr p : Nat) : Decidable (stmt_list_at m x ptr p) := by
  unfold stmt_list_at; infer_instance

/-! ## More scenarios -/

/-- A header with two file entries: `x.c` in the directory 0 and `f.c`,
whose directory index 1 is out of range as there is no directory entry. -/
def bad_index_line2 : List Nat := ex_line [] [(bytes "x.c", [0, 0, 0]), (bytes "f.c", [1, 0, 0])]

/-- The abbreviation of `xw_tag` with one more attribute, a
`DW_AT_producer` (0x25) of form `DW_FORM_indirect`. -/
def ind_tag : abbrev_tag :=
  ⟨1, DW_TAG_compile_unit, [⟨DW_AT_name, DW_FORM_string⟩, ⟨DW_AT_comp_dir, DW_FORM_string⟩,
    ⟨DW_AT_stmt_list, DW_FORM_data4⟩, ⟨0x25, DW_FORM_indirect⟩]⟩

/-- The unit `xw_info` followed by the byte 0x30, which the last attribute
of `ind_tag` reads as its form; no form has this number. -/
def ind_info : List Nat := xw_info ++ [0x30]

/-- The state in which the walk comes to the DIE of `ind_info`. -/
def ind_st (line : List Nat) : St :=
  ⟨some ind_info, some ex_abbrev, some line, none, none, false, false, false, false, [], 8, 2, 0⟩

/-- The abbreviation of `xw_tag` with the `DW_AT_stmt_list` declared
`DW_FORM_indirect`. -/
def ind2_tag : abbrev_tag :=
  ⟨1, DW_TAG_compile_unit, [⟨DW_AT_name, DW_FORM_string⟩, ⟨DW_AT_comp_dir, DW_FORM_string⟩,
    ⟨DW_AT_stmt_list, DW_FORM_indirect⟩]⟩

/-- A unit with one DIE: the name `x.c`, the `comp_dir` `/w`, and for the
`DW_AT_stmt_list` the form `data4` (the byte 6) followed by the offset 0. -/
def ind2_info : List Nat :=
  [20, 0, 0, 0, 2, 0, 0, 0, 0, 0, 8, 1] ++ bytes "x.c" ++ 0 :: (bytes "/w" ++ [0, 6, 0, 0, 0, 0])

/-- The state in which the walk comes to the DIE of `ind2_info`. -/
def ind2_st (line : List Nat) : St :=
  ⟨some ind2_info, some ex_abbrev, some line, none, none, false, false, false, false, [], 8, 2, 0⟩

/-- The symbols `x` and `y` are `STT_FILE` symbols with one and the same
name (the same `st_name`), and base holds a separator (as the base that
`main` passes on does, at its end). -/
def sym_twin (base : List Nat) (x y : Sym) : Prop :=
  x.st_name = y.st_name ∧ x.st_info % 16 = STT_FILE ∧ y.st_info % 16 = STT_FILE ∧ 47 ∈ base

/-- Base `/a/a/`, dest `/a/`. -/
def c3_cfg : Config := ⟨some (bytes "/a/a/"), some (bytes "/a/"), false, false⟩

/-- A compile unit with a `DW_AT_comp_dir` and a `DW_AT_name`, both of form
`strp`. -/
def c3_tag : abbrev_tag :=
  ⟨1, DW_TAG_compile_unit, [⟨DW_AT_comp_dir, DW_FORM_strp⟩, ⟨DW_AT_name, DW_FORM_strp⟩]⟩

/-- A state with the `.debug_info` bytes `inf` and the `.debug_str` bytes
`str`. -/
def c3_st (inf str : List Nat) : St :=
  ⟨some inf, none, none, some str, none, false, false, false, false, [], 8, 4, 0⟩

/-! ## A second run of the editor -/

/-- The string that the guarded rewrite of an attribute string `S` leaves
when dest is as long as base (`whole` tells whether `make_win_path` is
applied to the string, as in `edit_inline`). -/
def rewritten (cfg : Config) (whole : Bool) (base dest S : List Nat) : List Nat :=
  if has_prefix S base then
    (if whole && cfg.win_path then make_win_path (dest ++ S.drop base.length)
     else dest ++ S.drop base.length)
  else S

@[simp] theorem bind_ok_eq {ε α β : Type} (a : α) (f : α → Except ε β) :
    (Except.ok a >>= f) = f a := rfl

@[simp] theorem bind_error_eq {ε α β : Type} (e : ε) (f : α → Except ε β) :
    (Except.error e >>= f) = Except.error e := rfl

@[simp] theorem pure_eq_ok {ε α : Type} (a : α) : (pure a : Except ε α) = Except.ok a := rfl

theorem bind_eq_ok {E A B : Type} {x : Except E A} {f : A → Except E B} {b : B} :
    (x >>= f) = Except.ok b ↔ ∃ a : A, x = Except.ok a ∧ f a = Except.ok b := by
  cases x with
  | error e => simp
  | ok a => simp

theorem St.same_refl (s : St) : St.same s s := by simp [St.same]

theorem St.same_trans {s t u : St} (h1 : St.same s t) (h2 : St.same t u) : St.same s u := by
  simp only [St.same] at *
  obtain ⟨a1, a2, a3, a4, a5, a6, a7, a8, a9⟩ := h1
  obtain ⟨b1, b2, b3, b4, b5, b6, b7, b8, b9⟩ := h2
  simp [*]

theorem rewrite_guard_some {cfg : Config} {phase : Nat} {s dest : List Nat}
    (h : rewrite_guard cfg phase s = .ok (some dest)) :
    phase = 1 ∧ cfg.dest_dir = some dest ∧
      ∃ base, cfg.base_dir = some base ∧ has_prefix s base = true := by
  unfold rewrite_guard at h
  by_cases hp : phase = 1
  · cases hd : cfg.dest_dir with
    | none => simp [hp, hd] at h
    | some d =>
      cases hb : cfg.base_dir with
      | none => simp [hp, hd, hb, has_prefix_opt] at h
      | some b =>
        by_cases hh : has_prefix s b = true
        · simp [hp, hd, hb, has_prefix_opt, hh] at h
          exact ⟨hp, by rw [h], b, rfl, hh⟩
        · simp [hp, hd, hb, has_prefix_opt, hh] at h
  · simp [hp] at h

theorem edit_inline_frame {cfg : Config} {phase : Nat} {whole : Bool} {st st' : St} {p : Nat}
    {s : List Nat} (h : edit_inline cfg phase whole st p s = .ok st') :
    st' = st ∨ (phase = 1 ∧ ∃ base dest, cfg.base_dir = some base ∧ cfg.dest_dir = some dest ∧
      has_prefix s base = true) := by
  unfold edit_inline at h
  obtain ⟨g, hg, h⟩ := bind_eq_ok.mp h
  cases g with
  | none => simp at h; exact Or.inl h.symm
  | some dest =>
    obtain ⟨hph, hd, base, hb, hpre⟩ := rewrite_guard_some hg
    exact Or.inr ⟨hph, base, dest, hb, hd, hpre⟩

theorem edit_strp_frame {cfg : Config} {phase : Nat} {whole : Bool} {st st' : St}
    {str : List Nat} {off : Nat}
    {s : List Nat} (h : edit_strp cfg phase whole st str off s = .ok st') :
    st' = st ∨ (phase = 1 ∧ ∃ base dest, cfg.base_dir = some base ∧ cfg.dest_dir = some dest ∧
      has_prefix s base = true) := by
  unfold edit_strp at h
  obtain ⟨g, hg, h⟩ := bind_eq_ok.mp h
  cases g with
  | none => simp at h; exact Or.inl h.symm
  | some dest =>
    obtain ⟨hph, hd, base, hb, hpre⟩ := rewrite_guard_some hg
    exact Or.inr ⟨hph, base, dest, hb, hd, hpre⟩

theorem act_stmt_list_same {env : Env} {attr form : Nat} {a a' : AttrSt}
    (h : act_stmt_list env attr form a = .ok a') :
    St.same a.st a'.st ∧ (attr ≠ DW_AT_stmt_list → a' = a) := by
  unfold act_stmt_list at h
  split_ifs at h with hc
  · obtain ⟨r, hr, h⟩ := bind_eq_ok.mp h
    simp at h
    subst h
    simp [St.same]
    intro hne
    simp [hne] at hc
  · simp at h
    subst h
    simp [St.same_refl]

theorem act_comp_dir_frame {env : Env} {phase form : Nat} {a a' : AttrSt}
    (h : act_comp_dir env phase form a = .ok a') :
    St.same a.st a'.st ∨
      (phase = 1 ∧ ∃ base dest s, env.cfg.base_dir = some base ∧ env.cfg.dest_dir = some dest ∧
        attr_string env a form s ∧ has_prefix s base = true) := by
  unfold act_comp_dir at h
  by_cases hf : form = DW_FORM_string
  · rw [if_pos hf] at h
    obtain ⟨s, hs, h2⟩ := bind_eq_ok.mp h
    obtain ⟨st, hst, h3⟩ := bind_eq_ok.mp h2
    clear h h2
    simp at h3
    subst h3
    rcases edit_inline_frame hst with h1 | ⟨hph, base, dest, hb, hd, hpre⟩
    · left; subst h1; exact St.same_refl _
    · right; exact ⟨hph, base, dest, s, hb, hd, Or.inl ⟨hf, hs⟩, hpre⟩
  · rw [if_neg hf] at h
    cases hstr : a.st.debug_str with
    | none => simp [hstr] at h; subst h; left; exact St.same_refl _
    | some str =>
      simp only [hstr] at h
      by_cases hf2 : form = DW_FORM_strp
      · rw [if_pos hf2] at h
        obtain ⟨r, hr, h2⟩ := bind_eq_ok.mp h
        obtain ⟨s, hs, h3⟩ := bind_eq_ok.mp h2
        obtain ⟨st, hst, h4⟩ := bind_eq_ok.mp h3
        clear h h2 h3
        simp at h4
        subst h4
        rcases edit_strp_frame hst with h1 | ⟨hph, base, dest, hb, hd, hpre⟩
        · left; subst h1; simp [St.same, hstr]
        · right; exact ⟨hph, base, dest, s, hb, hd, Or.inr ⟨hf2, str, r, hstr, hr, hs⟩, hpre⟩
      · rw [if_neg hf2] at h
        simp at h; subst h; left; exact St.same_refl _

theorem act_name_frame {env : Env} {phase form : Nat} {a a' : AttrSt}
    (h : act_name env phase form a = .ok a') :
    St.same a.st a'.st ∨
      (phase = 1 ∧ ∃ base dest s, env.cfg.base_dir = some base ∧ env.cfg.dest_dir = some dest ∧
        attr_string env a form s ∧ has_prefix s base = true) := by
  unfold act_name at h
  cases hm : (if form = DW_FORM_strp then a.st.debug_str else none) with
  | some str =>
    have hf2 : form = DW_FORM_strp := by
      by_contra hne
      simp [hne] at hm
    have hstr : a.st.debug_str = some str := by simpa [hf2] using hm
    simp only [hm] at h
    obtain ⟨r, hr, h2⟩ := bind_eq_ok.mp h
    obtain ⟨s, hs, h3⟩ := bind_eq_ok.mp h2
    obtain ⟨st, hst, h4⟩ := bind_eq_ok.mp h3
    clear h h2 h3
    simp at h4
    subst h4
    rcases edit_strp_frame hst with h1 | ⟨hph, base, dest, hb, hd, hpre⟩
    · left; subst h1; simp [St.same, hstr]
    · right; exact ⟨hph, base, dest, s, hb, hd, Or.inr ⟨hf2, str, r, hstr, hr, hs⟩, hpre⟩
  | none =>
    simp only [hm] at h
    by_cases hf : (form = DW_FORM_string && a.st.debug_info.isSome) = true
    · rw [if_pos hf] at h
      obtain ⟨s, hs, h2⟩ := bind_eq_ok.mp h
      obtain ⟨st, hst, h3⟩ := bind_eq_ok.mp h2
      clear h h2
      simp at h3
      subst h3
      simp at hf
      rcases edit_inline_frame hst with h1 | ⟨hph, base, dest, hb, hd, hpre⟩
      · left; subst h1; exact St.same_refl _
      · right; exact ⟨hph, base, dest, s, hb, hd, Or.inl ⟨hf.1, hs⟩, hpre⟩
    · rw [if_neg hf] at h
      simp at h

theorem attr_actions_frame {env : Env} {phase tag attr form : Nat} {a a' : AttrSt}
    (h : attr_actions env phase tag attr form a = .ok a') :
    St.same a.st a'.st ∨
      (phase = 1 ∧ ∃ base dest s, env.cfg.base_dir = some base ∧ env.cfg.dest_dir = some dest ∧
        attr_string env a form s ∧ has_prefix s base = true) := by
  unfold attr_actions at h
  obtain ⟨a1, h1, h2⟩ := bind_eq_ok.mp h
  clear h
  rename' h2 => h
  obtain ⟨hs1, heq1⟩ := act_stmt_list_same h1
  by_cases hcd : attr = DW_AT_comp_dir
  · rw [if_pos hcd] at h
    have ha1 : a1 = a := heq1 (by rw [hcd]; decide)
    subst ha1
    exact act_comp_dir_frame h
  · rw [if_neg hcd] at h
    by_cases hnm : ((tag = DW_TAG_compile_unit || tag = DW_TAG_partial_unit) && attr = DW_AT_name) = true
    · rw [if_pos hnm] at h
      simp at hnm
      have ha1 : a1 = a := heq1 (by rw [hnm.2]; decide)
      subst ha1
      exact act_name_frame h
    · rw [if_neg hnm] at h
      simp at h; subst h; left; exact hs1

theorem attr_loop_same {env : Env} {phase tag attr : Nat}
    (hc : phase ≠ 1 ∨ env.cfg.dest_dir = none) :
    ∀ (fuel form : Nat) (a : AttrSt) (r : Bool × AttrSt),
      attr_loop env phase tag attr fuel form a = .ok r → St.same a.st r.2.st := by
  intro fuel
  induction fuel with
  | zero => intro form a r h; simp [attr_loop] at h
  | succ n ih =>
    intro form a r h
    unfold attr_loop at h
    obtain ⟨a1, h1, h2⟩ := bind_eq_ok.mp h
    obtain ⟨fs, h3, h4⟩ := bind_eq_ok.mp h2
    clear h h2
    have hs1 : St.same a.st a1.st := by
      rcases attr_actions_frame h1 with hs | ⟨hph, base, dest, s, hb, hd, _⟩
      · exact hs
      · rcases hc with hc | hc
        · exact absurd hph hc
        · rw [hd] at hc; cases hc
    cases fs with
    | done p => simp at h4; subst h4; exact hs1
    | again f p =>
      simp only at h4
      exact St.same_trans hs1 (ih f { a1 with ptr := p } r h4)
    | unknown => simp at h4; subst h4; exact hs1

theorem attrs_loop_same {env : Env} {phase tag : Nat}
    (hc : phase ≠ 1 ∨ env.cfg.dest_dir = none) :
    ∀ (attrs : List abbrev_attr) (a : AttrSt) (r : Bool × AttrSt),
      attrs_loop env phase tag attrs a = .ok r → St.same a.st r.2.st := by
  intro attrs
  induction attrs with
  | nil => intro a r h; simp [attrs_loop] at h; subst h; exact St.same_refl _
  | cons at1 rest ih =>
    intro a r h
    unfold attrs_loop at h
    obtain ⟨r1, h1, h2⟩ := bind_eq_ok.mp h
    clear h
    have hs1 := attr_loop_same hc _ _ _ _ h1
    by_cases hb : r1.1 = true
    · rw [if_pos hb] at h2
      exact St.same_trans hs1 (ih _ _ h2)
    · rw [if_neg hb] at h2
      simp at h2; subst h2; exact hs1

theorem edit_dwarf2_line_same {cfg : Config} {msb : Bool} {st : St} {off : Nat}
    {comp_dir : List Nat} {phase : Nat} {r : Nat × St}
    (hc : phase ≠ 0 ∨ cfg.dest_dir = none)
    (h : edit_dwarf2_line cfg msb st off comp_dir phase = .ok r) : St.same st r.2 := by
  unfold edit_dwarf2_line at h
  by_cases hp : phase ≠ 0
  · rw [if_pos hp] at h; simp at h; subst h; exact St.same_refl _
  · rw [if_neg hp] at h
    have hd : cfg.dest_dir = none := by
      rcases hc with hc | hc
      · exact absurd hc hp
      · exact hc
    cases hl : st.debug_line with
    | none => simp [hl] at h; subst h; exact St.same_refl _
    | some m =>
      simp only [hl] at h
      obtain ⟨hdr, h1, h2⟩ := bind_eq_ok.mp h
      clear h
      cases hdr with
      | none => simp at h2; subst h2; exact St.same_refl _
      | some dir =>
        simp only at h2
        obtain ⟨dt, h3, h4⟩ := bind_eq_ok.mp h2
        clear h2
        obtain ⟨dirt, ptr⟩ := dt
        simp only at h4
        obtain ⟨fs, h5, h6⟩ := bind_eq_ok.mp h4
        clear h4
        by_cases hr : fs.ret ≠ 0
        · rw [if_pos hr] at h6; simp at h6; subst h6; simp [St.same, hl]
        · rw [if_neg hr] at h6
          simp [hd] at h6
          subst h6; simp [St.same, hl]

theorem emit_comp_dir_same (cfg : Config) (a : AttrSt) : St.same a.st (emit_comp_dir cfg a) := by
  unfold emit_comp_dir
  cases a.comp_dir with
  | none => exact St.same_refl _
  | some cd =>
    by_cases hl : cfg.list_file = true
    · simp [hl, St.same]
    · simp [hl, St.same_refl]

theorem edit_attributes_same {env : Env} {st : St} {ptr : Nat} {t : abbrev_tag} {phase : Nat}
    {r : Option Nat × St} (hd : env.cfg.dest_dir = none)
    (h : edit_attributes env st ptr t phase = .ok r) : St.same st r.2 := by
  unfold edit_attributes at h
  obtain ⟨r1, h1, h2⟩ := bind_eq_ok.mp h
  clear h
  have hs1 : St.same st r1.2.st := attrs_loop_same (Or.inr hd) _ _ _ h1
  by_cases hb : r1.1 = true
  · simp only [hb, if_true] at h2
    have hs2 := emit_comp_dir_same env.cfg r1.2
    cases hcd : r1.2.comp_dir with
    | none => simp [hcd] at h2; subst h2; exact St.same_trans hs1 hs2
    | some cd =>
      simp only [hcd] at h2
      by_cases hf : r1.2.found_list_offs = true
      · simp only [hf, if_true] at h2
        obtain ⟨r2, h3, h4⟩ := bind_eq_ok.mp h2
        simp at h4; subst h4
        exact St.same_trans hs1 (St.same_trans hs2 (edit_dwarf2_line_same (Or.inr hd) h3))
      · simp [hf] at h2; subst h2; exact St.same_trans hs1 hs2
  · simp [hb] at h2; subst h2; exact hs1

theorem die_loop_same {env : Env} {abbr : List abbrev_tag} {phase endcu : Nat}
    (hd : env.cfg.dest_dir = none) :
    ∀ (fuel ptr : Nat) (st : St) (r : Nat × Option Nat × St),
      die_loop env abbr phase endcu fuel ptr st = .ok r → St.same st r.2.2 := by
  intro fuel
  induction fuel with
  | zero => intro ptr st r h; simp [die_loop] at h
  | succ n ih =>
    intro ptr st r h
    unfold die_loop at h
    by_cases hlt : ptr < endcu
    · rw [if_pos hlt] at h
      obtain ⟨u, h1, h2⟩ := bind_eq_ok.mp h
      clear h
      obtain ⟨entry, p⟩ := u
      simp only at h2
      by_cases he : entry = 0
      · rw [if_pos he] at h2; exact ih _ _ _ h2
      · rw [if_neg he] at h2
        cases hf : htab_find abbr entry with
        | none => simp [hf] at h2; subst h2; exact St.same_refl _
        | some t =>
          simp only [hf] at h2
          obtain ⟨r1, h3, h4⟩ := bind_eq_ok.mp h2
          clear h2
          have hs1 := edit_attributes_same hd h3
          cases hr : r1.1 with
          | none => simp [hr] at h4; subst h4; exact hs1
          | some q =>
            simp only [hr] at h4
            exact St.same_trans hs1 (ih _ _ _ h4)
    · rw [if_neg hlt] at h; simp at h; subst h; exact St.same_refl _

theorem ok_inj {ε α : Type} {a b : α} (h : (pure a : Except ε α) = .ok b) : a = b :=
  Except.ok.inj h

theorem cu_ptr_size_same (st : St) (b : Nat) : St.same st (cu_ptr_size st b).2 := by
  unfold cu_ptr_size
  by_cases h : st.ptr_size = 0
  · rw [if_pos h]; simp only [St.same, and_self]
  · rw [if_neg h]; exact St.same_refl _

theorem cu_header_same {env : Env} {st : St} {ptr : Nat}
    {r : Option (Nat × Nat × List abbrev_tag) × St}
    (h : cu_header env st ptr = .ok r) : St.same st r.2 := by
  unfold cu_header at h
  obtain ⟨e, h1, h2⟩ := bind_eq_ok.mp h
  clear h
  cases e with
  | none => rw [← ok_inj h2]; exact St.same_refl _
  | some endcu =>
    simp only at h2
    obtain ⟨ver, h3, h4⟩ := bind_eq_ok.mp h2
    clear h2
    by_cases c5 : ver ≠ 2 ∧ ver ≠ 3 ∧ ver ≠ 4
    · rw [if_pos c5] at h4; rw [← ok_inj h4]; simp only [St.same, and_self]
    · rw [if_neg c5] at h4
      obtain ⟨v, h5, h6⟩ := bind_eq_ok.mp h4
      clear h4
      by_cases c6 : v.1 ≥ (st.debug_abbrev.getD []).length
      · rw [if_pos c6] at h6; rw [← ok_inj h6]; simp only [St.same, and_self]
      · rw [if_neg c6] at h6
        obtain ⟨b, h7, h8⟩ := bind_eq_ok.mp h6
        clear h6
        have hps := cu_ptr_size_same { st with cu_version := ver, relptr := v.2 } b
        have hs0 : St.same st (cu_ptr_size { st with cu_version := ver, relptr := v.2 } b).2 := by
          refine St.same_trans ?_ hps
          simp only [St.same, and_self]
        split_ifs at h8 with c7
        · rw [← ok_inj h8]; exact hs0
        · obtain ⟨ab, h9, h10⟩ := bind_eq_ok.mp h8
          clear h8
          cases ab with
          | none => rw [← ok_inj h10]; exact hs0
          | some abbr => rw [← ok_inj h10]; exact hs0

theorem cu_loop_same {env : Env} {phase : Nat} (hd : env.cfg.dest_dir = none) :
    ∀ (fuel ptr : Nat) (st : St) (r : Nat × St),
      cu_loop env phase fuel ptr st = .ok r → St.same st r.2 := by
  intro fuel
  induction fuel with
  | zero => intro ptr st r h; simp [cu_loop] at h
  | succ n ih =>
    intro ptr st r h
    unfold cu_loop at h
    by_cases c1 : ptr < (info_of st).length
    · rw [if_pos c1] at h
      by_cases c2 : ptr + 11 > (info_of st).length
      · rw [if_pos c2] at h; rw [← ok_inj h]; exact St.same_refl _
      · rw [if_neg c2] at h
        obtain ⟨hh, h1, h2⟩ := bind_eq_ok.mp h
        clear h
        have hs0 := cu_header_same h1
        cases hh1 : hh.1 with
        | none => simp only [hh1] at h2; rw [← ok_inj h2]; exact hs0
        | some t =>
          obtain ⟨p, endcu, abbr⟩ := t
          simp only [hh1] at h2
          obtain ⟨r1, h11, h12⟩ := bind_eq_ok.mp h2
          clear h2
          have hs1 := St.same_trans hs0 (die_loop_same hd _ _ _ _ h11)
          by_cases c9 : r1.1 ≠ 0
          · rw [if_pos c9] at h12; rw [← ok_inj h12]; exact hs1
          · rw [if_neg c9] at h12
            cases hq : r1.2.1 with
            | none => rw [hq] at h12; cases h12
            | some q =>
              simp only [hq] at h12
              exact St.same_trans hs1 (ih _ _ _ h12)
    · rw [if_neg c1] at h; rw [← ok_inj h]; exact St.same_refl _

theorem phases_same {env : Env} {st : St} {r : Nat × St} (hd : env.cfg.dest_dir = none)
    (h : phases env st = .ok r) : St.same st r.2 := by
  unfold phases at h
  obtain ⟨r0, h1, h2⟩ := bind_eq_ok.mp h
  clear h
  have hs0 : St.same st r0.2 := by
    refine St.same_trans ?_ (cu_loop_same hd _ _ _ _ h1)
    simp only [St.same, and_self]
  split_ifs at h2 with c
  · rw [← ok_inj h2]; exact hs0
  · refine St.same_trans hs0 (St.same_trans ?_ (cu_loop_same hd _ _ _ _ h2))
    simp only [St.same, and_self]

theorem edit_sym_same {cfg : Config} {st st' : St} {sym : Sym} (hd : cfg.dest_dir = none)
    (h : edit_sym cfg st sym = .ok st') : st' = st := by
  unfold edit_sym at h
  cases ht : st.strtab with
  | none => rw [ht] at h; cases h
  | some tab =>
    simp only [ht] at h
    obtain ⟨s, h3, h4⟩ := bind_eq_ok.mp h
    clear h
    split_ifs at h4 with c
    · simp only [hd] at h4; exact (ok_inj h4).symm
    · exact (ok_inj h4).symm

theorem edit_symtab_same {cfg : Config} (hd : cfg.dest_dir = none) :
    ∀ (syms : List Sym) (st st' : St), edit_symtab cfg st syms = .ok st' → st' = st := by
  intro syms
  induction syms with
  | nil => intro st st' h; exact (ok_inj h).symm
  | cons sym rest ih =>
    intro st st' h
    unfold edit_symtab at h
    obtain ⟨st1, h1, h2⟩ := bind_eq_ok.mp h
    rw [ih _ _ h2, edit_sym_same hd h1]

theorem edit_dwarf2_same {cfg : Config} {dso : Dso} {st : St} {r : Nat × St}
    (hd : cfg.dest_dir = none) (h : edit_dwarf2 cfg dso st = .ok r) : St.same st r.2 := by
  unfold edit_dwarf2 at h
  obtain ⟨st1, h1, h2⟩ := bind_eq_ok.mp h
  clear h
  have hs1 : St.same st st1 := by
    unfold symtab_pass at h1
    cases hsy : dso.symtab with
    | none => rw [hsy] at h1; rw [← ok_inj h1]; simp only [St.same, and_self]
    | some syms =>
      simp only [hsy] at h1
      rw [edit_symtab_same hd _ _ _ h1]
      simp only [St.same, and_self]
  split_ifs at h2 with c
  · rw [← ok_inj h2]; exact hs1
  · cases hi : st1.debug_info with
    | none => simp only [hi] at h2; rw [← ok_inj h2]; exact hs1
    | some m =>
      simp only [hi] at h2
      obtain ⟨relbuf, h3, h4⟩ := bind_eq_ok.mp h2
      exact St.same_trans hs1 (phases_same hd h4)

/-! ## Buffers -/

theorem cstrL_append {s : List Nat} (r : List Nat) (hs : ∀ c ∈ s, c ≠ 0) :
    cstrL (s ++ 0 :: r) = some s := by
  induction s with
  | nil => simp [cstrL]
  | cons c t ih =>
    have hc : c ≠ 0 := hs c (List.mem_cons_self _ _)
    have ht : ∀ c ∈ t, c ≠ 0 := fun x hx => hs x (List.mem_cons_of_mem _ hx)
    simp [cstrL, hc, ih ht]

theorem cstrL_some {l s : List Nat} (h : cstrL l = some s) :
    (∀ c ∈ s, c ≠ 0) ∧ ∃ r, l = s ++ 0 :: r := by
  induction l generalizing s with
  | nil => simp [cstrL] at h
  | cons c t ih =>
    unfold cstrL at h
    by_cases hc : c = 0
    · rw [if_pos hc] at h
      cases h
      exact ⟨by simp, t, by simp [hc]⟩
    · rw [if_neg hc] at h
      cases ht : cstrL t with
      | none => simp [ht] at h
      | some s' =>
        simp [ht] at h
        subst h
        obtain ⟨h1, r, h2⟩ := ih ht
        refine ⟨?_, r, by simp [h2]⟩
        intro x hx
        rcases List.mem_cons.mp hx with hx | hx
        · rw [hx]; exact hc
        · exact h1 x hx

theorem cstr_eq_ok {m : List Nat} {p : Nat} {s : List Nat} :
    cstr m p = .ok s ↔ (∀ c ∈ s, c ≠ 0) ∧ ∃ r, m.drop p = s ++ 0 :: r := by
  unfold cstr
  constructor
  · intro h
    cases hc : cstrL (m.drop p) with
    | none => simp [hc] at h
    | some s' =>
      simp [hc] at h
      subst h
      exact cstrL_some hc
  · rintro ⟨h1, r, h2⟩
    rw [h2, cstrL_append r h1]

theorem cstr_of_drop {m : List Nat} {p : Nat} {s r : List Nat} (h2 : m.drop p = s ++ 0 :: r)
    (h1 : ∀ c ∈ s, c ≠ 0) : cstr m p = .ok s :=
  cstr_eq_ok.mpr ⟨h1, r, h2⟩

theorem rd_eq_ok {m : List Nat} {p c : Nat} : rd m p = .ok c ↔ ∃ r, m.drop p = c :: r := by
  unfold rd
  constructor
  · intro h
    cases hc : m[p]? with
    | none => simp [hc] at h
    | some c' =>
      simp [hc] at h
      subst h
      obtain ⟨hlt, hget⟩ := List.getElem?_eq_some_iff.mp hc
      refine ⟨m.drop (p + 1), ?_⟩
      rw [← hget]
      exact List.drop_eq_getElem_cons hlt
  · rintro ⟨r, h⟩
    have : m[p]? = some c := by
      have := congrArg (fun l => l[0]?) h
      simpa using this
    simp [this]

theorem wr_eq_ok {m : List Nat} {p : Nat} {bs m' : List Nat} :
    wr m p bs = .ok m' ↔
      p + bs.length ≤ m.length ∧ m' = m.take p ++ bs ++ m.drop (p + bs.length) := by
  unfold wr
  by_cases h : p + bs.length ≤ m.length
  · rw [if_pos h]
    constructor
    · intro h1; cases h1; exact ⟨h, rfl⟩
    · rintro ⟨_, h2⟩; rw [h2]
  · rw [if_neg h]
    constructor
    · intro h1; cases h1
    · rintro ⟨h1, _⟩; exact absurd h1 h

theorem wr_length {m : List Nat} {p : Nat} {bs m' : List Nat} (h : wr m p bs = .ok m') :
    m'.length = m.length := by
  obtain ⟨h1, h2⟩ := wr_eq_ok.mp h
  subst h2
  simp
  omega

theorem wr_take {m : List Nat} {p : Nat} {bs m' : List Nat} (h : wr m p bs = .ok m') :
    m'.take (p + bs.length) = m.take p ++ bs := by
  obtain ⟨h1, h2⟩ := wr_eq_ok.mp h
  subst h2
  have hl : (m.take p ++ bs).length = p + bs.length := by simp; omega
  rw [← hl, List.take_left']
  rfl

theorem wr_take_le {m : List Nat} {p : Nat} {bs m' : List Nat} (h : wr m p bs = .ok m')
    {q : Nat} (hq : q ≤ p) : m'.take q = m.take q := by
  obtain ⟨h1, h2⟩ := wr_eq_ok.mp h
  subst h2
  have hl : (m.take p).length = p := by simp; omega
  rw [List.append_assoc, List.take_append_of_le_length (by omega), List.take_take]
  simp [hq]

theorem wr_drop {m : List Nat} {p : Nat} {bs m' : List Nat} (h : wr m p bs = .ok m')
    {q : Nat} (hq : p + bs.length ≤ q) : m'.drop q = m.drop q := by
  obtain ⟨h1, h2⟩ := wr_eq_ok.mp h
  subst h2
  have hl : (m.take p ++ bs).length = p + bs.length := by simp; omega
  obtain ⟨k, rfl⟩ := Nat.exists_eq_add_of_le hq
  rw [← hl, List.drop_append, List.drop_drop]

theorem wr_drop_at {m : List Nat} {p : Nat} {bs m' : List Nat} (h : wr m p bs = .ok m') :
    m'.drop p = bs ++ m.drop (p + bs.length) := by
  obtain ⟨h1, h2⟩ := wr_eq_ok.mp h
  subst h2
  have hl : (m.take p).length = p := by simp; omega
  rw [List.append_assoc]
  exact List.drop_left' hl

theorem memset_eq_wr (m : List Nat) (p c n : Nat) :
    memset m p c n = wr m p (List.replicate n c) := by
  unfold memset wr
  simp

theorem rdn_eq_ok {m : List Nat} {p n : Nat} {bs : List Nat} :
    rdn m p n = .ok bs ↔ p + n ≤ m.length ∧ bs = (m.drop p).take n := by
  unfold rdn
  by_cases h : p + n ≤ m.length
  · rw [if_pos h]
    constructor
    · intro h1; cases h1; exact ⟨h, rfl⟩
    · rintro ⟨_, h2⟩; rw [h2]
  · rw [if_neg h]
    constructor
    · intro h1; cases h1
    · rintro ⟨h1, _⟩; exact absurd h1 h

/-! ## Elementary facts about `canonicalize_path` -/

theorem skip_seps_eq (s : List Nat) : skip_seps s = s.dropWhile IS_DIR_SEPARATOR := by
  induction s with
  | nil => rfl
  | cons c t ih =>
    unfold skip_seps
    by_cases h : IS_DIR_SEPARATOR c = true
    · simp [h, ih, List.dropWhile]
    · simp [h, List.dropWhile]

theorem skip_seps_length (s : List Nat) : (skip_seps s).length ≤ s.length := by
  rw [skip_seps_eq]
  exact (List.dropWhile_sublist _).length_le

theorem skip_seps_mem {s : List Nat} {c : Nat} (h : c ∈ skip_seps s) : c ∈ s := by
  rw [skip_seps_eq] at h
  exact (List.dropWhile_sublist _).subset h

theorem canon_dotdot_ok (droot : Nat) (s out : List Nat) :
    StepOk s out (canon_dotdot droot s out) := by
  have hcopy : StepOk s out (s.drop 2, out ++ s.take 2) := by
    refine ⟨?_, ?_, ?_⟩
    · simp; omega
    · intro c hc; exact List.mem_of_mem_drop hc
    · intro c hc
      rcases List.mem_append.mp hc with h | h
      · exact Or.inl h
      · exact Or.inr (List.mem_of_mem_take h)
  have herase : ∀ pre, StepOk s out (skip_seps (s.drop 2), out.take pre) := by
    intro pre
    refine ⟨?_, ?_, ?_⟩
    · have := skip_seps_length (s.drop 2)
      simp at this ⊢
      omega
    · intro c hc; exact List.mem_of_mem_drop (skip_seps_mem hc)
    · intro c hc; exact Or.inl (List.mem_of_mem_take hc)
  unfold canon_dotdot
  simp only
  split_ifs <;> first | exact hcopy | exact herase _

theorem canon_step_ok (droot : Nat) (s out : List Nat) :
    StepOk s out (canon_step droot s out) := by
  have h1 : ∀ r : List Nat × List Nat, StepOk s out r →
      StepOk s out (match r.1 with
        | [] => r
        | c :: s1 => if IS_DIR_SEPARATOR c then (skip_seps s1, r.2 ++ [c]) else r) := by
    intro r hr
    cases hr1 : r.1 with
    | nil => simpa [hr1] using hr
    | cons c s1 =>
      simp only
      split_ifs
      · have hl := hr.len
        rw [hr1] at hl
        refine ⟨?_, ?_, ?_⟩
        · have := skip_seps_length s1
          simp at hl ⊢
          omega
        · intro x hx
          exact hr.mem1 x (by rw [hr1]; exact List.mem_cons_of_mem _ (skip_seps_mem hx))
        · intro x hx
          rcases List.mem_append.mp hx with h | h
          · exact hr.mem2 x h
          · simp at h
            subst h
            exact Or.inr (hr.mem1 x (by rw [hr1]; exact List.mem_cons_self _ _))
      · exact hr
  unfold canon_step
  apply h1
  split_ifs
  · refine ⟨?_, ?_, ?_⟩
    · have := skip_seps_length (s.drop 1)
      simp at this ⊢
      omega
    · intro c hc; exact List.mem_of_mem_drop (skip_seps_mem hc)
    · intro c hc; exact Or.inl hc
  · exact canon_dotdot_ok droot s out
  · refine ⟨?_, ?_, ?_⟩
    · simp
      have h2 : (s.takeWhile (fun c => !IS_DIR_SEPARATOR c)).length
          + (s.dropWhile (fun c => !IS_DIR_SEPARATOR c)).length = s.length := by
        rw [← List.length_append, List.takeWhile_append_dropWhile]
      omega
    · intro c hc; exact (List.dropWhile_sublist _).subset hc
    · intro c hc
      rcases List.mem_append.mp hc with h | h
      · exact Or.inl h
      · exact Or.inr ((List.takeWhile_sublist _).subset h)

theorem canon_loop_ok (droot : Nat) : ∀ (fuel : Nat) (s out : List Nat),
    (canon_loop droot fuel s out).length ≤ s.length + out.length ∧
      ∀ c ∈ canon_loop droot fuel s out, c ∈ out ∨ c ∈ s := by
  intro fuel
  induction fuel with
  | zero => intro s out; simp [canon_loop]; intro c hc; exact Or.inl hc
  | succ n ih =>
    intro s out
    cases s with
    | nil => simp [canon_loop]
    | cons c t =>
      unfold canon_loop
      simp only
      have hs := canon_step_ok droot (c :: t) out
      obtain ⟨hl, hm⟩ := ih (canon_step droot (c :: t) out).1 (canon_step droot (c :: t) out).2
      refine ⟨by have := hs.len; omega, ?_⟩
      intro x hx
      rcases hm x hx with h | h
      · exact hs.mem2 x h
      · exact Or.inr (hs.mem1 x h)

theorem trim_seps_ok (droot : Nat) : ∀ (n : Nat) (out : List Nat),
    (trim_seps droot out n).length ≤ out.length ∧ ∀ c ∈ trim_seps droot out n, c ∈ out := by
  intro n
  induction n with
  | zero => intro out; simp [trim_seps]
  | succ k ih =>
    intro out
    unfold trim_seps
    split_ifs
    · obtain ⟨h1, h2⟩ := ih (out.take (out.length - 1))
      refine ⟨?_, ?_⟩
      · simp at h1; omega
      · intro c hc; exact List.mem_of_mem_take (h2 c hc)
    · simp

theorem canonicalize_path_eq (s : List Nat) :
    canonicalize_path s =
      let r := canon_root s
      let out := canon_loop r.2.length r.1.length r.1 r.2
      let out := trim_seps r.2.length out out.length
      if out.length = 0 then [46] else out := rfl

theorem canon_root_ok (s : List Nat) : StepOk s [] (canon_root s) := by
  unfold canon_root
  cases s with
  | nil => exact ⟨by simp, by simp, by simp⟩
  | cons c s1 =>
    simp only
    split_ifs
    · refine ⟨?_, ?_, ?_⟩
      · have := skip_seps_length (s1.drop 1)
        simp at this ⊢
        cases s1 with
        | nil => simp [skip_seps]
        | cons d s2 => simp at this ⊢; omega
      · intro x hx
        exact List.mem_cons_of_mem _ (List.mem_of_mem_drop (skip_seps_mem hx))
      · intro x hx
        right
        rcases List.mem_cons.mp hx with h | h
        · rw [h]; exact List.mem_cons_self _ _
        · exact List.mem_cons_of_mem _ (List.mem_of_mem_take h)
    · refine ⟨?_, ?_, ?_⟩
      · have := skip_seps_length s1
        simp; omega
      · intro x hx; exact List.mem_cons_of_mem _ (skip_seps_mem hx)
      · intro x hx; simp at hx; subst hx; right; exact List.mem_cons_self _ _
    · exact ⟨by simp, by simp, by simp⟩

theorem canonicalize_path_ne_nil (s : List Nat) : canonicalize_path s ≠ [] := by
  rw [canonicalize_path_eq]
  simp only
  split_ifs with h
  · simp
  · intro h2
    rw [h2] at h
    simp at h

theorem canonicalize_path_length (s : List Nat) :
    (canonicalize_path s).length ≤ max s.length 1 := by
  rw [canonicalize_path_eq]
  simp only
  have hr := (canon_root_ok s).len
  have hl := (canon_loop_ok (canon_root s).2.length (canon_root s).1.length
    (canon_root s).1 (canon_root s).2).1
  have ht := (trim_seps_ok (canon_root s).2.length
    (canon_loop (canon_root s).2.length (canon_root s).1.length (canon_root s).1
      (canon_root s).2).length
    (canon_loop (canon_root s).2.length (canon_root s).1.length (canon_root s).1
      (canon_root s).2)).1
  split_ifs with h
  · simp
  · simp at hr
    omega

theorem canonicalize_path_length_le {s : List Nat} (h : s ≠ []) :
    (canonicalize_path s).length ≤ s.length := by
  have := canonicalize_path_length s
  have : 0 < s.length := List.length_pos.mpr h
  omega

theorem canonicalize_path_mem {s : List Nat} {c : Nat} (h : c ∈ canonicalize_path s) :
    c ∈ s ∨ c = 46 := by
  rw [canonicalize_path_eq] at h
  simp only at h
  have hr := canon_root_ok s
  have hl := (canon_loop_ok (canon_root s).2.length (canon_root s).1.length
    (canon_root s).1 (canon_root s).2).2
  have ht := (trim_seps_ok (canon_root s).2.length
    (canon_loop (canon_root s).2.length (canon_root s).1.length (canon_root s).1
      (canon_root s).2).length
    (canon_loop (canon_root s).2.length (canon_root s).1.length (canon_root s).1
      (canon_root s).2)).2
  split_ifs at h with h0
  · simp at h; exact Or.inr h
  · left
    rcases hl c (ht c h) with h1 | h1
    · rcases hr.mem2 c h1 with h2 | h2
      · simp at h2
      · exact h2
    · exact hr.mem1 c h1

theorem canonicalize_path_no_nul {s : List Nat} (hs : ∀ c ∈ s, c ≠ 0) :
    ∀ c ∈ canonicalize_path s, c ≠ 0 := by
  intro c hc
  rcases canonicalize_path_mem hc with h | h
  · exact hs c h
  · rw [h]; decide

theorem make_win_path_length (s : List Nat) : (make_win_path s).length = s.length := by
  simp [make_win_path]

theorem make_win_path_no_nul {s : List Nat} (hs : ∀ c ∈ s, c ≠ 0) :
    ∀ c ∈ make_win_path s, c ≠ 0 := by
  intro c hc
  simp only [make_win_path, List.mem_map] at hc
  obtain ⟨a, ha, rfl⟩ := hc
  split_ifs
  · decide
  · exact hs a ha

/-! ## Composition of stores -/

theorem wr_wr_append {m m1 m2 X Y : List Nat} {p : Nat} (h1 : wr m p X = .ok m1)
    (h2 : wr m1 (p + X.length) Y = .ok m2) : wr m p (X ++ Y) = .ok m2 := by
  obtain ⟨a1, a2⟩ := wr_eq_ok.mp h1
  obtain ⟨b1, b2⟩ := wr_eq_ok.mp h2
  have hl := wr_length h1
  apply wr_eq_ok.mpr
  refine ⟨by simp; omega, ?_⟩
  rw [b2, wr_take h1, wr_drop h1 (by omega)]
  simp [Nat.add_assoc]

theorem wr_wr_same {m m1 m2 X Y : List Nat} {p : Nat} (h1 : wr m p X = .ok m1)
    (h2 : wr m1 p Y = .ok m2) (hl : Y.length = X.length) : wr m p Y = .ok m2 := by
  obtain ⟨a1, a2⟩ := wr_eq_ok.mp h1
  obtain ⟨b1, b2⟩ := wr_eq_ok.mp h2
  have hl1 := wr_length h1
  apply wr_eq_ok.mpr
  refine ⟨by omega, ?_⟩
  rw [b2, wr_take_le h1 (Nat.le_refl p), wr_drop h1 (by omega)]

theorem wr_nil {m : List Nat} {p : Nat} (h : p ≤ m.length) : wr m p [] = .ok m := by
  apply wr_eq_ok.mpr
  simp [h]

theorem cstr_after_wr {m m' s : List Nat} {p : Nat} (h : wr m p (s ++ [0]) = .ok m')
    (hs : ∀ c ∈ s, c ≠ 0) : cstr m' p = .ok s := by
  have := wr_drop_at h
  rw [List.append_assoc] at this
  exact cstr_of_drop this hs

theorem cstr_inj {m : List Nat} {p : Nat} {s t : List Nat} (h1 : cstr m p = .ok s)
    (h2 : cstr m p = .ok t) : s = t := by
  rw [h1] at h2
  exact Except.ok.inj h2

/-- The call of `canonicalize_path` in the directory loop, the separator
translation and the `strlen` that follows, for a source string `rem`. -/
theorem canon_write {src mem1 mem2 mem3 rem T out : List Nat} {readptr ptr1 : Nat} {w : Bool}
    (hsrc : src.drop readptr = rem ++ 0 :: T) (hrem : ∀ c ∈ rem, c ≠ 0)
    (h1 : canonicalize_path_at src readptr mem1 ptr1 = .ok mem2)
    (h2 : (if w then make_win_path_at mem2 ptr1 else pure mem2) = .ok mem3)
    (h3 : cstr mem3 ptr1 = .ok out) :
    out = win w (canonicalize_path rem) ∧ wr mem1 ptr1 (out ++ [0]) = .ok mem3 := by
  unfold canonicalize_path_at at h1
  obtain ⟨str, hs, hw⟩ := bind_eq_ok.mp h1
  have hstr : str = rem := cstr_inj hs (cstr_of_drop hsrc hrem)
  subst hstr
  have hc0 := canonicalize_path_no_nul hrem
  have hr2 : cstr mem2 ptr1 = .ok (canonicalize_path str) := cstr_after_wr hw hc0
  cases w with
  | false =>
    simp only [Bool.false_eq_true, if_false] at h2
    have : mem2 = mem3 := ok_inj h2
    subst this
    have ho : out = canonicalize_path str := cstr_inj h3 hr2
    subst ho
    simp only [win, Bool.false_eq_true, if_false]
    exact ⟨trivial, hw⟩
  | true =>
    simp only [if_true] at h2
    unfold make_win_path_at at h2
    obtain ⟨s2, hs2, hw2⟩ := bind_eq_ok.mp h2
    have : s2 = canonicalize_path str := cstr_inj hs2 hr2
    subst this
    have hw3 : wr mem2 ptr1 (make_win_path (canonicalize_path str) ++ [0]) = .ok mem3 := by
      have hd := wr_drop_at hw
      obtain ⟨b1, b2⟩ := wr_eq_ok.mp hw2
      apply wr_eq_ok.mpr
      have hl2 := wr_length hw
      obtain ⟨a1, _⟩ := wr_eq_ok.mp hw
      simp only [List.length_append, List.length_singleton, make_win_path_length] at a1 b1 ⊢
      refine ⟨by omega, ?_⟩
      rw [b2, make_win_path_length]
      have : mem2.drop (ptr1 + (canonicalize_path str).length)
          = 0 :: mem2.drop (ptr1 + ((canonicalize_path str).length + 1)) := by
        have h5 : mem2.drop (ptr1 + (canonicalize_path str).length)
            = (mem2.drop ptr1).drop (canonicalize_path str).length := by
          rw [List.drop_drop]
        have h6 : mem2.drop (ptr1 + ((canonicalize_path str).length + 1))
            = (mem2.drop ptr1).drop ((canonicalize_path str).length + 1) := by
          rw [List.drop_drop]
        rw [h5, h6, hd]
        simp [List.drop_append]
      rw [this]
      simp
    have hw4 : wr mem1 ptr1 (make_win_path (canonicalize_path str) ++ [0]) = .ok mem3 :=
      wr_wr_same hw hw3 (by simp [make_win_path_length])
    have ho : out = make_win_path (canonicalize_path str) :=
      cstr_inj h3 (cstr_after_wr hw4 (make_win_path_no_nul hc0))
    subst ho
    simp only [win, if_true]
    exact ⟨trivial, hw4⟩

/-! ## One directory entry -/

theorem has_prefix_iff {s p : List Nat} :
    has_prefix s p = true ↔ p.length ≤ s.length ∧ s.take p.length = p := by
  unfold has_prefix
  by_cases h : s.length < p.length
  · simp [h]
  · simp [h]; intro _; omega

theorem under_base_iff {base e : List Nat} :
    under_base base e = true ↔ e.head? = some 47 ∧ has_prefix e base = true := by
  simp [under_base]

theorem SIZE_MOD_eq : SIZE_MOD = 18446744073709551616 := by
  unfold SIZE_MOD; norm_num

theorem dir_entry_spec {w : Bool} {base dest : List Nat} {buf : Option (List Nat)}
    {st st' : LineRw} {c : Nat} {e T : List Nat}
    (hsrc : (src_of buf st.mem).drop st.srcptr = e ++ 0 :: T)
    (he0 : ∀ x ∈ e, x ≠ 0) (hc : e.head? = some c)
    (hmode : buf = none → st.ptr ≤ st.srcptr)
    (hlen : dest.length ≤ base.length)
    (hfit : e.length + 2 < SIZE_MOD)
    (h : dir_entry w base dest buf st c e = .ok st') :
    st'.srcptr = st.srcptr + e.length + 1 ∧
    st'.ptr = st.ptr + (new_dir w base dest e).length + 1 ∧
    wr st.mem st.ptr (new_dir w base dest e ++ [0]) = .ok st'.mem ∧
    (st'.shrank : Int) = ((st.shrank : Int) + shr1 base e) % SIZE_MOD ∧
    st'.abs_dir_cnt = st.abs_dir_cnt +
      (if under_base base e = true ∧ dest.length < base.length then 1 else 0) := by
  have hpre : (decide (c = 47) && has_prefix e base) = under_base base e := by
    simp [under_base, hc]
  have hrest0 : ∀ x ∈ dir_rest base e, x ≠ 0 := by
    intro x hx
    unfold dir_rest at hx
    split_ifs at hx
    · exact he0 x (List.mem_of_mem_drop hx)
    · exact he0 x hx
  have hcanon_len := canonicalize_path_length (dir_rest base e)
  have e1 := SIZE_MOD_eq
  unfold dir_entry at h
  simp only [hpre] at h
  by_cases hu : under_base base e = true
  · -- the entry is under the base prefix
    simp only [hu, if_true, Bool.true_and] at h
    obtain ⟨mem1, hm1, k1⟩ := bind_eq_ok.mp h
    obtain ⟨mem2, hm2, k2⟩ := bind_eq_ok.mp k1
    obtain ⟨mem3, hm3, k3⟩ := bind_eq_ok.mp k2
    obtain ⟨out, hout, k4⟩ := bind_eq_ok.mp k3
    clear h k1 k2 k3
    by_cases hover : out.length + 1 > e.length + 1
    · rw [if_pos hover] at k4; cases k4
    rw [if_neg hover] at k4
    have hst := ok_inj k4
    clear k4
    obtain ⟨_, hp⟩ := under_base_iff.mp hu
    obtain ⟨hbl, hbt⟩ := has_prefix_iff.mp hp
    have hrest : dir_rest base e = e.drop base.length := by simp [dir_rest, hu]
    have hsrc1 : (src_of buf mem1).drop (st.srcptr + base.length)
        = e.drop base.length ++ 0 :: T := by
      have h0 : (src_of buf st.mem).drop (st.srcptr + base.length)
          = e.drop base.length ++ 0 :: T := by
        rw [← List.drop_drop, hsrc, List.drop_append_of_le_length hbl]
      cases hb : buf with
      | some B => simpa [src_of, hb] using h0
      | none =>
        have hle := hmode hb
        simp only [src_of, hb, Option.getD_none] at h0 ⊢
        rw [wr_drop hm1 (by omega)]
        exact h0
    obtain ⟨ho, hw⟩ := canon_write hsrc1 (by rw [← hrest]; exact hrest0) hm2 hm3 hout
    rw [← hrest] at ho
    have hnd : new_dir w base dest e = dest ++ out := by simp [new_dir, hu, ho]
    have hol : out.length = (canonicalize_path (dir_rest base e)).length := by
      rw [ho]; unfold win; split_ifs <;> simp [make_win_path_length]
    have hrl : (dir_rest base e).length = e.length - base.length := by simp [hrest]
    rw [← hst]
    refine ⟨by simp; omega, ?_, ?_, ?_, ?_⟩
    · simp [hnd]; omega
    · rw [hnd, List.append_assoc]
      exact wr_wr_append hm1 hw
    · simp only [shr1, hrl, ← hol]
      rw [e1] at hfit ⊢
      have : st.srcptr + (e.length + 1) - (st.srcptr + base.length)
          = e.length + 1 - base.length := by omega
      rw [this]
      omega
    · by_cases hl2 : dest.length < base.length
      · simp [hu, hl2]
      · simp [hu, hl2]
  · -- the entry is not rewritten
    have hu' : under_base base e = false := by simpa using hu
    simp only [hu', Bool.false_eq_true, if_false, Bool.false_and] at h
    obtain ⟨mem1, hm1, k1⟩ := bind_eq_ok.mp h
    obtain ⟨mem2, hm2, k2⟩ := bind_eq_ok.mp k1
    obtain ⟨mem3, hm3, k3⟩ := bind_eq_ok.mp k2
    obtain ⟨out, hout, k4⟩ := bind_eq_ok.mp k3
    clear h k1 k2 k3
    by_cases hover : out.length + 1 > e.length + 1
    · rw [if_pos hover] at k4; cases k4
    rw [if_neg hover] at k4
    have hst := ok_inj k4
    clear k4
    have : st.mem = mem1 := ok_inj hm1
    subst this
    have hrest : dir_rest base e = e := by simp [dir_rest, hu']
    obtain ⟨ho, hw⟩ := canon_write hsrc (by rw [← hrest]; exact hrest0) hm2 hm3 hout
    rw [← hrest] at ho
    have hnd : new_dir w base dest e = out := by simp [new_dir, hu', ho]
    have hol : out.length = (canonicalize_path (dir_rest base e)).length := by
      rw [ho]; unfold win; split_ifs <;> simp [make_win_path_length]
    rw [← hst]
    refine ⟨by simp; omega, ?_, ?_, ?_, ?_⟩
    · simp [hnd]; omega
    · rw [hnd]; exact hw
    · simp only [shr1, hrest, ← hol]
      rw [hrest] at hol
      rw [e1] at hfit ⊢
      have : st.srcptr + (e.length + 1) - st.srcptr = e.length + 1 := by omega
      rw [this]
      omega
    · simp [hu']

/-! ## The directory loop -/

theorem encD_nil : encD [] = [] := rfl

theorem encD_cons (e : List Nat) (ds : List (List Nat)) : encD (e :: ds) = e ++ 0 :: encD ds := by
  simp [encD]

theorem encD_append (a b : List (List Nat)) : encD (a ++ b) = encD a ++ encD b := by
  simp [encD]

theorem encD_snoc (a : List (List Nat)) (e : List Nat) : encD (a ++ [e]) = encD a ++ (e ++ [0]) := by
  simp [encD]

theorem shr_snoc (base : List Nat) (a : List (List Nat)) (e : List Nat) :
    shr base (a ++ [e]) = shr base a + shr1 base e := by
  simp [shr]

theorem cnt_under_snoc (base : List Nat) (a : List (List Nat)) (e : List Nat) :
    cnt_under base (a ++ [e]) = cnt_under base a + (if under_base base e = true then 1 else 0) := by
  simp [cnt_under, List.countP_append, List.countP_cons]

theorem new_dir_length (w : Bool) (base dest e : List Nat) :
    ((new_dir w base dest e).length : Int) =
      (if under_base base e = true then (dest.length : Int) else 0)
        + (dir_rest base e).length - shr1 base e := by
  have hw : (win w (canonicalize_path (dir_rest base e))).length
      = (canonicalize_path (dir_rest base e)).length := by
    unfold win; split_ifs <;> simp [make_win_path_length]
  unfold new_dir shr1
  rw [List.length_append, hw]
  split_ifs <;> simp <;> try omega

theorem dir_rest_length (base e : List Nat) :
    ((dir_rest base e).length : Int) =
      e.length - (if under_base base e = true then (base.length : Int) else 0) := by
  unfold dir_rest
  split_ifs with h
  · obtain ⟨_, hp⟩ := under_base_iff.mp h
    obtain ⟨hbl, _⟩ := has_prefix_iff.mp hp
    simp
    omega
  · simp

theorem shr1_ge (base e : List Nat) (he : e ≠ []) :
    -1 ≤ shr1 base e ∧ (under_base base e = false → 0 ≤ shr1 base e) := by
  have h := canonicalize_path_length (dir_rest base e)
  unfold shr1
  constructor
  · omega
  · intro hu
    have : dir_rest base e = e := by simp [dir_rest, hu]
    rw [this] at h ⊢
    have : 0 < e.length := List.length_pos.mpr he
    omega

theorem rd_last_of_wr {m mem Y : List Nat} {dir : Nat} (h : wr m dir (Y ++ [0]) = .ok mem) :
    rd mem (dir + Y.length) = .ok 0 := by
  apply rd_eq_ok.mpr
  have := wr_drop_at h
  refine ⟨m.drop (dir + (Y ++ [0]).length), ?_⟩
  rw [← List.drop_drop, this, List.append_assoc, List.drop_left]
  rfl

theorem dir_rewrite_stop {w : Bool} {base dest : List Nat} {buf : Option (List Nat)}
    {fuel : Nat} {st st' : LineRw} (hr : rd (src_of buf st.mem) st.srcptr = .ok 0)
    (h : dir_rewrite w base dest buf fuel st = .ok st') : st' = st := by
  cases fuel with
  | zero => simp [dir_rewrite] at h
  | succ n =>
    unfold dir_rewrite at h
    rw [hr] at h
    simp at h
    exact h.symm

theorem dir_rewrite_spec {w : Bool} {base dest m : List Nat} {buf : Option (List Nat)}
    {dir s0 : Nat} {T : List Nat} {ds : List (List Nat)}
    (hlen : dest.length ≤ base.length)
    (hsrc0 : (src_of buf m).drop s0 = encD ds ++ 0 :: T)
    (hwf : ∀ e ∈ ds, e ≠ [] ∧ (∀ x ∈ e, x ≠ 0) ∧ e.length + 2 < SIZE_MOD) :
    ∀ (fuel : Nat) (todo done : List (List Nat)) (st st' : LineRw),
      ds = done ++ todo → DirInv w base dest m dir s0 done st →
      (buf = none → st.ptr ≤ st.srcptr) →
      dir_rewrite w base dest buf fuel st = .ok st' →
      ∃ done' todo', ds = done' ++ todo' ∧ DirInv w base dest m dir s0 done' st' ∧
        (todo' = [] ∨ (buf = none ∧ st'.srcptr < st'.ptr)) := by
  intro fuel
  induction fuel with
  | zero => intro todo done st st' _ _ _ h; simp [dir_rewrite] at h
  | succ n ih =>
    intro todo done st st' hds hinv hmode h
    obtain ⟨i1, i2, i3, i4, i5⟩ := hinv
    -- the source at `srcptr`
    have hview : (src_of buf st.mem).drop st.srcptr = encD todo ++ 0 :: T := by
      have h0 : (src_of buf m).drop st.srcptr = encD todo ++ 0 :: T := by
        rw [i1, ← List.drop_drop, hsrc0, hds, encD_append, List.append_assoc, List.drop_left]
      cases hb : buf with
      | some B => simpa [src_of, hb] using h0
      | none =>
        have hle := hmode hb
        simp only [src_of, hb, Option.getD_none] at h0 ⊢
        rw [wr_drop i3 (by omega)]
        exact h0
    cases todo with
    | nil =>
      have hr : rd (src_of buf st.mem) st.srcptr = .ok 0 := by
        apply rd_eq_ok.mpr
        exact ⟨T, by simpa [encD_nil] using hview⟩
      have := dir_rewrite_stop hr h
      subst this
      exact ⟨done, [], hds, ⟨i1, i2, i3, i4, i5⟩, Or.inl rfl⟩
    | cons e rest =>
      obtain ⟨hne, he0, hfit⟩ := hwf e (by rw [hds]; simp)
      obtain ⟨c, e', rfl⟩ := List.exists_cons_of_ne_nil hne
      have hc0 : c ≠ 0 := he0 c (List.mem_cons_self _ _)
      have hview' : (src_of buf st.mem).drop st.srcptr
          = (c :: e') ++ 0 :: (encD rest ++ 0 :: T) := by
        rw [hview, encD_cons]; simp
      have hr : rd (src_of buf st.mem) st.srcptr = .ok c := by
        apply rd_eq_ok.mpr
        exact ⟨_, by rw [hview']; rfl⟩
      have hcs : cstr (src_of buf st.mem) st.srcptr = .ok (c :: e') := cstr_of_drop hview' he0
      unfold dir_rewrite at h
      rw [hr] at h
      simp only [bind_ok_eq, hc0, if_false, hcs] at h
      obtain ⟨st1, hst1, h2⟩ := bind_eq_ok.mp h
      clear h
      obtain ⟨j1, j2, j3, j4, j5⟩ :=
        dir_entry_spec hview' he0 (by simp) hmode hlen hfit hst1
      have hinv1 : DirInv w base dest m dir s0 (done ++ [c :: e']) st1 := by
        refine ⟨?_, ?_, ?_, ?_, ?_⟩
        · rw [j1, i1, encD_snoc]; simp; omega
        · rw [j2, i2, List.map_append, List.map_singleton, encD_snoc]; simp; omega
        · rw [List.map_append, List.map_singleton, encD_snoc]
          rw [i2] at j3
          exact wr_wr_append i3 j3
        · rw [j4, i4, shr_snoc]
          have e1 := SIZE_MOD_eq
          rw [e1]
          omega
        · rw [j5, i5, cnt_under_snoc]
          by_cases hl : dest.length < base.length
          · simp [hl]
          · simp [hl]
      have hds1 : ds = (done ++ [c :: e']) ++ rest := by rw [hds]; simp
      by_cases hq : buf = none ∧ st1.srcptr < st1.ptr
      · -- the output has overtaken the source: the loop reads the terminator just stored
        obtain ⟨hb, hlt⟩ := hq
        have hle := hmode hb
        have hnl := new_dir_length w base dest (c :: e')
        have hrl := dir_rest_length base (c :: e')
        have hsg := shr1_ge base (c :: e') hne
        have hpos : st1.ptr = st1.srcptr + 1 := by
          rw [j1, j2] at hlt ⊢
          by_cases hu : under_base base (c :: e') = true
          · simp only [hu, if_true] at hnl hrl
            omega
          · have hu' : under_base base (c :: e') = false := by simpa using hu
            have := hsg.2 hu'
            simp only [hu', Bool.false_eq_true, if_false] at hnl hrl
            omega
        have hr1 : rd (src_of buf st1.mem) st1.srcptr = .ok 0 := by
          obtain ⟨_, k2, k3, _, _⟩ := hinv1
          rw [List.map_append, List.map_singleton, encD_snoc, ← List.append_assoc] at k3
          have := rd_last_of_wr k3
          simp only [src_of, hb, Option.getD_none]
          have hp : st1.srcptr = dir + (encD (List.map (new_dir w base dest) done)
              ++ new_dir w base dest (c :: e')).length := by
            rw [k2, List.map_append, List.map_singleton, encD_snoc] at hpos
            simp at hpos ⊢
            omega
          rw [hp]
          exact this
        have := dir_rewrite_stop hr1 h2
        subst this
        exact ⟨done ++ [c :: e'], rest, hds1, hinv1, Or.inr ⟨hb, hlt⟩⟩
      · have hmode1 : buf = none → st1.ptr ≤ st1.srcptr := by
          intro hb
          by_contra hlt
          exact hq ⟨hb, by omega⟩
        exact ih rest (done ++ [c :: e']) st1 st' hds1 hinv1 hmode1 h2

/-! ## The fillers -/

theorem filler_length (n : Nat) : (filler n).length = n := by
  unfold filler
  split_ifs with h
  · simp [h]
  · simp; omega

theorem fill_shrank_spec {st st' : LineRw} {S : Int}
    (hS : (st.shrank : Int) = S % SIZE_MOD) (hlo : -(2 ^ 63 : Int) < S)
    (hhi : S < 2 ^ 63) (hm : st.mem.length < 2 ^ 63) (hp : st.ptr ≤ st.mem.length)
    (h : fill_shrank st = .ok st') :
    0 ≤ S ∧ S ≠ 1 ∧ wr st.mem st.ptr (filler S.toNat) = .ok st'.mem ∧
      st'.ptr = st.ptr + S.toNat ∧ st'.srcptr = st.srcptr ∧
      st'.abs_dir_cnt = st.abs_dir_cnt ∧ st'.dirty = st.dirty := by
  have e1 := SIZE_MOD_eq
  rw [e1] at hS
  unfold fill_shrank at h
  by_cases h0 : st.shrank > 0
  · rw [if_pos h0] at h
    simp only at h
    by_cases h1 : st.shrank - 1 = 0
    · rw [if_pos h1] at h; cases h
    · rw [if_neg h1] at h
      obtain ⟨mem1, hm1, k1⟩ := bind_eq_ok.mp h
      obtain ⟨mem2, hm2, k2⟩ := bind_eq_ok.mp k1
      clear h k1
      have hst := ok_inj k2
      clear k2
      rw [memset_eq_wr] at hm1
      obtain ⟨a1, _⟩ := wr_eq_ok.mp hm1
      simp only [List.length_replicate] at a1
      have hSn : S.toNat = st.shrank := by omega
      have hS0 : 0 ≤ S := by omega
      have hf : filler S.toNat = List.replicate (st.shrank - 1) 88 ++ [0] := by
        unfold filler
        rw [hSn, if_neg (by omega)]
      rw [← hst]
      refine ⟨hS0, by omega, ?_, ?_, rfl, rfl, rfl⟩
      · rw [hf]
        refine wr_wr_append hm1 ?_
        simpa using hm2
      · simp only
        omega
  · rw [if_neg h0] at h
    have hst := ok_inj h
    subst hst
    have hS0 : S = 0 := by omega
    subst hS0
    refine ⟨by omega, by omega, ?_, by simp, rfl, rfl, rfl⟩
    simp only [filler, Int.toNat_zero, if_true]
    exact wr_nil hp

theorem fill_abs_spec {st st' : LineRw} {b d afc : Nat} (hdb : d ≤ b)
    (hN : (st.abs_dir_cnt + afc) * (b - d) < 2 ^ 63) (hb : b < 2 ^ 63)
    (hm : st.mem.length < 2 ^ 63) (hp : st.ptr ≤ st.mem.length)
    (h : fill_abs b d afc st = .ok st') :
    (st.abs_dir_cnt + afc) * (b - d) ≠ 1 ∧
      wr st.mem st.ptr (filler ((st.abs_dir_cnt + afc) * (b - d))) = .ok st'.mem ∧
      st'.ptr = st.ptr + (st.abs_dir_cnt + afc) * (b - d) ∧ st'.srcptr = st.srcptr ∧
      st'.dirty = st.dirty := by
  have e1 := SIZE_MOD_eq
  unfold fill_abs at h
  have hbd : (b + SIZE_MOD - d) % SIZE_MOD = b - d := by
    rw [e1]; omega
  rw [hbd] at h
  generalize hNN : (st.abs_dir_cnt + afc) * (b - d) = N at h hN ⊢
  have hNm : N % SIZE_MOD = N := by rw [e1]; omega
  rw [hNm] at h
  by_cases h0 : st.abs_dir_cnt + afc ≠ 0
  · rw [if_pos h0] at h
    simp only at h
    by_cases h1 : N = 1
    · rw [if_pos h1] at h; cases h
    · rw [if_neg h1] at h
      obtain ⟨mem1, hm1, k1⟩ := bind_eq_ok.mp h
      obtain ⟨mem2, hm2, k2⟩ := bind_eq_ok.mp k1
      clear h k1
      have hst := ok_inj k2
      clear k2
      rw [memset_eq_wr] at hm1
      obtain ⟨a1, _⟩ := wr_eq_ok.mp hm1
      simp only [List.length_replicate] at a1
      have hN0 : N ≠ 0 := by
        intro hz
        rw [hz, e1] at a1
        norm_num at a1
        omega
      have hn : (N + SIZE_MOD - 1) % SIZE_MOD = N - 1 := by rw [e1]; omega
      rw [hn] at hm1 hm2 hst
      rw [← hst]
      refine ⟨h1, ?_, ?_, rfl, rfl⟩
      · unfold filler
        rw [if_neg hN0]
        refine wr_wr_append hm1 ?_
        simpa using hm2
      · simp only
        omega
  · rw [if_neg h0] at h
    have hst := ok_inj h
    subst hst
    have hz : N = 0 := by
      rw [← hNN]
      have : st.abs_dir_cnt + afc = 0 := by omega
      rw [this]; simp
    subst hz
    refine ⟨by omega, ?_, by simp, rfl, rfl⟩
    simp only [filler, if_true]
    exact wr_nil hp

/-! ## uLEB128 numbers -/

theorem uleb_loop_take : ∀ (l : List Nat) (r s n v k : Nat),
    uleb_loop l r s n = .ok (v, k) →
      ∃ c, k = n + c ∧ 1 ≤ c ∧ c ≤ l.length ∧
        ∀ T, uleb_loop (l.take c ++ T) r s n = .ok (v, k) := by
  intro l
  induction l with
  | nil => intro r s n v k h; simp [uleb_loop] at h
  | cons b t ih =>
    intro r s n v k h
    unfold uleb_loop at h
    simp only at h
    by_cases hc : b &&& 0x80 ≠ 0
    · rw [if_pos hc] at h
      obtain ⟨c, h1, h2, h3, h4⟩ := ih _ _ _ _ _ h
      refine ⟨c + 1, by omega, by omega, by simp; omega, ?_⟩
      intro T
      simp only [List.take_succ_cons, List.cons_append]
      unfold uleb_loop
      simp only
      rw [if_pos hc]
      exact h4 T
    · rw [if_neg hc] at h
      refine ⟨1, ?_, by omega, by simp, ?_⟩
      · have := Except.ok.inj h
        have := congrArg Prod.snd this
        simp at this
        exact this.symm
      · intro T
        simp only [List.take_succ_cons, List.take_zero, List.cons_append, List.nil_append]
        unfold uleb_loop
        simp only
        rw [if_neg hc]
        exact h

theorem read_uleb128_eq_ok {m : List Nat} {p : Nat} {r : Nat × Nat} :
    read_uleb128 m p = .ok r ↔ ∃ n, uleb_loop (m.drop p) 0 0 0 = .ok (r.1, n) ∧ r.2 = p + n := by
  unfold read_uleb128
  constructor
  · intro h
    obtain ⟨u, h1, h2⟩ := bind_eq_ok.mp h
    have := ok_inj h2
    subst this
    exact ⟨u.2, h1, rfl⟩
  · rintro ⟨n, h1, h2⟩
    rw [h1]
    simp only [bind_ok_eq, pure_eq_ok]
    cases r
    simp at h2 ⊢
    exact h2.symm

/-- Reading a number at `p` looks only at the bytes from `p` on, and of
these only at the ones it consumes. -/
theorem read_uleb128_local {m : List Nat} {p : Nat} {r : Nat × Nat}
    (h : read_uleb128 m p = .ok r) :
    ∃ c, r.2 = p + c ∧ 1 ≤ c ∧ p + c ≤ m.length ∧
      ∀ (m' : List Nat) (q : Nat) (T : List Nat), m'.drop q = (m.drop p).take c ++ T →
        read_uleb128 m' q = .ok (r.1, q + c) := by
  obtain ⟨n, h1, h2⟩ := read_uleb128_eq_ok.mp h
  obtain ⟨c, k1, k2, k3, k4⟩ := uleb_loop_take _ _ _ _ _ _ h1
  have hnc : n = c := by omega
  have hl : p + c ≤ m.length := by
    simp at k3; omega
  refine ⟨c, by omega, k2, hl, ?_⟩
  intro m' q T hm'
  apply read_uleb128_eq_ok.mpr
  refine ⟨c, ?_, rfl⟩
  rw [hm']
  have := k4 T
  rw [hnc] at this
  exact this

theorem skip3_local {m : List Nat} {p q : Nat} (h : skip3 m p = .ok q) :
    p ≤ q ∧ q ≤ m.length ∧
      ∀ (m' : List Nat) (p' : Nat) (T : List Nat), m'.drop p' = (m.drop p).take (q - p) ++ T →
        skip3 m' p' = .ok (p' + (q - p)) := by
  unfold skip3 at h
  obtain ⟨u1, h1, k1⟩ := bind_eq_ok.mp h
  obtain ⟨u2, h2, k2⟩ := bind_eq_ok.mp k1
  obtain ⟨u3, h3, k3⟩ := bind_eq_ok.mp k2
  clear h k1 k2
  have hq := ok_inj k3
  clear k3
  obtain ⟨c1, a1, a2, a3, a4⟩ := read_uleb128_local h1
  obtain ⟨c2, b1, b2, b3, b4⟩ := read_uleb128_local h2
  obtain ⟨c3, d1, d2, d3, d4⟩ := read_uleb128_local h3
  have hq' : q = p + (c1 + c2 + c3) := by omega
  refine ⟨by omega, by omega, ?_⟩
  intro m' p' T hm'
  have hsub : q - p = c1 + c2 + c3 := by omega
  rw [hsub] at hm' ⊢
  -- the three pieces
  have hsplit : (m.drop p).take (c1 + c2 + c3)
      = (m.drop p).take c1 ++ ((m.drop (p + c1)).take c2 ++ (m.drop (p + c1 + c2)).take c3) := by
    rw [Nat.add_assoc, List.take_add, List.take_add, List.drop_drop, List.drop_drop]
  rw [hsplit] at hm'
  have e1 := a4 m' p' _ (by rw [hm', List.append_assoc])
  have hm2 : m'.drop (p' + c1) = (m.drop (p + c1)).take c2
      ++ ((m.drop (p + c1 + c2)).take c3 ++ T) := by
    rw [← List.drop_drop, hm']
    have hl1 : ((m.drop p).take c1).length = c1 := by simp; omega
    rw [List.append_assoc, List.drop_left' hl1, List.append_assoc]
  rw [a1] at h2 b1 b4
  have e2 := b4 m' (p' + c1) _ hm2
  have hm3 : m'.drop (p' + c1 + c2) = (m.drop (p + c1 + c2)).take c3 ++ T := by
    rw [← List.drop_drop, hm2]
    have hl1 : ((m.drop (p + c1)).take c2).length = c2 := by simp; omega
    rw [List.drop_left' hl1]
  rw [b1] at h3 d1 d4
  have e3 := d4 m' (p' + c1 + c2) _ hm3
  unfold skip3
  rw [e1]
  simp only [bind_ok_eq]
  rw [e2]
  simp only [bind_ok_eq]
  rw [e3]
  simp only [bind_ok_eq, pure_eq_ok]
  congr 1
  omega

theorem skip3_of_three_ulebs {m : List Nat} {p : Nat} {ul T : List Nat}
    (hul : three_ulebs ul) (hm : m.drop p = ul ++ T) : skip3 m p = .ok (p + ul.length) := by
  have h0 := hul T
  obtain ⟨_, _, h3⟩ := skip3_local h0
  have := h3 m p T (by simp [hm])
  simpa using this

theorem three_ulebs_of_skip3 {m : List Nat} {p q : Nat} (h : skip3 m p = .ok q) :
    three_ulebs ((m.drop p).take (q - p)) ∧ ((m.drop p).take (q - p)).length = q - p := by
  obtain ⟨h1, h2, h3⟩ := skip3_local h
  have hl : ((m.drop p).take (q - p)).length = q - p := by simp; omega
  refine ⟨?_, hl⟩
  intro T
  have := h3 ((m.drop p).take (q - p) ++ T) 0 T (by simp)
  rw [hl]
  simpa using this

/-! ## The file loop -/

theorem wr_extend {m m1 X Y Z : List Nat} {p : Nat} (h : wr m p X = .ok m1)
    (hd : m.drop (p + X.length) = Y ++ Z) : wr m p (X ++ Y) = .ok m1 := by
  obtain ⟨a1, a2⟩ := wr_eq_ok.mp h
  apply wr_eq_ok.mpr
  have hl : (Y ++ Z).length = m.length - (p + X.length) := by rw [← hd]; simp
  simp at hl
  refine ⟨by simp; omega, ?_⟩
  rw [a2, hd]
  have : m.drop (p + (X ++ Y).length) = Z := by
    have : p + (X ++ Y).length = (p + X.length) + Y.length := by simp; omega
    rw [this, ← List.drop_drop, hd, List.drop_left]
  rw [this]
  simp

theorem le_length_of_drop {m X Z : List Nat} {p : Nat} (hd : m.drop p = X ++ Z)
    (hX : X ≠ []) : p ≤ m.length := by
  by_contra hlt
  have : m.drop p = [] := List.drop_eq_nil_of_le (by omega)
  rw [this] at hd
  have h3 := congrArg List.length hd
  have : 0 < X.length := List.length_pos.mpr hX
  simp at h3
  omega

theorem wr_same {m X Z : List Nat} {p : Nat} (hd : m.drop p = X ++ Z) (hp : p ≤ m.length) :
    wr m p X = .ok m := by
  have h0 := wr_extend (wr_nil hp) (by simpa using hd) (Y := X) (Z := Z)
  simpa using h0

theorem encF_cons (f : List Nat × List Nat) (fs : List (List Nat × List Nat)) :
    encF (f :: fs) = f.1 ++ 0 :: f.2 ++ encF fs := by
  simp [encF]

theorem encF_append (a b : List (List Nat × List Nat)) : encF (a ++ b) = encF a ++ encF b := by
  simp [encF]

theorem encF_snoc (a : List (List Nat × List Nat)) (f : List Nat × List Nat) :
    encF (a ++ [f]) = encF a ++ (f.1 ++ 0 :: f.2) := by
  simp [encF]

theorem rdn_of_drop {m X Z : List Nat} {p n : Nat} (hd : m.drop p = X ++ Z) (hn : n = X.length)
    (hp : p ≤ m.length) : rdn m p n = .ok X := by
  apply rdn_eq_ok.mpr
  have hl : (X ++ Z).length = m.length - p := by rw [← hd]; simp
  simp at hl
  refine ⟨by omega, ?_⟩
  rw [hd, hn, List.take_left]

theorem new_file_fst (base dest : List Nat) (f : List Nat × List Nat) :
    (new_file base dest f).1 = (if under_base base f.1 = true then dest ++ f.1.drop base.length
      else f.1) ∧ (new_file base dest f).2 = f.2 := by
  unfold new_file
  split_ifs <;> simp

theorem file_entry_spec {base dest : List Nat} {buf : Option (List Nat)} {mem : List Nat}
    {srcptr ptr : Nat} {dirty : Bool} {c : Nat} {name ul T : List Nat}
    {r : List Nat × Nat × Bool} {u : List Nat × Nat × Nat}
    (hsrc : (src_of buf mem).drop srcptr = name ++ 0 :: (ul ++ T))
    (hc : name.head? = some c) (hul : three_ulebs ul)
    (hlen : dest.length ≤ base.length)
    (hmode : buf = none → ptr = srcptr ∧ (under_base base name = true → dest.length = base.length))
    (hsnap : buf.isSome = true → dest.length < base.length)
    (h1 : file_name base dest buf mem srcptr ptr dirty c name = .ok r)
    (h2 : file_ulebs buf r.1 (srcptr + name.length + 1) r.2.1 = .ok u) :
    wr mem ptr ((new_file base dest (name, ul)).1 ++ 0 :: ul) = .ok u.1 ∧
      u.2.1 = srcptr + name.length + 1 + ul.length ∧
      u.2.2 = ptr + (new_file base dest (name, ul)).1.length + 1 + ul.length := by
  have hpre : (decide (c = 47) && has_prefix name base) = under_base base name := by
    simp [under_base, hc]
  have hnf := (new_file_fst base dest (name, ul)).1
  simp only at hnf
  -- the name
  have hname : wr mem ptr ((new_file base dest (name, ul)).1 ++ [0]) = .ok r.1 ∧
      r.2.1 = ptr + (new_file base dest (name, ul)).1.length + 1 ∧
      (buf = none → (new_file base dest (name, ul)).1.length = name.length) := by
    unfold file_name at h1
    simp only [hpre] at h1
    by_cases hu : under_base base name = true
    · simp only [hu, if_true] at h1 hnf
      obtain ⟨_, hp⟩ := under_base_iff.mp hu
      obtain ⟨hbl, hbt⟩ := has_prefix_iff.mp hp
      obtain ⟨m1, hm1, k1⟩ := bind_eq_ok.mp h1
      clear h1
      have htail : (src_of buf mem).drop (srcptr + base.length)
          = (name.drop base.length ++ [0]) ++ (ul ++ T) := by
        rw [← List.drop_drop, hsrc, List.drop_append_of_le_length hbl]
        simp
      by_cases hl : dest.length < base.length
      · rw [if_pos hl] at k1
        obtain ⟨tail, ht, k2⟩ := bind_eq_ok.mp k1
        obtain ⟨m2, hm2, k3⟩ := bind_eq_ok.mp k2
        clear k1 k2
        have hr := ok_inj k3
        clear k3
        cases hb : buf with
        | none => exact absurd ((hmode hb).2 hu) (by omega)
        | some B =>
          simp only [src_of, hb, Option.getD_some] at ht htail
          have : tail = name.drop base.length ++ [0] := by
            have := rdn_of_drop htail (n := name.length + 1 - base.length) (by simp; omega)
              (le_length_of_drop htail (by simp))
            rw [this] at ht
            exact (Except.ok.inj ht).symm
          subst this
          rw [← hr, hnf]
          refine ⟨?_, by simp; omega, by intro h; cases h⟩
          rw [List.append_assoc]
          exact wr_wr_append hm1 hm2
      · rw [if_neg hl] at k1
        have hr := ok_inj k1
        clear k1
        have hdb : dest.length = base.length := by omega
        cases hb : buf with
        | some B => exact absurd (hsnap (by simp [hb])) hl
        | none =>
          obtain ⟨hps, _⟩ := hmode hb
          simp only [src_of, hb, Option.getD_none] at htail
          rw [← hr, hnf]
          refine ⟨?_, by simp; omega, by intro _; simp; omega⟩
          rw [List.append_assoc]
          refine wr_extend hm1 ?_ (Z := ul ++ T)
          rw [hps, hdb]
          exact htail
    · have hu' : under_base base name = false := by simpa using hu
      simp only [hu', Bool.false_eq_true, if_false] at h1 hnf
      have hview : (src_of buf mem).drop srcptr = (name ++ [0]) ++ (ul ++ T) := by
        rw [hsrc]; simp
      by_cases hcond : (buf.isSome || ptr != srcptr) = true
      · rw [if_pos hcond] at h1
        obtain ⟨bs, hbs, k1⟩ := bind_eq_ok.mp h1
        obtain ⟨m1, hm1, k2⟩ := bind_eq_ok.mp k1
        clear h1 k1
        have hr := ok_inj k2
        clear k2
        have : bs = name ++ [0] := by
          have := rdn_of_drop hview (n := name.length + 1) (by simp)
            (le_length_of_drop hview (by simp))
          rw [this] at hbs
          exact (Except.ok.inj hbs).symm
        subst this
        rw [← hr, hnf]
        exact ⟨hm1, by simp; omega, by intro _; rfl⟩
      · rw [if_neg hcond] at h1
        have hr := ok_inj h1
        clear h1
        simp at hcond
        have hb : buf = none := by
          cases hbb : buf with
          | none => rfl
          | some B => simp [hbb] at hcond
        simp only [src_of, hb, Option.getD_none] at hview
        rw [← hr, hnf]
        refine ⟨?_, by simp; omega, by intro _; rfl⟩
        rw [hcond.2]
        exact wr_same hview (le_length_of_drop hview (by simp))
  obtain ⟨hn1, hn2, hn3⟩ := hname
  generalize (new_file base dest (name, ul)).1 = nm at hn1 hn2 hn3 ⊢
  -- the three numbers
  have hview2 : (src_of buf r.1).drop (srcptr + name.length + 1) = ul ++ T := by
    have h0 : (src_of buf mem).drop (srcptr + name.length + 1) = ul ++ T := by
      rw [Nat.add_assoc, ← List.drop_drop, hsrc]
      have : (name ++ 0 :: (ul ++ T)) = (name ++ [0]) ++ (ul ++ T) := by simp
      rw [this, List.drop_left' (by simp)]
    cases hb : buf with
    | some B => simpa [src_of, hb] using h0
    | none =>
      obtain ⟨hps, _⟩ := hmode hb
      have hl := hn3 hb
      simp only [src_of, hb, Option.getD_none] at h0 ⊢
      rw [wr_drop hn1 (by simp; omega)]
      exact h0
  have hsk := skip3_of_three_ulebs hul hview2
  have hend : srcptr + name.length + 1 ≤ (src_of buf r.1).length := by
    have := (skip3_local hsk).2.1
    omega
  unfold skip3 at hsk
  obtain ⟨u1, e1, k1⟩ := bind_eq_ok.mp hsk
  obtain ⟨u2, e2, k2⟩ := bind_eq_ok.mp k1
  obtain ⟨u3, e3, k3⟩ := bind_eq_ok.mp k2
  clear hsk k1 k2
  have hp3 := ok_inj k3
  clear k3
  unfold file_ulebs at h2
  rw [e1] at h2
  simp only [bind_ok_eq] at h2
  rw [e2] at h2
  simp only [bind_ok_eq] at h2
  rw [e3] at h2
  simp only [bind_ok_eq, hp3] at h2
  have hsub : srcptr + name.length + 1 + ul.length - (srcptr + name.length + 1) = ul.length := by
    omega
  rw [hsub] at h2
  by_cases hcond : (buf.isSome || r.2.1 != srcptr + name.length + 1) = true
  · rw [if_pos hcond] at h2
    obtain ⟨bs, hbs, k1⟩ := bind_eq_ok.mp h2
    obtain ⟨m1, hm1, k2⟩ := bind_eq_ok.mp k1
    clear h2 k1
    have hr := ok_inj k2
    clear k2
    have : bs = ul := by
      have := rdn_of_drop hview2 (n := ul.length) rfl hend
      rw [this] at hbs
      exact (Except.ok.inj hbs).symm
    subst this
    rw [← hr]
    refine ⟨?_, rfl, by simp; omega⟩
    have : nm ++ 0 :: bs = (nm ++ [0]) ++ bs := by simp
    rw [this]
    refine wr_wr_append hn1 ?_
    rw [hn2] at hm1
    simpa [Nat.add_assoc] using hm1
  · rw [if_neg hcond] at h2
    have hr := ok_inj h2
    clear h2
    simp at hcond
    have hb : buf = none := by
      cases hbb : buf with
      | none => rfl
      | some B => simp [hbb] at hcond
    simp only [src_of, hb, Option.getD_none] at hview2
    rw [← hr]
    refine ⟨?_, rfl, by simp; omega⟩
    have : nm ++ 0 :: ul = (nm ++ [0]) ++ ul := by simp
    rw [this]
    refine wr_wr_append hn1 ?_
    have hpos : ptr + (nm ++ [0]).length = srcptr + name.length + 1 := by
      rw [← hcond.2, hn2]; simp; omega
    rw [hpos]
    simp only [src_of, hb, Option.getD_none] at hend
    exact wr_same hview2 hend

theorem new_file_length (base dest : List Nat) (f : List Nat × List Nat)
    (hlen : dest.length ≤ base.length) :
    ((new_file base dest f).1.length : Int) =
      f.1.length - (if under_base base f.1 = true then ((base.length : Int) - dest.length) else 0) := by
  rw [(new_file_fst base dest f).1]
  split_ifs with h
  · obtain ⟨_, hp⟩ := under_base_iff.mp h
    obtain ⟨hbl, _⟩ := has_prefix_iff.mp hp
    simp
    omega
  · simp

theorem encF_new_length (base dest : List Nat) (hlen : dest.length ≤ base.length) :
    ∀ fs : List (List Nat × List Nat),
      ((encF (fs.map (new_file base dest))).length : Int) =
        (encF fs).length - (cnt_under base (fs.map Prod.fst) : Int) * ((base.length : Int) - dest.length) := by
  intro fs
  induction fs with
  | nil => simp [encF, cnt_under]
  | cons f rest ih =>
    rw [List.map_cons, encF_cons, encF_cons, List.map_cons]
    have h1 := new_file_length base dest f hlen
    have h2 := (new_file_fst base dest f).2
    simp only [List.length_append, List.length_cons, Nat.cast_add, Nat.cast_one, h2]
    rw [ih, h1]
    unfold cnt_under
    rw [List.countP_cons]
    split_ifs with hu
    · push_cast; ring
    · push_cast; ring

theorem cnt_under_zero {base : List Nat} {l : List (List Nat)}
    (h : ∀ e ∈ l, under_base base e = false) : cnt_under base l = 0 := by
  unfold cnt_under
  rw [List.countP_eq_zero]
  intro e he
  simp [h e he]

theorem encF_new_length_same {base dest : List Nat} (hlen : dest.length ≤ base.length)
    {fs : List (List Nat × List Nat)}
    (h : dest.length = base.length ∨ ∀ f ∈ fs, under_base base f.1 = false) :
    (encF (fs.map (new_file base dest))).length = (encF fs).length := by
  have h0 := encF_new_length base dest hlen fs
  rcases h with h | h
  · rw [h] at h0
    simp at h0
    exact_mod_cast h0
  · have : cnt_under base (fs.map Prod.fst) = 0 := by
      apply cnt_under_zero
      intro e he
      obtain ⟨f, hf, rfl⟩ := List.mem_map.mp he
      exact h f hf
    rw [this] at h0
    simp at h0
    exact_mod_cast h0

theorem file_rewrite_stop {base dest : List Nat} {buf : Option (List Nat)} {fuel : Nat}
    {mem : List Nat} {srcptr ptr : Nat} {dirty : Bool} {r : List Nat × Nat × Bool}
    (hr : rd (src_of buf mem) srcptr = .ok 0)
    (h : file_rewrite base dest buf fuel mem srcptr ptr dirty = .ok r) :
    r = (mem, ptr, dirty) := by
  cases fuel with
  | zero => simp [file_rewrite] at h
  | succ n =>
    unfold file_rewrite at h
    rw [hr] at h
    simp at h
    exact h.symm

theorem file_rewrite_spec {base dest mem_a : List Nat} {buf : Option (List Nat)}
    {pF sF : Nat} {T : List Nat} {fs : List (List Nat × List Nat)}
    (hlen : dest.length ≤ base.length)
    (hsrc0 : (src_of buf mem_a).drop sF = encF fs ++ 0 :: T)
    (hwf : ∀ f ∈ fs, wf_file f)
    (hinp : buf = none → pF = sF ∧
      (dest.length = base.length ∨ ∀ f ∈ fs, under_base base f.1 = false))
    (hsnap : buf.isSome = true → dest.length < base.length) :
    ∀ (fuel : Nat) (todo done : List (List Nat × List Nat)) (mem : List Nat)
      (srcptr ptr : Nat) (dirty : Bool) (r : List Nat × Nat × Bool),
      fs = done ++ todo → FileInv base dest mem_a pF sF done mem srcptr ptr →
      file_rewrite base dest buf fuel mem srcptr ptr dirty = .ok r →
      r.2.1 = pF + (encF (fs.map (new_file base dest))).length ∧
        wr mem_a pF (encF (fs.map (new_file base dest))) = .ok r.1 := by
  intro fuel
  induction fuel with
  | zero => intro todo done mem srcptr ptr dirty r _ _ h; simp [file_rewrite] at h
  | succ n ih =>
    intro todo done mem srcptr ptr dirty r hfs hinv h
    obtain ⟨i1, i2, i3⟩ := hinv
    -- in place, `ptr` and `srcptr` move together
    have hsame : buf = none → ptr = srcptr := by
      intro hb
      obtain ⟨hp, hq⟩ := hinp hb
      have hq' : dest.length = base.length ∨ ∀ f ∈ done, under_base base f.1 = false := by
        rcases hq with hq | hq
        · exact Or.inl hq
        · exact Or.inr (fun f hf => hq f (by rw [hfs]; exact List.mem_append_left _ hf))
      rw [i1, i2, encF_new_length_same hlen hq', hp]
    have hview : (src_of buf mem).drop srcptr = encF todo ++ 0 :: T := by
      have h0 : (src_of buf mem_a).drop srcptr = encF todo ++ 0 :: T := by
        rw [i1, ← List.drop_drop, hsrc0, hfs, encF_append, List.append_assoc, List.drop_left]
      cases hb : buf with
      | some B => simpa [src_of, hb] using h0
      | none =>
        have hps := hsame hb
        simp only [src_of, hb, Option.getD_none] at h0 ⊢
        rw [wr_drop i3 (by omega)]
        exact h0
    cases todo with
    | nil =>
      have hr : rd (src_of buf mem) srcptr = .ok 0 := by
        apply rd_eq_ok.mpr
        exact ⟨T, by simpa [encF] using hview⟩
      have := file_rewrite_stop hr h
      subst this
      simp only [List.append_nil] at hfs
      subst hfs
      exact ⟨i2, i3⟩
    | cons f rest =>
      obtain ⟨⟨hne, he0⟩, hul⟩ := hwf f (by rw [hfs]; simp)
      obtain ⟨name, ul⟩ := f
      simp only at hne he0 hul
      obtain ⟨c, e', rfl⟩ := List.exists_cons_of_ne_nil hne
      have hc0 : c ≠ 0 := he0 c (List.mem_cons_self _ _)
      have hview' : (src_of buf mem).drop srcptr
          = (c :: e') ++ 0 :: (ul ++ (encF rest ++ 0 :: T)) := by
        rw [hview, encF_cons]; simp
      have hr : rd (src_of buf mem) srcptr = .ok c := by
        apply rd_eq_ok.mpr
        exact ⟨_, by rw [hview']; rfl⟩
      have hcs : cstr (src_of buf mem) srcptr = .ok (c :: e') := cstr_of_drop hview' he0
      unfold file_rewrite at h
      rw [hr] at h
      simp only [bind_ok_eq, hc0, if_false, hcs] at h
      obtain ⟨r1, hr1, k1⟩ := bind_eq_ok.mp h
      obtain ⟨u, hu, k2⟩ := bind_eq_ok.mp k1
      clear h k1
      have hmode : buf = none → ptr = srcptr ∧
          (under_base base (c :: e') = true → dest.length = base.length) := by
        intro hb
        refine ⟨hsame hb, fun hun => ?_⟩
        rcases (hinp hb).2 with hq | hq
        · exact hq
        · have := hq (c :: e', ul) (by rw [hfs]; simp)
          simp only at this
          rw [this] at hun
          cases hun
      obtain ⟨j1, j2, j3⟩ := file_entry_spec hview' (by simp) hul hlen hmode hsnap hr1 hu
      have hinv1 : FileInv base dest mem_a pF sF (done ++ [(c :: e', ul)]) u.1 u.2.1 u.2.2 := by
        have hnf2 := (new_file_fst base dest (c :: e', ul)).2
        simp only at hnf2
        refine ⟨?_, ?_, ?_⟩
        · rw [j2, i1, encF_snoc]; simp; omega
        · rw [j3, i2, List.map_append, List.map_singleton, encF_snoc, hnf2]; simp; omega
        · rw [List.map_append, List.map_singleton, encF_snoc, hnf2]
          rw [i2] at j1
          exact wr_wr_append i3 j1
      exact ih rest (done ++ [(c :: e', ul)]) u.1 u.2.1 u.2.2 r1.2.2 r (by rw [hfs]; simp)
        hinv1 k2

/-! ## The rewrite of both tables -/

theorem encD_new_length (w : Bool) (base dest : List Nat) :
    ∀ ds : List (List Nat),
      ((encD (ds.map (new_dir w base dest))).length : Int) =
        (encD ds).length - (cnt_under base ds : Int) * ((base.length : Int) - dest.length)
          - shr base ds := by
  intro ds
  induction ds with
  | nil => simp [encD, cnt_under, shr]
  | cons e rest ih =>
    rw [List.map_cons, encD_cons, encD_cons]
    have h1 := new_dir_length w base dest e
    have h2 := dir_rest_length base e
    simp only [List.length_append, List.length_cons, Nat.cast_add, Nat.cast_one]
    rw [ih, h1, h2]
    unfold cnt_under shr
    rw [List.countP_cons, List.map_cons, List.sum_cons]
    split_ifs with hu
    · push_cast; ring
    · push_cast; ring

theorem shr_bounds (base : List Nat) : ∀ ds : List (List Nat), (∀ e ∈ ds, wf_str e) →
    -((encD ds).length : Int) ≤ shr base ds ∧ shr base ds ≤ (encD ds).length := by
  intro ds
  induction ds with
  | nil => intro _; simp [encD, shr]
  | cons e rest ih =>
    intro hwf
    obtain ⟨h1, h2⟩ := ih (fun x hx => hwf x (List.mem_cons_of_mem _ hx))
    have hne := (hwf e (List.mem_cons_self _ _)).1
    have h3 := (shr1_ge base e hne).1
    have h4 : shr1 base e ≤ e.length := by
      have := dir_rest_length base e
      unfold shr1
      split_ifs at this <;> omega
    rw [encD_cons]
    unfold shr at h1 h2 ⊢
    rw [List.map_cons, List.sum_cons]
    simp only [List.length_append, List.length_cons, Nat.cast_add, Nat.cast_one]
    omega

theorem cnt_under_le (base : List Nat) (k : Nat) (hk : k ≤ base.length) :
    ∀ ds : List (List Nat), cnt_under base ds * k ≤ (encD ds).length := by
  intro ds
  induction ds with
  | nil => simp [encD, cnt_under]
  | cons e rest ih =>
    rw [encD_cons]
    unfold cnt_under at ih ⊢
    rw [List.countP_cons]
    simp only [List.length_append, List.length_cons]
    split_ifs with hu
    · obtain ⟨_, hp⟩ := under_base_iff.mp hu
      obtain ⟨hbl, _⟩ := has_prefix_iff.mp hp
      rw [Nat.add_mul]
      omega
    · simp only [Nat.add_zero]
      omega

theorem cnt_under_le_files (base : List Nat) (k : Nat) (hk : k ≤ base.length) :
    ∀ fs : List (List Nat × List Nat),
      cnt_under base (fs.map Prod.fst) * k ≤ (encF fs).length := by
  intro fs
  induction fs with
  | nil => simp [encF, cnt_under]
  | cons f rest ih =>
    rw [encF_cons, List.map_cons]
    unfold cnt_under at ih ⊢
    rw [List.countP_cons]
    simp only [List.length_append, List.length_cons]
    split_ifs with hu
    · obtain ⟨_, hp⟩ := under_base_iff.mp hu
      obtain ⟨hbl, _⟩ := has_prefix_iff.mp hp
      rw [Nat.add_mul]
      omega
    · simp only [Nat.add_zero]
      omega

theorem length_of_drop {m X : List Nat} {p : Nat} (h : m.drop p = X) (hX : X ≠ []) :
    p + X.length = m.length := by
  have h1 := congrArg List.length h
  simp at h1
  have : 0 < X.length := List.length_pos.mpr hX
  omega

theorem mem_encD_length {ds : List (List Nat)} {e : List Nat} (h : e ∈ ds) :
    e.length + 1 ≤ (encD ds).length := by
  induction ds with
  | nil => cases h
  | cons x rest ih =>
    rw [encD_cons]
    simp only [List.length_append, List.length_cons]
    rcases List.mem_cons.mp h with h | h
    · subst h; omega
    · have := ih h; omega

/-- The rewriting part of `edit_dwarf2_line` after the choice of the source
buffer: the directory loop, the two fillers, the terminator of the
directory table, the file loop and the terminator of the file table. -/
theorem line_rewrite_core {w : Bool} {base dest m : List Nat} {buf : Option (List Nat)}
    {dir s0 afc : Nat} {ds : List (List Nat)} {fs : List (List Nat × List Nat)}
    {R : List Nat} {r : List Nat × Bool}
    (hlen : dest.length ≤ base.length) (hblen : base.length < 2 ^ 63)
    (hsrc0 : (src_of buf m).drop s0 = encD ds ++ 0 :: (encF fs ++ 0 :: R))
    (hds : ∀ e ∈ ds, wf_str e) (hfs : ∀ f ∈ fs, wf_file f)
    (hE : dir + (encD ds).length + 1 + (encF fs).length + 1 ≤ m.length)
    (hfit : m.length < 2 ^ 63)
    (hinp : buf = none → s0 = dir ∧ afc = 0 ∧
      (dest.length = base.length ∨ ∀ f ∈ fs, under_base base f.1 = false))
    (hsnap : buf.isSome = true → dest.length < base.length ∧
      afc = cnt_under base (fs.map Prod.fst))
    (h : (do
      let st ← dir_rewrite w base dest buf (m.length + 1) ⟨m, s0, dir, 0, 0, false⟩
      let st ← fill_shrank st
      let st ← fill_abs base.length dest.length afc st
      let mem ← wr st.mem st.ptr [0]
      let r ← file_rewrite base dest buf (m.length + 1) mem (st.srcptr + 1) (st.ptr + 1) st.dirty
      let mem ← wr r.1 r.2.1 [0]
      pure (mem, r.2.2)) = .ok r) :
    ∃ n1 n2, n1 ≠ 1 ∧ n2 ≠ 1 ∧
      wr m dir (encD (ds.map (new_dir w base dest)) ++ filler n1 ++ filler n2
        ++ 0 :: (encF (fs.map (new_file base dest)) ++ [0])) = .ok r.1 ∧
      (encD (ds.map (new_dir w base dest))).length + n1 + n2
        + (encF (fs.map (new_file base dest))).length = (encD ds).length + (encF fs).length := by
  have e1 := SIZE_MOD_eq
  obtain ⟨st1, hst1, k1⟩ := bind_eq_ok.mp h
  obtain ⟨st2, hst2, k2⟩ := bind_eq_ok.mp k1
  obtain ⟨st3, hst3, k3⟩ := bind_eq_ok.mp k2
  obtain ⟨mem4, hmem4, k4⟩ := bind_eq_ok.mp k3
  obtain ⟨r5, hr5, k5⟩ := bind_eq_ok.mp k4
  obtain ⟨mem6, hmem6, k6⟩ := bind_eq_ok.mp k5
  clear h k1 k2 k3 k4 k5
  have hres := ok_inj k6
  clear k6
  -- the directory loop
  have hwf : ∀ e ∈ ds, e ≠ [] ∧ (∀ x ∈ e, x ≠ 0) ∧ e.length + 2 < SIZE_MOD := by
    intro e he
    have := mem_encD_length he
    refine ⟨(hds e he).1, (hds e he).2, ?_⟩
    rw [e1]; omega
  have hinv0 : DirInv w base dest m dir s0 [] ⟨m, s0, dir, 0, 0, false⟩ := by
    refine ⟨by simp [encD], by simp [encD], ?_, by simp [shr], by simp [cnt_under]⟩
    simp only [List.map_nil, encD_nil]
    exact wr_nil (by omega)
  have hmode0 : buf = none → dir ≤ s0 := fun hb => by rw [(hinp hb).1]
  obtain ⟨done, todo, hdt, ⟨i1, i2, i3, i4, i5⟩, hq⟩ :=
    dir_rewrite_spec hlen hsrc0 hwf (m.length + 1) ds [] _ st1 (by simp) hinv0 hmode0 hst1
  -- the first filler
  have hds' : ∀ e ∈ done, wf_str e := fun e he => hds e (by rw [hdt]; exact List.mem_append_left _ he)
  obtain ⟨hb1, hb2⟩ := shr_bounds base done hds'
  have hdl : (encD done).length ≤ (encD ds).length := by rw [hdt, encD_append]; simp
  have hl1 := wr_length i3
  obtain ⟨hp1, _⟩ := wr_eq_ok.mp i3
  obtain ⟨hS0, hS1, f3, f4, f5, f6, f7⟩ :=
    fill_shrank_spec (S := shr base done) i4 (by omega) (by omega) (by omega) (by omega) hst2
  -- hence the loop has gone through the whole table
  have hnew := encD_new_length w base dest done
  have hK := cnt_under_le base (base.length - dest.length) (by omega) done
  have hKz : ((cnt_under base done : Int)) * ((base.length : Int) - dest.length)
      = ((cnt_under base done * (base.length - dest.length) : Nat) : Int) := by
    push_cast
    rw [Nat.cast_sub hlen]
  have htodo : todo = [] := by
    rcases hq with hq | ⟨hb, hlt⟩
    · exact hq
    · exfalso
      rw [i1, i2, (hinp hb).1] at hlt
      rw [hKz] at hnew
      omega
  subst htodo
  simp only [List.append_nil] at hdt
  subst hdt
  -- the second filler
  have hF := cnt_under_le_files base (base.length - dest.length) (by omega) fs
  have hadc : st2.abs_dir_cnt * (base.length - dest.length)
      = cnt_under base ds * (base.length - dest.length) := by
    rw [f6, i5]
    split_ifs with hl
    · rfl
    · have : base.length - dest.length = 0 := by omega
      rw [this]; simp
  have hafc : afc * (base.length - dest.length)
      = cnt_under base (fs.map Prod.fst) * (base.length - dest.length) := by
    cases hb : buf with
    | none =>
      obtain ⟨_, ha, hc⟩ := hinp hb
      rw [ha]
      rcases hc with hc | hc
      · have : base.length - dest.length = 0 := by omega
        simp [this]
      · have : cnt_under base (fs.map Prod.fst) = 0 := by
          apply cnt_under_zero
          intro e he
          obtain ⟨f, hf, rfl⟩ := List.mem_map.mp he
          exact hc f hf
        simp [this]
    | some B => rw [(hsnap (by simp [hb])).2]
  have hN : (st2.abs_dir_cnt + afc) * (base.length - dest.length)
      = cnt_under base ds * (base.length - dest.length)
        + cnt_under base (fs.map Prod.fst) * (base.length - dest.length) := by
    rw [Nat.add_mul, hadc, hafc]
  have hl2 := wr_length f3
  obtain ⟨hp2, _⟩ := wr_eq_ok.mp f3
  rw [filler_length] at hp2
  have hSn : ((shr base ds).toNat : Int) = shr base ds := Int.toNat_of_nonneg hS0
  obtain ⟨g1, g2, g3, g4, g5⟩ :=
    fill_abs_spec hlen (by rw [hN]; omega) hblen (by omega) (by rw [f4]; omega) hst3
  generalize hn1 : (shr base ds).toNat = n1 at f3 f4 hSn hp2
  generalize hn2 : (st2.abs_dir_cnt + afc) * (base.length - dest.length) = n2 at g1 g2 g3 hN
  -- the section before the file loop
  have hA : wr m dir (encD (ds.map (new_dir w base dest)) ++ filler n1 ++ filler n2 ++ [0])
      = .ok mem4 := by
    have a1 : wr m dir (encD (ds.map (new_dir w base dest)) ++ filler n1) = .ok st2.mem := by
      rw [i2] at f3
      exact wr_wr_append i3 f3
    have a2 : wr m dir (encD (ds.map (new_dir w base dest)) ++ filler n1 ++ filler n2)
        = .ok st3.mem := by
      refine wr_wr_append a1 ?_
      rw [f4, i2] at g2
      simpa [filler_length, Nat.add_assoc] using g2
    refine wr_wr_append a2 ?_
    rw [g3, f4, i2] at hmem4
    simpa [filler_length, Nat.add_assoc] using hmem4
  have hlenA : (encD (ds.map (new_dir w base dest)) ++ filler n1 ++ filler n2 ++ [0]).length
      = (encD (ds.map (new_dir w base dest))).length + n1 + n2 + 1 := by
    simp [filler_length]; omega
  have hpF : st3.ptr + 1 = dir + (encD (ds.map (new_dir w base dest))).length + n1 + n2 + 1 := by
    rw [g3, f4, i2]
  have hsF : st3.srcptr + 1 = s0 + (encD ds).length + 1 := by rw [g4, f5, i1]
  -- the accounting of the directory table
  have hacc1 : (encD (ds.map (new_dir w base dest))).length + n1
      + cnt_under base ds * (base.length - dest.length) = (encD ds).length := by
    rw [hKz] at hnew
    omega
  -- the source of the file loop
  have hinpF : buf = none → st3.ptr + 1 = st3.srcptr + 1 ∧
      (dest.length = base.length ∨ ∀ f ∈ fs, under_base base f.1 = false) := by
    intro hb
    obtain ⟨hs, ha, hc⟩ := hinp hb
    refine ⟨?_, hc⟩
    rw [hpF, hsF, hs]
    have : n2 = cnt_under base ds * (base.length - dest.length) := by
      rw [hN, ← hafc, ha]; simp
    omega
  have hsrcF : (src_of buf mem4).drop (st3.srcptr + 1) = encF fs ++ 0 :: R := by
    have h0 : (src_of buf m).drop (st3.srcptr + 1) = encF fs ++ 0 :: R := by
      rw [hsF, Nat.add_assoc, ← List.drop_drop, hsrc0]
      have : encD ds ++ 0 :: (encF fs ++ 0 :: R) = (encD ds ++ [0]) ++ (encF fs ++ 0 :: R) := by
        simp
      rw [this, List.drop_left' (by simp)]
    cases hb : buf with
    | some B => simpa [src_of, hb] using h0
    | none =>
      have hps := (hinpF hb).1
      simp only [src_of, hb, Option.getD_none] at h0 ⊢
      rw [wr_drop hA (by rw [hlenA]; omega)]
      exact h0
  have hinvF : FileInv base dest mem4 (st3.ptr + 1) (st3.srcptr + 1) [] mem4 (st3.srcptr + 1)
      (st3.ptr + 1) := by
    refine ⟨by simp [encF], by simp [encF], ?_⟩
    simp only [List.map_nil]
    have hl4 := wr_length hA
    obtain ⟨hp4, _⟩ := wr_eq_ok.mp hA
    exact wr_nil (by rw [hlenA] at hp4; omega)
  obtain ⟨t1, t2⟩ := file_rewrite_spec hlen hsrcF hfs hinpF (fun hb => (hsnap hb).1)
    (m.length + 1) fs [] mem4 _ _ st3.dirty r5 (by simp) hinvF hr5
  -- the whole block
  refine ⟨n1, n2, ?_, g1, ?_, ?_⟩
  · rw [← hn1]
    intro h1
    apply hS1
    omega
  · rw [← hres]
    simp only
    have hposA : dir + (encD (ds.map (new_dir w base dest)) ++ filler n1 ++ filler n2
        ++ [0]).length = st3.ptr + 1 := by
      rw [hlenA, hpF]; omega
    have b1 : wr m dir ((encD (ds.map (new_dir w base dest)) ++ filler n1 ++ filler n2 ++ [0])
        ++ encF (fs.map (new_file base dest))) = .ok r5.1 := by
      refine wr_wr_append hA ?_
      rw [hposA]
      exact t2
    have hposB : dir + ((encD (ds.map (new_dir w base dest)) ++ filler n1 ++ filler n2 ++ [0])
        ++ encF (fs.map (new_file base dest))).length = r5.2.1 := by
      rw [t1, List.length_append, ← Nat.add_assoc, hposA]
    have b2 := @wr_wr_append _ _ mem6 _ [0] _ b1 (by rw [hposB]; exact hmem6)
    simpa using b2
  · have hfl := encF_new_length base dest hlen fs
    have hFz : ((cnt_under base (fs.map Prod.fst) : Int)) * ((base.length : Int) - dest.length)
        = ((cnt_under base (fs.map Prod.fst) * (base.length - dest.length) : Nat) : Int) := by
      push_cast
      rw [Nat.cast_sub hlen]
    rw [hFz] at hfl
    omega

theorem map_eq_ok {ε α β : Type} {x : Except ε α} {f : α → β} {b : β} :
    (x.map f) = .ok b ↔ ∃ a, x = .ok a ∧ f a = b := by
  cases x with
  | error e => simp [Except.map]
  | ok a => simp [Except.map]

theorem line_rewrite_spec {cfg : Config} {base dest m : List Nat} {dir afc : Nat}
    {ds : List (List Nat)} {fs : List (List Nat × List Nat)} {R : List Nat}
    {r : List Nat × Bool}
    (hbase : cfg.base_dir = some base) (hlen : dest.length ≤ base.length)
    (hblen : base.length < 2 ^ 63)
    (htab : m.drop dir = encD ds ++ 0 :: (encF fs ++ 0 :: R))
    (hds : ∀ e ∈ ds, wf_str e) (hfs : ∀ f ∈ fs, wf_file f)
    (hafc : afc = cnt_under base (fs.map Prod.fst))
    (hfit : m.length < 2 ^ 63)
    (h : line_rewrite cfg dest m dir (dir + (encD ds).length + 1 + (encF fs).length + 1) afc
      = .ok r) :
    ∃ n1 n2, n1 ≠ 1 ∧ n2 ≠ 1 ∧
      wr m dir (encD (ds.map (new_dir cfg.win_path base dest)) ++ filler n1 ++ filler n2
        ++ 0 :: (encF (fs.map (new_file base dest)) ++ [0])) = .ok r.1 ∧
      (encD (ds.map (new_dir cfg.win_path base dest))).length + n1 + n2
        + (encF (fs.map (new_file base dest))).length = (encD ds).length + (encF fs).length := by
  have hE : dir + (encD ds).length + 1 + (encF fs).length + 1 ≤ m.length := by
    have := congrArg List.length htab
    simp at this
    omega
  unfold line_rewrite at h
  simp only [hbase, strlen_opt, bind_ok_eq, Option.getD_some] at h
  obtain ⟨buf, hbuf, k1⟩ := bind_eq_ok.mp h
  clear h
  by_cases hsn : (if dest.length = base.length then 0 else afc) ≠ 0
  · -- the tables are copied first
    rw [if_pos hsn] at hbuf
    rw [if_pos hsn] at k1
    obtain ⟨B, hB, hbB⟩ := map_eq_ok.mp hbuf
    subst hbB
    have hne : dest.length ≠ base.length := by
      intro he; rw [if_pos he] at hsn; exact hsn rfl
    rw [if_neg hne] at k1 hsn
    have hBv : B = encD ds ++ 0 :: (encF fs ++ 0 :: []) := by
      obtain ⟨_, hb2⟩ := rdn_eq_ok.mp hB
      rw [hb2, htab]
      have : encD ds ++ 0 :: (encF fs ++ 0 :: R) = (encD ds ++ 0 :: (encF fs ++ [0])) ++ R := by
        simp
      rw [this, List.take_left' (by simp; omega)]
    exact @line_rewrite_core _ _ _ _ (some B) _ 0 _ _ _ [] _ hlen hblen
      (by simpa [src_of] using hBv) hds hfs hE hfit (by intro hb; cases hb)
      (fun _ => ⟨by omega, hafc⟩) k1
  · -- the tables are rewritten in place
    rw [if_neg hsn] at hbuf
    rw [if_neg hsn] at k1
    have hbn : buf = none := (ok_inj hbuf).symm
    subst hbn
    have hz : (if dest.length = base.length then 0 else afc) = 0 := by
      by_contra hne; exact hsn hne
    rw [hz] at k1
    have hcase : dest.length = base.length ∨ ∀ f ∈ fs, under_base base f.1 = false := by
      by_cases he : dest.length = base.length
      · exact Or.inl he
      · right
        rw [if_neg he] at hz
        rw [hz] at hafc
        intro f hf
        have h0 : List.countP (under_base base) (fs.map Prod.fst) = 0 := hafc.symm
        rw [List.countP_eq_zero] at h0
        have := h0 f.1 (List.mem_map.mpr ⟨f, hf, rfl⟩)
        simpa using this
    exact @line_rewrite_core _ _ _ _ none _ dir _ _ _ R _ hlen hblen
      (by simpa [src_of] using htab) hds hfs hE hfit (fun _ => ⟨rfl, rfl, hcase⟩)
      (by intro hb; cases hb) k1

/-! ## The first walk over the tables -/

theorem dir_table_spec {m : List Nat} : ∀ (fuel ptr : Nat) (dirt : List (Option Nat))
    (r : List (Option Nat) × Nat), dir_table m fuel ptr dirt = .ok r →
    ∃ ds : List (List Nat), (∀ e ∈ ds, wf_str e) ∧
      m.drop ptr = encD ds ++ 0 :: m.drop r.2 ∧ r.2 = ptr + (encD ds).length + 1 ∧
      r.1.length = dirt.length + ds.length := by
  intro fuel
  induction fuel with
  | zero => intro ptr dirt r h; simp [dir_table] at h
  | succ n ih =>
    intro ptr dirt r h
    unfold dir_table at h
    obtain ⟨c, hc, k1⟩ := bind_eq_ok.mp h
    clear h
    obtain ⟨t, ht⟩ := rd_eq_ok.mp hc
    by_cases h0 : c = 0
    · rw [if_pos h0] at k1
      have := ok_inj k1
      subst this
      refine ⟨[], by simp, ?_, by simp [encD], by simp⟩
      simp only [encD_nil, List.nil_append]
      rw [ht, h0]
      congr 1
      have := congrArg (List.drop 1) ht
      rw [List.drop_drop] at this
      rw [this]; rfl
    · rw [if_neg h0] at k1
      obtain ⟨s, hs, k2⟩ := bind_eq_ok.mp k1
      clear k1
      obtain ⟨hs0, T, hT⟩ := cstr_eq_ok.mp hs
      obtain ⟨ds, h1, h2, h3, h4⟩ := ih _ _ _ k2
      have hsne : s ≠ [] := by
        intro he
        rw [he] at hT
        rw [hT] at ht
        simp at ht
        exact h0 ht.1.symm
      have hd : m.drop (ptr + s.length + 1) = T := by
        rw [Nat.add_assoc, ← List.drop_drop, hT]
        have : s ++ 0 :: T = (s ++ [0]) ++ T := by simp
        rw [this, List.drop_left' (by simp)]
      refine ⟨s :: ds, ?_, ?_, ?_, ?_⟩
      · intro e he
        rcases List.mem_cons.mp he with he | he
        · rw [he]; exact ⟨hsne, hs0⟩
        · exact h1 e he
      · rw [hT, encD_cons, ← hd, h2]; simp
      · rw [h3, encD_cons]; simp; omega
      · rw [h4]; simp; omega

theorem count_abs_spec {cfg : Config} {base dest file : List Nat} {c cnt n : Nat}
    (hb : cfg.base_dir = some base) (hd : cfg.dest_dir = some dest)
    (hc : file.head? = some c) (h : count_abs cfg c file cnt = .ok n) :
    n = cnt + (if under_base base file = true then 1 else 0) := by
  unfold count_abs at h
  simp only [hd, hb, has_prefix_opt, Option.isSome_some, Bool.and_true, bind_ok_eq] at h
  have hu : under_base base file = (decide (c = 47) && has_prefix file base) := by
    simp [under_base, hc]
  rw [hu]
  by_cases h1 : c = 47
  · simp only [h1, decide_True, if_true, Bool.true_and] at h ⊢
    have := ok_inj h
    rw [← this]
    by_cases h2 : has_prefix file base = true
    · simp [h2]
    · simp [h2]
  · simp only [h1, decide_False, Bool.false_eq_true, if_false, Bool.false_and] at h ⊢
    have := ok_inj h
    omega

theorem file_scan_spec {cfg : Config} {comp_dir m base dest : List Nat}
    {dirt : List (Option Nat)}
    (hb : cfg.base_dir = some base) (hd : cfg.dest_dir = some dest) :
    ∀ (fuel ptr cnt : Nat) (sink : List Nat) (r : FileScan),
      file_scan cfg comp_dir m dirt fuel ptr cnt sink = .ok r → r.ret = 0 →
      ∃ fs : List (List Nat × List Nat), (∀ f ∈ fs, wf_file f) ∧
        m.drop ptr = encF fs ++ 0 :: m.drop r.ptr ∧ r.ptr = ptr + (encF fs).length + 1 ∧
        r.abs_file_cnt = cnt + cnt_under base (fs.map Prod.fst) := by
  intro fuel
  induction fuel with
  | zero => intro ptr cnt sink r h; simp [file_scan] at h
  | succ n ih =>
    intro ptr cnt sink r h hret
    unfold file_scan at h
    obtain ⟨c, hc, k1⟩ := bind_eq_ok.mp h
    clear h
    obtain ⟨t, ht⟩ := rd_eq_ok.mp hc
    by_cases h0 : c = 0
    · rw [if_pos h0] at k1
      have := ok_inj k1
      subst this
      refine ⟨[], by simp, ?_, by simp [encF], by simp [cnt_under]⟩
      simp only [encF, List.flatMap_nil, List.nil_append]
      rw [ht, h0]
      congr 1
      have := congrArg (List.drop 1) ht
      rw [List.drop_drop] at this
      rw [this]; rfl
    · rw [if_neg h0] at k1
      obtain ⟨s, hs, k2⟩ := bind_eq_ok.mp k1
      clear k1
      obtain ⟨v, hv, k3⟩ := bind_eq_ok.mp k2
      clear k2
      by_cases hidx : v.1 ≥ dirt.length
      · rw [if_pos hidx] at k3
        have := ok_inj k3
        subst this
        simp at hret
      rw [if_neg hidx] at k3
      obtain ⟨dstr, _, k4⟩ := bind_eq_ok.mp k3
      obtain ⟨cnt1, hcnt, k5⟩ := bind_eq_ok.mp k4
      obtain ⟨sink1, _, k6⟩ := bind_eq_ok.mp k5
      obtain ⟨u1, hu1, k7⟩ := bind_eq_ok.mp k6
      obtain ⟨u2, hu2, k8⟩ := bind_eq_ok.mp k7
      clear k3 k4 k5 k6 k7
      obtain ⟨hs0, T, hT⟩ := cstr_eq_ok.mp hs
      have hsne : s ≠ [] := by
        intro he
        rw [he] at hT
        rw [hT] at ht
        simp at ht
        exact h0 ht.1.symm
      have hhead : s.head? = some c := by
        rw [hT] at ht
        cases s with
        | nil => exact absurd rfl hsne
        | cons x xs => simp at ht ⊢; exact ht.1
      obtain ⟨fs, h1, h2, h3, h4⟩ := ih _ _ _ _ k8 hret
      have hsk : skip3 m (ptr + s.length + 1) = .ok u2.2 := by
        unfold skip3
        rw [hv]; simp only [bind_ok_eq]
        rw [hu1]; simp only [bind_ok_eq]
        rw [hu2]; simp only [bind_ok_eq, pure_eq_ok]
      obtain ⟨hul, hull⟩ := three_ulebs_of_skip3 hsk
      obtain ⟨hle, _, _⟩ := skip3_local hsk
      have hd1 : m.drop (ptr + s.length + 1) = T := by
        rw [Nat.add_assoc, ← List.drop_drop, hT]
        have : s ++ 0 :: T = (s ++ [0]) ++ T := by simp
        rw [this, List.drop_left' (by simp)]
      have hd2 : T = (T.take (u2.2 - (ptr + s.length + 1))) ++ m.drop u2.2 := by
        conv => lhs; rw [← List.take_append_drop (u2.2 - (ptr + s.length + 1)) T]
        congr 1
        rw [← hd1, List.drop_drop]
        congr 1
        omega
      rw [hd1] at hul hull
      refine ⟨(s, T.take (u2.2 - (ptr + s.length + 1))) :: fs, ?_, ?_, ?_, ?_⟩
      · intro f hf
        rcases List.mem_cons.mp hf with hf | hf
        · rw [hf]; exact ⟨⟨hsne, hs0⟩, hul⟩
        · exact h1 f hf
      · rw [hT, encF_cons]
        simp only [List.append_assoc, List.cons_append]
        congr 2
        rw [← h2]
        exact hd2
      · rw [h3, encF_cons]
        simp only [List.length_append, List.length_cons, hull]
        omega
      · rw [h4, count_abs_spec hb hd hhead hcnt, List.map_cons]
        unfold cnt_under
        rw [List.countP_cons]
        simp only
        omega

/-! ## The line-header editor as a whole -/

theorem edit_dwarf2_line_tables {cfg : Config} {msb : Bool} {st st' : St} {off : Nat}
    {comp_dir m base dest : List Nat}
    (hline : st.debug_line = some m) (hb : cfg.base_dir = some base)
    (hd : cfg.dest_dir = some dest) (hlen : dest.length ≤ base.length)
    (hblen : base.length < 2 ^ 63) (hfit : m.length < 2 ^ 63)
    (h : edit_dwarf2_line cfg msb st off comp_dir 0 = .ok (0, st')) :
    ∃ dir ds fs n1 n2 m', line_header msb m off = .ok (some dir) ∧ LineTables m dir ds fs ∧
      st'.debug_line = some m' ∧ n1 ≠ 1 ∧ n2 ≠ 1 ∧
      wr m dir (encD (ds.map (new_dir cfg.win_path base dest)) ++ filler n1 ++ filler n2
        ++ 0 :: (encF (fs.map (new_file base dest)) ++ [0])) = .ok m' ∧
      (encD (ds.map (new_dir cfg.win_path base dest))).length + n1 + n2
        + (encF (fs.map (new_file base dest))).length = (encD ds).length + (encF fs).length := by
  unfold edit_dwarf2_line at h
  simp only [ne_eq, not_true_eq_false, if_false, hline] at h
  obtain ⟨hdr, hhdr, k1⟩ := bind_eq_ok.mp h
  clear h
  cases hdr with
  | none =>
    have := ok_inj k1
    simp at this
  | some dir =>
    simp only at k1
    obtain ⟨dt, hdt, k2⟩ := bind_eq_ok.mp k1
    clear k1
    obtain ⟨dirt, ptr⟩ := dt
    simp only at k2
    obtain ⟨fsr, hfsr, k3⟩ := bind_eq_ok.mp k2
    clear k2
    by_cases hret : fsr.ret ≠ 0
    · rw [if_pos hret] at k3
      have := ok_inj k3
      simp at this
    rw [if_neg hret] at k3
    simp only [hd] at k3
    obtain ⟨r, hr, k4⟩ := bind_eq_ok.mp k3
    clear k3
    have hst := ok_inj k4
    clear k4
    simp only [Prod.mk.injEq, true_and] at hst
    obtain ⟨ds, d1, d2, d3, _⟩ := dir_table_spec _ _ _ _ hdt
    simp only at d2 d3
    obtain ⟨fs, f1, f2, f3, f4⟩ := file_scan_spec hb hd _ _ _ _ _ hfsr (by omega)
    have htab : m.drop dir = encD ds ++ 0 :: (encF fs ++ 0 :: m.drop fsr.ptr) := by
      rw [d2, f2]
    have hptr : fsr.ptr = dir + (encD ds).length + 1 + (encF fs).length + 1 := by
      rw [f3, d3]
    rw [hptr] at hr
    obtain ⟨n1, n2, hn1, hn2, hw, hl⟩ :=
      line_rewrite_spec hb hlen hblen htab d1 f1 (by simpa using f4) hfit hr
    refine ⟨dir, ds, fs, n1, n2, r.1, hhdr, ⟨d1, f1, _, htab⟩, ?_, hn1, hn2, hw, hl⟩
    rw [← hst]

theorem filler_eq_encD {n : Nat} : filler n = encD (fill_entries n) := by
  unfold filler fill_entries
  split_ifs <;> simp [encD]

theorem fill_entries_wf {n : Nat} (hn : n ≠ 1) : ∀ e ∈ fill_entries n, wf_str e := by
  intro e he
  unfold fill_entries at he
  split_ifs at he with h0
  · cases he
  · simp at he
    subst he
    refine ⟨?_, ?_⟩
    · intro h
      have := congrArg List.length h
      simp at this
      omega
    · intro x hx
      rw [List.eq_of_mem_replicate hx]
      decide

theorem win_no_nul {w : Bool} {s : List Nat} (hs : ∀ c ∈ s, c ≠ 0) : ∀ c ∈ win w s, c ≠ 0 := by
  unfold win
  split_ifs
  · exact make_win_path_no_nul hs
  · exact hs

theorem win_ne_nil {w : Bool} {s : List Nat} (hs : s ≠ []) : win w s ≠ [] := by
  unfold win
  split_ifs
  · intro h
    have := congrArg List.length h
    rw [make_win_path_length] at this
    exact hs (List.length_eq_zero.mp this)
  · exact hs

theorem dir_rest_no_nul {base e : List Nat} (he : ∀ x ∈ e, x ≠ 0) :
    ∀ x ∈ dir_rest base e, x ≠ 0 := by
  intro x hx
  unfold dir_rest at hx
  split_ifs at hx
  · exact he x (List.mem_of_mem_drop hx)
  · exact he x hx

theorem new_dir_wf {w : Bool} {base dest e : List Nat} (hdest : ∀ x ∈ dest, x ≠ 0)
    (he : wf_str e) : wf_str (new_dir w base dest e) := by
  unfold new_dir
  refine ⟨?_, ?_⟩
  · intro h
    have := (List.append_eq_nil.mp h).2
    exact win_ne_nil (canonicalize_path_ne_nil _) this
  · intro x hx
    rcases List.mem_append.mp hx with h | h
    · split_ifs at h
      · exact hdest x h
      · cases h
    · exact win_no_nul (canonicalize_path_no_nul (dir_rest_no_nul he.2)) x h

theorem new_file_wf {base dest : List Nat} {f : List Nat × List Nat}
    (hdest : ∀ x ∈ dest, x ≠ 0) (hne : dest ≠ []) (hf : wf_file f) :
    wf_file (new_file base dest f) := by
  unfold new_file
  split_ifs
  · refine ⟨⟨?_, ?_⟩, hf.2⟩
    · intro h
      exact hne (List.append_eq_nil.mp h).1
    · intro x hx
      rcases List.mem_append.mp hx with h | h
      · exact hdest x h
      · exact hf.1.2 x (List.mem_of_mem_drop h)
  · exact hf

/-- The tables after the rewrite, and what is left untouched around them. -/
theorem edit_dwarf2_line_result {cfg : Config} {msb : Bool} {st st' : St} {off : Nat}
    {comp_dir m base dest : List Nat}
    (hline : st.debug_line = some m) (hb : cfg.base_dir = some base)
    (hd : cfg.dest_dir = some dest) (hlen : dest.length ≤ base.length)
    (hblen : base.length < 2 ^ 63) (hfit : m.length < 2 ^ 63)
    (hdest : ∀ x ∈ dest, x ≠ 0) (hdne : dest ≠ [])
    (h : edit_dwarf2_line cfg msb st off comp_dir 0 = .ok (0, st')) :
    ∃ dir ds fs n1 n2 m', line_header msb m off = .ok (some dir) ∧ LineTables m dir ds fs ∧
      st'.debug_line = some m' ∧ n1 ≠ 1 ∧ n2 ≠ 1 ∧
      LineTables m' dir
        (ds.map (new_dir cfg.win_path base dest) ++ fill_entries n1 ++ fill_entries n2)
        (fs.map (new_file base dest)) ∧
      (encD (ds.map (new_dir cfg.win_path base dest) ++ fill_entries n1
        ++ fill_entries n2)).length + (encF (fs.map (new_file base dest))).length
          = (encD ds).length + (encF fs).length ∧
      m'.length = m.length ∧ m'.take dir = m.take dir ∧
      m'.drop (dir + (encD ds).length + 1 + (encF fs).length + 1)
        = m.drop (dir + (encD ds).length + 1 + (encF fs).length + 1) := by
  obtain ⟨dir, ds, fs, n1, n2, m', h1, h2, h3, h4, h5, h6, h7⟩ :=
    edit_dwarf2_line_tables hline hb hd hlen hblen hfit h
  obtain ⟨t1, t2, R, t3⟩ := h2
  have hblock : (encD (ds.map (new_dir cfg.win_path base dest)) ++ filler n1 ++ filler n2
      ++ 0 :: (encF (fs.map (new_file base dest)) ++ [0])).length
      = (encD ds).length + 1 + (encF fs).length + 1 := by
    simp [filler_length]; omega
  have hencD : encD (ds.map (new_dir cfg.win_path base dest) ++ fill_entries n1
      ++ fill_entries n2)
      = encD (ds.map (new_dir cfg.win_path base dest)) ++ filler n1 ++ filler n2 := by
    rw [encD_append, encD_append, ← filler_eq_encD, ← filler_eq_encD]
  have hR : m.drop (dir + (encD ds).length + 1 + (encF fs).length + 1) = R := by
    have : dir + (encD ds).length + 1 + (encF fs).length + 1
        = dir + (encD ds ++ 0 :: (encF fs ++ [0])).length := by simp; omega
    rw [this, ← List.drop_drop, t3]
    have : encD ds ++ 0 :: (encF fs ++ 0 :: R) = (encD ds ++ 0 :: (encF fs ++ [0])) ++ R := by
      simp
    rw [this, List.drop_left]
  refine ⟨dir, ds, fs, n1, n2, m', h1, ⟨t1, t2, R, t3⟩, h3, h4, h5, ⟨?_, ?_, R, ?_⟩, ?_,
    wr_length h6, wr_take_le h6 (Nat.le_refl _), ?_⟩
  · intro e he
    rcases List.mem_append.mp he with he | he
    · rcases List.mem_append.mp he with he | he
      · obtain ⟨e0, he0, rfl⟩ := List.mem_map.mp he
        exact new_dir_wf hdest (t1 e0 he0)
      · exact fill_entries_wf h4 e he
    · exact fill_entries_wf h5 e he
  · intro f hf
    obtain ⟨f0, hf0, rfl⟩ := List.mem_map.mp hf
    exact new_file_wf hdest hdne (t2 f0 hf0)
  · rw [wr_drop_at h6, hblock, hencD]
    have : dir + ((encD ds).length + 1 + (encF fs).length + 1)
        = dir + (encD ds).length + 1 + (encF fs).length + 1 := by omega
    rw [this, hR]
    simp
  · rw [hencD]
    simp [filler_length]
    omega
  · rw [wr_drop h6 (by rw [hblock]; omega)]

/-! ## The tables of a header are determined by its bytes -/

theorem str_term_inj {e e2 A B : List Nat} (he : ∀ x ∈ e, x ≠ 0) (he2 : ∀ x ∈ e2, x ≠ 0)
    (h : e ++ 0 :: A = e2 ++ 0 :: B) : e = e2 ∧ A = B := by
  have h1 := cstrL_append A he
  have h2 := cstrL_append B he2
  rw [h, h2] at h1
  have : e2 = e := Option.some.inj h1
  subst this
  exact ⟨rfl, by simpa using h⟩

theorem encD_inj : ∀ (ds ds2 : List (List Nat)) (X X2 : List Nat),
    (∀ e ∈ ds, wf_str e) → (∀ e ∈ ds2, wf_str e) →
    encD ds ++ 0 :: X = encD ds2 ++ 0 :: X2 → ds = ds2 ∧ X = X2 := by
  intro ds
  induction ds with
  | nil =>
    intro ds2 X X2 _ h2 h
    cases ds2 with
    | nil => simpa [encD] using h
    | cons e r =>
      exfalso
      obtain ⟨hne, h0⟩ := h2 e (List.mem_cons_self _ _)
      obtain ⟨c, t, rfl⟩ := List.exists_cons_of_ne_nil hne
      rw [encD_cons] at h
      simp [encD] at h
      exact h0 c (List.mem_cons_self _ _) h.1.symm
  | cons e r ih =>
    intro ds2 X X2 h1 h2 h
    cases ds2 with
    | nil =>
      exfalso
      obtain ⟨hne, h0⟩ := h1 e (List.mem_cons_self _ _)
      obtain ⟨c, t, rfl⟩ := List.exists_cons_of_ne_nil hne
      rw [encD_cons] at h
      simp [encD] at h
      exact h0 c (List.mem_cons_self _ _) h.1
    | cons e2 r2 =>
      rw [encD_cons, encD_cons] at h
      simp only [List.append_assoc, List.cons_append] at h
      obtain ⟨he, hrest⟩ := str_term_inj (h1 e (List.mem_cons_self _ _)).2
        (h2 e2 (List.mem_cons_self _ _)).2 h
      subst he
      obtain ⟨hr, hX⟩ := ih r2 X X2 (fun x hx => h1 x (List.mem_cons_of_mem _ hx))
        (fun x hx => h2 x (List.mem_cons_of_mem _ hx)) hrest
      exact ⟨by rw [hr], hX⟩

theorem three_ulebs_inj {ul ul2 A B : List Nat} (h1 : three_ulebs ul) (h2 : three_ulebs ul2)
    (h : ul ++ A = ul2 ++ B) : ul = ul2 ∧ A = B := by
  have a := h1 A
  have b := h2 B
  rw [h, b] at a
  have hl : ul2.length = ul.length := Except.ok.inj a
  have := List.append_inj h hl.symm
  exact this

theorem encF_inj : ∀ (fs fs2 : List (List Nat × List Nat)) (X X2 : List Nat),
    (∀ f ∈ fs, wf_file f) → (∀ f ∈ fs2, wf_file f) →
    encF fs ++ 0 :: X = encF fs2 ++ 0 :: X2 → fs = fs2 ∧ X = X2 := by
  intro fs
  induction fs with
  | nil =>
    intro fs2 X X2 _ h2 h
    cases fs2 with
    | nil => simpa [encF] using h
    | cons f r =>
      exfalso
      obtain ⟨⟨hne, h0⟩, _⟩ := h2 f (List.mem_cons_self _ _)
      obtain ⟨c, t, hct⟩ := List.exists_cons_of_ne_nil hne
      rw [encF_cons, hct] at h
      simp [encF] at h
      exact h0 c (by rw [hct]; exact List.mem_cons_self _ _) h.1.symm
  | cons f r ih =>
    intro fs2 X X2 h1 h2 h
    cases fs2 with
    | nil =>
      exfalso
      obtain ⟨⟨hne, h0⟩, _⟩ := h1 f (List.mem_cons_self _ _)
      obtain ⟨c, t, hct⟩ := List.exists_cons_of_ne_nil hne
      rw [encF_cons, hct] at h
      simp [encF] at h
      exact h0 c (by rw [hct]; exact List.mem_cons_self _ _) h.1
    | cons f2 r2 =>
      rw [encF_cons, encF_cons] at h
      simp only [List.append_assoc, List.cons_append] at h
      obtain ⟨w1, u1⟩ := h1 f (List.mem_cons_self _ _)
      obtain ⟨w2, u2⟩ := h2 f2 (List.mem_cons_self _ _)
      obtain ⟨hn, hrest⟩ := str_term_inj w1.2 w2.2 h
      obtain ⟨hu, hrest2⟩ := three_ulebs_inj u1 u2 hrest
      obtain ⟨hr, hX⟩ := ih r2 X X2 (fun x hx => h1 x (List.mem_cons_of_mem _ hx))
        (fun x hx => h2 x (List.mem_cons_of_mem _ hx)) hrest2
      refine ⟨?_, hX⟩
      rw [hr]
      congr 1
      exact Prod.ext hn hu

theorem LineTables_unique {m : List Nat} {dir : Nat} {ds ds2 : List (List Nat)}
    {fs fs2 : List (List Nat × List Nat)} (h1 : LineTables m dir ds fs)
    (h2 : LineTables m dir ds2 fs2) : ds = ds2 ∧ fs = fs2 := by
  obtain ⟨a1, a2, R, a3⟩ := h1
  obtain ⟨b1, b2, R2, b3⟩ := h2
  rw [a3] at b3
  obtain ⟨hd, hX⟩ := encD_inj _ _ _ _ a1 b1 b3
  obtain ⟨hf, _⟩ := encF_inj _ _ _ _ a2 b2 hX
  exact ⟨hd, hf⟩

/-! ## The rewrite of one attribute string -/

theorem rewrite_guard_hit {cfg : Config} {s base dest : List Nat}
    (hb : cfg.base_dir = some base) (hd : cfg.dest_dir = some dest)
    (hpre : has_prefix s base = true) : rewrite_guard cfg 1 s = .ok (some dest) := by
  unfold rewrite_guard has_prefix_opt
  rw [if_pos rfl, hd, hb]
  simp only [bind_ok_eq, pure_eq_ok, hpre, if_true]

theorem rewrite_inline_ok {cfg : Config} {m base dest : List Nat} {p : Nat}
    (hb : cfg.base_dir = some base) (hlen : dest.length ≤ base.length)
    (hfit : p + base.length ≤ m.length) :
    rewrite_inline cfg dest m p
      = wr m p (dest ++ List.replicate (base.length - dest.length) (if cfg.win_path then 92 else 47)) := by
  unfold rewrite_inline strlen_opt
  rw [hb]
  simp only [bind_ok_eq]
  have h1 : wr m p dest = .ok (m.take p ++ dest ++ m.drop (p + dest.length)) :=
    wr_eq_ok.mpr ⟨by omega, rfl⟩
  rw [h1]
  simp only [bind_ok_eq]
  by_cases hlt : dest.length < base.length
  · rw [if_pos hlt, memset_eq_wr]
    have hl1 := wr_length h1
    have h2 : wr (m.take p ++ dest ++ m.drop (p + dest.length)) (p + dest.length)
        (List.replicate (base.length - dest.length) (if cfg.win_path then 92 else 47))
        = .ok ((m.take p ++ dest ++ m.drop (p + dest.length)).take (p + dest.length)
            ++ List.replicate (base.length - dest.length) (if cfg.win_path then 92 else 47)
            ++ (m.take p ++ dest ++ m.drop (p + dest.length)).drop
              (p + dest.length + (List.replicate (base.length - dest.length)
                (if cfg.win_path then 92 else 47)).length)) :=
      wr_eq_ok.mpr ⟨by rw [hl1]; simp; omega, rfl⟩
    rw [h2]
    exact (wr_wr_append h1 h2).symm
  · rw [if_neg hlt]
    have : base.length - dest.length = 0 := by omega
    rw [this]
    simp only [List.replicate_zero, List.append_nil]
    exact h1.symm

theorem rewrite_strp_ok {cfg : Config} {m S base dest : List Nat} {p : Nat}
    (hb : cfg.base_dir = some base) (hlen : dest.length ≤ base.length)
    (hS : cstr m p = .ok S) (hpre : has_prefix S base = true) :
    rewrite_strp cfg dest m p = wr m p (dest ++ S.drop base.length ++ [0]) ∧
      p + (dest ++ S.drop base.length ++ [0]).length ≤ m.length := by
  obtain ⟨hS0, r, hdrop⟩ := cstr_eq_ok.mp hS
  obtain ⟨hbl, htake⟩ := has_prefix_iff.mp hpre
  have hml : p + S.length + 1 ≤ m.length := by
    have := congrArg List.length hdrop
    simp at this
    omega
  have hfit : p + (dest ++ S.drop base.length ++ [0]).length ≤ m.length := by
    simp; omega
  refine ⟨?_, hfit⟩
  unfold rewrite_strp strlen_opt
  rw [hb]
  simp only [bind_ok_eq]
  have h1 : wr m p dest = .ok (m.take p ++ dest ++ m.drop (p + dest.length)) :=
    wr_eq_ok.mpr ⟨by omega, rfl⟩
  rw [h1]
  simp only [bind_ok_eq]
  have hd2 : m.drop (p + base.length) = S.drop base.length ++ 0 :: r := by
    rw [← List.drop_drop, hdrop, List.drop_append_of_le_length hbl]
  by_cases hlt : dest.length < base.length
  · rw [if_pos hlt]
    have hd3 : (m.take p ++ dest ++ m.drop (p + dest.length)).drop (p + base.length)
        = S.drop base.length ++ 0 :: r := by
      rw [wr_drop h1 (by omega), hd2]
    have hc : cstr (m.take p ++ dest ++ m.drop (p + dest.length)) (p + base.length)
        = .ok (S.drop base.length) :=
      cstr_of_drop hd3 (fun c hc => hS0 c (List.mem_of_mem_drop hc))
    rw [hc]
    simp only [bind_ok_eq]
    have hl1 := wr_length h1
    have h2 : wr (m.take p ++ dest ++ m.drop (p + dest.length)) (p + dest.length)
        (S.drop base.length ++ [0])
        = .ok ((m.take p ++ dest ++ m.drop (p + dest.length)).take (p + dest.length)
            ++ (S.drop base.length ++ [0])
            ++ (m.take p ++ dest ++ m.drop (p + dest.length)).drop
              (p + dest.length + (S.drop base.length ++ [0]).length)) :=
      wr_eq_ok.mpr ⟨by rw [hl1]; simp; omega, rfl⟩
    rw [h2]
    have := wr_wr_append h1 h2
    rw [← List.append_assoc] at this
    exact this.symm
  · rw [if_neg hlt]
    have hdb : dest.length = base.length := by omega
    have := wr_extend h1 (Y := S.drop base.length ++ [0]) (Z := r)
      (by rw [hdb, hd2]; simp)
    rw [← List.append_assoc] at this
    rw [this]
    rfl

theorem edit_inline_hit {cfg : Config} {whole : Bool} {st : St} {m S base dest : List Nat} {p : Nat}
    (hwin : cfg.win_path = false) (hb : cfg.base_dir = some base) (hd : cfg.dest_dir = some dest)
    (hlen : dest.length ≤ base.length) (hm : st.debug_info = some m)
    (hS : cstr m p = .ok S) (hpre : has_prefix S base = true) :
    edit_inline cfg 1 whole st p S
      = .ok { st with debug_info := some (m.take p ++ (dest ++ List.replicate
          (base.length - dest.length) 47) ++ m.drop (p + base.length)), dirty_info := true } := by
  obtain ⟨hS0, r, hdrop⟩ := cstr_eq_ok.mp hS
  obtain ⟨hbl, htake⟩ := has_prefix_iff.mp hpre
  have hml : p + S.length + 1 ≤ m.length := by
    have := congrArg List.length hdrop
    simp at this
    omega
  unfold edit_inline
  rw [rewrite_guard_hit hb hd hpre]
  simp only [bind_ok_eq]
  have hi : info_of st = m := by unfold info_of; rw [hm]; rfl
  rw [hi, rewrite_inline_ok hb hlen (by omega), hwin]
  have hw : wr m p (dest ++ List.replicate (base.length - dest.length) 47)
      = .ok (m.take p ++ (dest ++ List.replicate (base.length - dest.length) 47)
          ++ m.drop (p + base.length)) := by
    apply wr_eq_ok.mpr
    refine ⟨by simp; omega, ?_⟩
    congr 2
    simp; omega
  simp only [Bool.false_eq_true, if_false]
  rw [hw]
  simp only [bind_ok_eq, Bool.and_false, Bool.false_eq_true, if_false, pure_eq_ok]

theorem edit_strp_hit {cfg : Config} {whole : Bool} {st : St} {str S base dest : List Nat} {off : Nat}
    (hwin : cfg.win_path = false) (hb : cfg.base_dir = some base) (hd : cfg.dest_dir = some dest)
    (hlen : dest.length ≤ base.length)
    (hS : cstr str off = .ok S) (hpre : has_prefix S base = true) :
    edit_strp cfg 1 whole st str off S
      = .ok { st with debug_str := some (str.take off ++ (dest ++ S.drop base.length ++ [0])
          ++ str.drop (off + (dest ++ S.drop base.length ++ [0]).length)), dirty_str := true } := by
  unfold edit_strp
  rw [rewrite_guard_hit hb hd hpre]
  simp only [bind_ok_eq]
  obtain ⟨h1, h2⟩ := @rewrite_strp_ok _ _ _ _ dest _ hb hlen hS hpre
  rw [h1, wr_eq_ok.mpr ⟨h2, rfl⟩, hwin]
  simp only [bind_ok_eq, Bool.and_false, Bool.false_eq_true, if_false, pure_eq_ok]

/-! ## One pass of the attribute loop over a path attribute -/

theorem act_stmt_list_skip {env : Env} {tag attr form : Nat} {a : AttrSt}
    (h : path_attr tag attr) : act_stmt_list env attr form a = .ok a := by
  unfold act_stmt_list
  have : attr ≠ DW_AT_stmt_list := by
    rcases h with h | ⟨_, h⟩ <;> rw [h] <;> decide
  simp [this]

theorem attr_actions_inline {env : Env} {tag attr : Nat} {a : AttrSt} {m S base dest : List Nat}
    (hwin : env.cfg.win_path = false) (hb : env.cfg.base_dir = some base)
    (hd : env.cfg.dest_dir = some dest) (hlen : dest.length ≤ base.length)
    (hattr : path_attr tag attr) (hm : a.st.debug_info = some m)
    (hS : cstr m a.ptr = .ok S) (hpre : has_prefix S base = true) :
    ∃ cd, attr_actions env 1 tag attr DW_FORM_string a
      = .ok { a with
          st := { a.st with
            debug_info := some (m.take a.ptr
              ++ (dest ++ List.replicate (base.length - dest.length) 47)
              ++ m.drop (a.ptr + base.length)),
            dirty_info := true },
          comp_dir := cd } := by
  have hi : info_of a.st = m := by unfold info_of; rw [hm]; rfl
  unfold attr_actions
  rw [act_stmt_list_skip hattr]
  simp only [bind_ok_eq]
  by_cases hc : attr = DW_AT_comp_dir
  · rw [if_pos hc]
    unfold act_comp_dir
    rw [if_pos rfl, hi, hS]
    simp only [bind_ok_eq]
    rw [edit_inline_hit hwin hb hd hlen hm hS hpre]
    exact ⟨some S, rfl⟩
  · rw [if_neg hc]
    have ht : ((tag = DW_TAG_compile_unit || tag = DW_TAG_partial_unit) && attr = DW_AT_name) = true := by
      rcases hattr with h | ⟨h1, h2⟩
      · exact absurd h hc
      · simp [h1, h2]
    rw [if_pos ht]
    unfold act_name
    have hf : DW_FORM_string ≠ DW_FORM_strp := by decide
    rw [if_neg hf]
    simp only [hm, Option.isSome_some, Bool.and_true, decide_True, if_true]
    rw [hi, hS]
    simp only [bind_ok_eq]
    rw [edit_inline_hit hwin hb hd hlen hm hS hpre]
    exact ⟨_, rfl⟩

theorem attr_actions_strp {env : Env} {tag attr : Nat} {a : AttrSt} {str S base dest : List Nat}
    {r : Nat × Nat}
    (hwin : env.cfg.win_path = false) (hb : env.cfg.base_dir = some base)
    (hd : env.cfg.dest_dir = some dest) (hlen : dest.length ≤ base.length)
    (hattr : path_attr tag attr) (hstr : a.st.debug_str = some str)
    (hr : do_read_32_relocated env (info_of a.st) a.st.relptr a.ptr = .ok r)
    (hS : cstr str r.1 = .ok S) (hpre : has_prefix S base = true) :
    ∃ cd, attr_actions env 1 tag attr DW_FORM_strp a
      = .ok { a with
          st := { a.st with
            relptr := r.2,
            debug_str := some (str.take r.1
              ++ (dest ++ S.drop base.length ++ [0])
              ++ str.drop (r.1 + (dest ++ S.drop base.length ++ [0]).length)),
            dirty_str := true },
          comp_dir := cd } := by
  unfold attr_actions
  rw [act_stmt_list_skip hattr]
  simp only [bind_ok_eq]
  by_cases hc : attr = DW_AT_comp_dir
  · rw [if_pos hc]
    unfold act_comp_dir
    have hf : DW_FORM_strp ≠ DW_FORM_string := by decide
    rw [if_neg hf, hstr]
    simp only [if_true]
    rw [hr]
    simp only [bind_ok_eq]
    rw [hS]
    simp only [bind_ok_eq]
    rw [edit_strp_hit hwin hb hd hlen hS hpre]
    exact ⟨some S, rfl⟩
  · rw [if_neg hc]
    have ht : ((tag = DW_TAG_compile_unit || tag = DW_TAG_partial_unit) && attr = DW_AT_name) = true := by
      rcases hattr with h | ⟨h1, h2⟩
      · exact absurd h hc
      · simp [h1, h2]
    rw [if_pos ht]
    unfold act_name
    rw [if_pos rfl, hstr]
    simp only
    rw [hr]
    simp only [bind_ok_eq]
    rw [hS]
    simp only [bind_ok_eq]
    rw [edit_strp_hit hwin hb hd hlen hS hpre]
    exact ⟨_, rfl⟩

theorem form_step_string {msb : Bool} {ps cv : Nat} {m s : List Nat} {p : Nat}
    (h : cstr m p = .ok s) :
    form_step msb ps cv m DW_FORM_string p = .ok (.done (p + s.length + 1)) := by
  unfold form_step
  simp only [DW_FORM_string, DW_FORM_ref_addr, DW_FORM_flag_present, DW_FORM_addr, DW_FORM_ref1,
    DW_FORM_flag, DW_FORM_data1, DW_FORM_ref2, DW_FORM_data2, DW_FORM_ref4, DW_FORM_data4,
    DW_FORM_sec_offset, DW_FORM_ref8, DW_FORM_data8, DW_FORM_ref_sig8, DW_FORM_sdata,
    DW_FORM_ref_udata, DW_FORM_udata, DW_FORM_strp]
  simp [h]

theorem form_step_strp {msb : Bool} {ps cv : Nat} {m : List Nat} {p : Nat} :
    form_step msb ps cv m DW_FORM_strp p = .ok (.done (p + 4)) := by
  unfold form_step
  simp only [DW_FORM_string, DW_FORM_ref_addr, DW_FORM_flag_present, DW_FORM_addr, DW_FORM_ref1,
    DW_FORM_flag, DW_FORM_data1, DW_FORM_ref2, DW_FORM_data2, DW_FORM_ref4, DW_FORM_data4,
    DW_FORM_sec_offset, DW_FORM_ref8, DW_FORM_data8, DW_FORM_ref_sig8, DW_FORM_sdata,
    DW_FORM_ref_udata, DW_FORM_udata, DW_FORM_strp]
  simp

/-- The result of an accepted rewrite, for the tables `ds` and `fs` that the
header has. -/
theorem edit_dwarf2_line_of_tables {cfg : Config} {msb : Bool} {st st' : St} {off dir : Nat}
    {comp_dir m base dest : List Nat} {ds : List (List Nat)} {fs : List (List Nat × List Nat)}
    (hline : st.debug_line = some m) (hb : cfg.base_dir = some base)
    (hd : cfg.dest_dir = some dest) (hlen : dest.length ≤ base.length)
    (hblen : base.length < 2 ^ 63) (hfit : m.length < 2 ^ 63)
    (hdest : ∀ x ∈ dest, x ≠ 0) (hdne : dest ≠ [])
    (hh : line_header msb m off = .ok (some dir)) (ht : LineTables m dir ds fs)
    (h : edit_dwarf2_line cfg msb st off comp_dir 0 = .ok (0, st')) :
    ∃ n1 n2 m', st'.debug_line = some m' ∧ n1 ≠ 1 ∧ n2 ≠ 1 ∧
      LineTables m' dir
        (ds.map (new_dir cfg.win_path base dest) ++ fill_entries n1 ++ fill_entries n2)
        (fs.map (new_file base dest)) ∧
      (encD (ds.map (new_dir cfg.win_path base dest) ++ fill_entries n1
        ++ fill_entries n2)).length + (encF (fs.map (new_file base dest))).length
          = (encD ds).length + (encF fs).length ∧
      m'.length = m.length ∧ m'.take dir = m.take dir ∧
      m'.drop (dir + (encD ds).length + 1 + (encF fs).length + 1)
        = m.drop (dir + (encD ds).length + 1 + (encF fs).length + 1) := by
  obtain ⟨dir2, ds2, fs2, n1, n2, m', h1, h2, h3, h4, h5, h6, h7, h8, h9, h10⟩ :=
    edit_dwarf2_line_result hline hb hd hlen hblen hfit hdest hdne h
  rw [hh] at h1
  have hdir : dir = dir2 := Option.some.inj (Except.ok.inj h1)
  subst hdir
  obtain ⟨e1, e2⟩ := LineTables_unique ht h2
  subst e1
  subst e2
  exact ⟨n1, n2, m', h3, h4, h5, h6, h7, h8, h9, h10⟩

theorem fill_entries_X (n : Nat) : ∀ e ∈ fill_entries n, ∀ x ∈ e, x = 88 := by
  intro e he x hx
  unfold fill_entries at he
  by_cases hn : n = 0
  · rw [if_pos hn] at he; simp at he
  · rw [if_neg hn] at he
    simp at he
    subst he
    exact (List.mem_replicate.mp hx).2

theorem getElem?_of_take_eq {m m' : List Nat} {n i : Nat} (h : m'.take n = m.take n)
    (hi : i < n) : m'[i]? = m[i]? := by
  have := congrArg (fun l => l[i]?) h
  simp only [List.getElem?_take, if_pos hi] at this
  simpa [hi] using this

theorem getElem?_of_drop_eq {m m' : List Nat} {n i : Nat} (h : m'.drop n = m.drop n)
    (hi : n ≤ i) : m'[i]? = m[i]? := by
  obtain ⟨k, rfl⟩ := Nat.exists_eq_add_of_le hi
  have := congrArg (fun l => l[k]?) h
  simpa [List.getElem?_drop] using this

theorem LineTables_term {m : List Nat} {dir : Nat} {ds : List (List Nat)}
    {fs : List (List Nat × List Nat)} (h : LineTables m dir ds fs) :
    m[dir + (encD ds).length + 1 + (encF fs).length]? = some 0 := by
  obtain ⟨_, _, R, h3⟩ := h
  have h4 : m.drop (dir + (encD ds).length + 1 + (encF fs).length) = 0 :: R := by
    have e : dir + (encD ds).length + 1 + (encF fs).length
        = dir + ((encD ds).length + (1 + (encF fs).length)) := by omega
    rw [e, ← List.drop_drop, h3, ← List.drop_drop, List.drop_left, ← List.drop_drop]
    simp
  have := congrArg (fun l => l[0]?) h4
  simpa [List.getElem?_drop] using this

theorem ex_line_tables {ds : List (List Nat)} {fs : List (List Nat × List Nat)}
    (hds : ∀ e ∈ ds, wf_str e) (hfs : ∀ f ∈ fs, wf_file f) : LineTables (ex_line ds fs) 15 ds fs := by
  refine ⟨hds, hfs, [], ?_⟩
  simp [ex_line]

theorem three_ulebs_small {a b c : Nat} (ha : a &&& 0x80 = 0) (hb : b &&& 0x80 = 0)
    (hc : c &&& 0x80 = 0) : three_ulebs [a, b, c] := by
  intro T
  simp [skip3, read_uleb128, uleb_loop, ha, hb, hc]

theorem wf_str_bytes {e : List Nat} (h1 : e ≠ []) (h2 : e.all (fun x => x != 0) = true) :
    wf_str e := by
  refine ⟨h1, ?_⟩
  intro x hx
  have := List.all_eq_true.mp h2 x hx
  simpa using this

theorem c1_tables : LineTables (ex_line c1_ds c1_fs) 15 c1_ds c1_fs := by
  apply ex_line_tables
  · intro e he
    simp only [c1_ds, List.mem_cons, List.mem_singleton, List.not_mem_nil, or_false] at he
    rcases he with rfl | rfl <;> exact wf_str_bytes (by decide) (by decide)
  · intro f hf
    simp only [c1_fs, List.mem_cons, List.mem_singleton, List.not_mem_nil, or_false] at hf
    rcases hf with rfl | rfl <;>
      exact ⟨wf_str_bytes (by decide) (by decide), three_ulebs_small (by decide) (by decide) (by decide)⟩

/-! ## The shape of the output of `canonicalize_path` -/

theorem mem_of_getElem?_eq {l : List Nat} {i x : Nat} (h : l[i]? = some x) : x ∈ l := by
  rcases List.getElem?_eq_some_iff.mp h with ⟨hl, he⟩
  rw [← he]
  exact List.getElem_mem hl

theorem sep_iff (c : Nat) : IS_DIR_SEPARATOR c = true ↔ c = 47 := by
  simp [IS_DIR_SEPARATOR]

theorem skip_seps_not_sep (s : List Nat) : sep_at (skip_seps s) = false := by
  induction s with
  | nil => rfl
  | cons c t ih =>
    unfold skip_seps
    by_cases h : IS_DIR_SEPARATOR c = true
    · rw [if_pos h]; exact ih
    · rw [if_neg h]
      simpa [sep_at] using h

/-- Appending bytes that are not separators, the first of which is not a
lone dot. -/
theorem CanonInv_append {root out X : List Nat} (h : CanonInv root out)
    (hX : ∀ c ∈ X, c ≠ 47)
    (hdot : X[0]? = some 46 → ∃ c, X[1]? = some c ∧ c ≠ 47) :
    CanonInv root (out ++ X) := by
  obtain ⟨h1, h2, h3⟩ := h
  refine ⟨h1.trans (List.prefix_append _ _), ?_, ?_⟩
  · intro i hi ⟨a, b⟩
    by_cases hlt : i + 1 < out.length
    · rw [List.getElem?_append_left (by omega)] at a
      rw [List.getElem?_append_left hlt] at b
      exact h2 i hi ⟨a, b⟩
    · rw [List.getElem?_append_right (by omega)] at b
      have := mem_of_getElem?_eq b
      exact hX 47 this rfl
  · intro i hi a hseg
    by_cases hlt : i + 1 < out.length
    · rw [List.getElem?_append_left (by omega)] at a
      have hseg' : i = root.length ∨ out[i - 1]? = some 47 := by
        rcases hseg with hs | hs
        · exact Or.inl hs
        · rw [List.getElem?_append_left (by omega)] at hs
          exact Or.inr hs
      obtain ⟨c, hc, hc47⟩ := h3 i hi a hseg'
      exact ⟨c, by rw [List.getElem?_append_left hlt]; exact hc, hc47⟩
    · by_cases hi2 : i < out.length
      · -- the last byte of `out`
        rw [List.getElem?_append_left hi2] at a
        have hseg' : i = root.length ∨ out[i - 1]? = some 47 := by
          rcases hseg with hs | hs
          · exact Or.inl hs
          · rw [List.getElem?_append_left (by omega)] at hs
            exact Or.inr hs
        obtain ⟨c, hc, _⟩ := h3 i hi a hseg'
        have : i + 1 < out.length := by
          rcases List.getElem?_eq_some_iff.mp hc with ⟨hl, _⟩
          exact hl
        exact absurd this hlt
      · have hge : out.length ≤ i := by omega
        rw [List.getElem?_append_right hge] at a
        by_cases hk : i = out.length
        · subst hk
          simp only [Nat.sub_self] at a
          obtain ⟨c, hc, hc47⟩ := hdot a
          refine ⟨c, ?_, hc47⟩
          rw [List.getElem?_append_right (by omega)]
          simpa using hc
        · exfalso
          rcases hseg with hs | hs
          · have := h1.length_le
            omega
          · rw [List.getElem?_append_right (by omega)] at hs
            exact hX 47 (mem_of_getElem?_eq hs) rfl

/-- Appending a separator after a byte that is none. -/
theorem CanonInv_append_sep {root out : List Nat} (h : CanonInv root out) {x : Nat}
    (hlast : out.getLast? = some x) (hx : x ≠ 47) : CanonInv root (out ++ [47]) := by
  obtain ⟨h1, h2, h3⟩ := h
  have hne : out ≠ [] := by
    intro h0; rw [h0] at hlast; simp at hlast
  have hl : out[out.length - 1]? = some x := by
    rw [List.getLast?_eq_getElem?] at hlast
    exact hlast
  have hpos : 0 < out.length := List.length_pos.mpr hne
  refine ⟨h1.trans (List.prefix_append _ _), ?_, ?_⟩
  · intro i hi ⟨a, b⟩
    by_cases hlt : i + 1 < out.length
    · rw [List.getElem?_append_left (by omega)] at a
      rw [List.getElem?_append_left hlt] at b
      exact h2 i hi ⟨a, b⟩
    · by_cases hk : i + 1 = out.length
      · rw [List.getElem?_append_left (by omega)] at a
        have : i = out.length - 1 := by omega
        rw [this, hl] at a
        exact hx (Option.some.inj a)
      · rw [List.getElem?_append_right (by omega)] at b
        have : i + 1 - out.length ≠ 0 := by omega
        rw [List.getElem?_eq_none (by simp; omega)] at b
        cases b
  · intro i hi a hseg
    by_cases hlt : i < out.length
    · rw [List.getElem?_append_left hlt] at a
      have hseg' : i = root.length ∨ out[i - 1]? = some 47 := by
        rcases hseg with hs | hs
        · exact Or.inl hs
        · rw [List.getElem?_append_left (by omega)] at hs
          exact Or.inr hs
      obtain ⟨c, hc, hc47⟩ := h3 i hi a hseg'
      have hl2 : i + 1 < out.length := by
        rcases List.getElem?_eq_some_iff.mp hc with ⟨hl, _⟩
        exact hl
      exact ⟨c, by rw [List.getElem?_append_left hl2]; exact hc, hc47⟩
    · exfalso
      rw [List.getElem?_append_right (by omega)] at a
      by_cases hk : i = out.length
      · subst hk
        simp at a
      · rw [List.getElem?_eq_none (by simp; omega)] at a
        cases a

/-- Cutting the output back to a segment start. -/
theorem CanonInv_take {root out : List Nat} (h : CanonInv root out) {k : Nat}
    (hk : root.length ≤ k) (hhead : k = root.length ∨ out[k - 1]? = some 47) :
    CanonInv root (out.take k) := by
  obtain ⟨h1, h2, h3⟩ := h
  refine ⟨?_, ?_, ?_⟩
  · obtain ⟨t, ht⟩ := h1
    rw [← ht, List.take_append_eq_append_take]
    rw [List.take_of_length_le hk]
    exact List.prefix_append _ _
  · intro i hi ⟨a, b⟩
    rw [List.getElem?_take] at a b
    split_ifs at a b with c1 c2
    · exact h2 i hi ⟨a, b⟩
  · intro i hi a hseg
    rw [List.getElem?_take] at a
    split_ifs at a with c1
    · have hseg' : i = root.length ∨ out[i - 1]? = some 47 := by
        rcases hseg with hs | hs
        · exact Or.inl hs
        · rw [List.getElem?_take] at hs
          split_ifs at hs
          · exact Or.inr hs
      obtain ⟨c, hc, hc47⟩ := h3 i hi a hseg'
      have hlt : i + 1 < k := by
        by_contra hn
        have hik : i = k - 1 := by omega
        rcases hhead with hh | hh
        · omega
        · rw [← hik, a] at hh
          cases hh
      exact ⟨c, by rw [List.getElem?_take, if_pos hlt]; exact hc, hc47⟩

theorem back_seps_bounds (out : List Nat) (droot : Nat) : ∀ n, droot ≤ n →
    droot ≤ back_seps out droot n ∧ back_seps out droot n ≤ n := by
  intro n
  induction n with
  | zero => intro h; simp [back_seps]; omega
  | succ k ih =>
    intro h
    unfold back_seps
    by_cases hc : (decide (droot < k + 1) && IS_DIR_SEPARATOR (out.getD (k + 1) 0)) = true
    · rw [if_pos hc]
      simp only [Bool.and_eq_true, decide_eq_true_eq] at hc
      have := ih (by omega)
      omega
    · rw [if_neg hc]
      omega

theorem back_seg_bounds (out : List Nat) (droot : Nat) : ∀ n, droot ≤ n →
    droot ≤ back_seg out droot n ∧ back_seg out droot n ≤ n ∧
      (droot < back_seg out droot n →
        IS_DIR_SEPARATOR (out.getD (back_seg out droot n) 0) = true) := by
  intro n
  induction n with
  | zero => intro h; simp [back_seg]; omega
  | succ k ih =>
    intro h
    unfold back_seg
    by_cases hc : (decide (droot < k + 1) && !IS_DIR_SEPARATOR (out.getD (k + 1) 0)) = true
    · rw [if_pos hc]
      simp only [Bool.and_eq_true, decide_eq_true_eq] at hc
      have := ih (by omega)
      refine ⟨this.1, by omega, this.2.2⟩
    · rw [if_neg hc]
      refine ⟨h, Nat.le_refl _, ?_⟩
      intro hlt
      simp only [Bool.and_eq_true, decide_eq_true_eq, not_and, Bool.not_eq_true',
        Bool.not_eq_false] at hc
      simpa using hc hlt

/-- The two dots of a `..` segment are copied. -/
theorem CanonInv_copy {root out s : List Nat} (h : CanonInv root out)
    (h0 : s.head? = some 46) (h1 : (s.drop 1).head? = some 46) :
    CanonInv root (out ++ s.take 2) ∧ (out ++ s.take 2).getLast? = some 46 := by
  obtain ⟨a, t, rfl⟩ : ∃ a t, s = a :: t := by
    cases s with
    | nil => simp at h0
    | cons a t => exact ⟨a, t, rfl⟩
  obtain ⟨b, u, rfl⟩ : ∃ b u, t = b :: u := by
    cases t with
    | nil => simp at h1
    | cons b u => exact ⟨b, u, rfl⟩
  simp at h0 h1
  subst h0
  subst h1
  constructor
  · apply CanonInv_append h
    · intro c hc
      simp at hc
      omega
    · intro _
      exact ⟨46, by simp, by decide⟩
  · simp

theorem canon_dotdot_inv {root out s : List Nat} (h : CanonInv root out)
    (h0 : s.head? = some 46) (h1 : (s.drop 1).head? = some 46) :
    (canon_dotdot root.length s out = (s.drop 2, out ++ s.take 2) ∧
        CanonInv root (out ++ s.take 2) ∧ (out ++ s.take 2).getLast? = some 46) ∨
      (∃ k, canon_dotdot root.length s out = (skip_seps (s.drop 2), out.take k) ∧
        CanonInv root (out.take k)) := by
  have hcopy := CanonInv_copy h h0 h1
  unfold canon_dotdot
  by_cases hz : out.length = 0
  · rw [if_pos hz]; exact Or.inl ⟨rfl, hcopy⟩
  · rw [if_neg hz]
    simp only
    by_cases hc : (decide (root.length ≤ back_seps out root.length (out.length - 1)) &&
        !IS_DIR_SEPARATOR (out.getD (back_seps out root.length (out.length - 1)) 0)) = true
    · rw [if_pos hc]
      by_cases hd : (decide ((if root.length < back_seg out root.length
            (back_seps out root.length (out.length - 1))
          then back_seg out root.length (back_seps out root.length (out.length - 1)) + 1
          else back_seg out root.length (back_seps out root.length (out.length - 1))) + 3
            = out.length) &&
          out.getD (if root.length < back_seg out root.length
            (back_seps out root.length (out.length - 1))
          then back_seg out root.length (back_seps out root.length (out.length - 1)) + 1
          else back_seg out root.length (back_seps out root.length (out.length - 1))) 0 == 46 &&
          out.getD ((if root.length < back_seg out root.length
            (back_seps out root.length (out.length - 1))
          then back_seg out root.length (back_seps out root.length (out.length - 1)) + 1
          else back_seg out root.length (back_seps out root.length (out.length - 1))) + 1) 0
            == 46) = true
      · rw [if_pos hd]; exact Or.inl ⟨rfl, hcopy⟩
      · rw [if_neg hd]
        right
        refine ⟨_, rfl, ?_⟩
        simp only [Bool.and_eq_true, decide_eq_true_eq] at hc
        obtain ⟨b1, b2, b3⟩ := back_seg_bounds out root.length _ hc.1
        have hp0 := (back_seps_bounds out root.length (out.length - 1) (by
          have := h.1.length_le
          by_contra hn
          have hlen : out.length = root.length := by omega
          have hb : back_seps out root.length (out.length - 1) ≤ out.length - 1 := by
            cases hk : out.length - 1 with
            | zero => simp [back_seps]
            | succ j =>
              unfold back_seps
              have : ¬ (root.length < j + 1) := by omega
              simp [this]
          omega)).2
        by_cases hlt : root.length < back_seg out root.length
            (back_seps out root.length (out.length - 1))
        · rw [if_pos hlt]
          apply CanonInv_take h (by omega)
          right
          have hs := b3 hlt
          rw [sep_iff] at hs
          simp only [Nat.add_sub_cancel]
          have hlt2 : back_seg out root.length (back_seps out root.length (out.length - 1))
              < out.length := by omega
          rw [List.getD_eq_getElem?_getD, List.getElem?_eq_getElem hlt2] at hs
          rw [List.getElem?_eq_getElem hlt2]
          simpa using hs
        · rw [if_neg hlt]
          exact CanonInv_take h b1 (Or.inl (by omega))
    · rw [if_neg hc]; exact Or.inl ⟨rfl, hcopy⟩

theorem takeWhile_nonsep_cons {a : Nat} (t : List Nat) (ha : a ≠ 47) :
    (a :: t).takeWhile (fun c => !IS_DIR_SEPARATOR c)
      = a :: t.takeWhile (fun c => !IS_DIR_SEPARATOR c) := by
  have h : (!IS_DIR_SEPARATOR a) = true := by simp [IS_DIR_SEPARATOR, ha]
  simp only [List.takeWhile, h]

theorem mem_of_getLast?_eq {l : List Nat} {x : Nat} (h : l.getLast? = some x) : x ∈ l := by
  rw [List.getLast?_eq_getElem?] at h
  exact mem_of_getElem?_eq h

theorem canon_finish_inv {root : List Nat} {r : List Nat × List Nat} (hr : CanonInv root r.2)
    (hsep : sep_at r.1 = true → ∃ x, r.2.getLast? = some x ∧ x ≠ 47) :
    CanonInv root (match r.1 with
      | [] => r
      | c :: s1 => if IS_DIR_SEPARATOR c then (skip_seps s1, r.2 ++ [c]) else r).2 ∧
    sep_at (match r.1 with
      | [] => r
      | c :: s1 => if IS_DIR_SEPARATOR c then (skip_seps s1, r.2 ++ [c]) else r).1 = false := by
  cases hr1 : r.1 with
  | nil =>
    simp only
    exact ⟨hr, by rw [hr1]; rfl⟩
  | cons c s1 =>
    simp only
    by_cases hc : IS_DIR_SEPARATOR c = true
    · rw [if_pos hc]
      have hc47 : c = 47 := (sep_iff c).mp hc
      obtain ⟨x, hx, hx47⟩ := hsep (by rw [hr1]; simpa [sep_at] using hc)
      subst hc47
      exact ⟨CanonInv_append_sep hr hx hx47, skip_seps_not_sep s1⟩
    · rw [if_neg hc]
      refine ⟨hr, ?_⟩
      rw [hr1]
      simpa [sep_at] using hc

theorem canon_step_inv {root out s : List Nat} (h : CanonInv root out) (hne : s ≠ [])
    (hs : sep_at s = false) :
    CanonInv root (canon_step root.length s out).2 ∧
      sep_at (canon_step root.length s out).1 = false := by
  obtain ⟨a, t, rfl⟩ := List.exists_cons_of_ne_nil hne
  have ha : a ≠ 47 := by
    intro h47
    rw [h47] at hs
    simp [sep_at, IS_DIR_SEPARATOR] at hs
  unfold canon_step
  simp only
  apply canon_finish_inv
  · by_cases c1 : ((a :: t).head? = some 46 && end_or_sep ((a :: t).drop 1)) = true
    · rw [if_pos c1]; exact h
    · rw [if_neg c1]
      by_cases c2 : ((a :: t).head? = some 46 && ((a :: t).drop 1).head? = some 46 &&
          end_or_sep ((a :: t).drop 2)) = true
      · rw [if_pos c2]
        simp only [Bool.and_eq_true, decide_eq_true_eq] at c2
        rcases canon_dotdot_inv h c2.1.1 c2.1.2 with ⟨e, hi, _⟩ | ⟨k, e, hi⟩
        · rw [e]; exact hi
        · rw [e]; exact hi
      · rw [if_neg c2]
        simp only
        apply CanonInv_append h
        · intro c hc
          have := List.mem_takeWhile_imp hc
          simp only [Bool.not_eq_true', ← Bool.not_eq_true, sep_iff] at this
          exact this
        · intro h46
          rw [takeWhile_nonsep_cons t ha] at h46 ⊢
          simp only [List.getElem?_cons_zero, Option.some.injEq] at h46
          subst h46
          simp only [List.head?_cons, List.drop_succ_cons, List.drop_zero, decide_True,
            Bool.true_and, Bool.not_eq_true] at c1
          cases t with
          | nil => simp [end_or_sep] at c1
          | cons b u =>
            simp only [end_or_sep] at c1
            have hb : b ≠ 47 := by
              intro hb47
              rw [hb47] at c1
              simp [IS_DIR_SEPARATOR] at c1
            rw [takeWhile_nonsep_cons u hb]
            exact ⟨b, by simp, hb⟩
  · intro hsep
    by_cases c1 : ((a :: t).head? = some 46 && end_or_sep ((a :: t).drop 1)) = true
    · rw [if_pos c1] at hsep
      simp only at hsep
      rw [skip_seps_not_sep] at hsep
      cases hsep
    · rw [if_neg c1] at hsep ⊢
      by_cases c2 : ((a :: t).head? = some 46 && ((a :: t).drop 1).head? = some 46 &&
          end_or_sep ((a :: t).drop 2)) = true
      · rw [if_pos c2] at hsep ⊢
        simp only [Bool.and_eq_true, decide_eq_true_eq] at c2
        rcases canon_dotdot_inv h c2.1.1 c2.1.2 with ⟨e, _, hl⟩ | ⟨k, e, _⟩
        · rw [e]
          exact ⟨46, hl, by decide⟩
        · rw [e] at hsep
          simp only at hsep
          rw [skip_seps_not_sep] at hsep
          cases hsep
      · rw [if_neg c2]
        simp only
        have hXne : (a :: t).takeWhile (fun c => !IS_DIR_SEPARATOR c) ≠ [] := by
          rw [takeWhile_nonsep_cons t ha]
          exact List.cons_ne_nil _ _
        rw [List.getLast?_append_of_ne_nil _ hXne]
        obtain ⟨x, hx⟩ : ∃ x, ((a :: t).takeWhile (fun c => !IS_DIR_SEPARATOR c)).getLast?
            = some x := by
          cases hq : ((a :: t).takeWhile (fun c => !IS_DIR_SEPARATOR c)).getLast? with
          | none => exact absurd (List.getLast?_eq_none_iff.mp hq) hXne
          | some x => exact ⟨x, rfl⟩
        refine ⟨x, hx, ?_⟩
        have hmem := mem_of_getLast?_eq hx
        have := List.mem_takeWhile_imp hmem
        simp only [Bool.not_eq_true', ← Bool.not_eq_true, sep_iff] at this
        exact this

theorem canon_loop_inv {root : List Nat} : ∀ (fuel : Nat) (s out : List Nat),
    CanonInv root out → sep_at s = false → CanonInv root (canon_loop root.length fuel s out) := by
  intro fuel
  induction fuel with
  | zero => intro s out h _; simpa [canon_loop] using h
  | succ n ih =>
    intro s out h hs
    cases s with
    | nil => simpa [canon_loop] using h
    | cons c t =>
      unfold canon_loop
      simp only
      obtain ⟨h1, h2⟩ := canon_step_inv h (List.cons_ne_nil c t) hs
      exact ih _ _ h1 h2

theorem CanonInv_droplast {root out : List Nat} (h : CanonInv root out)
    (hlen : root.length < out.length) (hlast : out[out.length - 1]? = some 47) :
    CanonInv root (out.take (out.length - 1)) := by
  obtain ⟨h1, h2, h3⟩ := h
  refine ⟨?_, ?_, ?_⟩
  · obtain ⟨t, ht⟩ := h1
    have hk : root.length ≤ out.length - 1 := by omega
    rw [← ht, List.take_append_eq_append_take, List.take_of_length_le (by rw [ht]; exact hk)]
    exact List.prefix_append _ _
  · intro i hi ⟨a, b⟩
    rw [List.getElem?_take] at a b
    split_ifs at a b with c1 c2
    · exact h2 i hi ⟨a, b⟩
  · intro i hi a hseg
    rw [List.getElem?_take] at a
    split_ifs at a with c1
    · have hseg' : i = root.length ∨ out[i - 1]? = some 47 := by
        rcases hseg with hs | hs
        · exact Or.inl hs
        · rw [List.getElem?_take] at hs
          split_ifs at hs
          · exact Or.inr hs
      obtain ⟨c, hc, hc47⟩ := h3 i hi a hseg'
      have hlt : i + 1 < out.length - 1 := by
        by_contra hn
        have hik : i + 1 = out.length - 1 := by omega
        rw [hik, hlast] at hc
        exact hc47 (Option.some.inj hc).symm
      exact ⟨c, by rw [List.getElem?_take, if_pos hlt]; exact hc, hc47⟩

theorem trim_seps_inv {root : List Nat} : ∀ (n : Nat) (out : List Nat),
    CanonInv root out → CanonInv root (trim_seps root.length out n) := by
  intro n
  induction n with
  | zero => intro out h; simpa [trim_seps] using h
  | succ k ih =>
    intro out h
    unfold trim_seps
    by_cases hc : (decide (root.length < out.length) &&
        IS_DIR_SEPARATOR (out.getD (out.length - 1) 0)) = true
    · rw [if_pos hc]
      simp only [Bool.and_eq_true, decide_eq_true_eq, sep_iff] at hc
      apply ih
      apply CanonInv_droplast h hc.1
      have hlt : out.length - 1 < out.length := by omega
      have := hc.2
      rw [List.getD_eq_getElem?_getD, List.getElem?_eq_getElem hlt] at this
      rw [List.getElem?_eq_getElem hlt]
      simpa using this
    · rw [if_neg hc]; exact h

theorem trim_seps_done (droot : Nat) : ∀ (n : Nat) (out : List Nat), out.length ≤ droot + n →
    ¬ (droot < (trim_seps droot out n).length ∧
      (trim_seps droot out n).getLast? = some 47) := by
  intro n
  induction n with
  | zero =>
    intro out h
    simp only [trim_seps]
    omega
  | succ k ih =>
    intro out h
    unfold trim_seps
    by_cases hc : (decide (droot < out.length) &&
        IS_DIR_SEPARATOR (out.getD (out.length - 1) 0)) = true
    · rw [if_pos hc]
      simp only [Bool.and_eq_true, decide_eq_true_eq] at hc
      apply ih
      simp
      omega
    · rw [if_neg hc]
      simp only [Bool.and_eq_true, decide_eq_true_eq, sep_iff, not_and] at hc
      rintro ⟨h1, h2⟩
      apply hc h1
      rw [List.getLast?_eq_getElem?] at h2
      rw [List.getD_eq_getElem?_getD, h2]
      rfl

theorem canon_root_inv (s : List Nat) :
    ((canon_root s).2 = [] ∨ (canon_root s).2 = [47] ∨ (canon_root s).2 = [47, 47]) ∧
      sep_at (canon_root s).1 = false := by
  unfold canon_root
  cases s with
  | nil => simp [sep_at]
  | cons c s1 =>
    simp only
    by_cases hc : IS_DIR_SEPARATOR c = true
    · rw [if_pos hc]
      have hc47 := (sep_iff c).mp hc
      subst hc47
      by_cases h2 : (sep_at s1 && !sep_at (s1.drop 1)) = true
      · rw [if_pos h2]
        refine ⟨?_, skip_seps_not_sep _⟩
        right; right
        cases s1 with
        | nil => simp [sep_at] at h2
        | cons b u =>
          simp only [sep_at, Bool.and_eq_true, sep_iff] at h2
          rw [h2.1]
          rfl
      · rw [if_neg h2]
        exact ⟨Or.inr (Or.inl rfl), skip_seps_not_sep _⟩
    · rw [if_neg hc]
      refine ⟨Or.inl rfl, ?_⟩
      simpa [sep_at] using hc

theorem CanonInv_root {root : List Nat}
    (h : root = [] ∨ root = [47] ∨ root = [47, 47]) : CanonInv root root := by
  refine ⟨List.prefix_refl _, ?_, ?_⟩
  · intro i hi ⟨_, b⟩
    rw [List.getElem?_eq_none (by omega)] at b
    cases b
  · intro i hi a
    rw [List.getElem?_eq_none (by omega)] at a
    cases a

/-- The result of `canonicalize_path` has the canonical shape. -/
theorem canonicalize_path_shape (s : List Nat) : canon_shape (canonicalize_path s) := by
  obtain ⟨hroot, hsep⟩ := canon_root_inv s
  have hrl : (canon_root s).2.length ≤ 2 := by
    rcases hroot with h | h | h <;> rw [h] <;> simp
  have hinv := trim_seps_inv
    (canon_loop (canon_root s).2.length (canon_root s).1.length (canon_root s).1
      (canon_root s).2).length _
    (canon_loop_inv (canon_root s).1.length (canon_root s).1 (canon_root s).2
      (CanonInv_root hroot) hsep)
  have hdone := trim_seps_done (canon_root s).2.length
    (canon_loop (canon_root s).2.length (canon_root s).1.length (canon_root s).1
      (canon_root s).2).length
    (canon_loop (canon_root s).2.length (canon_root s).1.length (canon_root s).1
      (canon_root s).2) (by omega)
  unfold canonicalize_path
  simp only
  generalize trim_seps (canon_root s).2.length
    (canon_loop (canon_root s).2.length (canon_root s).1.length (canon_root s).1
      (canon_root s).2)
    (canon_loop (canon_root s).2.length (canon_root s).1.length (canon_root s).1
      (canon_root s).2).length = R at hinv hdone ⊢
  generalize (canon_root s).2 = root at hroot hrl hinv hdone ⊢
  by_cases hz : R.length = 0
  · rw [if_pos hz]
    refine ⟨by simp, ?_, ?_, Or.inl rfl⟩
    · intro i hi ⟨a, _⟩
      have : i ≠ 0 := by omega
      rw [List.getElem?_eq_none (by simp; omega)] at a
      cases a
    · intro h; simp at h
  · rw [if_neg hz]
    obtain ⟨h1, h2, h3⟩ := hinv
    refine ⟨by intro h; rw [h] at hz; exact hz rfl, ?_, ?_, Or.inr ?_⟩
    · intro i hi
      exact h2 i (by omega)
    · intro hl
      have hle : R.length ≤ root.length := by
        by_contra hn
        exact hdone ⟨by omega, hl⟩
      have heq : R = root := by
        obtain ⟨t, ht⟩ := h1
        have hlen := congrArg List.length ht
        simp at hlen
        have : t = [] := List.length_eq_zero.mp (by omega)
        rw [this] at ht
        simpa using ht.symm
      rw [heq] at hz ⊢
      rcases hroot with h | h | h
      · rw [h] at hz; exact absurd rfl hz
      · exact Or.inl h
      · exact Or.inr h
    · intro i a hseg
      have hge : root.length ≤ i := by
        by_contra hn
        obtain ⟨t, ht⟩ := h1
        rw [← ht, List.getElem?_append_left (by omega)] at a
        have hm := mem_of_getElem?_eq a
        rcases hroot with h | h | h <;> rw [h] at hm <;> simp at hm
      apply h3 i hge a
      rcases hseg with hs | hs
      · left; omega
      · exact Or.inr hs

/-! ## A second run over a rewritten header -/

theorem rd_congr {m m' : List Nat} {p : Nat} (h : m'[p]? = m[p]?) : rd m' p = rd m p := by
  unfold rd
  rw [h]

theorem do_read_16_congr {msb : Bool} {m m' : List Nat} {p : Nat}
    (h : ∀ j, j < 2 → m'[p + j]? = m[p + j]?) : do_read_16 msb m' p = do_read_16 msb m p := by
  unfold do_read_16
  have h0 : rd m' p = rd m p := rd_congr (by simpa using h 0 (by omega))
  rw [h0, rd_congr (h 1 (by omega))]

theorem do_read_32_congr {msb : Bool} {m m' : List Nat} {p : Nat}
    (h : ∀ j, j < 4 → m'[p + j]? = m[p + j]?) : do_read_32 msb m' p = do_read_32 msb m p := by
  unfold do_read_32
  have h0 : rd m' p = rd m p := rd_congr (by simpa using h 0 (by omega))
  rw [h0, rd_congr (h 1 (by omega)), rd_congr (h 2 (by omega)), rd_congr (h 3 (by omega))]

/-- The header checks read the section size and bytes before the directory
table only (and the byte `opcode_base` itself, which is the first byte of
the table when it is 0). -/
theorem line_header_local {msb : Bool} {m m' : List Nat} {off dir : Nat}
    (hl : m'.length = m.length) (hpre : ∀ i, i < dir → m'[i]? = m[i]?)
    (hz : m[dir]? = some 0 → m'[dir]? = some 0)
    (hh : line_header msb m off = .ok (some dir)) : line_header msb m' off = .ok (some dir) := by
  unfold line_header at hh
  obtain ⟨len, h1, k1⟩ := bind_eq_ok.mp hh
  clear hh
  by_cases c1 : len = 0xffffffff
  · rw [if_pos c1] at k1; cases ok_inj k1
  rw [if_neg c1] at k1
  by_cases c2 : off + 4 + len > m.length
  · rw [if_pos c2] at k1; cases ok_inj k1
  rw [if_neg c2] at k1
  obtain ⟨value, h2, k2⟩ := bind_eq_ok.mp k1
  clear k1
  by_cases c3 : value ≠ 2 ∧ value ≠ 3 ∧ value ≠ 4
  · rw [if_pos c3] at k2; cases ok_inj k2
  rw [if_neg c3] at k2
  obtain ⟨hlen, h3, k3⟩ := bind_eq_ok.mp k2
  clear k2
  by_cases c4 : off + 4 + 2 + 4 + hlen > off + 4 + len
  · rw [if_pos c4] at k3; cases ok_inj k3
  rw [if_neg c4] at k3
  obtain ⟨ob, h4, k4⟩ := bind_eq_ok.mp k3
  clear k3
  have hdir : off + 4 + 2 + 4 + 4 + (if value ≥ 4 then 1 else 0) + ob = dir :=
    Option.some.inj (ok_inj k4)
  have hv : (if value ≥ 4 then 1 else 0) ≤ 1 := by split_ifs <;> omega
  have e1 : do_read_32 msb m' off = .ok len := by
    rw [do_read_32_congr (fun j hj => hpre _ (by omega)), h1]
  have e2 : do_read_16 msb m' (off + 4) = .ok value := by
    rw [do_read_16_congr (fun j hj => hpre _ (by omega)), h2]
  have e3 : do_read_32 msb m' (off + 4 + 2) = .ok hlen := by
    rw [do_read_32_congr (fun j hj => hpre _ (by omega)), h3]
  have e4 : rd m' (off + 4 + 2 + 4 + 4 + (if value ≥ 4 then 1 else 0)) = .ok ob := by
    by_cases hob : ob = 0
    · subst hob
      have hq : off + 4 + 2 + 4 + 4 + (if value ≥ 4 then 1 else 0) = dir := by omega
      rw [hq] at h4 ⊢
      have hm : m[dir]? = some 0 := by
        unfold rd at h4
        cases hg : m[dir]? with
        | none => rw [hg] at h4; cases h4
        | some c => rw [hg] at h4; rw [Except.ok.inj h4]
      unfold rd
      rw [hz hm]
    · rw [rd_congr (hpre _ (by omega)), h4]
  unfold line_header
  rw [e1]
  simp only [bind_ok_eq]
  rw [if_neg c1, hl, if_neg c2, e2]
  simp only [bind_ok_eq]
  rw [if_neg c3, e3]
  simp only [bind_ok_eq]
  rw [if_neg c4, e4]
  simp only [bind_ok_eq]
  exact k4

theorem new_file_idem {base dest : List Nat} (heq : dest.length = base.length)
    (f : List Nat × List Nat) : new_file base dest (new_file base dest f) = new_file base dest f := by
  by_cases hu : under_base base f.1 = true
  · have e1 : new_file base dest f = (dest ++ f.1.drop base.length, f.2) := by
      unfold new_file; rw [if_pos hu]
    rw [e1]
    by_cases hu2 : under_base base (dest ++ f.1.drop base.length) = true
    · unfold new_file
      simp only [hu2, if_true]
      rw [← heq, List.drop_left]
    · unfold new_file
      simp only [hu2]
      rfl
  · have e1 : new_file base dest f = f := by
      unfold new_file; rw [if_neg hu]
    rw [e1, e1]

theorem encD_eq_nil {ds : List (List Nat)} (h : (encD ds).length = 0) : ds = [] := by
  cases ds with
  | nil => rfl
  | cons e r =>
    rw [encD_cons] at h
    simp at h

theorem LineTables_head_zero {m : List Nat} {dir : Nat} {ds : List (List Nat)}
    {fs : List (List Nat × List Nat)} (h : LineTables m dir ds fs) :
    m[dir]? = some 0 ↔ ds = [] := by
  obtain ⟨h1, _, R, h3⟩ := h
  have hget : m[dir]? = (encD ds ++ 0 :: (encF fs ++ 0 :: R))[0]? := by
    rw [← h3, List.getElem?_drop]
    rfl
  rw [hget]
  constructor
  · intro h0
    cases ds with
    | nil => rfl
    | cons e r =>
      exfalso
      obtain ⟨hne, hnz⟩ := h1 e (List.mem_cons_self _ _)
      obtain ⟨c, t, rfl⟩ := List.exists_cons_of_ne_nil hne
      rw [encD_cons] at h0
      simp at h0
      exact hnz c (List.mem_cons_self _ _) h0
  · intro hnil
    rw [hnil]
    simp [encD]

/-- Two runs of the line-header editor, with dest as long as base. -/
theorem edit_dwarf2_line_twice {cfg : Config} {msb : Bool} {st st1 st2 : St} {off dir : Nat}
    {cd cd2 m base dest : List Nat} {ds : List (List Nat)} {fs : List (List Nat × List Nat)}
    (heq : dest.length = base.length)
    (hline : st.debug_line = some m) (hb : cfg.base_dir = some base)
    (hd : cfg.dest_dir = some dest)
    (hblen : base.length < 2 ^ 63) (hfit : m.length < 2 ^ 63)
    (hdest : ∀ x ∈ dest, x ≠ 0) (hdne : dest ≠ [])
    (hh : line_header msb m off = .ok (some dir)) (ht : LineTables m dir ds fs)
    (h1 : edit_dwarf2_line cfg msb st off cd 0 = .ok (0, st1))
    (h2 : edit_dwarf2_line cfg msb st1 off cd2 0 = .ok (0, st2)) :
    ∃ m1 m2 F1 F2, st1.debug_line = some m1 ∧ st2.debug_line = some m2 ∧
      line_header msb m1 off = .ok (some dir) ∧
      LineTables m1 dir (ds.map (new_dir cfg.win_path base dest) ++ F1)
        (fs.map (new_file base dest)) ∧
      LineTables m2 dir
        ((ds.map (new_dir cfg.win_path base dest) ++ F1).map (new_dir cfg.win_path base dest) ++ F2)
        (fs.map (new_file base dest)) := by
  have hlen : dest.length ≤ base.length := by omega
  obtain ⟨n1, n2, m1, a1, _, _, a4, a5, a6, a7, _⟩ :=
    edit_dwarf2_line_of_tables hline hb hd hlen hblen hfit hdest hdne hh ht h1
  rw [List.append_assoc] at a4 a5
  have hF : (encF (fs.map (new_file base dest))).length = (encF fs).length :=
    encF_new_length_same hlen (Or.inl heq)
  have hh1 : line_header msb m1 off = .ok (some dir) := by
    apply line_header_local a6 (fun i hi => getElem?_of_take_eq a7 hi) _ hh
    intro hz
    have hnil := (LineTables_head_zero ht).mp hz
    subst hnil
    apply (LineTables_head_zero a4).mpr
    apply encD_eq_nil
    rw [hF] at a5
    simp only [encD_nil, List.length_nil, Nat.zero_add, Nat.add_left_eq_self] at a5
    exact a5
  obtain ⟨n3, n4, m2, b1, _, _, b4, _⟩ :=
    edit_dwarf2_line_of_tables a1 hb hd hlen hblen (by rw [a6]; exact hfit) hdest hdne hh1 a4 h2
  rw [List.append_assoc] at b4
  have hmap : (fs.map (new_file base dest)).map (new_file base dest)
      = fs.map (new_file base dest) := by
    rw [List.map_map]
    apply List.map_congr_left
    intro f _
    exact new_file_idem heq f
  rw [hmap] at b4
  exact ⟨m1, m2, _, _, a1, b1, hh1, a4, b4⟩

theorem rewrite_guard_miss {cfg : Config} {s base dest : List Nat}
    (hb : cfg.base_dir = some base) (hd : cfg.dest_dir = some dest)
    (hpre : has_prefix s base = false) : rewrite_guard cfg 1 s = .ok none := by
  unfold rewrite_guard has_prefix_opt
  rw [if_pos rfl, hd, hb]
  simp only [bind_ok_eq, pure_eq_ok, hpre]
  rfl

theorem edit_inline_miss {cfg : Config} {whole : Bool} {st : St} {S base dest : List Nat} {p : Nat}
    (hb : cfg.base_dir = some base) (hd : cfg.dest_dir = some dest)
    (hpre : has_prefix S base = false) : edit_inline cfg 1 whole st p S = .ok st := by
  unfold edit_inline
  rw [rewrite_guard_miss hb hd hpre]
  rfl

theorem edit_strp_miss {cfg : Config} {whole : Bool} {st : St} {str S base dest : List Nat}
    {off : Nat} (hb : cfg.base_dir = some base) (hd : cfg.dest_dir = some dest)
    (hpre : has_prefix S base = false) : edit_strp cfg 1 whole st str off S = .ok st := by
  unfold edit_strp
  rw [rewrite_guard_miss hb hd hpre]
  rfl

/-- A string that has been given the prefix dest starts with base only when
dest is base. -/
theorem has_prefix_dest {base dest X : List Nat} (heq : dest.length = base.length)
    (h : has_prefix (dest ++ X) base = true) : dest = base := by
  obtain ⟨_, h2⟩ := has_prefix_iff.mp h
  rw [← heq, List.take_left] at h2
  exact h2

/-- The guarded rewrite of an inline string, done twice (dest as long as
base, non-Windows mode): the second pass finds a string and leaves
`.debug_info` as the first left it. -/
theorem edit_inline_twice {cfg : Config} {whole : Bool} {st st1 : St} {m S base dest : List Nat}
    {p : Nat} (hwin : cfg.win_path = false) (hb : cfg.base_dir = some base)
    (hd : cfg.dest_dir = some dest) (heq : dest.length = base.length)
    (hdest : ∀ x ∈ dest, x ≠ 0) (hm : st.debug_info = some m) (hS : cstr m p = .ok S)
    (h1 : edit_inline cfg 1 whole st p S = .ok st1) :
    ∃ S1 st2, cstr (info_of st1) p = .ok S1 ∧ edit_inline cfg 1 whole st1 p S1 = .ok st2 ∧
      st2.debug_info = st1.debug_info := by
  have hlen : dest.length ≤ base.length := by omega
  have hi : ∀ (x : St) (y : List Nat), x.debug_info = some y → info_of x = y := by
    intro x y h; unfold info_of; rw [h]; rfl
  by_cases hpre : has_prefix S base = true
  · obtain ⟨hS0, r, hdrop⟩ := cstr_eq_ok.mp hS
    obtain ⟨hbl, htake⟩ := has_prefix_iff.mp hpre
    rw [edit_inline_hit hwin hb hd hlen hm hS hpre] at h1
    have hst1 := Except.ok.inj h1
    have hz : base.length - dest.length = 0 := by omega
    rw [hz] at hst1
    simp only [List.replicate_zero, List.append_nil] at hst1
    have hm1 : st1.debug_info = some (m.take p ++ dest ++ m.drop (p + base.length)) := by
      rw [← hst1]
    have hd2 : m.drop (p + base.length) = S.drop base.length ++ 0 :: r := by
      rw [← List.drop_drop, hdrop, List.drop_append_of_le_length hbl]
    have hml : p ≤ m.length := by
      have := congrArg List.length hdrop
      simp at this
      omega
    have hdrop1 : (m.take p ++ dest ++ m.drop (p + base.length)).drop p
        = dest ++ S.drop base.length ++ 0 :: r := by
      have hl : (m.take p).length = p := by simp; omega
      rw [List.append_assoc, List.drop_left' hl, hd2, List.append_assoc]
    have hS1 : cstr (m.take p ++ dest ++ m.drop (p + base.length)) p
        = .ok (dest ++ S.drop base.length) := by
      apply cstr_of_drop hdrop1
      intro c hc
      rcases List.mem_append.mp hc with hc | hc
      · exact hdest c hc
      · exact hS0 c (List.mem_of_mem_drop hc)
    refine ⟨dest ++ S.drop base.length, ?_⟩
    rw [hi _ _ hm1]
    by_cases hpre2 : has_prefix (dest ++ S.drop base.length) base = true
    · have hdb := has_prefix_dest heq hpre2
      refine ⟨_, hS1, edit_inline_hit hwin hb hd hlen hm1 hS1 hpre2, ?_⟩
      simp only [hz, List.replicate_zero, List.append_nil]
      rw [hm1]
      congr 1
      have e1 : (m.take p ++ dest ++ m.drop (p + base.length)).take p = m.take p := by
        have hl : (m.take p).length = p := by simp; omega
        rw [List.append_assoc, List.take_left' hl]
      have e2 : (m.take p ++ dest ++ m.drop (p + base.length)).drop (p + base.length)
          = m.drop (p + base.length) := by
        have hl : (m.take p ++ dest).length = p + base.length := by simp; omega
        rw [List.drop_left' hl]
      rw [e1, e2]
    · have hpf : has_prefix (dest ++ S.drop base.length) base = false := by
        simpa using hpre2
      exact ⟨st1, hS1, edit_inline_miss hb hd hpf, rfl⟩
  · have hpf : has_prefix S base = false := by simpa using hpre
    rw [edit_inline_miss hb hd hpf] at h1
    have hst1 : st = st1 := Except.ok.inj h1
    subst hst1
    refine ⟨S, st, ?_, edit_inline_miss hb hd hpf, rfl⟩
    rw [hi _ _ hm]
    exact hS

/-- The guarded rewrite of a `.debug_str` string, done twice (dest as long
as base, non-Windows mode): the second pass finds a string and leaves
`.debug_str` as the first left it. -/
theorem edit_strp_twice {cfg : Config} {whole : Bool} {st st1 : St} {str S base dest : List Nat}
    {off : Nat} (hwin : cfg.win_path = false) (hb : cfg.base_dir = some base)
    (hd : cfg.dest_dir = some dest) (heq : dest.length = base.length)
    (hdest : ∀ x ∈ dest, x ≠ 0) (hstr : st.debug_str = some str) (hS : cstr str off = .ok S)
    (h1 : edit_strp cfg 1 whole st str off S = .ok st1) :
    ∃ str1 S1 st2, st1.debug_str = some str1 ∧ cstr str1 off = .ok S1 ∧
      edit_strp cfg 1 whole st1 str1 off S1 = .ok st2 ∧ st2.debug_str = st1.debug_str := by
  have hlen : dest.length ≤ base.length := by omega
  by_cases hpre : has_prefix S base = true
  · obtain ⟨hS0, r, hdrop⟩ := cstr_eq_ok.mp hS
    obtain ⟨hbl, htake⟩ := has_prefix_iff.mp hpre
    rw [edit_strp_hit hwin hb hd hlen hS hpre] at h1
    have hst1 := Except.ok.inj h1
    obtain ⟨_, hfit⟩ := @rewrite_strp_ok _ _ _ _ dest _ hb hlen hS hpre
    have hw : wr str off (dest ++ S.drop base.length ++ [0])
        = .ok (str.take off ++ (dest ++ S.drop base.length ++ [0])
            ++ str.drop (off + (dest ++ S.drop base.length ++ [0]).length)) :=
      wr_eq_ok.mpr ⟨hfit, rfl⟩
    have hS10 : ∀ c ∈ dest ++ S.drop base.length, c ≠ 0 := by
      intro c hc
      rcases List.mem_append.mp hc with hc | hc
      · exact hdest c hc
      · exact hS0 c (List.mem_of_mem_drop hc)
    have hS1 := cstr_after_wr hw hS10
    have hm1 : st1.debug_str = some (str.take off ++ (dest ++ S.drop base.length ++ [0])
        ++ str.drop (off + (dest ++ S.drop base.length ++ [0]).length)) := by
      rw [← hst1]
    refine ⟨str.take off ++ (dest ++ S.drop base.length ++ [0])
        ++ str.drop (off + (dest ++ S.drop base.length ++ [0]).length),
      dest ++ S.drop base.length, ?_⟩
    by_cases hpre2 : has_prefix (dest ++ S.drop base.length) base = true
    · have hdb := has_prefix_dest heq hpre2
      refine ⟨_, hm1, hS1, edit_strp_hit hwin hb hd hlen hS1 hpre2, ?_⟩
      simp only
      rw [hm1]
      congr 1
      have hdd : (dest ++ S.drop base.length).drop base.length = S.drop base.length := by
        rw [← heq, List.drop_left]
      rw [hdd]
      have hw2 : wr (str.take off ++ (dest ++ S.drop base.length ++ [0])
            ++ str.drop (off + (dest ++ S.drop base.length ++ [0]).length)) off
            (dest ++ S.drop base.length ++ [0])
          = .ok (str.take off ++ (dest ++ S.drop base.length ++ [0])
            ++ str.drop (off + (dest ++ S.drop base.length ++ [0]).length)) := by
        apply wr_same (wr_drop_at hw)
        rw [wr_length hw]
        omega
      obtain ⟨_, e⟩ := wr_eq_ok.mp hw2
      exact e.symm
    · have hpf : has_prefix (dest ++ S.drop base.length) base = false := by
        simpa using hpre2
      exact ⟨st1, hm1, hS1, edit_strp_miss hb hd hpf, rfl⟩
  · have hpf : has_prefix S base = false := by simpa using hpre
    rw [edit_strp_miss hb hd hpf] at h1
    have hst1 : st = st1 := Except.ok.inj h1
    subst hst1
    exact ⟨str, S, st, hstr, hS, edit_strp_miss hb hd hpf, rfl⟩

/-! ## The attribute loop writes `.debug_info` at its pointer or after it -/

theorem info_of_some {st : St} {m : List Nat} (h : st.debug_info = some m) : info_of st = m := by
  unfold info_of; rw [h]; rfl

theorem edit_inline_keep {cfg : Config} {phase : Nat} {whole : Bool} {st st' : St} {p : Nat}
    {s : List Nat} (h : edit_inline cfg phase whole st p s = .ok st') :
    (info_of st').take p = (info_of st).take p := by
  unfold edit_inline at h
  obtain ⟨g, hg, k⟩ := bind_eq_ok.mp h
  clear h
  cases g with
  | none => rw [← ok_inj k]
  | some dest =>
    simp only at k
    obtain ⟨m1, h1, k1⟩ := bind_eq_ok.mp k
    obtain ⟨m2, h2, k2⟩ := bind_eq_ok.mp k1
    clear k k1
    have e1 : m1.take p = (info_of st).take p := by
      unfold rewrite_inline at h1
      obtain ⟨bl, _, j1⟩ := bind_eq_ok.mp h1
      obtain ⟨mA, hA, j2⟩ := bind_eq_ok.mp j1
      by_cases hc : dest.length < bl
      · rw [if_pos hc, memset_eq_wr] at j2
        rw [wr_take_le j2 (Nat.le_add_right _ _), wr_take_le hA (Nat.le_refl _)]
      · rw [if_neg hc] at j2
        rw [← ok_inj j2, wr_take_le hA (Nat.le_refl _)]
    have e2 : m2.take p = m1.take p := by
      by_cases hc : (whole && cfg.win_path) = true
      · rw [if_pos hc] at h2
        unfold make_win_path_at at h2
        obtain ⟨s1, _, j1⟩ := bind_eq_ok.mp h2
        exact wr_take_le j1 (Nat.le_refl _)
      · rw [if_neg hc] at h2
        rw [← ok_inj h2]
    rw [← ok_inj k2, info_of_some rfl, e2, e1]

theorem edit_strp_keep {cfg : Config} {phase : Nat} {whole : Bool} {st st' : St}
    {str : List Nat} {off : Nat} {s : List Nat}
    (h : edit_strp cfg phase whole st str off s = .ok st') : info_of st' = info_of st := by
  unfold edit_strp at h
  obtain ⟨g, hg, k⟩ := bind_eq_ok.mp h
  clear h
  cases g with
  | none => rw [← ok_inj k]
  | some dest =>
    simp only at k
    obtain ⟨m1, h1, k1⟩ := bind_eq_ok.mp k
    obtain ⟨m2, h2, k2⟩ := bind_eq_ok.mp k1
    rw [← ok_inj k2]
    rfl

theorem act_stmt_list_keep {env : Env} {attr form : Nat} {a a' : AttrSt}
    (h : act_stmt_list env attr form a = .ok a') :
    a'.ptr = a.ptr ∧ info_of a'.st = info_of a.st := by
  unfold act_stmt_list at h
  by_cases hc : (decide (attr = DW_AT_stmt_list) &&
      (decide (form = DW_FORM_data4) || decide (form = DW_FORM_sec_offset))) = true
  · rw [if_pos hc] at h
    obtain ⟨r, _, k⟩ := bind_eq_ok.mp h
    rw [← ok_inj k]
    exact ⟨rfl, rfl⟩
  · rw [if_neg hc] at h
    rw [← ok_inj h]
    exact ⟨rfl, rfl⟩

theorem act_comp_dir_keep {env : Env} {phase form : Nat} {a a' : AttrSt}
    (h : act_comp_dir env phase form a = .ok a') :
    a'.ptr = a.ptr ∧ (info_of a'.st).take a.ptr = (info_of a.st).take a.ptr := by
  unfold act_comp_dir at h
  by_cases hf : form = DW_FORM_string
  · rw [if_pos hf] at h
    obtain ⟨s, _, k⟩ := bind_eq_ok.mp h
    obtain ⟨st1, h1, k1⟩ := bind_eq_ok.mp k
    rw [← ok_inj k1]
    exact ⟨rfl, edit_inline_keep h1⟩
  · rw [if_neg hf] at h
    cases hs : a.st.debug_str with
    | none =>
      rw [hs] at h
      rw [← ok_inj h]
      exact ⟨rfl, rfl⟩
    | some str =>
      rw [hs] at h
      simp only at h
      by_cases hp : form = DW_FORM_strp
      · rw [if_pos hp] at h
        obtain ⟨r, _, k⟩ := bind_eq_ok.mp h
        obtain ⟨s, _, k1⟩ := bind_eq_ok.mp k
        obtain ⟨st1, h1, k2⟩ := bind_eq_ok.mp k1
        rw [← ok_inj k2]
        refine ⟨rfl, ?_⟩
        simp only
        rw [edit_strp_keep h1]
        rfl
      · rw [if_neg hp] at h
        rw [← ok_inj h]
        exact ⟨rfl, rfl⟩

theorem act_name_keep {env : Env} {phase form : Nat} {a a' : AttrSt}
    (h : act_name env phase form a = .ok a') :
    a'.ptr = a.ptr ∧ (info_of a'.st).take a.ptr = (info_of a.st).take a.ptr := by
  unfold act_name at h
  cases hs : (if form = DW_FORM_strp then a.st.debug_str else none) with
  | some str =>
    rw [hs] at h
    simp only at h
    obtain ⟨r, _, k⟩ := bind_eq_ok.mp h
    obtain ⟨s, _, k1⟩ := bind_eq_ok.mp k
    obtain ⟨st1, h1, k2⟩ := bind_eq_ok.mp k1
    rw [← ok_inj k2]
    refine ⟨rfl, ?_⟩
    simp only
    rw [edit_strp_keep h1]
    rfl
  | none =>
    rw [hs] at h
    simp only at h
    by_cases hc : (decide (form = DW_FORM_string) && a.st.debug_info.isSome) = true
    · rw [if_pos hc] at h
      obtain ⟨s, _, k⟩ := bind_eq_ok.mp h
      obtain ⟨st1, h1, k1⟩ := bind_eq_ok.mp k
      rw [← ok_inj k1]
      exact ⟨rfl, edit_inline_keep h1⟩
    · rw [if_neg hc] at h
      cases h

theorem attr_actions_keep {env : Env} {phase tag attr form : Nat} {a a' : AttrSt}
    (h : attr_actions env phase tag attr form a = .ok a') :
    a'.ptr = a.ptr ∧ (info_of a'.st).take a.ptr = (info_of a.st).take a.ptr := by
  unfold attr_actions at h
  obtain ⟨a1, h1, k⟩ := bind_eq_ok.mp h
  clear h
  obtain ⟨p1, i1⟩ := act_stmt_list_keep h1
  by_cases hc : attr = DW_AT_comp_dir
  · rw [if_pos hc] at k
    obtain ⟨p2, i2⟩ := act_comp_dir_keep k
    rw [p1] at p2 i2
    rw [i1] at i2
    exact ⟨p2, i2⟩
  · rw [if_neg hc] at k
    by_cases hn : ((decide (tag = DW_TAG_compile_unit) || decide (tag = DW_TAG_partial_unit)) &&
        decide (attr = DW_AT_name)) = true
    · rw [if_pos hn] at k
      obtain ⟨p2, i2⟩ := act_name_keep k
      rw [p1] at p2 i2
      rw [i1] at i2
      exact ⟨p2, i2⟩
    · rw [if_neg hn] at k
      rw [← ok_inj k]
      exact ⟨p1, by rw [i1]⟩

theorem read_uleb128_ge {m : List Nat} {p : Nat} {r : Nat × Nat} (h : read_uleb128 m p = .ok r) :
    p ≤ r.2 := by
  obtain ⟨c, h1, _⟩ := read_uleb128_local h
  omega

/-- The `switch (form)` never moves the pointer back. -/
theorem form_step_ge {msb : Bool} {ps cv : Nat} {m : List Nat} {form ptr : Nat} {r : FormStep}
    (h : form_step msb ps cv m form ptr = .ok r) :
    (∀ p, r = .done p → ptr ≤ p) ∧ (∀ f p, r = .again f p → ptr ≤ p) := by
  have hdone : ∀ q, ptr ≤ q → (pure (FormStep.done q) : Except Fault FormStep) = .ok r →
      (∀ p, r = .done p → ptr ≤ p) ∧ (∀ f p, r = .again f p → ptr ≤ p) := by
    intro q hq he
    rw [← ok_inj he]
    constructor
    · intro p hp
      cases hp
      exact hq
    · intro f p hp
      cases hp
  unfold form_step at h
  by_cases c1 : form = DW_FORM_ref_addr
  · rw [if_pos c1] at h
    exact hdone _ (by split_ifs <;> omega) h
  rw [if_neg c1] at h
  by_cases c2 : form = DW_FORM_flag_present
  · rw [if_pos c2] at h
    exact hdone _ (Nat.le_refl _) h
  rw [if_neg c2] at h
  by_cases c3 : form = DW_FORM_addr
  · rw [if_pos c3] at h
    exact hdone _ (by omega) h
  rw [if_neg c3] at h
  by_cases c4 : (decide (form = DW_FORM_ref1) || decide (form = DW_FORM_flag) ||
      decide (form = DW_FORM_data1)) = true
  · rw [if_pos c4] at h
    exact hdone _ (by omega) h
  rw [if_neg c4] at h
  by_cases c5 : (decide (form = DW_FORM_ref2) || decide (form = DW_FORM_data2)) = true
  · rw [if_pos c5] at h
    exact hdone _ (by omega) h
  rw [if_neg c5] at h
  by_cases c6 : (decide (form = DW_FORM_ref4) || decide (form = DW_FORM_data4) ||
      decide (form = DW_FORM_sec_offset)) = true
  · rw [if_pos c6] at h
    exact hdone _ (by omega) h
  rw [if_neg c6] at h
  by_cases c7 : (decide (form = DW_FORM_ref8) || decide (form = DW_FORM_data8) ||
      decide (form = DW_FORM_ref_sig8)) = true
  · rw [if_pos c7] at h
    exact hdone _ (by omega) h
  rw [if_neg c7] at h
  by_cases c8 : (decide (form = DW_FORM_sdata) || decide (form = DW_FORM_ref_udata) ||
      decide (form = DW_FORM_udata)) = true
  · rw [if_pos c8] at h
    obtain ⟨u, hu, k⟩ := bind_eq_ok.mp h
    exact hdone _ (read_uleb128_ge hu) k
  rw [if_neg c8] at h
  by_cases c9 : form = DW_FORM_strp
  · rw [if_pos c9] at h
    exact hdone _ (by omega) h
  rw [if_neg c9] at h
  by_cases c10 : form = DW_FORM_string
  · rw [if_pos c10] at h
    obtain ⟨s, _, k⟩ := bind_eq_ok.mp h
    exact hdone _ (by omega) k
  rw [if_neg c10] at h
  by_cases c11 : form = DW_FORM_indirect
  · rw [if_pos c11] at h
    obtain ⟨u, hu, k⟩ := bind_eq_ok.mp h
    rw [← ok_inj k]
    constructor
    · intro p hp; cases hp
    · intro f p hp
      cases hp
      exact read_uleb128_ge hu
  rw [if_neg c11] at h
  by_cases c12 : form = DW_FORM_block1
  · rw [if_pos c12] at h
    obtain ⟨len, _, k⟩ := bind_eq_ok.mp h
    exact hdone _ (by omega) k
  rw [if_neg c12] at h
  by_cases c13 : form = DW_FORM_block2
  · rw [if_pos c13] at h
    obtain ⟨len, _, k⟩ := bind_eq_ok.mp h
    exact hdone _ (by omega) k
  rw [if_neg c13] at h
  by_cases c14 : form = DW_FORM_block4
  · rw [if_pos c14] at h
    obtain ⟨len, _, k⟩ := bind_eq_ok.mp h
    exact hdone _ (by omega) k
  rw [if_neg c14] at h
  by_cases c15 : (decide (form = DW_FORM_block) || decide (form = DW_FORM_exprloc)) = true
  · rw [if_pos c15] at h
    obtain ⟨u, hu, k⟩ := bind_eq_ok.mp h
    have := read_uleb128_ge hu
    by_cases c16 : u.1 < UINT_MAX
    · simp only [c16, if_true] at k
      exact hdone _ (by omega) k
    · simp only [c16, if_false] at k
      cases k
  · rw [if_neg c15] at h
    rw [← ok_inj h]
    constructor
    · intro p hp; cases hp
    · intro f p hp; cases hp

theorem attr_loop_keep {env : Env} {phase tag attr : Nat} :
    ∀ (fuel form : Nat) (a : AttrSt) (r : Bool × AttrSt),
      attr_loop env phase tag attr fuel form a = .ok r →
        a.ptr ≤ r.2.ptr ∧ (info_of r.2.st).take a.ptr = (info_of a.st).take a.ptr := by
  intro fuel
  induction fuel with
  | zero => intro form a r h; simp [attr_loop] at h
  | succ n ih =>
    intro form a r h
    unfold attr_loop at h
    obtain ⟨a1, h1, k⟩ := bind_eq_ok.mp h
    obtain ⟨fs, h2, k2⟩ := bind_eq_ok.mp k
    clear h k
    obtain ⟨p1, i1⟩ := attr_actions_keep h1
    obtain ⟨g1, g2⟩ := form_step_ge h2
    cases fs with
    | done p =>
      simp only at k2
      rw [← ok_inj k2]
      have := g1 p rfl
      exact ⟨by simp only; omega, i1⟩
    | again f p =>
      simp only at k2
      have hp := g2 f p rfl
      obtain ⟨j1, j2⟩ := ih _ _ _ k2
      simp only at j1 j2
      refine ⟨by omega, ?_⟩
      have := congrArg (List.take a.ptr) j2
      rw [List.take_take, List.take_take, Nat.min_eq_left (by omega)] at this
      rw [this, i1]
    | unknown =>
      simp only at k2
      rw [← ok_inj k2]
      exact ⟨by simp only; omega, i1⟩

theorem attrs_loop_keep {env : Env} {phase tag : Nat} :
    ∀ (attrs : List abbrev_attr) (a : AttrSt) (r : Bool × AttrSt),
      attrs_loop env phase tag attrs a = .ok r →
        a.ptr ≤ r.2.ptr ∧ (info_of r.2.st).take a.ptr = (info_of a.st).take a.ptr := by
  intro attrs
  induction attrs with
  | nil =>
    intro a r h
    simp only [attrs_loop] at h
    rw [← ok_inj h]
    exact ⟨Nat.le_refl _, rfl⟩
  | cons at1 rest ih =>
    intro a r h
    unfold attrs_loop at h
    obtain ⟨r1, h1, k⟩ := bind_eq_ok.mp h
    clear h
    obtain ⟨p1, i1⟩ := attr_loop_keep _ _ _ _ h1
    by_cases hb : r1.1 = true
    · rw [if_pos hb] at k
      obtain ⟨p2, i2⟩ := ih _ _ k
      refine ⟨by omega, ?_⟩
      have := congrArg (List.take a.ptr) i2
      rw [List.take_take, List.take_take, Nat.min_eq_left p1] at this
      rw [this, i1]
    · rw [if_neg hb] at k
      rw [← ok_inj k]
      exact ⟨p1, i1⟩

theorem attrs_loop_cons {env : Env} {phase tag : Nat} (at1 : abbrev_attr)
    (rest : List abbrev_attr) (a : AttrSt) :
    attrs_loop env phase tag (at1 :: rest) a
      = (attr_loop env phase tag at1.attr ((info_of a.st).length + 1) at1.form a >>= fun r =>
          if r.1 then attrs_loop env phase tag rest r.2 else pure r) := by
  rw [attrs_loop]

theorem attrs_loop_append {env : Env} {phase tag : Nat} (rest : List abbrev_attr) :
    ∀ (pre : List abbrev_attr) (a : AttrSt),
      attrs_loop env phase tag (pre ++ rest) a
        = (attrs_loop env phase tag pre a >>= fun r =>
            if r.1 then attrs_loop env phase tag rest r.2 else pure r) := by
  intro pre
  induction pre with
  | nil =>
    intro a
    simp only [List.nil_append, attrs_loop, pure_eq_ok, bind_ok_eq, if_true]
  | cons at1 pre ih =>
    intro a
    rw [List.cons_append, attrs_loop_cons, attrs_loop_cons]
    cases h1 : attr_loop env phase tag at1.attr ((info_of a.st).length + 1) at1.form a with
    | error e => simp only [bind_error_eq]
    | ok r1 =>
      simp only [bind_ok_eq]
      by_cases hb : r1.1 = true
      · rw [if_pos hb, if_pos hb]
        exact ih r1.2
      · rw [if_neg hb, if_neg hb]
        simp only [pure_eq_ok, bind_ok_eq, if_neg hb]

/-- In phase 1 `edit_attributes` leaves `.debug_info` as its loop over the
attributes left it. -/
theorem edit_attributes_info {env : Env} {st : St} {ptr : Nat} {t : abbrev_tag}
    {res : Option Nat × St} (h : edit_attributes env st ptr t 1 = .ok res) :
    ∃ r, attrs_loop env 1 t.tag t.attr ⟨st, ptr, none, 0, false⟩ = .ok r ∧
      info_of res.2 = info_of r.2.st := by
  unfold edit_attributes at h
  obtain ⟨r, h1, k⟩ := bind_eq_ok.mp h
  clear h
  refine ⟨r, h1, ?_⟩
  have hsame : ∀ {x y : St}, St.same x y → info_of y = info_of x := by
    intro x y hs
    unfold info_of
    rw [hs.1]
  by_cases hb : r.1 = true
  · simp only [hb, if_true] at k
    have hs2 := emit_comp_dir_same env.cfg r.2
    cases hcd : r.2.comp_dir with
    | none =>
      simp only [hcd] at k
      rw [← ok_inj k]
      exact hsame hs2
    | some cd =>
      simp only [hcd] at k
      by_cases hf : r.2.found_list_offs = true
      · simp only [hf, if_true] at k
        obtain ⟨r2, h2, k2⟩ := bind_eq_ok.mp k
        rw [← ok_inj k2]
        have hs3 := edit_dwarf2_line_same (Or.inl (by decide)) h2
        exact hsame (St.same_trans hs2 hs3)
      · simp only [hf] at k
        rw [← ok_inj k]
        exact hsame hs2
  · simp only [hb] at k
    rw [← ok_inj k]

/-! ## Segments `..` are kept only at the start -/

theorem DotsRun_append {out : List Nat} {d i : Nat} (X : List Nat) (h : DotsRun out d i)
    (hi : i ≤ out.length) : DotsRun (out ++ X) d i := by
  intro j hj hji
  rw [List.getElem?_append_left (by omega)]
  exact h j hj hji

theorem DotsRun_take {out : List Nat} {d i k : Nat} (h : DotsRun out d i) (hi : i ≤ k) :
    DotsRun (out.take k) d i := by
  intro j hj hji
  rw [List.getElem?_take, if_pos (by omega)]
  exact h j hj hji

/-- A segment that lies inside the old output is one of the old output. -/
theorem dd_seg_of_append {out X : List Nat} {d i : Nat} (h : dd_seg (out ++ X) d i)
    (hi : i + 2 < out.length) : dd_seg out d i := by
  obtain ⟨h1, h2, h3, h4⟩ := h
  rw [List.getElem?_append_left (by omega)] at h2 h3 h4
  refine ⟨?_, h2, h3, h4⟩
  rcases h1 with h1 | h1
  · exact Or.inl h1
  · rw [List.getElem?_append_left (by omega)] at h1
    exact Or.inr h1

theorem DotsFirst_append_seg {out X : List Nat} {d : Nat} (h : DotsFirst d out)
    (hd : d ≤ out.length) (hhead : HeadForm d out) (hX : ∀ c ∈ X, c ≠ 47)
    (hne : X ≠ []) (hnd : ¬ (X[0]? = some 46 ∧ X[1]? = some 46 ∧ X.length = 2)) :
    DotsFirst d (out ++ X) := by
  intro i hi hseg
  by_cases c1 : i + 2 < out.length
  · exact DotsRun_append X (h i hi (dd_seg_of_append hseg c1)) (by omega)
  · exfalso
    obtain ⟨h1, h2, h3, h4⟩ := hseg
    have hXpos : 0 < X.length := List.length_pos.mpr hne
    by_cases c2 : i + 2 = out.length
    · -- the byte after the two dots is the first byte of `X`
      rw [List.getElem?_append_right (by omega)] at h4
      have e : i + 2 - out.length = 0 := by omega
      rw [e] at h4
      rcases h4 with h4 | h4
      · rw [List.getElem?_eq_none_iff] at h4; omega
      · exact hX 47 (mem_of_getElem?_eq h4) rfl
    · by_cases c3 : i + 1 = out.length
      · -- the first dot would be the last byte of `out`
        rw [List.getElem?_append_left (by omega)] at h2
        rcases hhead with hh | hh
        · omega
        · have e : out.length - 1 = i := by omega
          rw [e, h2] at hh
          cases hh
      · by_cases c4 : i = out.length
        · -- `X` would be the segment `..`
          rw [List.getElem?_append_right (by omega)] at h2 h3 h4
          have e0 : i - out.length = 0 := by omega
          have e1 : i + 1 - out.length = 1 := by omega
          have e2 : i + 2 - out.length = 2 := by omega
          rw [e0] at h2
          rw [e1] at h3
          rw [e2] at h4
          apply hnd
          refine ⟨h2, h3, ?_⟩
          have hl1 : 1 < X.length := by
            rcases List.getElem?_eq_some_iff.mp h3 with ⟨hl, _⟩
            exact hl
          rcases h4 with h4 | h4
          · rw [List.getElem?_eq_none_iff] at h4; omega
          · exact absurd rfl (hX 47 (mem_of_getElem?_eq h4))
        · -- the segment would start inside `X`
          rcases h1 with h1 | h1
          · omega
          · rw [List.getElem?_append_right (by omega)] at h1
            exact hX 47 (mem_of_getElem?_eq h1) rfl

theorem DotsFirst_append_dd {out : List Nat} {d : Nat} (h : DotsFirst d out)
    (hrun : DotsRun out d out.length) : DotsFirst d (out ++ [46, 46]) := by
  intro i hi hseg
  by_cases c1 : i + 2 < out.length
  · exact DotsRun_append _ (h i hi (dd_seg_of_append hseg c1)) (by omega)
  · by_cases c4 : i = out.length
    · rw [c4]
      exact DotsRun_append _ hrun (Nat.le_refl _)
    · exfalso
      obtain ⟨h1, h2, h3, h4⟩ := hseg
      by_cases c2 : i + 2 = out.length
      · rw [List.getElem?_append_right (by omega)] at h4
        have e : i + 2 - out.length = 0 := by omega
        rw [e] at h4
        simp at h4
      · by_cases c3 : i + 1 = out.length
        · rw [List.getElem?_append_right (by omega)] at h4
          have e : i + 2 - out.length = 1 := by omega
          rw [e] at h4
          simp at h4
        · by_cases c5 : i = out.length + 1
          · subst c5
            rw [List.getElem?_eq_none (by simp)] at h3
            cases h3
          · rw [List.getElem?_append_right (by omega)] at h2
            rw [List.getElem?_eq_none (by simp; omega)] at h2
            cases h2

theorem DotsFirst_append_sep {out : List Nat} {d x : Nat} (h : DotsFirst d out)
    (hlast : out[out.length - 1]? = some x) : DotsFirst d (out ++ [47]) := by
  have hpos : 0 < out.length := by
    rcases List.getElem?_eq_some_iff.mp hlast with ⟨hl, _⟩
    omega
  intro i hi hseg
  obtain ⟨h1, h2, h3, h4⟩ := hseg
  have hi1 : i + 1 < out.length := by
    by_contra hn
    by_cases c : i + 1 = out.length
    · rw [List.getElem?_append_right (by omega)] at h3
      have e : i + 1 - out.length = 0 := by omega
      rw [e] at h3
      simp at h3
    · rw [List.getElem?_eq_none (by simp; omega)] at h3
      cases h3
  apply DotsRun_append _ _ (by omega)
  apply h i hi
  rw [List.getElem?_append_left (by omega)] at h2 h3
  refine ⟨?_, h2, h3, ?_⟩
  · rcases h1 with h1 | h1
    · exact Or.inl h1
    · rw [List.getElem?_append_left (by omega)] at h1
      exact Or.inr h1
  · by_cases c : i + 2 < out.length
    · rw [List.getElem?_append_left c] at h4
      exact h4
    · left
      rw [List.getElem?_eq_none_iff]
      omega

theorem DotsFirst_take {out : List Nat} {d k : Nat} (h : DotsFirst d out)
    (hstart : k = d ∨ out[k - 1]? = some 47) : DotsFirst d (out.take k) := by
  intro i hi hseg
  obtain ⟨h1, h2, h3, h4⟩ := hseg
  rw [List.getElem?_take] at h2 h3
  split_ifs at h2 h3 with c1 c2
  apply DotsRun_take _ (by omega)
  apply h i hi
  refine ⟨?_, h2, h3, ?_⟩
  · rcases h1 with h1 | h1
    · exact Or.inl h1
    · rw [List.getElem?_take] at h1
      split_ifs at h1
      exact Or.inr h1
  · by_cases c : i + 2 < k
    · rw [List.getElem?_take, if_pos c] at h4
      exact h4
    · exfalso
      have e : i + 2 = k := by omega
      rcases hstart with hs | hs
      · omega
      · have e2 : k - 1 = i + 1 := by omega
        rw [e2, h3] at hs
        cases hs

theorem DotsFirst_droplast {out : List Nat} {d : Nat} (h : DotsFirst d out)
    (hlast : out[out.length - 1]? = some 47) : DotsFirst d (out.take (out.length - 1)) := by
  intro i hi hseg
  obtain ⟨h1, h2, h3, h4⟩ := hseg
  rw [List.getElem?_take] at h2 h3
  split_ifs at h2 h3 with c1 c2
  apply DotsRun_take _ (by omega)
  apply h i hi
  refine ⟨?_, h2, h3, ?_⟩
  · rcases h1 with h1 | h1
    · exact Or.inl h1
    · rw [List.getElem?_take] at h1
      split_ifs at h1
      exact Or.inr h1
  · by_cases c : i + 2 < out.length - 1
    · rw [List.getElem?_take, if_pos c] at h4
      exact h4
    · right
      have e : i + 2 = out.length - 1 := by omega
      rw [e]
      exact hlast

theorem back_seps_stop (out : List Nat) (droot : Nat) : ∀ n,
    back_seps out droot n ≤ droot ∨
      IS_DIR_SEPARATOR (out.getD (back_seps out droot n) 0) = false := by
  intro n
  induction n with
  | zero => left; simp [back_seps]
  | succ k ih =>
    unfold back_seps
    by_cases hc : (decide (droot < k + 1) && IS_DIR_SEPARATOR (out.getD (k + 1) 0)) = true
    · rw [if_pos hc]; exact ih
    · rw [if_neg hc]
      simp only [Bool.and_eq_true, decide_eq_true_eq, not_and, Bool.not_eq_true] at hc
      by_cases hlt : droot < k + 1
      · exact Or.inr (hc hlt)
      · left; omega

theorem getD_eq_of_getElem? {out : List Nat} {i x : Nat} (h : out[i]? = some x) :
    out.getD i 0 = x := by
  rw [List.getD_eq_getElem?_getD, h]
  rfl

theorem getElem?_of_getD {out : List Nat} {i : Nat} (hi : i < out.length) :
    out[i]? = some (out.getD i 0) := by
  rw [List.getD_eq_getElem?_getD, List.getElem?_eq_getElem hi]
  rfl

theorem FirstOk_append {out X : List Nat} {d : Nat} (h : FirstOk d out) (hd : d ≤ out.length)
    (hX : out.length = d → X[0]? ≠ some 47) : FirstOk d (out ++ X) := by
  unfold FirstOk at h ⊢
  by_cases c : d < out.length
  · rw [List.getElem?_append_left c]; exact h
  · have e : out.length = d := by omega
    rw [List.getElem?_append_right (by omega)]
    have e0 : d - out.length = 0 := by omega
    rw [e0]
    exact hX e

theorem FirstOk_take {out : List Nat} {d k : Nat} (h : FirstOk d out) : FirstOk d (out.take k) := by
  unfold FirstOk at h ⊢
  rw [List.getElem?_take]
  split_ifs
  · exact h
  · simp

/-- A path that ends with a byte that is no separator is longer than its
root. -/
theorem length_gt_root {root out : List Nat} {x : Nat} (hpre : root <+: out)
    (hroot : ∀ c ∈ root, c = 47) (hlast : out[out.length - 1]? = some x) (hx : x ≠ 47) :
    root.length < out.length := by
  have hle := hpre.length_le
  have hpos : 0 < out.length := by
    rcases List.getElem?_eq_some_iff.mp hlast with ⟨hl, _⟩
    omega
  by_contra hn
  have e : out.length = root.length := by omega
  obtain ⟨t, ht⟩ := hpre
  have ht0 : t = [] := by
    have := congrArg List.length ht
    simp at this
    exact List.length_eq_zero.mp (by omega)
  rw [ht0, List.append_nil] at ht
  rw [← ht] at hlast
  exact hx (hroot x (mem_of_getElem?_eq hlast))

theorem CanonInv2_append_sep {root out : List Nat} {x : Nat} (h : CanonInv2 root out)
    (hroot : ∀ c ∈ root, c = 47) (hlast : out[out.length - 1]? = some x) (hx : x ≠ 47) :
    CanonInv2 root (out ++ [47]) ∧ HeadForm root.length (out ++ [47]) := by
  obtain ⟨h1, h2, h3⟩ := h
  have hgt := length_gt_root h1.1 hroot hlast hx
  have hl : out.getLast? = some x := by
    rw [List.getLast?_eq_getElem?]; exact hlast
  refine ⟨⟨CanonInv_append_sep h1 hl hx, ?_, DotsFirst_append_sep h3 hlast⟩, ?_⟩
  · exact FirstOk_append h2 (by omega) (fun e => by omega)
  · right
    simp

theorem CanonInv2_take {root out : List Nat} {k : Nat} (h : CanonInv2 root out)
    (hk : root.length ≤ k) (hkl : k ≤ out.length)
    (hstart : k = root.length ∨ out[k - 1]? = some 47) :
    CanonInv2 root (out.take k) ∧ HeadForm root.length (out.take k) := by
  obtain ⟨h1, h2, h3⟩ := h
  refine ⟨⟨CanonInv_take h1 hk hstart, FirstOk_take h2, DotsFirst_take h3 hstart⟩, ?_⟩
  unfold HeadForm
  have hl : (out.take k).length = k := by simp; omega
  rw [hl]
  rcases hstart with hs | hs
  · exact Or.inl hs
  · by_cases c : k = root.length
    · exact Or.inl c
    · right
      rw [List.getElem?_take, if_pos (by omega)]
      exact hs

theorem DotsRun_extend {out : List Nat} {d k : Nat} (h : DotsRun out d k) (hk : d ≤ k)
    (hstart : k = d ∨ out[k - 1]? = some 47)
    (h0 : out[k]? = some 46) (h1 : out[k + 1]? = some 46) (h2 : out[k + 2]? = some 47) :
    DotsRun out d (k + 3) := by
  have hmod : (k - d) % 3 = 0 := by
    rcases hstart with hs | hs
    · rw [hs]; simp
    · by_cases c : k = d
      · rw [c]; simp
      · have := h (k - 1) (by omega) (by omega)
        rw [hs] at this
        have e := Option.some.inj this
        by_cases c2 : (k - 1 - d) % 3 = 2
        · omega
        · rw [if_neg c2] at e
          cases e
  intro j hj hjk
  by_cases c : j < k
  · exact h j hj c
  · by_cases c0 : j = k
    · rw [c0, h0, if_neg (by omega)]
    · by_cases c1 : j = k + 1
      · rw [c1, h1, if_neg (by omega)]
      · have c2 : j = k + 2 := by omega
        rw [c2, h2, if_pos (by omega)]

/-- The `..` branch: either the two dots are copied, and then all that has
been written after the root is a run of segments `..`, or the output is cut
back to the start of a segment. -/
theorem canon_dotdot_inv2 {root out : List Nat} (s : List Nat) (h : CanonInv2 root out)
    (hhead : HeadForm root.length out) :
    (canon_dotdot root.length s out = (s.drop 2, out ++ s.take 2) ∧
        DotsRun out root.length out.length) ∨
      (∃ k, canon_dotdot root.length s out = (skip_seps (s.drop 2), out.take k) ∧
        root.length ≤ k ∧ k ≤ out.length ∧ (k = root.length ∨ out[k - 1]? = some 47)) := by
  obtain ⟨⟨hpre, _, _⟩, hfirst, hdots⟩ := h
  have hdl := hpre.length_le
  unfold canon_dotdot
  by_cases hz : out.length = 0
  · rw [if_pos hz]
    left
    refine ⟨rfl, ?_⟩
    intro j _ hj
    omega
  rw [if_neg hz]
  simp only
  have hp0le : back_seps out root.length (out.length - 1) ≤ out.length - 1 := by
    by_cases c : root.length ≤ out.length - 1
    · exact (back_seps_bounds out root.length _ c).2
    · cases hq : out.length - 1 with
      | zero => simp [back_seps]
      | succ j =>
        unfold back_seps
        have : ¬ (root.length < j + 1) := by omega
        simp [this]
  have hstop := back_seps_stop out root.length (out.length - 1)
  have hp0ge : root.length ≤ out.length - 1 →
      root.length ≤ back_seps out root.length (out.length - 1) :=
    fun c => (back_seps_bounds out root.length _ c).1
  generalize back_seps out root.length (out.length - 1) = p0 at hp0le hstop hp0ge ⊢
  by_cases hc : (decide (root.length ≤ p0) && !IS_DIR_SEPARATOR (out.getD p0 0)) = true
  · rw [if_pos hc]
    simp only [Bool.and_eq_true, decide_eq_true_eq] at hc
    obtain ⟨b1, b2, b3⟩ := back_seg_bounds out root.length p0 hc.1
    generalize back_seg out root.length p0 = p1 at b1 b2 b3 ⊢
    have hk : root.length ≤ (if root.length < p1 then p1 + 1 else p1) ∧
        (if root.length < p1 then p1 + 1 else p1) ≤ out.length ∧
        ((if root.length < p1 then p1 + 1 else p1) = root.length ∨
          out[(if root.length < p1 then p1 + 1 else p1) - 1]? = some 47) := by
      by_cases hlt : root.length < p1
      · rw [if_pos hlt]
        refine ⟨by omega, by omega, Or.inr ?_⟩
        have hs := b3 hlt
        rw [sep_iff] at hs
        simp only [Nat.add_sub_cancel]
        rw [getElem?_of_getD (by omega), hs]
      · rw [if_neg hlt]
        exact ⟨b1, by omega, Or.inl (by omega)⟩
    generalize (if root.length < p1 then p1 + 1 else p1) = k at hk ⊢
    obtain ⟨k1, k2, k3⟩ := hk
    by_cases hd : (decide (k + 3 = out.length) && out.getD k 0 == 46 &&
        out.getD (k + 1) 0 == 46) = true
    · rw [if_pos hd]
      left
      refine ⟨rfl, ?_⟩
      simp only [Bool.and_eq_true, decide_eq_true_eq, beq_iff_eq] at hd
      obtain ⟨⟨e1, e2⟩, e3⟩ := hd
      have g0 : out[k]? = some 46 := by rw [getElem?_of_getD (by omega), e2]
      have g1 : out[k + 1]? = some 46 := by rw [getElem?_of_getD (by omega), e3]
      have g2 : out[k + 2]? = some 47 := by
        rcases hhead with hh | hh
        · omega
        · have e : out.length - 1 = k + 2 := by omega
          rw [e] at hh
          exact hh
      have hrun := hdots k k1 ⟨k3, g0, g1, Or.inr g2⟩
      rw [← e1]
      exact DotsRun_extend hrun k1 k3 g0 g1 g2
    · rw [if_neg hd]
      right
      exact ⟨k, rfl, k1, k2, k3⟩
  · rw [if_neg hc]
    left
    refine ⟨rfl, ?_⟩
    have hlen : out.length = root.length := by
      by_contra hne
      have hlt : root.length ≤ out.length - 1 := by omega
      simp only [Bool.and_eq_true, decide_eq_true_eq, not_and, Bool.not_eq_true',
        Bool.not_eq_false] at hc
      have hge : root.length ≤ p0 := hp0ge hlt
      have hsep := hc hge
      rcases hstop with hs | hs
      · have e : p0 = root.length := by omega
        rw [e, sep_iff] at hsep
        apply hfirst
        rw [getElem?_of_getD (by omega), hsep]
      · rw [hs] at hsep
        cases hsep
    intro j hj hjl
    omega

theorem takeWhile_nonsep_mem {l : List Nat} {c : Nat}
    (h : c ∈ l.takeWhile (fun c => !IS_DIR_SEPARATOR c)) : c ≠ 47 := by
  have := List.mem_takeWhile_imp h
  simp only [Bool.not_eq_true', ← Bool.not_eq_true, sep_iff] at this
  exact this

theorem takeWhile_nonsep_nil {l : List Nat}
    (h : l.takeWhile (fun c => !IS_DIR_SEPARATOR c) = []) : end_or_sep l = true := by
  cases l with
  | nil => rfl
  | cons b u =>
    by_cases hb : b = 47
    · simp [end_or_sep, IS_DIR_SEPARATOR, hb]
    · rw [takeWhile_nonsep_cons u hb] at h
      cases h

theorem dropWhile_nonsep_sep (l : List Nat) :
    l.dropWhile (fun c => !IS_DIR_SEPARATOR c) = [] ∨
      sep_at (l.dropWhile (fun c => !IS_DIR_SEPARATOR c)) = true := by
  induction l with
  | nil => left; rfl
  | cons b u ih =>
    by_cases hb : IS_DIR_SEPARATOR b = true
    · right
      have : (b :: u).dropWhile (fun c => !IS_DIR_SEPARATOR c) = b :: u := by
        simp [List.dropWhile, hb]
      rw [this]
      simpa [sep_at] using hb
    · have : (b :: u).dropWhile (fun c => !IS_DIR_SEPARATOR c)
          = u.dropWhile (fun c => !IS_DIR_SEPARATOR c) := by
        simp [List.dropWhile, hb]
      rw [this]
      exact ih

theorem end_or_sep_cases (l : List Nat) (h : end_or_sep l = true) :
    l = [] ∨ sep_at l = true := by
  cases l with
  | nil => left; rfl
  | cons b u => right; simpa [end_or_sep, sep_at] using h

theorem getLast_append_nonsep {out X : List Nat} (hne : X ≠ []) (hX : ∀ c ∈ X, c ≠ 47) :
    ∃ x, (out ++ X)[(out ++ X).length - 1]? = some x ∧ x ≠ 47 := by
  have hpos : 0 < X.length := List.length_pos.mpr hne
  have hlt : (out ++ X).length - 1 < (out ++ X).length := by simp; omega
  refine ⟨(out ++ X)[(out ++ X).length - 1], List.getElem?_eq_getElem hlt, ?_⟩
  apply hX
  rw [List.getElem_append_right (by simp; omega)]
  exact List.getElem_mem _

theorem canon_finish_inv2 {root : List Nat} {r : List Nat × List Nat}
    (hroot : ∀ c ∈ root, c = 47) (hr : CanonInv2 root r.2)
    (hsep : sep_at r.1 = true → ∃ x, r.2[r.2.length - 1]? = some x ∧ x ≠ 47)
    (hhead : sep_at r.1 = false → r.1 ≠ [] → HeadForm root.length r.2) :
    CanonInv2 root (match r.1 with
      | [] => r
      | c :: s1 => if IS_DIR_SEPARATOR c then (skip_seps s1, r.2 ++ [c]) else r).2 ∧
    ((match r.1 with
      | [] => r
      | c :: s1 => if IS_DIR_SEPARATOR c then (skip_seps s1, r.2 ++ [c]) else r).1 ≠ [] →
      HeadForm root.length (match r.1 with
        | [] => r
        | c :: s1 => if IS_DIR_SEPARATOR c then (skip_seps s1, r.2 ++ [c]) else r).2) := by
  cases hr1 : r.1 with
  | nil =>
    simp only
    refine ⟨hr, ?_⟩
    intro hne
    exact absurd hr1 hne
  | cons c s1 =>
    simp only
    by_cases hc : IS_DIR_SEPARATOR c = true
    · rw [if_pos hc]
      have hc47 : c = 47 := (sep_iff c).mp hc
      obtain ⟨x, hx, hx47⟩ := hsep (by rw [hr1]; simpa [sep_at] using hc)
      subst hc47
      obtain ⟨g1, g2⟩ := CanonInv2_append_sep hr hroot hx hx47
      exact ⟨g1, fun _ => g2⟩
    · rw [if_neg hc]
      refine ⟨hr, fun _ => ?_⟩
      apply hhead
      · rw [hr1]; simpa [sep_at] using hc
      · rw [hr1]; exact List.cons_ne_nil _ _

theorem canon_step_inv2 {root out s : List Nat} (hroot : ∀ c ∈ root, c = 47)
    (h : CanonInv2 root out) (hhead : HeadForm root.length out) (hne : s ≠ [])
    (hs : sep_at s = false) :
    CanonInv2 root (canon_step root.length s out).2 ∧
      ((canon_step root.length s out).1 ≠ [] →
        HeadForm root.length (canon_step root.length s out).2) := by
  obtain ⟨a, t, rfl⟩ := List.exists_cons_of_ne_nil hne
  have ha : a ≠ 47 := by
    intro h47
    rw [h47] at hs
    simp [sep_at, IS_DIR_SEPARATOR] at hs
  have hdl := h.1.1.length_le
  unfold canon_step
  simp only
  by_cases c1 : ((a :: t).head? = some 46 && end_or_sep ((a :: t).drop 1)) = true
  · rw [if_pos c1]
    apply canon_finish_inv2 hroot h
    · intro hsep
      simp only at hsep
      rw [skip_seps_not_sep] at hsep
      cases hsep
    · intro _ _
      exact hhead
  rw [if_neg c1]
  by_cases c2 : ((a :: t).head? = some 46 && ((a :: t).drop 1).head? = some 46 &&
      end_or_sep ((a :: t).drop 2)) = true
  · rw [if_pos c2]
    simp only [Bool.and_eq_true, decide_eq_true_eq] at c2
    rcases canon_dotdot_inv2 (a :: t) h hhead with ⟨e, hrun⟩ | ⟨k, e, k1, k2, k3⟩
    · rw [e]
      obtain ⟨i1, i2⟩ := CanonInv_copy h.1 c2.1.1 c2.1.2
      have htake : (a :: t).take 2 = [46, 46] := by
        cases t with
        | nil => simp at c2
        | cons b u =>
          have e0 := c2.1.1
          have e1 := c2.1.2
          simp at e0 e1
          simp [e0, e1]
      apply canon_finish_inv2 hroot
      · refine ⟨i1, ?_, ?_⟩
        · exact FirstOk_append h.2.1 hdl (fun _ => by rw [htake]; simp)
        · simp only
          rw [htake]
          exact DotsFirst_append_dd h.2.2 hrun
      · intro _
        simp only
        rw [htake]
        refine ⟨46, ?_, by decide⟩
        have e : (out ++ [46, 46]).length - 1 = out.length + 1 := by simp
        rw [e, List.getElem?_append_right (by omega)]
        simp
      · intro hsf hnn
        exfalso
        simp only at hsf hnn
        rcases end_or_sep_cases _ c2.2 with hh | hh
        · exact hnn hh
        · rw [hh] at hsf
          cases hsf
    · rw [e]
      obtain ⟨g1, g2⟩ := CanonInv2_take h k1 k2 k3
      apply canon_finish_inv2 hroot g1
      · intro hsep
        simp only at hsep
        rw [skip_seps_not_sep] at hsep
        cases hsep
      · intro _ _
        exact g2
  rw [if_neg c2]
  have hX : ∀ c ∈ (a :: t).takeWhile (fun c => !IS_DIR_SEPARATOR c), c ≠ 47 :=
    fun c hc => takeWhile_nonsep_mem hc
  have hXne : (a :: t).takeWhile (fun c => !IS_DIR_SEPARATOR c) ≠ [] := by
    rw [takeWhile_nonsep_cons t ha]
    exact List.cons_ne_nil _ _
  have hdot : ((a :: t).takeWhile (fun c => !IS_DIR_SEPARATOR c))[0]? = some 46 →
      ∃ c, ((a :: t).takeWhile (fun c => !IS_DIR_SEPARATOR c))[1]? = some c ∧ c ≠ 47 := by
    intro h46
    rw [takeWhile_nonsep_cons t ha] at h46 ⊢
    simp only [List.getElem?_cons_zero, Option.some.injEq] at h46
    subst h46
    simp only [List.head?_cons, List.drop_succ_cons, List.drop_zero, decide_True,
      Bool.true_and, Bool.not_eq_true] at c1
    cases t with
    | nil => simp [end_or_sep] at c1
    | cons b u =>
      simp only [end_or_sep] at c1
      have hb : b ≠ 47 := by
        intro hb47
        rw [hb47] at c1
        simp [IS_DIR_SEPARATOR] at c1
      rw [takeWhile_nonsep_cons u hb]
      exact ⟨b, by simp, hb⟩
  have hnd : ¬ (((a :: t).takeWhile (fun c => !IS_DIR_SEPARATOR c))[0]? = some 46 ∧
      ((a :: t).takeWhile (fun c => !IS_DIR_SEPARATOR c))[1]? = some 46 ∧
      ((a :: t).takeWhile (fun c => !IS_DIR_SEPARATOR c)).length = 2) := by
    rintro ⟨e0, e1, e2⟩
    apply c2
    rw [takeWhile_nonsep_cons t ha] at e0 e1 e2
    simp only [List.getElem?_cons_zero, Option.some.injEq] at e0
    cases t with
    | nil => simp at e2
    | cons b u =>
      by_cases hb : b = 47
      · have : (b :: u).takeWhile (fun c => !IS_DIR_SEPARATOR c) = [] := by
          simp [List.takeWhile, IS_DIR_SEPARATOR, hb]
        rw [this] at e2
        simp at e2
      · rw [takeWhile_nonsep_cons u hb] at e1 e2
        simp only [List.getElem?_cons_succ, List.getElem?_cons_zero, Option.some.injEq] at e1
        have hu : u.takeWhile (fun c => !IS_DIR_SEPARATOR c) = [] := by
          apply List.length_eq_zero.mp
          simp only [List.length_cons] at e2
          omega
        simp [e0, e1, takeWhile_nonsep_nil hu]
  apply canon_finish_inv2 hroot
  · refine ⟨CanonInv_append h.1 hX hdot, ?_, ?_⟩
    · apply FirstOk_append h.2.1 hdl
      intro _
      rw [takeWhile_nonsep_cons t ha]
      simpa using ha
    · exact DotsFirst_append_seg h.2.2 hdl hhead hX hXne hnd
  · intro _
    exact getLast_append_nonsep hXne hX
  · intro hsf hnn
    exfalso
    simp only at hsf hnn
    rcases dropWhile_nonsep_sep (a :: t) with hh | hh
    · exact hnn hh
    · rw [hh] at hsf
      cases hsf

theorem CanonInv2_root {root : List Nat}
    (h : root = [] ∨ root = [47] ∨ root = [47, 47]) :
    CanonInv2 root root ∧ HeadForm root.length root := by
  refine ⟨⟨CanonInv_root h, ?_, ?_⟩, Or.inl rfl⟩
  · unfold FirstOk
    rw [List.getElem?_eq_none (Nat.le_refl _)]
    simp
  · intro i hi hseg
    have := hseg.2.1
    rw [List.getElem?_eq_none hi] at this
    cases this

theorem root_all_sep {root : List Nat} (h : root = [] ∨ root = [47] ∨ root = [47, 47]) :
    ∀ c ∈ root, c = 47 := by
  intro c hc
  rcases h with h | h | h <;> rw [h] at hc <;> simp at hc
  · exact hc
  · exact hc

theorem canon_loop_inv2 {root : List Nat} (hroot : ∀ c ∈ root, c = 47) :
    ∀ (fuel : Nat) (s out : List Nat), CanonInv2 root out →
      (s ≠ [] → HeadForm root.length out) → sep_at s = false →
        CanonInv2 root (canon_loop root.length fuel s out) := by
  intro fuel
  induction fuel with
  | zero => intro s out h _ _; simpa [canon_loop] using h
  | succ n ih =>
    intro s out h hh hs
    cases s with
    | nil => simpa [canon_loop] using h
    | cons c t =>
      unfold canon_loop
      simp only
      obtain ⟨g1, g2⟩ := canon_step_inv2 hroot h (hh (List.cons_ne_nil c t))
        (List.cons_ne_nil c t) hs
      obtain ⟨_, g3⟩ := canon_step_inv h.1 (List.cons_ne_nil c t) hs
      exact ih _ _ g1 g2 g3

theorem trim_seps_inv2 {root : List Nat} : ∀ (n : Nat) (out : List Nat),
    CanonInv2 root out → CanonInv2 root (trim_seps root.length out n) := by
  intro n
  induction n with
  | zero => intro out h; simpa [trim_seps] using h
  | succ k ih =>
    intro out h
    unfold trim_seps
    by_cases hc : (decide (root.length < out.length) &&
        IS_DIR_SEPARATOR (out.getD (out.length - 1) 0)) = true
    · rw [if_pos hc]
      simp only [Bool.and_eq_true, decide_eq_true_eq, sep_iff] at hc
      apply ih
      have hlast : out[out.length - 1]? = some 47 := by
        rw [getElem?_of_getD (by omega), hc.2]
      exact ⟨CanonInv_droplast h.1 hc.1 hlast, FirstOk_take h.2.1, DotsFirst_droplast h.2.2 hlast⟩
    · rw [if_neg hc]; exact h

/-- The number of leading separators of the output is the length of the
root. -/
theorem leading_seps_eq {root R : List Nat} (hpre : root <+: R) (hroot : ∀ c ∈ root, c = 47)
    (hfirst : FirstOk root.length R) :
    (R.takeWhile (fun c => c == 47)).length = root.length := by
  obtain ⟨t, rfl⟩ := hpre
  have hp : ∀ a ∈ root, (fun c => c == 47) a = true := by
    intro a ha
    simp [hroot a ha]
  rw [List.takeWhile_append_of_pos hp]
  unfold FirstOk at hfirst
  rw [List.getElem?_append_right (Nat.le_refl _)] at hfirst
  simp only [Nat.sub_self] at hfirst
  cases t with
  | nil => simp
  | cons b u =>
    have hb : b ≠ 47 := by
      intro hb
      apply hfirst
      simp [hb]
    have hbf : (b == 47) = false := by simp [hb]
    simp only [List.takeWhile, hbf, List.append_nil]

/-- In the result of `canonicalize_path` a segment `..` is preceded, after
the leading separators, by segments `..` only. -/
theorem canonicalize_path_dots (s : List Nat) :
    DotsFirst ((canonicalize_path s).takeWhile (fun c => c == 47)).length
      (canonicalize_path s) := by
  obtain ⟨hroot, hsep⟩ := canon_root_inv s
  obtain ⟨i0, h0⟩ := CanonInv2_root hroot
  have hall := root_all_sep hroot
  have hinv := @trim_seps_inv2 (canon_root s).2
    (canon_loop (canon_root s).2.length (canon_root s).1.length (canon_root s).1
      (canon_root s).2).length _
    (canon_loop_inv2 hall (canon_root s).1.length (canon_root s).1 (canon_root s).2
      i0 (fun _ => h0) hsep)
  unfold canonicalize_path
  simp only
  generalize trim_seps (canon_root s).2.length
    (canon_loop (canon_root s).2.length (canon_root s).1.length (canon_root s).1
      (canon_root s).2)
    (canon_loop (canon_root s).2.length (canon_root s).1.length (canon_root s).1
      (canon_root s).2).length = R at hinv ⊢
  generalize (canon_root s).2 = root at hall hinv ⊢
  by_cases hz : R.length = 0
  · rw [if_pos hz]
    intro i _ hseg
    have := hseg.2.2.1
    rw [List.getElem?_eq_none (by simp)] at this
    cases this
  · rw [if_neg hz]
    rw [leading_seps_eq hinv.1.1 hall hinv.2.1]
    exact hinv.2.2

/-! ## The rewrite of an inline name in Windows mode -/

theorem make_win_path_append (a b : List Nat) :
    make_win_path (a ++ b) = make_win_path a ++ make_win_path b := by
  simp [make_win_path]

theorem make_win_path_replicate (n : Nat) :
    make_win_path (List.replicate n 92) = List.replicate n 92 := by
  simp [make_win_path]

theorem make_win_path_no_sep (s : List Nat) : 47 ∉ make_win_path s := by
  intro h
  simp only [make_win_path, List.mem_map] at h
  obtain ⟨a, _, ha⟩ := h
  by_cases h47 : a = 47
  · rw [if_pos h47] at ha
    cases ha
  · rw [if_neg h47] at ha
    exact h47 ha

theorem edit_inline_win {cfg : Config} {st : St} {m S base dest : List Nat} {p : Nat}
    (hwin : cfg.win_path = true) (hb : cfg.base_dir = some base) (hd : cfg.dest_dir = some dest)
    (hlen : dest.length ≤ base.length) (hdest : ∀ x ∈ dest, x ≠ 0)
    (hm : st.debug_info = some m)
    (hS : cstr m p = .ok S) (hpre : has_prefix S base = true) :
    edit_inline cfg 1 true st p S
      = .ok { st with
          debug_info := some (m.take p ++ make_win_path (dest ++ List.replicate
            (base.length - dest.length) 92 ++ S.drop base.length) ++ m.drop (p + S.length)),
          dirty_info := true } := by
  obtain ⟨hS0, r, hdrop⟩ := cstr_eq_ok.mp hS
  obtain ⟨hbl, htake⟩ := has_prefix_iff.mp hpre
  have hml : p + S.length + 1 ≤ m.length := by
    have := congrArg List.length hdrop
    simp at this
    omega
  unfold edit_inline
  rw [rewrite_guard_hit hb hd hpre]
  simp only [bind_ok_eq]
  have hi : info_of st = m := by unfold info_of; rw [hm]; rfl
  rw [hi, rewrite_inline_ok hb hlen (by omega), hwin]
  have hw : wr m p (dest ++ List.replicate (base.length - dest.length) 92)
      = .ok (m.take p ++ (dest ++ List.replicate (base.length - dest.length) 92)
          ++ m.drop (p + base.length)) := by
    apply wr_eq_ok.mpr
    refine ⟨by simp; omega, ?_⟩
    congr 2
    simp; omega
  simp only [if_true]
  rw [hw]
  simp only [bind_ok_eq, Bool.and_self, if_true]
  have hd2 : m.drop (p + base.length) = S.drop base.length ++ 0 :: r := by
    rw [← List.drop_drop, hdrop, List.drop_append_of_le_length hbl]
  have hl : (m.take p).length = p := by simp; omega
  have hlen2 : (dest ++ List.replicate (base.length - dest.length) 92 ++ S.drop base.length).length
      = S.length := by
    simp; omega
  have hc : cstr (m.take p ++ (dest ++ List.replicate (base.length - dest.length) 92)
      ++ m.drop (p + base.length)) p
      = .ok (dest ++ List.replicate (base.length - dest.length) 92 ++ S.drop base.length) := by
    apply cstr_of_drop (r := r)
    · rw [List.append_assoc, List.drop_left' hl, hd2]
      simp
    · intro c hc
      simp only [List.mem_append, List.mem_replicate] at hc
      rcases hc with (hc | hc) | hc
      · exact hdest c hc
      · rw [hc.2]; decide
      · exact hS0 c (List.mem_of_mem_drop hc)
  unfold make_win_path_at
  rw [hc]
  simp only [bind_ok_eq]
  have hw2 : wr (m.take p ++ (dest ++ List.replicate (base.length - dest.length) 92)
        ++ m.drop (p + base.length)) p
        (make_win_path (dest ++ List.replicate (base.length - dest.length) 92 ++ S.drop base.length))
      = .ok (m.take p ++ make_win_path (dest ++ List.replicate
          (base.length - dest.length) 92 ++ S.drop base.length) ++ m.drop (p + S.length)) := by
    apply wr_eq_ok.mpr
    refine ⟨by rw [make_win_path_length, hlen2]; simp; omega, ?_⟩
    rw [make_win_path_length, hlen2]
    congr 1
    · congr 1
      rw [List.append_assoc, List.take_left' hl]
    · have e1 : p + S.length = (m.take p ++ (dest ++ List.replicate (base.length - dest.length) 92)).length
          + (S.length - base.length) := by
        simp; omega
      rw [e1, List.drop_append, List.drop_drop]
      congr 1
      omega
  rw [hw2]
  simp only [bind_ok_eq, pure_eq_ok]

theorem attr_actions_name_win {env : Env} {tag : Nat} {a : AttrSt} {m S base dest : List Nat}
    (hwin : env.cfg.win_path = true) (hb : env.cfg.base_dir = some base)
    (hd : env.cfg.dest_dir = some dest) (hlen : dest.length ≤ base.length)
    (hdest : ∀ x ∈ dest, x ≠ 0)
    (htag : tag = DW_TAG_compile_unit ∨ tag = DW_TAG_partial_unit)
    (hm : a.st.debug_info = some m)
    (hS : cstr m a.ptr = .ok S) (hpre : has_prefix S base = true) :
    ∃ cd, attr_actions env 1 tag DW_AT_name DW_FORM_string a
      = .ok { a with
          st := { a.st with
            debug_info := some (m.take a.ptr
              ++ make_win_path (dest ++ List.replicate (base.length - dest.length) 92
                ++ S.drop base.length)
              ++ m.drop (a.ptr + S.length)),
            dirty_info := true },
          comp_dir := cd } := by
  have hi : info_of a.st = m := by unfold info_of; rw [hm]; rfl
  unfold attr_actions
  rw [act_stmt_list_skip (Or.inr ⟨htag, rfl⟩)]
  simp only [bind_ok_eq]
  have hc : DW_AT_name ≠ DW_AT_comp_dir := by decide
  rw [if_neg hc]
  have ht : ((decide (tag = DW_TAG_compile_unit) || decide (tag = DW_TAG_partial_unit))
      && decide True) = true := by
    rcases htag with h1 | h1 <;> simp [h1]
  rw [if_pos ht]
  unfold act_name
  have hf : DW_FORM_string ≠ DW_FORM_strp := by decide
  rw [if_neg hf]
  simp only [hm, Option.isSome_some, Bool.and_true, decide_True, if_true]
  rw [hi, hS]
  simp only [bind_ok_eq]
  rw [edit_inline_win hwin hb hd hlen hdest hm hS hpre]
  exact ⟨_, rfl⟩

/-! ## The header checks -/

theorem rd_ok_iff {m : List Nat} {p : Nat} : (∃ c, rd m p = .ok c) ↔ p < m.length := by
  unfold rd
  constructor
  · rintro ⟨c, h⟩
    by_contra hlt
    rw [List.getElem?_eq_none (by omega)] at h
    cases h
  · intro h
    rw [List.getElem?_eq_getElem h]
    exact ⟨_, rfl⟩

theorem do_read_16_ok_iff {msb : Bool} {m : List Nat} {p : Nat} :
    (∃ v, do_read_16 msb m p = .ok v) ↔ p + 2 ≤ m.length := by
  unfold do_read_16
  constructor
  · rintro ⟨v, h⟩
    obtain ⟨b0, _, k1⟩ := bind_eq_ok.mp h
    obtain ⟨b1, h1, _⟩ := bind_eq_ok.mp k1
    have := rd_ok_iff.mp ⟨b1, h1⟩
    omega
  · intro h
    obtain ⟨b0, h0⟩ := rd_ok_iff.mpr (show p < m.length by omega)
    obtain ⟨b1, h1⟩ := rd_ok_iff.mpr (show p + 1 < m.length by omega)
    rw [h0, h1]
    exact ⟨_, rfl⟩

theorem do_read_32_ok_iff {msb : Bool} {m : List Nat} {p : Nat} :
    (∃ v, do_read_32 msb m p = .ok v) ↔ p + 4 ≤ m.length := by
  unfold do_read_32
  constructor
  · rintro ⟨v, h⟩
    obtain ⟨b0, _, k1⟩ := bind_eq_ok.mp h
    obtain ⟨b1, _, k2⟩ := bind_eq_ok.mp k1
    obtain ⟨b2, _, k3⟩ := bind_eq_ok.mp k2
    obtain ⟨b3, h3, _⟩ := bind_eq_ok.mp k3
    have := rd_ok_iff.mp ⟨b3, h3⟩
    omega
  · intro h
    obtain ⟨b0, h0⟩ := rd_ok_iff.mpr (show p < m.length by omega)
    obtain ⟨b1, h1⟩ := rd_ok_iff.mpr (show p + 1 < m.length by omega)
    obtain ⟨b2, h2⟩ := rd_ok_iff.mpr (show p + 2 < m.length by omega)
    obtain ⟨b3, h3⟩ := rd_ok_iff.mpr (show p + 3 < m.length by omega)
    rw [h0, h1, h2, h3]
    exact ⟨_, rfl⟩

/-- The header checks answer `return 1` on the rejected headers. -/
theorem line_header_rejects {msb : Bool} {m : List Nat} {off : Nat}
    (h : HeaderRejected msb m off) : line_header msb m off = .ok none := by
  have key : ∀ len, do_read_32 msb m off = .ok len →
      (len = 0xffffffff ∨ m.length < off + 4 + len ∨
        (∃ v, do_read_16 msb m (off + 4) = .ok v ∧
          ((v ≠ 2 ∧ v ≠ 3 ∧ v ≠ 4) ∨
            ∃ hlen, do_read_32 msb m (off + 4 + 2) = .ok hlen ∧
              off + 4 + len < off + 4 + 2 + 4 + hlen))) →
      line_header msb m off = .ok none := by
    intro len hlen hc
    unfold line_header
    rw [hlen]
    simp only [bind_ok_eq]
    by_cases h1 : len = 0xffffffff
    · rw [if_pos h1]; rfl
    rw [if_neg h1]
    by_cases h2 : off + 4 + len > m.length
    · rw [if_pos h2]; rfl
    rw [if_neg h2]
    rcases hc with hc | hc | ⟨v, hv, hc⟩
    · exact absurd hc h1
    · exact absurd hc h2
    rw [hv]
    simp only [bind_ok_eq]
    by_cases h3 : v ≠ 2 ∧ v ≠ 3 ∧ v ≠ 4
    · rw [if_pos h3]; rfl
    rw [if_neg h3]
    rcases hc with hc | ⟨hl, hhl, hc⟩
    · exact absurd hc h3
    rw [hhl]
    simp only [bind_ok_eq]
    rw [if_pos hc]
    rfl
  rcases h with h | ⟨len, h, hb⟩ | ⟨v, hv, hb⟩ | ⟨len, hl, h, hh, hb⟩
  · exact key _ h (Or.inl rfl)
  · exact key _ h (Or.inr (Or.inl hb))
  · have h6 := do_read_16_ok_iff.mp ⟨v, hv⟩
    obtain ⟨len, hlen⟩ := (@do_read_32_ok_iff msb m off).mpr (by omega)
    exact key _ hlen (Or.inr (Or.inr ⟨v, hv, Or.inl hb⟩))
  · have h10 := do_read_32_ok_iff.mp ⟨hl, hh⟩
    obtain ⟨v, hv⟩ := (@do_read_16_ok_iff msb m (off + 4)).mpr (by omega)
    exact key _ h (Or.inr (Or.inr ⟨v, hv, Or.inr ⟨hl, hh, by omega⟩⟩))

/-- The header checks answer `return 1` on the rejected headers only. -/
theorem line_header_none {msb : Bool} {m : List Nat} {off : Nat}
    (h : line_header msb m off = .ok none) : HeaderRejected msb m off := by
  unfold line_header at h
  obtain ⟨len, h1, k1⟩ := bind_eq_ok.mp h
  clear h
  by_cases c1 : len = 0xffffffff
  · left
    rw [h1, c1]
  rw [if_neg c1] at k1
  by_cases c2 : off + 4 + len > m.length
  · right; left
    exact ⟨len, h1, c2⟩
  rw [if_neg c2] at k1
  obtain ⟨v, h2, k2⟩ := bind_eq_ok.mp k1
  clear k1
  by_cases c3 : v ≠ 2 ∧ v ≠ 3 ∧ v ≠ 4
  · right; right; left
    exact ⟨v, h2, c3⟩
  rw [if_neg c3] at k2
  obtain ⟨hlen, h3, k3⟩ := bind_eq_ok.mp k2
  clear k2
  by_cases c4 : off + 4 + 2 + 4 + hlen > off + 4 + len
  · right; right; right
    exact ⟨len, hlen, h1, h3, by omega⟩
  rw [if_neg c4] at k3
  obtain ⟨ob, _, k4⟩ := bind_eq_ok.mp k3
  cases ok_inj k4

/-! ## The directory walk on a well-formed table -/

theorem dir_ptrs_length : ∀ (ds : List (List Nat)) (ptr : Nat),
    (dir_ptrs ptr ds).length = ds.length := by
  intro ds
  induction ds with
  | nil => intro ptr; rfl
  | cons e r ih => intro ptr; simp [dir_ptrs, ih]

theorem drop_past_str {m : List Nat} {ptr : Nat} {e X : List Nat}
    (h : m.drop ptr = e ++ 0 :: X) : m.drop (ptr + e.length + 1) = X := by
  rw [Nat.add_assoc, ← List.drop_drop, h]
  have : e ++ 0 :: X = (e ++ [0]) ++ X := by simp
  rw [this, List.drop_left' (by simp)]

theorem rd_head_of_str {m : List Nat} {ptr : Nat} {e X : List Nat} (he : wf_str e)
    (h : m.drop ptr = e ++ 0 :: X) : ∃ c, rd m ptr = .ok c ∧ c ≠ 0 ∧ e.head? = some c := by
  cases e with
  | nil => exact absurd rfl he.1
  | cons c t =>
    refine ⟨c, rd_eq_ok.mpr ⟨t ++ 0 :: X, by simpa using h⟩, he.2 c (List.mem_cons_self _ _), rfl⟩

theorem dir_ptrs_cstr {m : List Nat} : ∀ (ds : List (List Nat)) (ptr : Nat) (X : List Nat),
    (∀ e ∈ ds, wf_str e) → m.drop ptr = encD ds ++ 0 :: X →
    ∀ x ∈ dir_ptrs ptr ds, ∃ p s, x = some p ∧ cstr m p = .ok s := by
  intro ds
  induction ds with
  | nil => intro ptr X _ _ x hx; cases hx
  | cons e r ih =>
    intro ptr X hwf h x hx
    rw [encD_cons, List.append_assoc, List.cons_append] at h
    simp only [dir_ptrs, List.mem_cons] at hx
    rcases hx with hx | hx
    · exact ⟨ptr, e, hx, cstr_of_drop h (hwf e (List.mem_cons_self _ _)).2⟩
    · exact ih _ X (fun e2 h2 => hwf e2 (List.mem_cons_of_mem _ h2)) (drop_past_str h) x hx

theorem dir_table_total {m : List Nat} : ∀ (ds : List (List Nat)) (fuel ptr : Nat)
    (dirt : List (Option Nat)) (X : List Nat),
    (∀ e ∈ ds, wf_str e) → m.drop ptr = encD ds ++ 0 :: X → ds.length < fuel →
    dir_table m fuel ptr dirt = .ok (dirt ++ dir_ptrs ptr ds, ptr + (encD ds).length + 1) := by
  intro ds
  induction ds with
  | nil =>
    intro fuel ptr dirt X _ h hf
    cases fuel with
    | zero => omega
    | succ n =>
      unfold dir_table
      rw [encD_nil, List.nil_append] at h
      rw [rd_eq_ok.mpr ⟨X, h⟩]
      simp [dir_ptrs, encD_nil]
  | cons e r ih =>
    intro fuel ptr dirt X hwf h hf
    cases fuel with
    | zero => omega
    | succ n =>
      rw [encD_cons, List.append_assoc, List.cons_append] at h
      obtain ⟨c, hc, hc0, _⟩ := rd_head_of_str (hwf e (List.mem_cons_self _ _)) h
      unfold dir_table
      rw [hc]
      simp only [bind_ok_eq]
      rw [if_neg hc0, cstr_of_drop h (hwf e (List.mem_cons_self _ _)).2]
      simp only [bind_ok_eq]
      rw [ih n _ _ X (fun e2 h2 => hwf e2 (List.mem_cons_of_mem _ h2)) (drop_past_str h)
        (by simp at hf; omega)]
      simp only [dir_ptrs, encD_cons, List.append_assoc, List.singleton_append,
        List.length_append, List.length_cons]
      congr 2
      omega

/-! ## The file walk and the directory indices -/

theorem read_uleb128_drop {m : List Nat} {p : Nat} {r : Nat × Nat}
    (h : read_uleb128 m p = .ok r) : read_uleb128 (m.drop p) 0 = .ok (r.1, r.2 - p) := by
  obtain ⟨n, h1, h2⟩ := read_uleb128_eq_ok.mp h
  apply read_uleb128_eq_ok.mpr
  refine ⟨n, ?_, ?_⟩
  · simpa using h1
  · simp only
    omega

theorem read_uleb128_of_drop {m T : List Nat} {p v n : Nat} (hT : m.drop p = T)
    (h : read_uleb128 T 0 = .ok (v, n)) : read_uleb128 m p = .ok (v, p + n) := by
  obtain ⟨k, h1, h2⟩ := read_uleb128_eq_ok.mp h
  apply read_uleb128_eq_ok.mpr
  refine ⟨k, ?_, ?_⟩
  · rw [hT]
    simpa using h1
  · simp only at h2 ⊢
    omega

theorem dirt_str_ok {m : List Nat} {dirt : List (Option Nat)}
    (hdirt : ∀ x ∈ dirt, x = none ∨ ∃ p s, x = some p ∧ cstr m p = .ok s) (i : Nat) :
    ∃ s, dirt_str m (dirt.getD i none) = .ok s := by
  rw [List.getD_eq_getElem?_getD]
  cases h : dirt[i]? with
  | none => exact ⟨[46], rfl⟩
  | some x =>
    have hx : x ∈ dirt := by
      rcases List.getElem?_eq_some_iff.mp h with ⟨hl, he⟩
      rw [← he]
      exact List.getElem_mem hl
    rcases hdirt x hx with hn | ⟨p, s, hp, hs⟩
    · rw [hn]; exact ⟨[46], rfl⟩
    · rw [hp]; exact ⟨s, hs⟩

theorem count_abs_ok {cfg : Config} (hbase : cfg.dest_dir.isSome = true → cfg.base_dir.isSome = true)
    (c : Nat) (file : List Nat) (cnt : Nat) : ∃ n, count_abs cfg c file cnt = .ok n := by
  unfold count_abs
  by_cases h : (decide (c = 47) && cfg.dest_dir.isSome) = true
  · rw [if_pos h]
    have hd : cfg.dest_dir.isSome = true := by
      simp only [Bool.and_eq_true] at h
      exact h.2
    obtain ⟨b, hb⟩ := Option.isSome_iff_exists.mp (hbase hd)
    rw [hb]
    exact ⟨_, rfl⟩
  · rw [if_neg h]
    exact ⟨_, rfl⟩

theorem sink_file_ok {cfg : Config}
    (hsink : cfg.list_file = true → cfg.base_dir.isSome = true → cfg.dest_dir.isSome = true)
    (sink s : List Nat) : ∃ t, sink_file cfg sink s = .ok t := by
  unfold sink_file
  by_cases hl : cfg.list_file = true
  · rw [if_pos hl]
    unfold list_suffix
    cases hb : cfg.base_dir with
    | none => exact ⟨_, rfl⟩
    | some base =>
      simp only
      by_cases hp : has_prefix s base = true
      · rw [if_pos hp]
        exact ⟨_, rfl⟩
      · rw [if_neg hp]
        obtain ⟨d, hd⟩ := Option.isSome_iff_exists.mp (hsink hl (by rw [hb]; rfl))
        rw [hd]
        simp only [has_prefix_opt, strlen_opt, bind_ok_eq, pure_eq_ok]
        by_cases hq : has_prefix s d = true
        · rw [if_pos hq]; exact ⟨_, rfl⟩
        · rw [if_neg hq]; exact ⟨_, rfl⟩
  · rw [if_neg hl]
    exact ⟨_, rfl⟩

/-- When the file walk answers with a non-zero `ret`, the answer is 1 and
the walk has come to an entry whose directory index is out of range. -/
theorem file_scan_bad {cfg : Config} {comp_dir m : List Nat} {dirt : List (Option Nat)} :
    ∀ (fuel ptr cnt : Nat) (sink : List Nat) (r : FileScan),
      file_scan cfg comp_dir m dirt fuel ptr cnt sink = .ok r → r.ret ≠ 0 →
      r.ret = 1 ∧ ∃ (fs : List (List Nat × List Nat)) (name T : List Nat) (v n : Nat),
        (∀ f ∈ fs, wf_file f) ∧ wf_str name ∧
        m.drop ptr = encF fs ++ name ++ 0 :: T ∧
        read_uleb128 T 0 = .ok (v, n) ∧ dirt.length ≤ v := by
  intro fuel
  induction fuel with
  | zero => intro ptr cnt sink r h; simp [file_scan] at h
  | succ n ih =>
    intro ptr cnt sink r h hret
    unfold file_scan at h
    obtain ⟨c, hc, k1⟩ := bind_eq_ok.mp h
    clear h
    obtain ⟨t, ht⟩ := rd_eq_ok.mp hc
    by_cases h0 : c = 0
    · rw [if_pos h0] at k1
      have := ok_inj k1
      subst this
      exact absurd rfl hret
    rw [if_neg h0] at k1
    obtain ⟨s, hs, k2⟩ := bind_eq_ok.mp k1
    clear k1
    obtain ⟨v, hv, k3⟩ := bind_eq_ok.mp k2
    clear k2
    obtain ⟨hs0, T, hT⟩ := cstr_eq_ok.mp hs
    have hsne : s ≠ [] := by
      intro he
      rw [he] at hT
      rw [hT] at ht
      simp at ht
      exact h0 ht.1.symm
    have hd1 : m.drop (ptr + s.length + 1) = T := drop_past_str hT
    by_cases hidx : v.1 ≥ dirt.length
    · rw [if_pos hidx] at k3
      have := ok_inj k3
      subst this
      refine ⟨rfl, [], s, T, v.1, v.2 - (ptr + s.length + 1), by simp, ⟨hsne, hs0⟩, ?_, ?_, hidx⟩
      · simpa [encF] using hT
      · rw [← hd1]
        exact read_uleb128_drop hv
    rw [if_neg hidx] at k3
    obtain ⟨dstr, _, k4⟩ := bind_eq_ok.mp k3
    obtain ⟨cnt1, _, k5⟩ := bind_eq_ok.mp k4
    obtain ⟨sink1, _, k6⟩ := bind_eq_ok.mp k5
    obtain ⟨u1, hu1, k7⟩ := bind_eq_ok.mp k6
    obtain ⟨u2, hu2, k8⟩ := bind_eq_ok.mp k7
    clear k3 k4 k5 k6 k7
    obtain ⟨hr1, fs, name, T2, v2, n2, h1, h2, h3, h4, h5⟩ := ih _ _ _ _ k8 hret
    have hsk : skip3 m (ptr + s.length + 1) = .ok u2.2 := by
      unfold skip3
      rw [hv]; simp only [bind_ok_eq]
      rw [hu1]; simp only [bind_ok_eq]
      rw [hu2]; simp only [bind_ok_eq, pure_eq_ok]
    obtain ⟨hul, hull⟩ := three_ulebs_of_skip3 hsk
    obtain ⟨hle, _, _⟩ := skip3_local hsk
    have hd2 : T = (T.take (u2.2 - (ptr + s.length + 1))) ++ m.drop u2.2 := by
      conv => lhs; rw [← List.take_append_drop (u2.2 - (ptr + s.length + 1)) T]
      congr 1
      rw [← hd1, List.drop_drop]
      congr 1
      omega
    rw [hd1] at hul hull
    refine ⟨hr1, (s, T.take (u2.2 - (ptr + s.length + 1))) :: fs, name, T2, v2, n2, ?_, h2, ?_,
      h4, h5⟩
    · intro f hf
      rcases List.mem_cons.mp hf with hf | hf
      · rw [hf]; exact ⟨⟨hsne, hs0⟩, hul⟩
      · exact h1 f hf
    · rw [hT, encF_cons]
      simp only [List.append_assoc, List.cons_append]
      congr 2
      rw [← List.append_assoc (encF fs), ← h3]
      exact hd2

/-- On tables with an entry whose directory index is out of range the file
walk returns, with `ret` 1. -/
theorem file_scan_total {cfg : Config} {comp_dir m : List Nat} {dirt : List (Option Nat)}
    {name T : List Nat} {v n : Nat}
    (hbase : cfg.dest_dir.isSome = true → cfg.base_dir.isSome = true)
    (hsink : cfg.list_file = true → cfg.base_dir.isSome = true → cfg.dest_dir.isSome = true)
    (hdirt : ∀ x ∈ dirt, x = none ∨ ∃ p s, x = some p ∧ cstr m p = .ok s)
    (hname : wf_str name) (hv : read_uleb128 T 0 = .ok (v, n)) (hbad : dirt.length ≤ v) :
    ∀ (fs : List (List Nat × List Nat)) (fuel ptr cnt : Nat) (sink : List Nat),
      (∀ f ∈ fs, wf_file f) → m.drop ptr = encF fs ++ name ++ 0 :: T → fs.length < fuel →
      ∃ r, file_scan cfg comp_dir m dirt fuel ptr cnt sink = .ok r ∧ r.ret = 1 := by
  intro fs
  induction fs with
  | nil =>
    intro fuel ptr cnt sink _ h hf
    cases fuel with
    | zero => omega
    | succ k =>
      have h2 : m.drop ptr = name ++ 0 :: T := by simpa [encF] using h
      obtain ⟨c, hc, hc0, _⟩ := rd_head_of_str hname h2
      unfold file_scan
      rw [hc]
      simp only [bind_ok_eq]
      rw [if_neg hc0, cstr_of_drop h2 hname.2]
      simp only [bind_ok_eq]
      rw [read_uleb128_of_drop (drop_past_str h2) hv]
      simp only [bind_ok_eq]
      rw [if_pos (show v ≥ dirt.length from hbad)]
      exact ⟨_, rfl, rfl⟩
  | cons f fs ih =>
    intro fuel ptr cnt sink hwf h hf
    cases fuel with
    | zero => omega
    | succ k =>
      have hf1 := hwf f (List.mem_cons_self _ _)
      have h2 : m.drop ptr = f.1 ++ 0 :: (f.2 ++ (encF fs ++ name ++ 0 :: T)) := by
        rw [h, encF_cons]
        simp only [List.append_assoc, List.cons_append]
      obtain ⟨c, hc, hc0, _⟩ := rd_head_of_str hf1.1 h2
      have hd1 := drop_past_str h2
      have hsk := skip3_of_three_ulebs hf1.2 hd1
      unfold skip3 at hsk
      obtain ⟨v1, hv1, j1⟩ := bind_eq_ok.mp hsk
      obtain ⟨u1, hu1, j2⟩ := bind_eq_ok.mp j1
      obtain ⟨u2, hu2, j3⟩ := bind_eq_ok.mp j2
      have hu22 : u2.2 = ptr + f.1.length + 1 + f.2.length := ok_inj j3
      clear hsk j1 j2 j3
      have hd2 : m.drop u2.2 = encF fs ++ name ++ 0 :: T := by
        rw [hu22, ← List.drop_drop, hd1, List.drop_left]
      unfold file_scan
      rw [hc]
      simp only [bind_ok_eq]
      rw [if_neg hc0, cstr_of_drop h2 hf1.1.2]
      simp only [bind_ok_eq]
      rw [hv1]
      simp only [bind_ok_eq]
      by_cases hidx : v1.1 ≥ dirt.length
      · rw [if_pos hidx]
        exact ⟨_, rfl, rfl⟩
      rw [if_neg hidx]
      obtain ⟨dstr, hdstr⟩ := dirt_str_ok hdirt v1.1
      rw [hdstr]
      simp only [bind_ok_eq]
      obtain ⟨cnt1, hcnt⟩ := count_abs_ok hbase c f.1 cnt
      rw [hcnt]
      simp only [bind_ok_eq]
      obtain ⟨sink1, hsk1⟩ := sink_file_ok hsink sink
        (canonicalize_path (join_path comp_dir dstr f.1))
      rw [hsk1]
      simp only [bind_ok_eq]
      rw [hu1]
      simp only [bind_ok_eq]
      rw [hu2]
      simp only [bind_ok_eq]
      exact ih k u2.2 cnt1 sink1 (fun g hg => hwf g (List.mem_cons_of_mem _ hg)) hd2
        (by simp at hf; omega)

/-! ## The error returns of the line-header editor -/

theorem encD_length_ge (ds : List (List Nat)) : ds.length ≤ (encD ds).length := by
  induction ds with
  | nil => simp
  | cons e r ih =>
    rw [encD_cons]
    simp only [List.length_append, List.length_cons]
    omega

theorem encF_length_ge (fs : List (List Nat × List Nat)) : fs.length ≤ (encF fs).length := by
  induction fs with
  | nil => simp
  | cons f r ih =>
    rw [encF_cons]
    simp only [List.length_append, List.length_cons]
    omega

theorem edit_dwarf2_line_rejects {cfg : Config} {msb : Bool} {st : St} {off : Nat}
    {comp_dir m : List Nat} (hline : st.debug_line = some m)
    (h : HeaderRejected msb m off) :
    edit_dwarf2_line cfg msb st off comp_dir 0 = .ok (1, st) := by
  unfold edit_dwarf2_line
  simp only [ne_eq, not_true_eq_false, if_false, hline]
  rw [line_header_rejects h]
  rfl

theorem edit_dwarf2_line_bad_index {cfg : Config} {msb : Bool} {st : St} {off dir : Nat}
    {comp_dir m : List Nat} (hline : st.debug_line = some m)
    (hbase : cfg.dest_dir.isSome = true → cfg.base_dir.isSome = true)
    (hsink : cfg.list_file = true → cfg.base_dir.isSome = true → cfg.dest_dir.isSome = true)
    (hh : line_header msb m off = .ok (some dir)) (h : BadIndex m dir) :
    ∃ sink, edit_dwarf2_line cfg msb st off comp_dir 0 = .ok (1, { st with sink := sink }) := by
  obtain ⟨ds, fs, name, T, v, n, hds, hfs, hname, hm, hv, hbad⟩ := h
  have hlen := congrArg List.length hm
  simp only [List.length_drop, List.length_append, List.length_cons] at hlen
  have hdl := encD_length_ge ds
  have hfl := encF_length_ge fs
  have hdt := dir_table_total ds (m.length + 1) dir [none] _ hds hm (by omega)
  have hfm := drop_past_str hm
  have hdirt : ∀ x ∈ [none] ++ dir_ptrs dir ds,
      x = none ∨ ∃ p s, x = some p ∧ cstr m p = .ok s := by
    intro x hx
    rcases List.mem_append.mp hx with hx | hx
    · left
      simpa using hx
    · right
      exact dir_ptrs_cstr ds dir _ hds hm x hx
  have hcount : ([none] ++ dir_ptrs dir ds).length ≤ v := by
    simp only [List.length_append, List.length_singleton, dir_ptrs_length]
    omega
  obtain ⟨r, hr, hret⟩ := @file_scan_total cfg comp_dir m _ name T v n hbase hsink hdirt hname hv
    hcount fs (m.length + 1) (dir + (encD ds).length + 1) 0 st.sink hfs hfm (by omega)
  unfold edit_dwarf2_line
  simp only [ne_eq, not_true_eq_false, if_false, hline]
  rw [hh]
  simp only [bind_ok_eq]
  rw [hdt]
  simp only [bind_ok_eq]
  rw [hr]
  simp only [bind_ok_eq]
  rw [if_pos (by rw [hret]; decide)]
  exact ⟨_, rfl⟩

theorem edit_dwarf2_line_error_inv {cfg : Config} {msb : Bool} {st st' : St} {off r : Nat}
    {comp_dir m : List Nat} (hline : st.debug_line = some m)
    (h : edit_dwarf2_line cfg msb st off comp_dir 0 = .ok (r, st')) :
    (r = 0 ∨ r = 1) ∧
    (r = 1 → (HeaderRejected msb m off ∨
        ∃ dir, line_header msb m off = .ok (some dir) ∧ BadIndex m dir) ∧
      ∃ sink, st' = { st with sink := sink }) := by
  unfold edit_dwarf2_line at h
  simp only [ne_eq, not_true_eq_false, if_false, hline] at h
  obtain ⟨hdr, hhdr, k1⟩ := bind_eq_ok.mp h
  clear h
  cases hdr with
  | none =>
    have := ok_inj k1
    simp only [Prod.mk.injEq] at this
    refine ⟨Or.inr this.1.symm, fun _ => ⟨Or.inl (line_header_none hhdr), st.sink, ?_⟩⟩
    rw [← this.2]
  | some dir =>
    simp only at k1
    obtain ⟨dt, hdt, k2⟩ := bind_eq_ok.mp k1
    clear k1
    obtain ⟨dirt, ptr⟩ := dt
    simp only at k2
    obtain ⟨fsr, hfsr, k3⟩ := bind_eq_ok.mp k2
    clear k2
    by_cases hret : fsr.ret ≠ 0
    · rw [if_pos hret] at k3
      have := ok_inj k3
      simp only [Prod.mk.injEq] at this
      refine ⟨Or.inr this.1.symm, fun _ => ⟨Or.inr ⟨dir, hhdr, ?_⟩, fsr.sink,
        by rw [hline]; exact this.2.symm⟩⟩
      obtain ⟨ds, d1, d2, d3, d4⟩ := dir_table_spec _ _ _ _ hdt
      simp only at d2 d3 d4
      obtain ⟨_, fs, name, T, v, n, f1, f2, f3, f4, f5⟩ := file_scan_bad _ _ _ _ _ hfsr hret
      refine ⟨ds, fs, name, T, v, n, d1, f1, f2, ?_, f4, ?_⟩
      · rw [d2, f3]
      · rw [d4] at f5
        simp only [List.length_singleton] at f5
        omega
    rw [if_neg hret] at k3
    refine ⟨Or.inl ?_, fun h1 => ?_⟩
    · cases hdst : cfg.dest_dir with
      | none =>
        rw [hdst] at k3
        have := ok_inj k3
        simp only [Prod.mk.injEq] at this
        exact this.1.symm
      | some dest =>
        rw [hdst] at k3
        simp only at k3
        obtain ⟨x, _, k4⟩ := bind_eq_ok.mp k3
        have := ok_inj k4
        simp only [Prod.mk.injEq] at this
        exact this.1.symm
    · exfalso
      cases hdst : cfg.dest_dir with
      | none =>
        rw [hdst] at k3
        have := ok_inj k3
        simp only [Prod.mk.injEq] at this
        omega
      | some dest =>
        rw [hdst] at k3
        simp only at k3
        obtain ⟨x, _, k4⟩ := bind_eq_ok.mp k3
        have := ok_inj k4
        simp only [Prod.mk.injEq] at this
        omega

/-! ## The root of a canonical path -/

/-- The result of `canonicalize_path` starts with the root that the first
step copies, and no separator follows that root. -/
theorem canonicalize_path_root (s : List Nat) :
    (canon_root s).2 <+: canonicalize_path s ∧
      FirstOk (canon_root s).2.length (canonicalize_path s) := by
  obtain ⟨hroot, hsep⟩ := canon_root_inv s
  obtain ⟨i0, h0⟩ := CanonInv2_root hroot
  have hall := root_all_sep hroot
  have hinv := @trim_seps_inv2 (canon_root s).2
    (canon_loop (canon_root s).2.length (canon_root s).1.length (canon_root s).1
      (canon_root s).2).length _
    (canon_loop_inv2 hall (canon_root s).1.length (canon_root s).1 (canon_root s).2
      i0 (fun _ => h0) hsep)
  unfold canonicalize_path
  simp only
  generalize trim_seps (canon_root s).2.length
    (canon_loop (canon_root s).2.length (canon_root s).1.length (canon_root s).1
      (canon_root s).2)
    (canon_loop (canon_root s).2.length (canon_root s).1.length (canon_root s).1
      (canon_root s).2).length = R at hinv ⊢
  generalize (canon_root s).2 = root at hall hinv ⊢
  by_cases hz : R.length = 0
  · rw [if_pos hz]
    have hR : R = [] := List.length_eq_zero.mp hz
    have hpre := hinv.1.1
    rw [hR] at hpre
    have hr : root = [] := List.prefix_nil.mp hpre
    rw [hr]
    refine ⟨List.nil_prefix, ?_⟩
    unfold FirstOk
    simp
  · rw [if_neg hz]
    exact ⟨hinv.1.1, hinv.2.1⟩

/-- The root is `//` exactly for an input that starts with exactly two
separators. -/
theorem canon_root_two (s : List Nat) :
    (canon_root s).2 = [47, 47] ↔ s[0]? = some 47 ∧ s[1]? = some 47 ∧ s[2]? ≠ some 47 := by
  unfold canon_root
  cases s with
  | nil => simp
  | cons c s1 =>
    simp only
    by_cases hc : IS_DIR_SEPARATOR c = true
    · rw [if_pos hc]
      have hc47 := (sep_iff c).mp hc
      subst hc47
      cases s1 with
      | nil => simp [sep_at]
      | cons d s2 =>
        by_cases hd : d = 47
        · subst hd
          cases s2 with
          | nil => simp [sep_at, IS_DIR_SEPARATOR]
          | cons e s3 =>
            by_cases he : e = 47
            · subst he
              simp [sep_at, IS_DIR_SEPARATOR]
            · simp [sep_at, IS_DIR_SEPARATOR, he]
        · simp [sep_at, IS_DIR_SEPARATOR, hd]
    · rw [if_neg hc]
      have hc47 : c ≠ 47 := fun h => hc ((sep_iff c).mpr h)
      simp [hc47]

/-- The root is `/` for an input that starts with three separators. -/
theorem canon_root_three (s : List Nat) (h0 : s[0]? = some 47) (h1 : s[1]? = some 47)
    (h2 : s[2]? = some 47) : (canon_root s).2 = [47] := by
  unfold canon_root
  cases s with
  | nil => simp at h0
  | cons c s1 =>
    cases s1 with
    | nil => simp at h1
    | cons d s2 =>
      cases s2 with
      | nil => simp at h2
      | cons e s3 =>
        simp at h0 h1 h2
        subst h0 h1 h2
        simp [sep_at, IS_DIR_SEPARATOR]

/-! ## The cursor of the relocated reads -/

theorem rel_skip_spec : ∀ (l : List REL) (p : Int),
    rel_skip l p ≤ l.length ∧
      (∀ j r, j < rel_skip l p → l[j]? = some r → r.ptr < p) ∧
      (∀ r, l[rel_skip l p]? = some r → ¬ r.ptr < p) := by
  intro l
  induction l with
  | nil =>
    intro p
    simp [rel_skip]
  | cons x xs ih =>
    intro p
    obtain ⟨h1, h2, h3⟩ := ih p
    unfold rel_skip
    by_cases hx : x.ptr < p
    · rw [if_pos hx]
      refine ⟨by simp; omega, ?_, ?_⟩
      · intro j r hj hr
        cases j with
        | zero =>
          simp at hr
          rw [← hr]
          exact hx
        | succ k =>
          simp at hr
          exact h2 k r (by omega) hr
      · intro r hr
        simp at hr
        exact h3 r hr
    · rw [if_neg hx]
      refine ⟨by simp, ?_, ?_⟩
      · intro j r hj
        omega
      · intro r hr
        simp at hr
        rw [← hr]
        exact hx

/-- The record that `find?` gives in a sorted index whose records before
the position `c` lie below `p`. -/
theorem rel_find_at {l : List REL} {p : Int} {c : Nat}
    (hsorted : l.Pairwise (fun a b => a.ptr ≤ b.ptr))
    (hlow : ∀ j r, j < c → l[j]? = some r → r.ptr < p)
    (hge : ∀ r, l[c]? = some r → ¬ r.ptr < p) :
    l.find? (fun r => decide (r.ptr = p))
      = match l[c]? with
        | some r => if r.ptr = p then some r else none
        | none => none := by
  induction l generalizing c with
  | nil => simp
  | cons x xs ih =>
    have hs := List.pairwise_cons.mp hsorted
    cases c with
    | zero =>
      simp only [List.getElem?_cons_zero]
      have hx := hge x (by simp)
      by_cases he : x.ptr = p
      · rw [if_pos he, List.find?_cons_of_pos]
        simp [he]
      · rw [if_neg he, List.find?_eq_none]
        intro y hy
        simp only [decide_eq_true_eq]
        rcases List.mem_cons.mp hy with hy | hy
        · rw [hy]; exact he
        · have := hs.1 y hy
          omega
    | succ k =>
      have hx := hlow 0 x (by omega) (by simp)
      rw [List.find?_cons_of_neg]
      · simp only [List.getElem?_cons_succ]
        apply ih hs.2
        · intro j r hj hr
          exact hlow (j + 1) r (by omega) (by simpa using hr)
        · intro r hr
          exact hge r (by simpa using hr)
      · simp only [decide_eq_true_eq]
        omega

/-- One relocated read with a cursor that has not passed a record at or
above `p`. -/
theorem do_read_32_relocated_spec {env : Env} {m : List Nat} {c p raw : Nat}
    (hsorted : env.relbuf.Pairwise (fun a b => a.ptr ≤ b.ptr))
    (hc : c ≤ env.relbuf.length)
    (hlow : ∀ j r, j < c → env.relbuf[j]? = some r → r.ptr < (p : Int))
    (hraw : do_read_32 env.msb m p = .ok raw) :
    ∃ c2, do_read_32_relocated env m c p = .ok (rel_value env raw p, c2) ∧ c ≤ c2 ∧
      c2 ≤ env.relbuf.length ∧
      (∀ j r, j < c2 → env.relbuf[j]? = some r → r.ptr < (p : Int)) ∧
      (∀ r, env.relbuf[c2]? = some r → (p : Int) ≤ r.ptr) := by
  unfold do_read_32_relocated
  rw [hraw]
  simp only [bind_ok_eq]
  by_cases hz : env.relbuf.length ≠ 0
  · rw [if_pos hz]
    obtain ⟨k1, k2, k3⟩ := rel_skip_spec (env.relbuf.drop c) p
    simp only [List.length_drop] at k1
    have hlow2 : ∀ j r, j < c + rel_skip (env.relbuf.drop c) p → env.relbuf[j]? = some r →
        r.ptr < (p : Int) := by
      intro j r hj hr
      by_cases hjc : j < c
      · exact hlow j r hjc hr
      · apply k2 (j - c) r (by omega)
        rw [List.getElem?_drop]
        rw [← hr]
        congr 1
        omega
    have hge2 : ∀ r, env.relbuf[c + rel_skip (env.relbuf.drop c) p]? = some r →
        ¬ r.ptr < (p : Int) := by
      intro r hr
      apply k3 r
      rw [List.getElem?_drop]
      exact hr
    have hfind := rel_find_at hsorted hlow2 hge2
    refine ⟨c + rel_skip (env.relbuf.drop c) p, ?_, by omega, by omega, hlow2, ?_⟩
    · unfold rel_value
      rw [hfind]
      cases hr : env.relbuf[c + rel_skip (env.relbuf.drop c) p]? with
      | none => rfl
      | some r =>
        simp only
        by_cases he : r.ptr = (p : Int)
        · rw [if_pos he, if_pos he]
          simp only
          by_cases ht : env.reltype = SHT_REL
          · rw [if_pos ht, if_pos ht]; rfl
          · rw [if_neg ht, if_neg ht]; rfl
        · rw [if_neg he, if_neg he]
          rfl
    · intro r hr
      have := hge2 r hr
      omega
  · rw [if_neg hz]
    have hnil : env.relbuf = [] := List.length_eq_zero.mp (by omega)
    have hc0 : c = 0 := by rw [hnil] at hc; simpa using hc
    refine ⟨c, ?_, Nat.le_refl _, hc, hlow, ?_⟩
    · unfold rel_value
      rw [hnil]
      rfl
    · intro r hr
      rw [hnil] at hr
      simp at hr

/-- A sequence of relocated reads at nondecreasing pointers, started with a
cursor that has not passed a record at or above the first pointer. -/
theorem rel_reads_spec {env : Env} {m : List Nat}
    (hsorted : env.relbuf.Pairwise (fun a b => a.ptr ≤ b.ptr)) :
    ∀ (ps : List Nat) (c : Nat), c ≤ env.relbuf.length →
      ps.Pairwise (fun a b => a ≤ b) →
      (∀ p ∈ ps, ∀ j r, j < c → env.relbuf[j]? = some r → r.ptr < (p : Int)) →
      (∀ p ∈ ps, ∃ raw, do_read_32 env.msb m p = .ok raw) →
      ∃ rs, rel_reads env m c ps = .ok rs ∧ rs.length = ps.length ∧
        List.Chain (fun a b => a ≤ b) c (rs.map Prod.snd) ∧
        ∀ (i p raw : Nat), ps[i]? = some p → do_read_32 env.msb m p = .ok raw →
          ∃ c2, rs[i]? = some (rel_value env raw p, c2) ∧ c2 ≤ env.relbuf.length ∧
            (∀ j r, j < c2 → env.relbuf[j]? = some r → r.ptr < (p : Int)) ∧
            (∀ r, env.relbuf[c2]? = some r → (p : Int) ≤ r.ptr) := by
  intro ps
  induction ps with
  | nil =>
    intro c _ _ _ _
    refine ⟨[], rfl, rfl, List.Chain.nil, ?_⟩
    intro i p raw hp
    simp at hp
  | cons p ps ih =>
    intro c hc hq hlow hraw
    obtain ⟨raw, hr⟩ := hraw p (List.mem_cons_self _ _)
    obtain ⟨c2, h1, h2, h3, h4, h5⟩ :=
      do_read_32_relocated_spec hsorted hc (hlow p (List.mem_cons_self _ _)) hr
    have hq2 := List.pairwise_cons.mp hq
    obtain ⟨rs, g1, g2, g3, g4⟩ := ih c2 h3 hq2.2
      (by
        intro q hqm j r hj hjr
        have := h4 j r hj hjr
        have := hq2.1 q hqm
        omega)
      (fun q hqm => hraw q (List.mem_cons_of_mem _ hqm))
    refine ⟨(rel_value env raw p, c2) :: rs, ?_, by simp [g2], ?_, ?_⟩
    · unfold rel_reads
      rw [h1]
      simp only [bind_ok_eq]
      rw [g1]
      rfl
    · simp only [List.map_cons]
      exact List.Chain.cons h2 g3
    · intro i q raw2 hi hraw2
      cases i with
      | zero =>
        simp only [List.getElem?_cons_zero, Option.some.injEq] at hi
        subst hi
        rw [hr] at hraw2
        have := Except.ok.inj hraw2
        subst this
        exact ⟨c2, by simp, h3, h4, h5⟩
      | succ k =>
        simp only [List.getElem?_cons_succ] at hi ⊢
        exact g4 k q raw2 hi hraw2

/-! ## The checks of the unit header -/

theorem last_sep_split {D F : List Nat} (hF : 47 ∉ F) : last_sep (D ++ 47 :: F) = D.length := by
  unfold last_sep
  have hrev : (D ++ 47 :: F).reverse = F.reverse ++ 47 :: D.reverse := by simp
  have hp : ∀ a ∈ F.reverse, (fun c => c != 47) a = true := by
    intro a ha
    have : a ≠ 47 := by
      intro h
      rw [h] at ha
      exact hF (List.mem_reverse.mp ha)
    simp [this]
  rw [hrev, List.takeWhile_append_of_pos hp]
  simp

theorem synth_comp_dir_split {D F : List Nat} (hF : 47 ∉ F) :
    synth_comp_dir (D ++ 47 :: F) = if D = [] then [47] else D := by
  unfold synth_comp_dir
  rw [last_sep_split hF]
  by_cases hD : D = []
  · rw [if_pos hD, hD]
    simp
  · rw [if_neg hD]
    have : D.length ≠ 0 := by
      intro h
      exact hD (List.length_eq_zero.mp h)
    rw [if_pos this]
    simp

/-- The `DW_AT_name` action is a rewrite that does not look at `comp_dir`,
followed by the update of `comp_dir`. -/
theorem act_name_eq {env : Env} {phase form : Nat} {a : AttrSt} {N : List Nat}
    (hN : attr_string env a form N) :
    ∃ E : Except Fault St, ∀ x, act_name env phase form { a with comp_dir := x }
      = E >>= fun st => pure { a with st := st, comp_dir := name_comp_dir N x } := by
  rcases hN with ⟨hf, hs⟩ | ⟨hf, str, r, hstr, hr, hs⟩
  · subst hf
    have hne : DW_FORM_string ≠ DW_FORM_strp := by decide
    have hsome : a.st.debug_info.isSome = true := by
      cases hi : a.st.debug_info with
      | some x => rfl
      | none =>
        unfold info_of at hs
        rw [hi] at hs
        simp [cstr, cstrL] at hs
    refine ⟨edit_inline env.cfg phase true a.st a.ptr N, ?_⟩
    intro x
    unfold act_name
    rw [if_neg hne]
    simp only [hsome, Bool.and_true, decide_True, if_true]
    rw [hs]
    rfl
  · subst hf
    refine ⟨edit_strp env.cfg phase true { a.st with relptr := r.2 } str r.1 N, ?_⟩
    intro x
    unfold act_name
    rw [if_pos rfl]
    simp only [hstr]
    rw [hr]
    simp only [bind_ok_eq]
    rw [hs]
    rfl

/-- The `DW_AT_name` action gives the same state whatever `comp_dir` is
when it starts; `comp_dir` afterwards is `name_comp_dir` of the name. -/
theorem act_name_spec {env : Env} {phase form : Nat} {a a' : AttrSt} {N : List Nat}
    (hN : attr_string env a form N) (h : act_name env phase form a = .ok a') :
    a'.comp_dir = name_comp_dir N a.comp_dir ∧ a'.ptr = a.ptr ∧
      ∀ x, act_name env phase form { a with comp_dir := x }
        = .ok { a' with comp_dir := name_comp_dir N x } := by
  obtain ⟨E, hE⟩ := @act_name_eq env phase form a N hN
  have h0 := hE a.comp_dir
  have ha : ({ a with comp_dir := a.comp_dir } : AttrSt) = a := rfl
  rw [ha, h] at h0
  obtain ⟨st1, h1, k⟩ := bind_eq_ok.mp h0.symm
  have hk := ok_inj k
  rw [← hk]
  refine ⟨rfl, rfl, ?_⟩
  intro x
  rw [hE x, h1]
  rfl

/-- The actions of one pass over a `DW_AT_name` of a compile or partial
unit are the `DW_AT_name` action. -/
theorem attr_actions_name {env : Env} {phase tag form : Nat} {a : AttrSt}
    (htag : tag = DW_TAG_compile_unit ∨ tag = DW_TAG_partial_unit) :
    attr_actions env phase tag DW_AT_name form a = act_name env phase form a := by
  unfold attr_actions
  rw [act_stmt_list_skip (Or.inr ⟨htag, rfl⟩)]
  simp only [bind_ok_eq]
  have hc : DW_AT_name ≠ DW_AT_comp_dir := by decide
  rw [if_neg hc]
  have ht : ((decide (tag = DW_TAG_compile_unit) || decide (tag = DW_TAG_partial_unit))
      && decide True) = true := by
    rcases htag with h1 | h1 <;> simp [h1]
  simp only [ht, if_true]

/-- In phase 0 the `DW_AT_name` action returns and leaves the sections as
they are. -/
theorem act_name_phase0 {env : Env} {form : Nat} {a : AttrSt} {N : List Nat}
    (hN : attr_string env a form N) :
    ∃ a', act_name env 0 form a = .ok a' ∧ St.same a.st a'.st := by
  have hg : ∀ s, rewrite_guard env.cfg 0 s = .ok none := by
    intro s
    unfold rewrite_guard
    rw [if_neg (by decide)]
    rfl
  rcases hN with ⟨hf, hs⟩ | ⟨hf, str, r, hstr, hr, hs⟩
  · subst hf
    have hne : DW_FORM_string ≠ DW_FORM_strp := by decide
    have hsome : a.st.debug_info.isSome = true := by
      cases hi : a.st.debug_info with
      | some x => rfl
      | none =>
        unfold info_of at hs
        rw [hi] at hs
        simp [cstr, cstrL] at hs
    unfold act_name
    rw [if_neg hne]
    simp only [hsome, Bool.and_true, decide_True, if_true]
    rw [hs]
    simp only [bind_ok_eq]
    unfold edit_inline
    rw [hg]
    exact ⟨_, rfl, rfl, rfl, rfl, rfl, rfl, rfl, rfl, rfl, rfl⟩
  · subst hf
    unfold act_name
    rw [if_pos rfl]
    simp only [hstr]
    rw [hr]
    simp only [bind_ok_eq]
    rw [hs]
    simp only [bind_ok_eq]
    unfold edit_strp
    rw [hg]
    exact ⟨_, rfl, rfl, rfl, rfl, hstr.symm, rfl, rfl, rfl, rfl, rfl⟩

/-! ## The bytes that `read_uleb128` steps over -/

theorem uleb_loop_len : ∀ (l : List Nat) (r s n v k : Nat),
    uleb_loop l r s n = .ok (v, k) → ∃ c, leb_len l = some c ∧ k = n + c := by
  intro l
  induction l with
  | nil => intro r s n v k h; simp [uleb_loop] at h
  | cons b t ih =>
    intro r s n v k h
    unfold uleb_loop at h
    simp only at h
    unfold leb_len
    by_cases hc : b &&& 0x80 ≠ 0
    · rw [if_pos hc] at h
      rw [if_pos hc]
      obtain ⟨c, h1, h2⟩ := ih _ _ _ _ _ h
      refine ⟨c + 1, ?_, by omega⟩
      rw [h1]
      rfl
    · rw [if_neg hc] at h
      rw [if_neg hc]
      have := Except.ok.inj h
      simp only [Prod.mk.injEq] at this
      exact ⟨1, rfl, this.2.symm⟩

theorem uleb_loop_of_len : ∀ (l : List Nat) (r s n c : Nat),
    leb_len l = some c → ∃ v, uleb_loop l r s n = .ok (v, n + c) := by
  intro l
  induction l with
  | nil => intro r s n c h; simp [leb_len] at h
  | cons b t ih =>
    intro r s n c h
    unfold leb_len at h
    unfold uleb_loop
    simp only
    by_cases hc : b &&& 0x80 ≠ 0
    · rw [if_pos hc] at h
      rw [if_pos hc]
      cases ht : leb_len t with
      | none => rw [ht] at h; simp at h
      | some c1 =>
        rw [ht] at h
        simp only [Option.map_some', Option.some.injEq] at h
        obtain ⟨v, hv⟩ := ih ((r ||| ((b &&& 0x7f) <<< s)) % 2 ^ 32) (s + 7) (n + 1) c1 ht
        refine ⟨v, ?_⟩
        rw [hv]
        congr 2
        omega
    · rw [if_neg hc] at h
      rw [if_neg hc]
      simp only [Option.some.injEq] at h
      rw [← h]
      exact ⟨_, rfl⟩

/-- The pointer after `read_uleb128` is the pointer plus the length of the
encoding. -/
theorem read_uleb128_len {m : List Nat} {p : Nat} {r : Nat × Nat}
    (h : read_uleb128 m p = .ok r) : ∃ c, leb_len (m.drop p) = some c ∧ r.2 = p + c := by
  obtain ⟨n, h1, h2⟩ := read_uleb128_eq_ok.mp h
  obtain ⟨c, k1, k2⟩ := uleb_loop_len _ _ _ _ _ _ h1
  exact ⟨c, k1, by omega⟩

/-- Where an encoding starts, `read_uleb128` returns and steps over it. -/
theorem read_uleb128_of_len {m : List Nat} {p c : Nat} (h : leb_len (m.drop p) = some c) :
    ∃ v, read_uleb128 m p = .ok (v, p + c) := by
  obtain ⟨v, hv⟩ := uleb_loop_of_len _ 0 0 0 c h
  refine ⟨v, read_uleb128_eq_ok.mpr ⟨c, ?_, rfl⟩⟩
  simpa using hv

/-! ## The line-program offset found by the attribute loop -/

theorem form_step_again {msb : Bool} {ps cv : Nat} {m : List Nat} {form ptr f p : Nat}
    (h : form_step msb ps cv m form ptr = .ok (.again f p)) : form = DW_FORM_indirect := by
  by_contra hne
  have hd : ∀ q, (pure (FormStep.done q) : Except Fault FormStep) ≠ .ok (.again f p) := by
    intro q hq
    cases ok_inj hq
  unfold form_step at h
  by_cases c1 : form = DW_FORM_ref_addr
  · rw [if_pos c1] at h; exact hd _ h
  rw [if_neg c1] at h
  by_cases c2 : form = DW_FORM_flag_present
  · rw [if_pos c2] at h; exact hd _ h
  rw [if_neg c2] at h
  by_cases c3 : form = DW_FORM_addr
  · rw [if_pos c3] at h; exact hd _ h
  rw [if_neg c3] at h
  by_cases c4 : (decide (form = DW_FORM_ref1) || decide (form = DW_FORM_flag)
      || decide (form = DW_FORM_data1)) = true
  · rw [if_pos c4] at h; exact hd _ h
  rw [if_neg c4] at h
  by_cases c5 : (decide (form = DW_FORM_ref2) || decide (form = DW_FORM_data2)) = true
  · rw [if_pos c5] at h; exact hd _ h
  rw [if_neg c5] at h
  by_cases c6 : (decide (form = DW_FORM_ref4) || decide (form = DW_FORM_data4)
      || decide (form = DW_FORM_sec_offset)) = true
  · rw [if_pos c6] at h; exact hd _ h
  rw [if_neg c6] at h
  by_cases c7 : (decide (form = DW_FORM_ref8) || decide (form = DW_FORM_data8)
      || decide (form = DW_FORM_ref_sig8)) = true
  · rw [if_pos c7] at h; exact hd _ h
  rw [if_neg c7] at h
  by_cases c8 : (decide (form = DW_FORM_sdata) || decide (form = DW_FORM_ref_udata)
      || decide (form = DW_FORM_udata)) = true
  · rw [if_pos c8] at h
    obtain ⟨r, _, k⟩ := bind_eq_ok.mp h
    exact hd _ k
  rw [if_neg c8] at h
  by_cases c9 : form = DW_FORM_strp
  · rw [if_pos c9] at h; exact hd _ h
  rw [if_neg c9] at h
  by_cases c10 : form = DW_FORM_string
  · rw [if_pos c10] at h
    obtain ⟨r, _, k⟩ := bind_eq_ok.mp h
    exact hd _ k
  rw [if_neg c10, if_neg hne] at h
  by_cases c12 : form = DW_FORM_block1
  · rw [if_pos c12] at h
    obtain ⟨r, _, k⟩ := bind_eq_ok.mp h
    exact hd _ k
  rw [if_neg c12] at h
  by_cases c13 : form = DW_FORM_block2
  · rw [if_pos c13] at h
    obtain ⟨r, _, k⟩ := bind_eq_ok.mp h
    exact hd _ k
  rw [if_neg c13] at h
  by_cases c14 : form = DW_FORM_block4
  · rw [if_pos c14] at h
    obtain ⟨r, _, k⟩ := bind_eq_ok.mp h
    exact hd _ k
  rw [if_neg c14] at h
  by_cases c15 : (decide (form = DW_FORM_block) || decide (form = DW_FORM_exprloc)) = true
  · rw [if_pos c15] at h
    obtain ⟨r, _, k⟩ := bind_eq_ok.mp h
    by_cases c16 : r.1 < UINT_MAX
    · simp only [c16, if_true] at k
      exact hd _ k
    · simp only [c16, if_false] at k
      cases k
  rw [if_neg c15] at h
  cases ok_inj h

theorem act_stmt_list_hit {env : Env} {attr form : Nat} {a a' : AttrSt}
    (hs : stmt_list_attr attr form) (h : act_stmt_list env attr form a = .ok a') :
    a'.found_list_offs = true ∧ a'.comp_dir = a.comp_dir ∧
      ∃ v, do_read_32_relocated env (info_of a.st) a.st.relptr a.ptr = .ok v ∧
        a'.list_offs = v.1 := by
  unfold act_stmt_list at h
  have hc : (decide (attr = DW_AT_stmt_list) &&
      (decide (form = DW_FORM_data4) || decide (form = DW_FORM_sec_offset))) = true := by
    obtain ⟨h1, h2⟩ := hs
    rcases h2 with h2 | h2 <;> simp [h1, h2]
  rw [if_pos hc] at h
  obtain ⟨r, hr, k⟩ := bind_eq_ok.mp h
  rw [← ok_inj k]
  exact ⟨rfl, rfl, r, hr, rfl⟩

theorem act_stmt_list_miss {env : Env} {attr form : Nat} {a : AttrSt}
    (hs : ¬ stmt_list_attr attr form) : act_stmt_list env attr form a = .ok a := by
  unfold act_stmt_list
  have hc : ¬ (decide (attr = DW_AT_stmt_list) &&
      (decide (form = DW_FORM_data4) || decide (form = DW_FORM_sec_offset))) = true := by
    intro hc
    apply hs
    simp only [Bool.and_eq_true, Bool.or_eq_true, decide_eq_true_eq] at hc
    exact hc
  rw [if_neg hc]
  rfl

theorem act_comp_dir_offs {env : Env} {phase form : Nat} {a a' : AttrSt}
    (h : act_comp_dir env phase form a = .ok a') :
    a'.found_list_offs = a.found_list_offs ∧ a'.list_offs = a.list_offs := by
  unfold act_comp_dir at h
  by_cases hf : form = DW_FORM_string
  · rw [if_pos hf] at h
    obtain ⟨s, _, k⟩ := bind_eq_ok.mp h
    obtain ⟨st1, h1, k1⟩ := bind_eq_ok.mp k
    rw [← ok_inj k1]
    exact ⟨rfl, rfl⟩
  · rw [if_neg hf] at h
    cases hs : a.st.debug_str with
    | none =>
      rw [hs] at h
      rw [← ok_inj h]
      exact ⟨rfl, rfl⟩
    | some str =>
      rw [hs] at h
      simp only at h
      by_cases hp : form = DW_FORM_strp
      · rw [if_pos hp] at h
        obtain ⟨r, _, k⟩ := bind_eq_ok.mp h
        obtain ⟨s, _, k1⟩ := bind_eq_ok.mp k
        obtain ⟨st1, h1, k2⟩ := bind_eq_ok.mp k1
        rw [← ok_inj k2]
        exact ⟨rfl, rfl⟩
      · rw [if_neg hp] at h
        rw [← ok_inj h]
        exact ⟨rfl, rfl⟩

theorem act_name_offs {env : Env} {phase form : Nat} {a a' : AttrSt}
    (h : act_name env phase form a = .ok a') :
    a'.found_list_offs = a.found_list_offs ∧ a'.list_offs = a.list_offs := by
  unfold act_name at h
  cases hs : (if form = DW_FORM_strp then a.st.debug_str else none) with
  | some str =>
    rw [hs] at h
    simp only at h
    obtain ⟨r, _, k⟩ := bind_eq_ok.mp h
    obtain ⟨s, _, k1⟩ := bind_eq_ok.mp k
    obtain ⟨st1, h1, k2⟩ := bind_eq_ok.mp k1
    rw [← ok_inj k2]
    exact ⟨rfl, rfl⟩
  | none =>
    rw [hs] at h
    simp only at h
    by_cases hc : (decide (form = DW_FORM_string) && a.st.debug_info.isSome) = true
    · rw [if_pos hc] at h
      obtain ⟨s, _, k⟩ := bind_eq_ok.mp h
      obtain ⟨st1, h1, k1⟩ := bind_eq_ok.mp k
      rw [← ok_inj k1]
      exact ⟨rfl, rfl⟩
    · rw [if_neg hc] at h
      cases h

/-- What the actions of one pass do to `found_list_offs` and `list_offs`. -/
theorem attr_actions_offs {env : Env} {phase tag attr form : Nat} {a a' : AttrSt}
    (h : attr_actions env phase tag attr form a = .ok a') :
    (stmt_list_attr attr form → a'.found_list_offs = true ∧
      ∃ v, do_read_32_relocated env (info_of a.st) a.st.relptr a.ptr = .ok v ∧
        a'.list_offs = v.1) ∧
    (¬ stmt_list_attr attr form →
      a'.found_list_offs = a.found_list_offs ∧ a'.list_offs = a.list_offs) := by
  unfold attr_actions at h
  obtain ⟨a1, h1, k⟩ := bind_eq_ok.mp h
  clear h
  have hrest : a'.found_list_offs = a1.found_list_offs ∧ a'.list_offs = a1.list_offs := by
    by_cases hc : attr = DW_AT_comp_dir
    · rw [if_pos hc] at k
      exact act_comp_dir_offs k
    · rw [if_neg hc] at k
      by_cases hn : ((decide (tag = DW_TAG_compile_unit) || decide (tag = DW_TAG_partial_unit)) &&
          decide (attr = DW_AT_name)) = true
      · rw [if_pos hn] at k
        exact act_name_offs k
      · rw [if_neg hn] at k
        rw [← ok_inj k]
        exact ⟨rfl, rfl⟩
  constructor
  · intro hs
    obtain ⟨g1, _, v, g3, g4⟩ := act_stmt_list_hit hs h1
    exact ⟨by rw [hrest.1, g1], v, g3, by rw [hrest.2, g4]⟩
  · intro hs
    rw [act_stmt_list_miss hs] at h1
    have := Except.ok.inj h1
    rw [← this] at hrest
    exact hrest

/-- The loop for an attribute that is not `DW_AT_stmt_list` leaves
`found_list_offs` and `list_offs` alone. -/
theorem attr_loop_offs_other {env : Env} {phase tag attr : Nat} (hattr : attr ≠ DW_AT_stmt_list) :
    ∀ (fuel form : Nat) (a : AttrSt) (r : Bool × AttrSt),
      attr_loop env phase tag attr fuel form a = .ok r →
        r.2.found_list_offs = a.found_list_offs ∧ r.2.list_offs = a.list_offs := by
  intro fuel
  induction fuel with
  | zero => intro form a r h; simp [attr_loop] at h
  | succ n ih =>
    intro form a r h
    unfold attr_loop at h
    obtain ⟨a1, h1, k⟩ := bind_eq_ok.mp h
    obtain ⟨fs, h2, k2⟩ := bind_eq_ok.mp k
    clear h k
    have hm : ¬ stmt_list_attr attr form := fun hs => hattr hs.1
    obtain ⟨g1, g2⟩ := (attr_actions_offs h1).2 hm
    cases fs with
    | done p =>
      simp only at k2
      rw [← ok_inj k2]
      exact ⟨g1, g2⟩
    | again f p =>
      simp only at k2
      obtain ⟨i1, i2⟩ := ih _ _ _ k2
      exact ⟨by rw [i1, ← g1], by rw [i2, ← g2]⟩
    | unknown =>
      simp only at k2
      rw [← ok_inj k2]
      exact ⟨g1, g2⟩

/-- The loop for an attribute whose form is not `DW_FORM_indirect` is one
pass. -/
theorem attr_loop_offs_direct {env : Env} {phase tag attr fuel form : Nat} {a : AttrSt}
    {r : Bool × AttrSt} (hform : form ≠ DW_FORM_indirect)
    (h : attr_loop env phase tag attr fuel form a = .ok r) :
    (stmt_list_attr attr form → r.2.found_list_offs = true ∧
      ∃ v, do_read_32_relocated env (info_of a.st) a.st.relptr a.ptr = .ok v ∧
        r.2.list_offs = v.1) ∧
    (¬ stmt_list_attr attr form →
      r.2.found_list_offs = a.found_list_offs ∧ r.2.list_offs = a.list_offs) := by
  cases fuel with
  | zero => simp [attr_loop] at h
  | succ n =>
    unfold attr_loop at h
    obtain ⟨a1, h1, k⟩ := bind_eq_ok.mp h
    obtain ⟨fs, h2, k2⟩ := bind_eq_ok.mp k
    clear h k
    have hoffs := attr_actions_offs h1
    cases fs with
    | done p =>
      simp only at k2
      rw [← ok_inj k2]
      exact hoffs
    | again f p =>
      exact absurd (form_step_again h2) hform
    | unknown =>
      simp only at k2
      rw [← ok_inj k2]
      exact hoffs

theorem attr_loop_offs {env : Env} {phase tag attr fuel form : Nat} {a : AttrSt}
    {r : Bool × AttrSt} (hind : attr = DW_AT_stmt_list → form ≠ DW_FORM_indirect)
    (h : attr_loop env phase tag attr fuel form a = .ok r) :
    (stmt_list_attr attr form → r.2.found_list_offs = true ∧
      ∃ v, do_read_32_relocated env (info_of a.st) a.st.relptr a.ptr = .ok v ∧
        r.2.list_offs = v.1) ∧
    (¬ stmt_list_attr attr form →
      r.2.found_list_offs = a.found_list_offs ∧ r.2.list_offs = a.list_offs) := by
  by_cases hattr : attr = DW_AT_stmt_list
  · exact attr_loop_offs_direct (hind hattr) h
  · constructor
    · intro hs
      exact absurd hs.1 hattr
    · intro _
      exact attr_loop_offs_other hattr _ _ _ _ h

/-- After the loop over the attributes `found_list_offs` is set exactly when
it was set before or one of the attributes gives a line-program offset. -/
theorem attrs_loop_found {env : Env} {phase tag : Nat} :
    ∀ (attrs : List abbrev_attr) (a : AttrSt) (r : Bool × AttrSt),
      (∀ x ∈ attrs, x.attr = DW_AT_stmt_list → x.form ≠ DW_FORM_indirect) →
      attrs_loop env phase tag attrs a = .ok r → r.1 = true →
      (r.2.found_list_offs = true ↔
        a.found_list_offs = true ∨ ∃ x ∈ attrs, stmt_list_attr x.attr x.form) := by
  intro attrs
  induction attrs with
  | nil =>
    intro a r _ h _
    simp only [attrs_loop] at h
    rw [← ok_inj h]
    simp
  | cons at1 rest ih =>
    intro a r hind h hr
    rw [attrs_loop_cons] at h
    obtain ⟨r1, h1, k⟩ := bind_eq_ok.mp h
    clear h
    by_cases hb : r1.1 = true
    · rw [if_pos hb] at k
      have hrec := ih r1.2 r (fun x hx => hind x (List.mem_cons_of_mem _ hx)) k hr
      obtain ⟨g1, g2⟩ := attr_loop_offs (hind at1 (List.mem_cons_self _ _)) h1
      rw [hrec]
      by_cases hs : stmt_list_attr at1.attr at1.form
      · have := (g1 hs).1
        constructor
        · intro _
          exact Or.inr ⟨at1, List.mem_cons_self _ _, hs⟩
        · intro _
          exact Or.inl this
      · have := (g2 hs).1
        rw [this]
        constructor
        · rintro (h0 | ⟨x, hx, hxs⟩)
          · exact Or.inl h0
          · exact Or.inr ⟨x, List.mem_cons_of_mem _ hx, hxs⟩
        · rintro (h0 | ⟨x, hx, hxs⟩)
          · exact Or.inl h0
          · rcases List.mem_cons.mp hx with hx | hx
            · rw [hx] at hxs
              exact absurd hxs hs
            · exact Or.inr ⟨x, hx, hxs⟩
    · rw [if_neg hb] at k
      have := ok_inj k
      rw [← this] at hr
      exact absurd hr hb

/-- The loop over attributes none of which gives a line-program offset
leaves `list_offs` alone. -/
theorem attrs_loop_offs_none {env : Env} {phase tag : Nat} :
    ∀ (attrs : List abbrev_attr) (a : AttrSt) (r : Bool × AttrSt),
      (∀ x ∈ attrs, x.attr = DW_AT_stmt_list → x.form ≠ DW_FORM_indirect) →
      (∀ x ∈ attrs, ¬ stmt_list_attr x.attr x.form) →
      attrs_loop env phase tag attrs a = .ok r → r.2.list_offs = a.list_offs := by
  intro attrs
  induction attrs with
  | nil =>
    intro a r _ _ h
    simp only [attrs_loop] at h
    rw [← ok_inj h]
  | cons at1 rest ih =>
    intro a r hind hno h
    rw [attrs_loop_cons] at h
    obtain ⟨r1, h1, k⟩ := bind_eq_ok.mp h
    clear h
    obtain ⟨_, g2⟩ := attr_loop_offs (hind at1 (List.mem_cons_self _ _)) h1
    have g3 := (g2 (hno at1 (List.mem_cons_self _ _))).2
    by_cases hb : r1.1 = true
    · rw [if_pos hb] at k
      rw [ih r1.2 r (fun x hx => hind x (List.mem_cons_of_mem _ hx))
        (fun x hx => hno x (List.mem_cons_of_mem _ hx)) k, g3]
    · rw [if_neg hb] at k
      rw [← ok_inj k, g3]

/-! ## `read_abbrev` on a sequence of declarations -/

theorem drop_append_len {m : List Nat} {p : Nat} {u T : List Nat} (h : m.drop p = u ++ T) :
    m.drop (p + u.length) = T := by
  rw [← List.drop_drop, h, List.drop_left]

theorem read_is_uleb {m : List Nat} {p : Nat} {u T : List Nat} {v : Nat} (hu : is_uleb u v)
    (h : m.drop p = u ++ T) : read_uleb128 m p = .ok (v, p + u.length) :=
  read_uleb128_of_drop h (hu T)

theorem is_uleb_ne_nil {u : List Nat} {v : Nat} (hu : is_uleb u v) : u ≠ [] := by
  intro h
  have h1 := hu []
  obtain ⟨c, k1, k2, _, _⟩ := read_uleb128_local h1
  rw [h] at k1
  simp at k1
  omega

theorem enc_pairs_cons (p : (List Nat × Nat) × (List Nat × Nat))
    (ps : List ((List Nat × Nat) × (List Nat × Nat))) :
    enc_pairs (p :: ps) = p.1.1 ++ (p.2.1 ++ enc_pairs ps) := by
  simp [enc_pairs]

theorem enc_decls_cons (d : AbbrevDecl) (ds : List AbbrevDecl) :
    enc_decls (d :: ds) = d.enc ++ enc_decls ds := by
  simp [enc_decls]

/-- The inner loop of `read_abbrev` on the pairs of a declaration: it
returns, with `NULL` or with the pointer past the terminating zero
attribute. -/
theorem read_abbrev_attrs_total {m : List Nat} {z1 T : List Nat} (hz : is_uleb z1 0) :
    ∀ (ps : List ((List Nat × Nat) × (List Nat × Nat))) (fuel ptr : Nat) (acc : List abbrev_attr),
      (∀ p ∈ ps, is_uleb p.1.1 p.1.2 ∧ p.1.2 ≠ 0 ∧ is_uleb p.2.1 p.2.2) →
      m.drop ptr = enc_pairs ps ++ (z1 ++ T) → ps.length < fuel →
      read_abbrev_attrs m fuel ptr acc = .ok none ∨
        ∃ l, read_abbrev_attrs m fuel ptr acc
          = .ok (some (l, ptr + (enc_pairs ps).length + z1.length)) := by
  intro ps
  induction ps with
  | nil =>
    intro fuel ptr acc _ h hf
    cases fuel with
    | zero => omega
    | succ n =>
      right
      refine ⟨acc, ?_⟩
      have h1 : m.drop ptr = z1 ++ T := by simpa [enc_pairs] using h
      unfold read_abbrev_attrs
      rw [read_is_uleb hz h1]
      simp [enc_pairs]
  | cons p ps ih =>
    intro fuel ptr acc hwf h hf
    cases fuel with
    | zero => omega
    | succ n =>
      obtain ⟨ha, ha0, hfm⟩ := hwf p (List.mem_cons_self _ _)
      rw [enc_pairs_cons, List.append_assoc, List.append_assoc] at h
      have h2 := drop_append_len h
      have h3 := drop_append_len h2
      unfold read_abbrev_attrs
      rw [read_is_uleb ha h]
      simp only [bind_ok_eq]
      rw [if_neg ha0, read_is_uleb hfm h2]
      simp only [bind_ok_eq]
      by_cases hbad : (decide (p.2.2 = 2) || (decide (p.2.2 > DW_FORM_flag_present)
          && p.2.2 != DW_FORM_ref_sig8)) = true
      · left
        rw [if_pos hbad]
        rfl
      · rw [if_neg hbad]
        have := ih n (ptr + p.1.1.length + p.2.1.length) (acc ++ [⟨p.1.2, p.2.2⟩])
          (fun q hq => hwf q (List.mem_cons_of_mem _ hq)) h3 (by simp at hf; omega)
        rcases this with h4 | ⟨l, h4⟩
        · left; exact h4
        · right
          refine ⟨l, ?_⟩
          rw [h4, enc_pairs_cons]
          simp only [List.length_append]
          congr 3
          omega

/-- The outer loop of `read_abbrev` returns `NULL` on declarations one of
which repeats a code (of the table so far or of an earlier declaration) or
is not closed by two zeros. -/
theorem read_abbrev_loop_bad {m rest : List Nat} :
    ∀ (ds : List AbbrevDecl) (fuel ptr : Nat) (h : List abbrev_tag),
      (∀ d ∈ ds, d.wf) → m.drop ptr = enc_decls ds ++ rest → ds.length < fuel →
      ((∃ d ∈ ds, ∃ t ∈ h, t.entry = d.code.2) ∨ ¬ (ds.map (fun d => d.code.2)).Nodup ∨
        ∃ d ∈ ds, d.z2.2 ≠ 0) →
      read_abbrev_loop m fuel ptr h = .ok none := by
  intro ds
  induction ds with
  | nil =>
    intro fuel ptr h _ _ _ hbad
    rcases hbad with ⟨d, hd, _⟩ | hb | ⟨d, hd, _⟩
    · cases hd
    · simp at hb
    · cases hd
  | cons d ds ih =>
    intro fuel ptr h hwf hm hf hbad
    cases fuel with
    | zero => omega
    | succ n =>
      obtain ⟨w1, w2, w3, w4, w5, w6⟩ := hwf d (List.mem_cons_self _ _)
      rw [enc_decls_cons] at hm
      unfold AbbrevDecl.enc at hm
      simp only [List.append_assoc, List.cons_append] at hm
      have h2 := drop_append_len hm
      have h3 := drop_append_len h2
      have h4 : m.drop (ptr + d.code.1.length + d.tag.1.length + 1)
          = enc_pairs d.pairs ++ (d.z1 ++ (d.z2.1 ++ (enc_decls ds ++ rest))) := by
        rw [← List.drop_drop, h3]
        rfl
      have hlen := congrArg List.length h4
      simp only [List.length_drop, List.length_append] at hlen
      have hpl : d.pairs.length ≤ (enc_pairs d.pairs).length := by
        have : ∀ (ps : List ((List Nat × Nat) × (List Nat × Nat))),
            (∀ p ∈ ps, is_uleb p.1.1 p.1.2 ∧ p.1.2 ≠ 0 ∧ is_uleb p.2.1 p.2.2) →
            ps.length ≤ (enc_pairs ps).length := by
          intro ps
          induction ps with
          | nil => intro _; simp
          | cons p ps ihp =>
            intro hp
            rw [enc_pairs_cons]
            have := ihp (fun q hq => hp q (List.mem_cons_of_mem _ hq))
            have hne := is_uleb_ne_nil (hp p (List.mem_cons_self _ _)).1
            have : 0 < p.1.1.length := List.length_pos.mpr hne
            simp only [List.length_append, List.length_cons]
            omega
        exact this d.pairs w4
      unfold read_abbrev_loop
      rw [read_is_uleb w1 hm]
      simp only [bind_ok_eq]
      rw [if_neg w2]
      by_cases hany : (h.any fun t => t.entry == d.code.2) = true
      · rw [if_pos hany]
        rfl
      rw [if_neg hany, read_is_uleb w3 h2]
      simp only [bind_ok_eq]
      have hat := read_abbrev_attrs_total w5 d.pairs (m.length + 1)
        (ptr + d.code.1.length + d.tag.1.length + 1) [] w4 h4 (by omega)
      rcases hat with hat | ⟨l, hat⟩
      · rw [hat]
        rfl
      rw [hat]
      simp only [bind_ok_eq]
      have h5 := drop_append_len h4
      have h6 := drop_append_len h5
      have h7 := drop_append_len h6
      rw [read_is_uleb w6 h6]
      simp only [bind_ok_eq]
      by_cases hz : d.z2.2 ≠ 0
      · rw [if_pos hz]
        rfl
      rw [if_neg hz]
      have hz0 : d.z2.2 = 0 := by omega
      have hnot : ∀ t ∈ h, t.entry ≠ d.code.2 := by
        intro t ht he
        apply hany
        rw [List.any_eq_true]
        exact ⟨t, ht, by simp [he]⟩
      apply ih n _ _ (fun x hx => hwf x (List.mem_cons_of_mem _ hx)) h7 (by simp at hf; omega)
      rcases hbad with ⟨d0, hd0, t, ht, hte⟩ | hb | ⟨d0, hd0, hd0z⟩
      · rcases List.mem_cons.mp hd0 with he | he
        · rw [he] at hte
          exact absurd hte (hnot t ht)
        · exact Or.inl ⟨d0, he, t, List.mem_append_left _ ht, hte⟩
      · rw [List.map_cons, List.nodup_cons] at hb
        by_cases hmem : d.code.2 ∈ ds.map (fun d => d.code.2)
        · obtain ⟨d0, hd0, he⟩ := List.mem_map.mp hmem
          exact Or.inl ⟨d0, hd0, ⟨d.code.2, d.tag.2, l⟩,
            List.mem_append_right _ (List.mem_singleton.mpr rfl), he.symm⟩
        · right; left
          intro hn
          exact hb ⟨hmem, hn⟩
      · rcases List.mem_cons.mp hd0 with he | he
        · rw [he] at hd0z
          exact absurd hz0 hd0z
        · exact Or.inr (Or.inr ⟨d0, he, hd0z⟩)

theorem enc_decls_length_ge : ∀ (ds : List AbbrevDecl), (∀ d ∈ ds, d.wf) →
    ds.length ≤ (enc_decls ds).length := by
  intro ds
  induction ds with
  | nil => intro _; simp
  | cons d ds ih =>
    intro hwf
    rw [enc_decls_cons]
    have := ih (fun x hx => hwf x (List.mem_cons_of_mem _ hx))
    have hne := is_uleb_ne_nil (hwf d (List.mem_cons_self _ _)).1
    have : 0 < d.code.1.length := List.length_pos.mpr hne
    unfold AbbrevDecl.enc
    simp only [List.length_append, List.length_cons]
    omega

theorem decl_one_wf : decl_one.wf := by
  refine ⟨fun T => rfl, by decide, fun T => rfl, ?_, fun T => rfl, fun T => rfl⟩
  intro p hp
  cases hp

theorem decl_bad_end_wf : decl_bad_end.wf := by
  refine ⟨fun T => rfl, by decide, fun T => rfl, ?_, fun T => rfl, fun T => rfl⟩
  intro p hp
  simp only [decl_bad_end, List.mem_singleton] at hp
  rw [hp]
  exact ⟨fun T => rfl, by decide, fun T => rfl⟩

/-! ## The rewrite of one symbol name -/

/-- A string outside a rewritten range reads as before. -/
theorem cstr_frame {t t2 : List Nat} {p e q : Nat} {S2 : List Nat}
    (hl : t2.length = t.length) (htake : t2.take p = t.take p) (hdrop : t2.drop e = t.drop e)
    (hS : cstr t q = .ok S2) (hq : q + S2.length < p ∨ e ≤ q) :
    cstr t2 q = .ok S2 := by
  obtain ⟨hS0, r, hr⟩ := cstr_eq_ok.mp hS
  rcases hq with hq | hq
  · have hlen := congrArg List.length hr
    simp only [List.length_drop, List.length_append, List.length_cons] at hlen
    have hpl : p ≤ t.length ∨ t.length < p := by omega
    have h1 : (t.take p).drop q = S2 ++ 0 :: r.take (p - (q + S2.length + 1)) := by
      rw [List.drop_take, hr, List.take_append_eq_append_take, List.take_of_length_le (by omega)]
      congr 1
      have : p - q - S2.length = (p - (q + S2.length + 1)) + 1 := by omega
      rw [this, List.take_succ_cons]
    have h2 : t2.drop q = (t2.take p).drop q ++ t2.drop p := by
      conv => lhs; rw [← List.take_append_drop p t2]
      rw [List.drop_append_of_le_length]
      rw [List.length_take]
      omega
    apply cstr_of_drop (r := r.take (p - (q + S2.length + 1)) ++ t2.drop p) _ hS0
    rw [h2, htake, h1]
    simp
  · apply cstr_of_drop (r := r) _ hS0
    have : t2.drop q = (t2.drop e).drop (q - e) := by
      rw [List.drop_drop]
      congr 1
      omega
    rw [this, hdrop, List.drop_drop]
    have : e + (q - e) = q := by omega
    rw [this, hr]

/-- The body of the loop of `edit_symtab` for a symbol that it rewrites. -/
theorem edit_sym_hit {cfg : Config} {st : St} {sym : Sym} {t S base dest : List Nat}
    (hb : cfg.base_dir = some base) (hd : cfg.dest_dir = some dest)
    (hlen : dest.length ≤ base.length) (hdest : ∀ c ∈ dest, c ≠ 0)
    (hstr : st.strtab = some t) (hS : cstr t sym.st_name = .ok S)
    (htype : sym.st_info % 16 = STT_FILE) (hpre : has_prefix S base = true) :
    ∃ t2, edit_sym cfg st sym = .ok { st with strtab := some t2, dirty_strtab := true } ∧
      t2.length = t.length ∧ t2.take sym.st_name = t.take sym.st_name ∧
      t2.drop (sym.st_name + S.length + 1) = t.drop (sym.st_name + S.length + 1) ∧
      cstr t2 sym.st_name = .ok (make_win_path (dest ++ S.drop base.length)) ∧
      (make_win_path (dest ++ S.drop base.length)).length ≤ S.length := by
  obtain ⟨hS0, r, hr⟩ := cstr_eq_ok.mp hS
  obtain ⟨hbl, _⟩ := has_prefix_iff.mp hpre
  obtain ⟨h1, h2⟩ := @rewrite_strp_ok cfg t S base dest sym.st_name hb hlen hS hpre
  have hX0 : ∀ c ∈ dest ++ S.drop base.length, c ≠ 0 := by
    intro c hc
    rcases List.mem_append.mp hc with hc | hc
    · exact hdest c hc
    · exact hS0 c (List.mem_of_mem_drop hc)
  have hXl : (dest ++ S.drop base.length).length ≤ S.length := by
    simp only [List.length_append, List.length_drop]
    omega
  have hw1 : wr t sym.st_name (dest ++ S.drop base.length ++ [0])
      = .ok (t.take sym.st_name ++ (dest ++ S.drop base.length ++ [0])
        ++ t.drop (sym.st_name + (dest ++ S.drop base.length ++ [0]).length)) :=
    wr_eq_ok.mpr ⟨h2, rfl⟩
  generalize hX : dest ++ S.drop base.length = X at h1 h2 hX0 hXl hw1 ⊢
  generalize ht1 : t.take sym.st_name ++ (X ++ [0]) ++ t.drop (sym.st_name + (X ++ [0]).length)
    = t1 at hw1
  have hl1 := wr_length hw1
  have hc1 : cstr t1 sym.st_name = .ok X := cstr_after_wr hw1 hX0
  have hfit : sym.st_name + (make_win_path X).length ≤ t1.length := by
    rw [make_win_path_length, hl1]
    simp only [List.length_append, List.length_singleton] at h2
    omega
  have hw2 : wr t1 sym.st_name (make_win_path X)
      = .ok (t1.take sym.st_name ++ make_win_path X
        ++ t1.drop (sym.st_name + (make_win_path X).length)) :=
    wr_eq_ok.mpr ⟨hfit, rfl⟩
  generalize ht2 : t1.take sym.st_name ++ make_win_path X
    ++ t1.drop (sym.st_name + (make_win_path X).length) = t2 at hw2
  have hl2 := wr_length hw2
  have hlenS := congrArg List.length hr
  simp only [List.length_drop, List.length_append, List.length_cons] at hlenS
  refine ⟨t2, ?_, by omega, ?_, ?_, ?_, by rw [make_win_path_length]; exact hXl⟩
  · unfold edit_sym
    rw [hstr]
    simp only
    rw [hS]
    simp only [bind_ok_eq]
    rw [if_pos htype, hd]
    simp only
    rw [hb]
    simp only [has_prefix_opt, bind_ok_eq, hpre, if_true]
    rw [h1, hw1]
    simp only [bind_ok_eq]
    unfold make_win_path_at
    rw [hc1]
    simp only [bind_ok_eq]
    rw [hw2]
    rfl
  · rw [wr_take_le hw2 (Nat.le_refl _), wr_take_le hw1 (Nat.le_refl _)]
  · rw [wr_drop hw2 (by rw [make_win_path_length]; omega),
      wr_drop hw1 (by simp only [List.length_append, List.length_singleton]; omega)]
  · have hd1 := wr_drop_at hw1
    have hd2 := wr_drop_at hw2
    rw [make_win_path_length] at hd2
    have hd3 : t1.drop (sym.st_name + X.length) = 0 :: t.drop (sym.st_name + (X ++ [0]).length) := by
      rw [← List.drop_drop, hd1, List.append_assoc, List.drop_left]
      rfl
    rw [hd3] at hd2
    exact cstr_of_drop hd2 (make_win_path_no_nul hX0)

/-- The body of the loop of `edit_symtab` for a symbol that it does not
rewrite. -/
theorem edit_sym_miss {cfg : Config} {st : St} {sym : Sym} {t S base dest : List Nat}
    (hb : cfg.base_dir = some base) (hd : cfg.dest_dir = some dest)
    (hstr : st.strtab = some t) (hS : cstr t sym.st_name = .ok S)
    (hmiss : ¬ (sym.st_info % 16 = STT_FILE ∧ has_prefix S base = true)) :
    edit_sym cfg st sym = .ok st := by
  unfold edit_sym
  rw [hstr]
  simp only
  rw [hS]
  simp only [bind_ok_eq]
  by_cases htype : sym.st_info % 16 = STT_FILE
  · rw [if_pos htype, hd]
    simp only
    rw [hb]
    have hp : has_prefix S base = false := by
      cases h : has_prefix S base with
      | true => exact absurd ⟨htype, h⟩ hmiss
      | false => rfl
    simp only [has_prefix_opt, bind_ok_eq, hp]
    rfl
  · rw [if_neg htype]
    rfl

/-! ## The loop of `edit_symtab` -/

theorem edit_symtab_spec {cfg : Config} {base dest : List Nat}
    (hb : cfg.base_dir = some base) (hd : cfg.dest_dir = some dest)
    (hlen : dest.length ≤ base.length) (hdest : ∀ c ∈ dest, c ≠ 0) :
    ∀ (syms : List Sym) (t : List Nat) (st : St), st.strtab = some t →
      (∀ x ∈ syms, ∃ S, cstr t x.st_name = .ok S) →
      syms.Pairwise (fun x y => sym_hit base t x ∨ sym_hit base t y → sym_apart t x y) →
      ∃ t2 d, edit_symtab cfg st syms = .ok { st with strtab := some t2, dirty_strtab := d } ∧
        t2.length = t.length ∧
        (∀ x ∈ syms, ∀ S, cstr t x.st_name = .ok S →
          cstr t2 x.st_name = .ok (new_sym_name base dest S x)) ∧
        (∀ q S2, cstr t q = .ok S2 →
          (∀ x ∈ syms, sym_hit base t x → ∀ Sx, cstr t x.st_name = .ok Sx →
            x.st_name + Sx.length < q ∨ q + S2.length < x.st_name) →
          cstr t2 q = .ok S2) := by
  intro syms
  induction syms with
  | nil =>
    intro t st hstr _ _
    refine ⟨t, st.dirty_strtab, ?_, rfl, ?_, ?_⟩
    · unfold edit_symtab
      rw [← hstr]
      rfl
    · intro x hx
      cases hx
    · intro q S2 hq _
      exact hq
  | cons x rest ih =>
    intro t st hstr hnames hpair
    obtain ⟨S, hS⟩ := hnames x (List.mem_cons_self _ _)
    have hp := List.pairwise_cons.mp hpair
    by_cases hhit : x.st_info % 16 = STT_FILE ∧ has_prefix S base = true
    · have hxhit : sym_hit base t x := ⟨hhit.1, S, hS, hhit.2⟩
      obtain ⟨t1, e1, l1, tk1, dr1, c1, wl⟩ :=
        @edit_sym_hit cfg st x t S base dest hb hd hlen hdest hstr hS hhit.1 hhit.2
      have hsame : ∀ y ∈ rest, ∀ Sy, cstr t y.st_name = .ok Sy → cstr t1 y.st_name = .ok Sy := by
        intro y hy Sy hSy
        have hap := hp.1 y hy (Or.inl hxhit) S Sy hS hSy
        exact cstr_frame l1 tk1 dr1 hSy (by omega)
      have hback : ∀ y ∈ rest, ∀ Sy, cstr t1 y.st_name = .ok Sy → cstr t y.st_name = .ok Sy := by
        intro y hy Sy hSy
        obtain ⟨Sy2, h2⟩ := hnames y (List.mem_cons_of_mem _ hy)
        have := cstr_inj (hsame y hy Sy2 h2) hSy
        rw [← this]
        exact h2
      have hhitback : ∀ y ∈ rest, sym_hit base t1 y → sym_hit base t y := by
        rintro y hy ⟨a1, Sy, a2, a3⟩
        exact ⟨a1, Sy, hback y hy Sy a2, a3⟩
      have hpair1 : rest.Pairwise
          (fun y z => sym_hit base t1 y ∨ sym_hit base t1 z → sym_apart t1 y z) := by
        apply List.Pairwise.imp_of_mem _ hp.2
        intro y z hy hz hR hor Sy Sz hSy hSz
        have hor2 : sym_hit base t y ∨ sym_hit base t z := by
          rcases hor with h | h
          · exact Or.inl (hhitback y hy h)
          · exact Or.inr (hhitback z hz h)
        exact hR hor2 Sy Sz (hback y hy Sy hSy) (hback z hz Sz hSz)
      obtain ⟨t2, d, e2, l2, n2, f2⟩ := ih t1 { st with strtab := some t1, dirty_strtab := true }
        rfl (by
          intro y hy
          obtain ⟨Sy, h2⟩ := hnames y (List.mem_cons_of_mem _ hy)
          exact ⟨Sy, hsame y hy Sy h2⟩) hpair1
      refine ⟨t2, d, ?_, by omega, ?_, ?_⟩
      · unfold edit_symtab
        rw [e1]
        simp only [bind_ok_eq]
        rw [e2]
      · intro y hy Sy hSy
        rcases List.mem_cons.mp hy with hy | hy
        · subst hy
          have hSS := cstr_inj hS hSy
          subst hSS
          have hn : new_sym_name base dest S y = make_win_path (dest ++ S.drop base.length) := by
            unfold new_sym_name
            rw [if_pos hhit]
          rw [hn]
          apply f2 _ _ c1
          intro z hz hzhit Sz hSz
          have hap := hp.1 z hz (Or.inl hxhit) S Sz hS (hback z hz Sz hSz)
          omega
        · exact n2 y hy Sy (hsame y hy Sy hSy)
      · intro q S2 hq hfar
        have hq1 : cstr t1 q = .ok S2 := by
          have := hfar x (List.mem_cons_self _ _) hxhit S hS
          exact cstr_frame l1 tk1 dr1 hq (by omega)
        apply f2 q S2 hq1
        intro z hz hzhit Sz hSz
        exact hfar z (List.mem_cons_of_mem _ hz) (hhitback z hz hzhit) Sz (hback z hz Sz hSz)
    · have e1 := @edit_sym_miss cfg st x t S base dest hb hd hstr hS hhit
      obtain ⟨t2, d, e2, l2, n2, f2⟩ := ih t st hstr
        (fun y hy => hnames y (List.mem_cons_of_mem _ hy)) hp.2
      refine ⟨t2, d, ?_, l2, ?_, ?_⟩
      · unfold edit_symtab
        rw [e1]
        simp only [bind_ok_eq]
        exact e2
      · intro y hy Sy hSy
        rcases List.mem_cons.mp hy with hy | hy
        · subst hy
          have hSS := cstr_inj hS hSy
          subst hSS
          have hn : new_sym_name base dest S y = S := by
            unfold new_sym_name
            rw [if_neg hhit]
          rw [hn]
          apply f2 _ _ hS
          intro z hz hzhit Sz hSz
          have hap := hp.1 z hz (Or.inr hzhit) S Sz hS hSz
          omega
        · exact n2 y hy Sy hSy
      · intro q S2 hq hfar
        apply f2 q S2 hq
        intro z hz hzhit Sz hSz
        exact hfar z (List.mem_cons_of_mem _ hz) hzhit Sz hSz

/-! ## The value that `read_uleb128` returns -/

theorem and_7f (c : Nat) : c &&& 0x7f = c % 128 :=
  Nat.and_pow_two_sub_one_eq_mod c 7

theorem or_shift_eq_add {ret x s : Nat} (h : ret < 2 ^ s) :
    ret ||| (x <<< s) = ret + 2 ^ s * x := by
  rw [Nat.shiftLeft_eq, Nat.or_comm, Nat.mul_comm x, ← Nat.mul_add_lt_is_or h]
  omega

/-- An encoding that ends below 28 bits is summed up. -/
theorem uleb_loop_small : ∀ (l : List Nat) (n s ret cnt : Nat), leb_len l = some n →
    s + 7 * n ≤ 28 → ret < 2 ^ s →
    uleb_loop l ret s cnt = .ok (ret + 2 ^ s * leb_sum (l.take n), cnt + n) := by
  intro l
  induction l with
  | nil => intro n s ret cnt h; simp [leb_len] at h
  | cons c t ih =>
    intro n s ret cnt h hs hret
    have hc : c % 128 < 128 := Nat.mod_lt _ (by norm_num)
    have hpow : 2 ^ (s + 7) = 2 ^ s * 128 := by rw [Nat.pow_add]
    have hlt : ret + 2 ^ s * (c % 128) < 2 ^ (s + 7) := by
      rw [hpow]
      nlinarith
    have hn1 : 1 ≤ n := by
      unfold leb_len at h
      by_cases hb : c &&& 0x80 ≠ 0
      · rw [if_pos hb] at h
        cases ht : leb_len t with
        | none => rw [ht] at h; simp at h
        | some k => rw [ht] at h; simp at h; omega
      · rw [if_neg hb] at h
        simp at h
        omega
    have h32 : (2 : Nat) ^ (s + 7) ≤ 2 ^ 32 := Nat.pow_le_pow_right (by norm_num) (by omega)
    have hmod : (ret ||| ((c &&& 0x7f) <<< s)) % 2 ^ 32 = ret + 2 ^ s * (c % 128) := by
      rw [or_shift_eq_add hret, and_7f]
      exact Nat.mod_eq_of_lt (by omega)
    unfold uleb_loop
    simp only [hmod]
    unfold leb_len at h
    by_cases hb : c &&& 0x80 ≠ 0
    · rw [if_pos hb] at h ⊢
      cases ht : leb_len t with
      | none => rw [ht] at h; simp at h
      | some k =>
        rw [ht] at h
        simp only [Option.map_some', Option.some.injEq] at h
        subst h
        rw [ih k (s + 7) _ (cnt + 1) ht (by omega) hlt]
        simp only [List.take_succ_cons, leb_sum, and_7f]
        rw [hpow]
        congr 2
        · ring
        · omega
    · rw [if_neg hb] at h ⊢
      simp only [Option.some.injEq] at h
      subst h
      rw [if_neg (by omega)]
      simp [leb_sum, and_7f]

/-- An encoding that reaches 35 bits gives `UINT_MAX`. -/
theorem uleb_loop_big : ∀ (l : List Nat) (n s ret cnt : Nat), leb_len l = some n →
    35 ≤ s + 7 * n → uleb_loop l ret s cnt = .ok (UINT_MAX, cnt + n) := by
  intro l
  induction l with
  | nil => intro n s ret cnt h; simp [leb_len] at h
  | cons c t ih =>
    intro n s ret cnt h hs
    unfold uleb_loop
    simp only
    unfold leb_len at h
    by_cases hb : c &&& 0x80 ≠ 0
    · rw [if_pos hb] at h ⊢
      cases ht : leb_len t with
      | none => rw [ht] at h; simp at h
      | some k =>
        rw [ht] at h
        simp only [Option.map_some', Option.some.injEq] at h
        subst h
        rw [ih k (s + 7) _ (cnt + 1) ht (by omega)]
        congr 2
        omega
    · rw [if_neg hb] at h ⊢
      simp only [Option.some.injEq] at h
      subst h
      rw [if_pos (by omega)]

theorem leb_len_split : ∀ (u : List Nat) (c : Nat) (T : List Nat),
    (∀ b ∈ u, b &&& 0x80 ≠ 0) → c &&& 0x80 = 0 → leb_len (u ++ c :: T) = some (u.length + 1) := by
  intro u
  induction u with
  | nil =>
    intro c T _ hc
    simp [leb_len, hc]
  | cons b r ih =>
    intro c T hu hc
    have hb := hu b (List.mem_cons_self _ _)
    rw [List.cons_append, leb_len, if_pos hb, ih c T (fun x hx => hu x (List.mem_cons_of_mem _ hx)) hc]
    rfl

/-- The value and the pointer that `read_uleb128` gives at an encoding of
`n` bytes. -/
theorem read_uleb128_value {m : List Nat} {p n : Nat} (h : leb_len (m.drop p) = some n) :
    read_uleb128 m p
      = .ok (if n ≤ 4 then leb_sum ((m.drop p).take n) else UINT_MAX, p + n) := by
  apply read_uleb128_eq_ok.mpr
  refine ⟨n, ?_, rfl⟩
  by_cases hn : n ≤ 4
  · rw [if_pos hn, uleb_loop_small _ n 0 0 0 h (by omega) (by norm_num)]
    simp
  · rw [if_neg hn, uleb_loop_big _ n 0 0 0 h (by omega)]
    simp

/-! ## The shortest encoding -/

theorem low_byte_bits : ∀ x < 128, x &&& 0x80 = 0 ∧ x &&& 0x7f = x := by decide

theorem high_byte_bits : ∀ x < 128, (x + 128) &&& 0x80 = 128 ∧ (x + 128) &&& 0x7f = x := by
  decide

theorem leb_enc_spec : ∀ (fuel v : Nat), v ≤ fuel → ∀ T : List Nat,
    leb_len (leb_enc fuel v ++ T) = some (leb_enc fuel v).length ∧
      leb_sum (leb_enc fuel v) = v ∧
      (∀ k, v < 128 ^ (k + 1) → (leb_enc fuel v).length ≤ k + 1) ∧
      (∀ k, 128 ^ k ≤ v → k + 1 ≤ (leb_enc fuel v).length) := by
  intro fuel
  induction fuel with
  | zero =>
    intro v hv T
    have h0 : v = 0 := by omega
    subst h0
    refine ⟨by simp [leb_enc, leb_len], by simp [leb_enc, leb_sum], ?_, ?_⟩
    · intro k _
      simp [leb_enc]
    · intro k hk
      have : 0 < 128 ^ k := Nat.pow_pos (by norm_num)
      omega
  | succ f ih =>
    intro v hv T
    by_cases h : v < 128
    · have e : leb_enc (f + 1) v = [v] := by simp [leb_enc, h]
      obtain ⟨b1, b2⟩ := low_byte_bits v h
      rw [e]
      refine ⟨by simp [leb_len, b1], by simp [leb_sum, b2], ?_, ?_⟩
      · intro k _
        simp
      · intro k hk
        cases k with
        | zero => simp
        | succ j =>
          have : 128 ^ 1 ≤ 128 ^ (j + 1) := Nat.pow_le_pow_right (by norm_num) (by omega)
          omega
    · have e : leb_enc (f + 1) v = (v % 128 + 128) :: leb_enc f (v / 128) := by
        simp [leb_enc, h]
      have hm : v % 128 < 128 := Nat.mod_lt _ (by norm_num)
      obtain ⟨b1, b2⟩ := high_byte_bits (v % 128) hm
      obtain ⟨i1, i2, i3, i4⟩ := ih (v / 128) (by omega) T
      rw [e]
      refine ⟨?_, ?_, ?_, ?_⟩
      · rw [List.cons_append, leb_len, if_pos (by rw [b1]; norm_num), i1]
        rfl
      · rw [leb_sum, b2, i2]
        omega
      · intro k hk
        cases k with
        | zero => omega
        | succ j =>
          have := i3 j (by
            rw [Nat.pow_succ] at hk
            exact Nat.div_lt_of_lt_mul (by rw [Nat.mul_comm]; exact hk))
          simp only [List.length_cons]
          omega
      · intro k hk
        cases k with
        | zero => simp
        | succ j =>
          have := i4 j (by
            rw [Nat.pow_succ] at hk
            exact (Nat.le_div_iff_mul_le (by norm_num)).mpr hk)
          simp only [List.length_cons]
          omega

/-- A value below `2^28` in its shortest encoding is read exactly. -/
theorem read_uleb_enc_small (v : Nat) (T : List Nat) (hv : v < 2 ^ 28) :
    read_uleb128 (uleb_enc v ++ T) 0 = .ok (v, (uleb_enc v).length) := by
  obtain ⟨h1, h2, h3, _⟩ := leb_enc_spec v v (Nat.le_refl _) T
  have hl : (leb_enc v v).length ≤ 4 := h3 3 (by norm_num at hv ⊢; omega)
  unfold uleb_enc
  rw [read_uleb128_value (by simpa using h1), if_pos hl]
  simp [h2]

/-- A value from `2^28` on has a shortest encoding of at least five bytes,
which is read as `UINT_MAX`. -/
theorem read_uleb_enc_big (v : Nat) (T : List Nat) (hv : 2 ^ 28 ≤ v) :
    5 ≤ (uleb_enc v).length ∧
      read_uleb128 (uleb_enc v ++ T) 0 = .ok (UINT_MAX, (uleb_enc v).length) := by
  obtain ⟨h1, _, _, h4⟩ := leb_enc_spec v v (Nat.le_refl _) T
  have hl : 5 ≤ (leb_enc v v).length := h4 4 (by norm_num at hv ⊢; omega)
  unfold uleb_enc
  refine ⟨hl, ?_⟩
  rw [read_uleb128_value (by simpa using h1), if_neg (by omega)]
  simp

/-! ## The callers of `read_uleb128` at the value `UINT_MAX` -/

/-- The inner loop of `read_abbrev` returns `NULL` at a form read as
`UINT_MAX`. -/
theorem read_abbrev_attrs_sat {m : List Nat} {fuel ptr attr p1 p2 : Nat} {acc : List abbrev_attr}
    (h1 : read_uleb128 m ptr = .ok (attr, p1)) (ha : attr ≠ 0)
    (h2 : read_uleb128 m p1 = .ok (UINT_MAX, p2)) :
    read_abbrev_attrs m (fuel + 1) ptr acc = .ok none := by
  unfold read_abbrev_attrs
  rw [h1]
  simp only [bind_ok_eq, if_neg ha]
  rw [h2]
  simp only [bind_ok_eq]
  rfl

/-- The inner loop of `read_abbrev` stores an attribute read as any value
but 0, with a form that passes the check. -/
theorem read_abbrev_attrs_step {m : List Nat} {fuel ptr attr form p1 p2 : Nat}
    {acc : List abbrev_attr}
    (h1 : read_uleb128 m ptr = .ok (attr, p1)) (ha : attr ≠ 0)
    (h2 : read_uleb128 m p1 = .ok (form, p2))
    (hf : (decide (form = 2) || (decide (form > DW_FORM_flag_present)
      && (form != DW_FORM_ref_sig8))) = false) :
    read_abbrev_attrs m (fuel + 1) ptr acc
      = read_abbrev_attrs m fuel p2 (acc ++ [⟨attr, form⟩]) := by
  conv => lhs; unfold read_abbrev_attrs
  rw [h1]
  simp only [bind_ok_eq, if_neg ha]
  rw [h2]
  simp only [bind_ok_eq, hf]
  rfl

/-- The outer loop of `read_abbrev` returns `NULL` when the inner loop
does. -/
theorem read_abbrev_loop_none {m : List Nat} {fuel ptr code tag p1 p2 : Nat}
    {h : List abbrev_tag}
    (h1 : read_uleb128 m ptr = .ok (code, p1)) (hc : code ≠ 0)
    (hnew : h.any (fun t => t.entry == code) = false)
    (h2 : read_uleb128 m p1 = .ok (tag, p2))
    (h3 : read_abbrev_attrs m (m.length + 1) (p2 + 1) [] = .ok none) :
    read_abbrev_loop m (fuel + 1) ptr h = .ok none := by
  unfold read_abbrev_loop
  rw [h1]
  simp only [bind_ok_eq, if_neg hc, hnew]
  rw [h2]
  simp only [bind_ok_eq]
  rw [h3]
  rfl

/-- The outer loop of `read_abbrev` stores a declaration with the code and
the tag as they are read. -/
theorem read_abbrev_loop_step {m : List Nat} {fuel ptr code tag p1 p2 p3 p4 : Nat}
    {h : List abbrev_tag} {attrs : List abbrev_attr}
    (h1 : read_uleb128 m ptr = .ok (code, p1)) (hc : code ≠ 0)
    (hnew : h.any (fun t => t.entry == code) = false)
    (h2 : read_uleb128 m p1 = .ok (tag, p2))
    (h3 : read_abbrev_attrs m (m.length + 1) (p2 + 1) [] = .ok (some (attrs, p3)))
    (h4 : read_uleb128 m p3 = .ok (0, p4)) :
    read_abbrev_loop m (fuel + 1) ptr h
      = read_abbrev_loop m fuel p4 (h ++ [⟨code, tag, attrs⟩]) := by
  conv => lhs; unfold read_abbrev_loop
  rw [h1]
  simp only [bind_ok_eq, if_neg hc, hnew]
  rw [h2]
  simp only [bind_ok_eq]
  rw [h3]
  simp only [bind_ok_eq]
  rw [h4]
  simp

/-- The file walk answers a directory index read as `UINT_MAX` with
`return 1`. -/
theorem file_scan_sat {cfg : Config} {comp_dir m : List Nat} {dirt : List (Option Nat)}
    {fuel ptr cnt c p : Nat} {sink file : List Nat}
    (hd : dirt.length ≤ UINT_MAX)
    (h1 : rd m ptr = .ok c) (hc : c ≠ 0) (h2 : cstr m ptr = .ok file)
    (h3 : read_uleb128 m (ptr + file.length + 1) = .ok (UINT_MAX, p)) :
    file_scan cfg comp_dir m dirt (fuel + 1) ptr cnt sink = .ok ⟨1, p, cnt, sink⟩ := by
  unfold file_scan
  rw [h1]
  simp only [bind_ok_eq, if_neg hc]
  rw [h2]
  simp only [bind_ok_eq]
  rw [h3]
  simp only [bind_ok_eq]
  rw [if_pos (by exact hd)]
  rfl

/-- The DIE loop at a code that is not in the table: `return 1`. -/
theorem die_loop_not_found {env : Env} {abbr : List abbrev_tag} {phase endcu fuel ptr code p : Nat}
    {st : St} (hp : ptr < endcu)
    (h1 : read_uleb128 (info_of st) ptr = .ok (code, p)) (hc : code ≠ 0)
    (h2 : htab_find abbr code = none) :
    die_loop env abbr phase endcu (fuel + 1) ptr st = .ok (1, some p, st) := by
  unfold die_loop
  rw [if_pos hp, h1]
  simp only [bind_ok_eq, if_neg hc]
  rw [h2]
  rfl

/-- The DIE loop at a code that is in the table: the DIE is walked. -/
theorem die_loop_found {env : Env} {abbr : List abbrev_tag} {phase endcu fuel ptr code p : Nat}
    {st : St} {t : abbrev_tag} (hp : ptr < endcu)
    (h1 : read_uleb128 (info_of st) ptr = .ok (code, p)) (hc : code ≠ 0)
    (h2 : htab_find abbr code = some t) :
    die_loop env abbr phase endcu (fuel + 1) ptr st
      = (edit_attributes env st p t phase >>= fun r =>
          match r.1 with
          | none => pure (0, none, r.2)
          | some q => die_loop env abbr phase endcu fuel q r.2) := by
  conv => lhs; unfold die_loop
  rw [if_pos hp, h1]
  simp only [bind_ok_eq, if_neg hc]
  rw [h2] <;> rfl

/-- The `switch` at a block length that is not below `UINT_MAX`: the
assertion fails. -/
theorem form_step_block_abort {msb : Bool} {ps cv : Nat} {m : List Nat} {form ptr len p : Nat}
    (hf : form = DW_FORM_block ∨ form = DW_FORM_exprloc)
    (h : read_uleb128 m ptr = .ok (len, p)) (hge : ¬ len < UINT_MAX) :
    form_step msb ps cv m form ptr = .error .abort := by
  rcases hf with rfl | rfl <;>
  · unfold form_step
    simp only [DW_FORM_string, DW_FORM_ref_addr, DW_FORM_flag_present, DW_FORM_addr,
      DW_FORM_ref1, DW_FORM_flag, DW_FORM_data1, DW_FORM_ref2, DW_FORM_data2, DW_FORM_ref4,
      DW_FORM_data4, DW_FORM_sec_offset, DW_FORM_ref8, DW_FORM_data8, DW_FORM_ref_sig8,
      DW_FORM_sdata, DW_FORM_ref_udata, DW_FORM_udata, DW_FORM_strp, DW_FORM_indirect,
      DW_FORM_block1, DW_FORM_block2, DW_FORM_block4, DW_FORM_block, DW_FORM_exprloc]
    simp [h, hge]

/-- The `switch` at the form `UINT_MAX`: the branch `Unknown DWARF DW_FORM`. -/
theorem form_step_sat (msb : Bool) (ps cv : Nat) (m : List Nat) (ptr : Nat) :
    form_step msb ps cv m UINT_MAX ptr = .ok .unknown := rfl

/-- The `switch` at the form `indirect`: the form that is read. -/
theorem form_step_indirect {msb : Bool} {ps cv : Nat} {m : List Nat} {ptr f p : Nat}
    (h : read_uleb128 m ptr = .ok (f, p)) :
    form_step msb ps cv m DW_FORM_indirect ptr = .ok (.again f p) := by
  unfold form_step
  simp only [DW_FORM_block, DW_FORM_ref_addr, DW_FORM_flag_present, DW_FORM_addr, DW_FORM_ref1,
    DW_FORM_flag, DW_FORM_data1, DW_FORM_ref2, DW_FORM_data2, DW_FORM_ref4, DW_FORM_data4,
    DW_FORM_sec_offset, DW_FORM_ref8, DW_FORM_data8, DW_FORM_ref_sig8, DW_FORM_sdata,
    DW_FORM_ref_udata, DW_FORM_udata, DW_FORM_strp, DW_FORM_string, DW_FORM_indirect,
    DW_FORM_block1, DW_FORM_block2, DW_FORM_block4, DW_FORM_exprloc]
  simp [h]

/-! ## The relocation index -/

theorem rel_collect_spec {dso : Dso} {sh_type : Nat} {syms : List Sym} :
    ∀ (entries : List RelEntry) (acc : List REL),
      (∀ r ∈ entries, r.r_sym < syms.length) →
      (sh_type = SHT_REL → ∀ r ∈ entries, r.r_addend = 0) →
      (∀ r ∈ entries, rel_kept dso sh_type syms r = true →
        rtype_ok dso.e_machine r.r_type = true) →
      rel_collect dso sh_type syms entries acc
        = .ok (acc ++ (entries.filter (rel_kept dso sh_type syms)).map
            (rel_record dso sh_type syms)) := by
  intro entries
  induction entries with
  | nil =>
    intro acc _ _ _
    simp [rel_collect]
  | cons r rest ih =>
    intro acc hsym hrep htype
    have hr := hsym r (List.mem_cons_self _ _)
    have ih2 := fun acc2 => ih acc2 (fun x hx => hsym x (List.mem_cons_of_mem _ hx))
      (fun h x hx => hrep h x (List.mem_cons_of_mem _ hx))
      (fun x hx => htype x (List.mem_cons_of_mem _ hx))
    obtain ⟨sym, hs⟩ : ∃ sym, syms[r.r_sym]? = some sym :=
      ⟨syms[r.r_sym], List.getElem?_eq_getElem hr⟩
    unfold rel_collect
    rw [hs]
    simp only
    by_cases h1 : (decide (sh_type = SHT_REL) && decide (sym.st_value = 0)) = true
    · rw [if_pos h1, ih2 acc]
      have hk : rel_kept dso sh_type syms r = false := by
        simp only [Bool.and_eq_true, decide_eq_true_eq] at h1
        simp [rel_kept, hs, h1.1, h1.2]
      rw [List.filter_cons_of_neg (by simp [hk])]
    · rw [if_neg h1]
      have h1b : ¬ (sh_type = SHT_REL ∧ sym.st_value = 0) := by
        simpa using h1
      by_cases h2 : sym.st_shndx ≠ dso.str_sec ∧ sym.st_shndx ≠ dso.line_sec
          ∧ sym.st_shndx ≠ dso.abbrev_sec
      · rw [if_pos h2, ih2 acc]
        have hk : rel_kept dso sh_type syms r = false := by
          simp [rel_kept, hs, h2.1, h2.2.1, h2.2.2]
        rw [List.filter_cons_of_neg (by simp [hk])]
      · rw [if_neg h2]
        have hk : rel_kept dso sh_type syms r = true := by
          simp only [rel_kept, hs, decide_eq_true_eq]
          refine ⟨?_, h1b⟩
          by_contra hn
          push_neg at hn
          exact h2 hn
        have ht := htype r (List.mem_cons_self _ _) hk
        rw [if_neg (by simp [ht])]
        rw [ih2, List.filter_cons_of_pos hk, List.map_cons, List.append_assoc]
        have hrec : rel_record dso sh_type syms r
            = ⟨(r.r_offset : Int) - dso.info_addr,
                ((r.r_addend + sym.st_value) % 2 ^ 32).toNat⟩ := by
          unfold rel_record
          rw [hs]
          by_cases ht2 : sh_type = SHT_REL
          · rw [if_pos ht2, hrep ht2 r (List.mem_cons_self _ _)]
            rfl
          · rw [if_neg ht2]
            rfl
        rw [hrec]
        rfl

theorem rel_insert_perm (r : REL) : ∀ l : List REL, (rel_insert r l).Perm (r :: l) := by
  intro l
  induction l with
  | nil => exact List.Perm.refl _
  | cons x xs ih =>
    unfold rel_insert
    by_cases h : r.ptr < x.ptr
    · rw [if_pos h]
    · rw [if_neg h]
      exact (List.Perm.cons x ih).trans (List.Perm.swap r x xs)

theorem rel_sort_perm : ∀ l : List REL, (rel_sort l).Perm l := by
  intro l
  induction l with
  | nil => exact List.Perm.refl _
  | cons r rs ih =>
    unfold rel_sort
    exact (rel_insert_perm r _).trans (List.Perm.cons r ih)

theorem rel_insert_sorted (r : REL) : ∀ l : List REL,
    l.Pairwise (fun a b => a.ptr ≤ b.ptr) →
    (rel_insert r l).Pairwise (fun a b => a.ptr ≤ b.ptr) := by
  intro l
  induction l with
  | nil =>
    intro _
    simp [rel_insert]
  | cons x xs ih =>
    intro h
    obtain ⟨h1, h2⟩ := List.pairwise_cons.mp h
    unfold rel_insert
    by_cases hlt : r.ptr < x.ptr
    · rw [if_pos hlt]
      refine List.pairwise_cons.mpr ⟨?_, h⟩
      intro y hy
      rcases List.mem_cons.mp hy with rfl | hy
      · omega
      · have := h1 y hy
        omega
    · rw [if_neg hlt]
      refine List.pairwise_cons.mpr ⟨?_, ih h2⟩
      intro y hy
      rcases List.mem_cons.mp ((rel_insert_perm r xs).subset hy) with rfl | hy
      · omega
      · exact h1 y hy

theorem rel_sort_sorted : ∀ l : List REL, (rel_sort l).Pairwise (fun a b => a.ptr ≤ b.ptr) := by
  intro l
  induction l with
  | nil => simp [rel_sort]
  | cons r rs ih =>
    unfold rel_sort
    exact rel_insert_sorted r _ ih

/-! ## `read_abbrev` on a well-formed subtable -/

theorem form_allowed_passes {f : Nat} (h : form_allowed f) :
    (decide (f = 2) || (decide (f > DW_FORM_flag_present) && f != DW_FORM_ref_sig8)) = false := by
  unfold form_allowed at h
  simp only [DW_FORM_sec_offset, DW_FORM_exprloc, DW_FORM_flag_present, DW_FORM_ref_sig8] at h ⊢
  simp only [Bool.or_eq_false_iff, Bool.and_eq_false_iff, decide_eq_false_iff_not, bne_eq_false_iff_eq]
  omega

theorem enc_pairs_length_ge : ∀ (ps : List ((List Nat × Nat) × (List Nat × Nat))),
    (∀ p ∈ ps, is_uleb p.1.1 p.1.2 ∧ p.1.2 ≠ 0 ∧ is_uleb p.2.1 p.2.2) →
    ps.length ≤ (enc_pairs ps).length := by
  intro ps
  induction ps with
  | nil => intro _; simp
  | cons p ps ihp =>
    intro hp
    rw [enc_pairs_cons]
    have := ihp (fun q hq => hp q (List.mem_cons_of_mem _ hq))
    have hne := is_uleb_ne_nil (hp p (List.mem_cons_self _ _)).1
    have : 0 < p.1.1.length := List.length_pos.mpr hne
    simp only [List.length_append, List.length_cons]
    omega

/-- The inner loop of `read_abbrev` on pairs with allowed forms: the pairs
in their order, and the pointer past the terminating zero attribute. -/
theorem read_abbrev_attrs_ok {m : List Nat} {z1 T : List Nat} (hz : is_uleb z1 0) :
    ∀ (ps : List ((List Nat × Nat) × (List Nat × Nat))) (fuel ptr : Nat) (acc : List abbrev_attr),
      (∀ p ∈ ps, is_uleb p.1.1 p.1.2 ∧ p.1.2 ≠ 0 ∧ is_uleb p.2.1 p.2.2) →
      (∀ p ∈ ps, form_allowed p.2.2) →
      m.drop ptr = enc_pairs ps ++ (z1 ++ T) → ps.length < fuel →
      read_abbrev_attrs m fuel ptr acc
        = .ok (some (acc ++ ps.map (fun p => ⟨p.1.2, p.2.2⟩),
            ptr + (enc_pairs ps).length + z1.length)) := by
  intro ps
  induction ps with
  | nil =>
    intro fuel ptr acc _ _ h hf
    cases fuel with
    | zero => omega
    | succ n =>
      have h1 : m.drop ptr = z1 ++ T := by simpa [enc_pairs] using h
      unfold read_abbrev_attrs
      rw [read_is_uleb hz h1]
      simp [enc_pairs]
  | cons p ps ih =>
    intro fuel ptr acc hwf hfa h hf
    cases fuel with
    | zero => omega
    | succ n =>
      obtain ⟨ha, ha0, hfm⟩ := hwf p (List.mem_cons_self _ _)
      rw [enc_pairs_cons, List.append_assoc, List.append_assoc] at h
      have h2 := drop_append_len h
      have h3 := drop_append_len h2
      unfold read_abbrev_attrs
      rw [read_is_uleb ha h]
      simp only [bind_ok_eq]
      rw [if_neg ha0, read_is_uleb hfm h2]
      simp only [bind_ok_eq]
      have hpass := form_allowed_passes (hfa p (List.mem_cons_self _ _))
      rw [if_neg (by rw [hpass]; simp)]
      rw [ih n (ptr + p.1.1.length + p.2.1.length) (acc ++ [(⟨p.1.2, p.2.2⟩ : abbrev_attr)])
        (fun q hq => hwf q (List.mem_cons_of_mem _ hq))
        (fun q hq => hfa q (List.mem_cons_of_mem _ hq)) h3 (by simp at hf; omega)]
      rw [enc_pairs_cons]
      simp only [List.length_append, List.map_cons, List.append_assoc, List.singleton_append]
      congr 3
      omega

/-- The outer loop of `read_abbrev` on well-formed declarations with new
codes, followed by the code 0: the table so far with one element for each
declaration, in their order. -/
theorem read_abbrev_loop_ok {m zend rest : List Nat} (hzend : is_uleb zend 0) :
    ∀ (ds : List AbbrevDecl) (fuel ptr : Nat) (h : List abbrev_tag),
      (∀ d ∈ ds, d.wf) → (∀ d ∈ ds, ∀ p ∈ d.pairs, form_allowed p.2.2) →
      (∀ d ∈ ds, d.z2.2 = 0) →
      (ds.map (fun d => d.code.2)).Nodup →
      (∀ d ∈ ds, ∀ t ∈ h, t.entry ≠ d.code.2) →
      m.drop ptr = enc_decls ds ++ (zend ++ rest) → ds.length < fuel →
      read_abbrev_loop m fuel ptr h = .ok (some (h ++ ds.map AbbrevDecl.entry)) := by
  intro ds
  induction ds with
  | nil =>
    intro fuel ptr h _ _ _ _ _ hm hf
    cases fuel with
    | zero => omega
    | succ n =>
      have h1 : m.drop ptr = zend ++ rest := by simpa [enc_decls] using hm
      unfold read_abbrev_loop
      rw [read_is_uleb hzend h1]
      simp
  | cons d ds ih =>
    intro fuel ptr h hwf hfa hz2 hnd hnew hm hf
    cases fuel with
    | zero => omega
    | succ n =>
      obtain ⟨w1, w2, w3, w4, w5, w6⟩ := hwf d (List.mem_cons_self _ _)
      rw [enc_decls_cons] at hm
      unfold AbbrevDecl.enc at hm
      simp only [List.append_assoc, List.cons_append] at hm
      have h2 := drop_append_len hm
      have h3 := drop_append_len h2
      have h4 : m.drop (ptr + d.code.1.length + d.tag.1.length + 1)
          = enc_pairs d.pairs ++ (d.z1 ++ (d.z2.1 ++ (enc_decls ds ++ (zend ++ rest)))) := by
        rw [← List.drop_drop, h3]
        rfl
      have hlen := congrArg List.length h4
      simp only [List.length_drop, List.length_append] at hlen
      have hpl := enc_pairs_length_ge d.pairs w4
      have hany : ¬ (h.any fun t => t.entry == d.code.2) = true := by
        intro hc
        rw [List.any_eq_true] at hc
        obtain ⟨t, ht, hte⟩ := hc
        exact hnew d (List.mem_cons_self _ _) t ht (by simpa using hte)
      unfold read_abbrev_loop
      rw [read_is_uleb w1 hm]
      simp only [bind_ok_eq]
      rw [if_neg w2, if_neg hany, read_is_uleb w3 h2]
      simp only [bind_ok_eq]
      rw [read_abbrev_attrs_ok w5 d.pairs (m.length + 1)
        (ptr + d.code.1.length + d.tag.1.length + 1) [] w4 (hfa d (List.mem_cons_self _ _)) h4
        (by omega)]
      simp only [bind_ok_eq]
      have h5 := drop_append_len h4
      have h6 := drop_append_len h5
      have h7 := drop_append_len h6
      have hz0 := hz2 d (List.mem_cons_self _ _)
      rw [read_is_uleb w6 h6]
      simp only [bind_ok_eq]
      rw [if_neg (by omega)]
      rw [List.map_cons, List.nodup_cons] at hnd
      rw [ih n _ _ (fun x hx => hwf x (List.mem_cons_of_mem _ hx))
        (fun x hx => hfa x (List.mem_cons_of_mem _ hx))
        (fun x hx => hz2 x (List.mem_cons_of_mem _ hx)) hnd.2 ?_ h7 (by simp at hf; omega)]
      · simp [AbbrevDecl.entry]
      · intro x hx t ht
        rcases List.mem_append.mp ht with ht | ht
        · exact hnew x (List.mem_cons_of_mem _ hx) t ht
        · simp only [List.mem_singleton] at ht
          rw [ht]
          intro he
          apply hnd.1
          simp only at he
          rw [he]
          exact List.mem_map.mpr ⟨x, hx, rfl⟩

/-- A code of the declarations finds the element of its declaration. -/
theorem htab_find_entry : ∀ (ds : List AbbrevDecl), (ds.map (fun d => d.code.2)).Nodup →
    ∀ d ∈ ds, htab_find (ds.map AbbrevDecl.entry) d.code.2 = some d.entry := by
  intro ds
  induction ds with
  | nil => intro _ d hd; cases hd
  | cons x xs ih =>
    intro hnd d hd
    rw [List.map_cons, List.nodup_cons] at hnd
    unfold htab_find
    rw [List.map_cons, List.find?_cons]
    rcases List.mem_cons.mp hd with rfl | hd
    · simp [AbbrevDecl.entry]
    · have hne : x.code.2 ≠ d.code.2 := by
        intro he
        apply hnd.1
        rw [he]
        exact List.mem_map.mpr ⟨d, hd, rfl⟩
      have : (x.entry.entry == d.code.2) = false := by
        simp [AbbrevDecl.entry, hne]
      rw [this]
      exact ih hnd.2 d hd

/-- Any other code finds nothing. -/
theorem htab_find_other (ds : List AbbrevDecl) (c : Nat) (hc : ∀ d ∈ ds, d.code.2 ≠ c) :
    htab_find (ds.map AbbrevDecl.entry) c = none := by
  unfold htab_find
  rw [List.find?_eq_none]
  intro t ht
  obtain ⟨d, hd, rfl⟩ := List.mem_map.mp ht
  simp [AbbrevDecl.entry, hc d hd]

theorem decl_two_wf : decl_two.wf := by
  refine ⟨fun T => rfl, by decide, fun T => rfl, ?_, fun T => rfl, fun T => rfl⟩
  intro p hp
  simp only [decl_two, List.mem_cons, List.mem_singleton, List.not_mem_nil, or_false] at hp
  rcases hp with hp | hp
  · rw [hp]
    exact ⟨fun T => rfl, by decide, fun T => rfl⟩
  · rw [hp]
    exact ⟨fun T => rfl, by decide, fun T => rfl⟩

/-- A number of at most four LEB128 bytes is read as the sum of its
bytes. -/
theorem is_uleb_short {u : List Nat} {v : Nat} (hu : is_uleb u v) (hl : u.length ≤ 4) :
    v = leb_sum u := by
  have h := hu []
  rw [List.append_nil] at h
  obtain ⟨c, h1, h2⟩ := read_uleb128_len h
  simp only [List.drop_zero, Nat.zero_add] at h1 h2
  have h3 := read_uleb128_value (m := u) (p := 0) (by simpa using h1)
  rw [h3] at h
  have h4 := ok_inj h
  rw [← h2, if_pos (by omega)] at h4
  simp only [List.drop_zero, List.take_length, Prod.mk.injEq] at h4
  exact h4.1.symm

/-! ## The directory loop returns -/

theorem canon_write_total {src mem1 rem T : List Nat} {readptr ptr1 : Nat} (w : Bool)
    (hsrc : src.drop readptr = rem ++ 0 :: T) (hrem : ∀ c ∈ rem, c ≠ 0)
    (hroom : ptr1 + (canonicalize_path rem).length + 1 ≤ mem1.length) :
    ∃ mem2 mem3, canonicalize_path_at src readptr mem1 ptr1 = .ok mem2 ∧
      (if w then make_win_path_at mem2 ptr1 else pure mem2) = .ok mem3 ∧
      cstr mem3 ptr1 = .ok (win w (canonicalize_path rem)) := by
  have hs := cstr_of_drop hsrc hrem
  have hc0 := canonicalize_path_no_nul hrem
  obtain ⟨mem2, hw⟩ : ∃ mem2, wr mem1 ptr1 (canonicalize_path rem ++ [0]) = .ok mem2 :=
    ⟨_, wr_eq_ok.mpr ⟨by simp; omega, rfl⟩⟩
  have h1 : canonicalize_path_at src readptr mem1 ptr1 = .ok mem2 := by
    unfold canonicalize_path_at
    rw [hs]
    exact hw
  have hr2 : cstr mem2 ptr1 = .ok (canonicalize_path rem) := cstr_after_wr hw hc0
  have hl2 := wr_length hw
  cases w with
  | false =>
    refine ⟨mem2, mem2, h1, by simp, ?_⟩
    simpa [win] using hr2
  | true =>
    obtain ⟨mem3, hw2⟩ : ∃ mem3, wr mem2 ptr1 (make_win_path (canonicalize_path rem))
        = .ok mem3 :=
      ⟨_, wr_eq_ok.mpr ⟨by rw [make_win_path_length]; omega, rfl⟩⟩
    refine ⟨mem2, mem3, h1, ?_, ?_⟩
    · simp only [if_true]
      unfold make_win_path_at
      rw [hr2]
      exact hw2
    · simp only [win, if_true]
      have hd := wr_drop_at hw
      have hd2 := wr_drop_at hw2
      rw [make_win_path_length] at hd2
      have h5 : mem2.drop (ptr1 + (canonicalize_path rem).length)
          = 0 :: mem1.drop (ptr1 + (canonicalize_path rem ++ [0]).length) := by
        rw [← List.drop_drop, hd, List.append_assoc, List.drop_left]
        rfl
      rw [h5] at hd2
      exact cstr_of_drop hd2 (make_win_path_no_nul hc0)

theorem win_length (w : Bool) (s : List Nat) : (win w s).length = s.length := by
  unfold win
  split_ifs
  · exact make_win_path_length s
  · rfl

/-- The body of the directory loop returns on an entry for whose rewrite
there is room and which does not grow. -/
theorem dir_entry_total {w : Bool} {base dest : List Nat} {buf : Option (List Nat)}
    {st : LineRw} {c : Nat} {e T : List Nat}
    (hsrc : (src_of buf st.mem).drop st.srcptr = e ++ 0 :: T)
    (he0 : ∀ x ∈ e, x ≠ 0) (hc : e.head? = some c)
    (hmode : buf = none → st.ptr ≤ st.srcptr)
    (hlen : dest.length ≤ base.length)
    (hroom : st.ptr + (new_dir w base dest e).length + 1 ≤ st.mem.length)
    (hgrow : (new_dir w base dest e).length ≤ e.length) :
    ∃ st', dir_entry w base dest buf st c e = .ok st' := by
  have hpre : (decide (c = 47) && has_prefix e base) = under_base base e := by
    simp [under_base, hc]
  have hrest0 := @dir_rest_no_nul base e he0
  have hwl := win_length w (canonicalize_path (dir_rest base e))
  unfold dir_entry
  simp only [hpre]
  by_cases hu : under_base base e = true
  · simp only [hu, if_true, Bool.true_and]
    obtain ⟨_, hp⟩ := under_base_iff.mp hu
    obtain ⟨hbl, hbt⟩ := has_prefix_iff.mp hp
    have hrest : dir_rest base e = e.drop base.length := by simp [dir_rest, hu]
    have hnd : new_dir w base dest e = dest ++ win w (canonicalize_path (dir_rest base e)) := by
      simp [new_dir, hu]
    rw [hnd, List.length_append, hwl] at hroom hgrow
    obtain ⟨mem1, hm1⟩ : ∃ mem1, wr st.mem st.ptr dest = .ok mem1 :=
      ⟨_, wr_eq_ok.mpr ⟨by omega, rfl⟩⟩
    have hl1 := wr_length hm1
    have hsrc1 : (src_of buf mem1).drop (st.srcptr + base.length)
        = e.drop base.length ++ 0 :: T := by
      have h0 : (src_of buf st.mem).drop (st.srcptr + base.length)
          = e.drop base.length ++ 0 :: T := by
        rw [← List.drop_drop, hsrc, List.drop_append_of_le_length hbl]
      cases hb : buf with
      | some B => simpa [src_of, hb] using h0
      | none =>
        have hle := hmode hb
        simp only [src_of, hb, Option.getD_none] at h0 ⊢
        rw [wr_drop hm1 (by omega)]
        exact h0
    rw [← hrest] at hsrc1
    obtain ⟨mem2, mem3, c1, c2, c3⟩ :=
      @canon_write_total _ mem1 _ _ _ (st.ptr + dest.length) w hsrc1 hrest0 (by omega)
    rw [hm1]
    simp only [bind_ok_eq]
    rw [c1]
    simp only [bind_ok_eq]
    rw [c2]
    simp only [bind_ok_eq]
    rw [c3]
    simp only [bind_ok_eq]
    rw [if_neg (by rw [hwl]; omega)]
    exact ⟨_, rfl⟩
  · have hu' : under_base base e = false := by simpa using hu
    simp only [hu', Bool.false_eq_true, if_false, Bool.false_and]
    have hrest : dir_rest base e = e := by simp [dir_rest, hu']
    have hnd : new_dir w base dest e = win w (canonicalize_path (dir_rest base e)) := by
      simp [new_dir, hu']
    rw [hnd, hwl] at hroom hgrow
    have hsrc1 := hsrc
    rw [← hrest] at hsrc1
    obtain ⟨mem2, mem3, c1, c2, c3⟩ :=
      @canon_write_total _ st.mem _ _ _ st.ptr w hsrc1 hrest0 (by omega)
    simp only [pure_eq_ok, bind_ok_eq]
    rw [c1]
    simp only [bind_ok_eq]
    simp only [pure_eq_ok] at c2
    rw [c2]
    simp only [bind_ok_eq]
    rw [c3]
    simp only [bind_ok_eq]
    rw [if_neg (by rw [hwl]; omega)]
    exact ⟨_, rfl⟩

theorem encD_map_le {f : List Nat → List Nat} : ∀ (ds : List (List Nat)),
    (∀ e ∈ ds, (f e).length ≤ e.length) → (encD (ds.map f)).length ≤ (encD ds).length := by
  intro ds
  induction ds with
  | nil => intro _; simp [encD]
  | cons e rest ih =>
    intro h
    rw [List.map_cons, encD_cons, encD_cons]
    have h1 := h e (List.mem_cons_self _ _)
    have h2 := ih (fun x hx => h x (List.mem_cons_of_mem _ hx))
    simp only [List.length_append, List.length_cons]
    omega

/-- The directory loop returns, having gone through the whole table, when
no entry grows under the rewrite. -/
theorem dir_rewrite_total {w : Bool} {base dest m : List Nat} {buf : Option (List Nat)}
    {dir s0 : Nat} {T : List Nat} {ds : List (List Nat)}
    (hlen : dest.length ≤ base.length)
    (hsrc0 : (src_of buf m).drop s0 = encD ds ++ 0 :: T)
    (hwf : ∀ e ∈ ds, e ≠ [] ∧ (∀ x ∈ e, x ≠ 0) ∧ e.length + 2 < SIZE_MOD)
    (hinp : buf = none → s0 = dir)
    (hroom : dir + (encD ds).length + 1 ≤ m.length)
    (hgrow : ∀ e ∈ ds, (new_dir w base dest e).length ≤ e.length) :
    ∀ (todo done : List (List Nat)) (fuel : Nat) (st : LineRw),
      ds = done ++ todo → DirInv w base dest m dir s0 done st → todo.length < fuel →
      ∃ st', dir_rewrite w base dest buf fuel st = .ok st' ∧
        DirInv w base dest m dir s0 ds st' := by
  intro todo
  induction todo with
  | nil =>
    intro done fuel st hds hinv hf
    obtain ⟨i1, i2, i3, i4, i5⟩ := hinv
    have hdd : ds = done := by simpa using hds
    subst hdd
    have hle := encD_map_le (f := new_dir w base dest) ds hgrow
    have hmode : buf = none → st.ptr ≤ st.srcptr := by
      intro hb
      rw [i1, i2, hinp hb]
      omega
    have hview : (src_of buf st.mem).drop st.srcptr = 0 :: T := by
      have h0 : (src_of buf m).drop st.srcptr = 0 :: T := by
        rw [i1, ← List.drop_drop, hsrc0, List.drop_left]
      cases hb : buf with
      | some B => simpa [src_of, hb] using h0
      | none =>
        have hle2 := hmode hb
        simp only [src_of, hb, Option.getD_none] at h0 ⊢
        rw [wr_drop i3 (by omega)]
        exact h0
    have hr : rd (src_of buf st.mem) st.srcptr = .ok 0 := rd_eq_ok.mpr ⟨T, hview⟩
    cases fuel with
    | zero => omega
    | succ n =>
      refine ⟨st, ?_, ⟨i1, i2, i3, i4, i5⟩⟩
      unfold dir_rewrite
      rw [hr]
      simp
  | cons e rest ih =>
    intro done fuel st hds hinv hf
    obtain ⟨i1, i2, i3, i4, i5⟩ := hinv
    have hdone : ∀ x ∈ done, (new_dir w base dest x).length ≤ x.length :=
      fun x hx => hgrow x (by rw [hds]; exact List.mem_append_left _ hx)
    have hle := encD_map_le (f := new_dir w base dest) done hdone
    have hmode : buf = none → st.ptr ≤ st.srcptr := by
      intro hb
      rw [i1, i2, hinp hb]
      omega
    have hview : (src_of buf st.mem).drop st.srcptr = encD (e :: rest) ++ 0 :: T := by
      have h0 : (src_of buf m).drop st.srcptr = encD (e :: rest) ++ 0 :: T := by
        rw [i1, ← List.drop_drop, hsrc0, hds, encD_append, List.append_assoc, List.drop_left]
      cases hb : buf with
      | some B => simpa [src_of, hb] using h0
      | none =>
        have hle2 := hmode hb
        simp only [src_of, hb, Option.getD_none] at h0 ⊢
        rw [wr_drop i3 (by omega)]
        exact h0
    have hmem : e ∈ ds := by rw [hds]; simp
    obtain ⟨hne, he0, hfit⟩ := hwf e hmem
    obtain ⟨c, e', rfl⟩ := List.exists_cons_of_ne_nil hne
    have hc0 : c ≠ 0 := he0 c (List.mem_cons_self _ _)
    have hview' : (src_of buf st.mem).drop st.srcptr
        = (c :: e') ++ 0 :: (encD rest ++ 0 :: T) := by
      rw [hview, encD_cons]; simp
    have hr : rd (src_of buf st.mem) st.srcptr = .ok c := by
      apply rd_eq_ok.mpr
      exact ⟨_, by rw [hview']; rfl⟩
    have hcs : cstr (src_of buf st.mem) st.srcptr = .ok (c :: e') := cstr_of_drop hview' he0
    have hml := wr_length i3
    have hdl : (encD ds).length = (encD done).length + ((c :: e').length + 1)
        + (encD rest).length := by
      rw [hds, encD_append, encD_cons]
      simp only [List.length_append, List.length_cons]
      omega
    have hg := hgrow _ hmem
    have hhead : (c :: e').head? = some c := rfl
    obtain ⟨st1, hst1⟩ := @dir_entry_total w base dest buf st c (c :: e') _ hview' he0
      hhead hmode hlen (by rw [i2, hml]; omega) hg
    obtain ⟨j1, j2, j3, j4, j5⟩ :=
      dir_entry_spec hview' he0 hhead hmode hlen hfit hst1
    have hinv1 : DirInv w base dest m dir s0 (done ++ [c :: e']) st1 := by
      refine ⟨?_, ?_, ?_, ?_, ?_⟩
      · rw [j1, i1, encD_snoc]; simp; omega
      · rw [j2, i2, List.map_append, List.map_singleton, encD_snoc]; simp; omega
      · rw [List.map_append, List.map_singleton, encD_snoc]
        rw [i2] at j3
        exact wr_wr_append i3 j3
      · rw [j4, i4, shr_snoc]
        have e1 := SIZE_MOD_eq
        rw [e1]
        omega
      · rw [j5, i5, cnt_under_snoc]
        by_cases hl : dest.length < base.length
        · simp [hl]
        · simp [hl]
    cases fuel with
    | zero => omega
    | succ n =>
      obtain ⟨st2, hst2, hinv2⟩ := ih (done ++ [c :: e']) n st1 (by rw [hds]; simp) hinv1
        (by simp at hf; omega)
      refine ⟨st2, ?_, hinv2⟩
      unfold dir_rewrite
      rw [hr]
      simp only [bind_ok_eq, if_neg hc0, hcs]
      rw [hst1]
      exact hst2

theorem enc_list_length_le (ds : List (List Nat)) : ds.length ≤ (encD ds).length := by
  induction ds with
  | nil => simp [encD]
  | cons e rest ih =>
    rw [encD_cons]
    simp only [List.length_append, List.length_cons]
    omega

/-- The filler step at the three values of `shrank`. -/
theorem fill_shrank_cases {st1 : LineRw} {k : Int}
    (hk : (st1.shrank : Int) = k % 18446744073709551616)
    (hlo : -(2 ^ 63 : Int) < k) (hhi : k < 2 ^ 63)
    (hroom : 1 < k → st1.ptr + k.toNat ≤ st1.mem.length) :
    (k = 1 → fill_shrank st1 = .error .exit) ∧
    (1 < k → ∃ st2, fill_shrank st1 = .ok st2 ∧
      wr st1.mem st1.ptr (List.replicate (k.toNat - 1) 88 ++ [0]) = .ok st2.mem ∧
      st2.ptr = st1.ptr + k.toNat) ∧
    (k = 0 → fill_shrank st1 = .ok st1) := by
  refine ⟨?_, ?_, ?_⟩
  · intro h1
    have hs : st1.shrank = 1 := by omega
    unfold fill_shrank
    rw [hs]
    rfl
  · intro h1
    have hr := hroom h1
    have hs : st1.shrank = k.toNat := by omega
    obtain ⟨M1, hM1⟩ : ∃ M1, wr st1.mem st1.ptr (List.replicate (st1.shrank - 1) 88) = .ok M1 :=
      ⟨_, wr_eq_ok.mpr ⟨by simp only [List.length_replicate]; omega, rfl⟩⟩
    have hl1 := wr_length hM1
    obtain ⟨M2, hM2⟩ : ∃ M2, wr M1 (st1.ptr + (st1.shrank - 1)) [0] = .ok M2 :=
      ⟨_, wr_eq_ok.mpr ⟨by simp only [List.length_singleton]; omega, rfl⟩⟩
    refine ⟨{ st1 with mem := M2, ptr := st1.ptr + (st1.shrank - 1) + 1,
                       shrank := st1.shrank - 1 }, ?_, ?_, ?_⟩
    · unfold fill_shrank
      rw [if_pos (by omega)]
      simp only
      rw [if_neg (by omega), memset_eq_wr, hM1]
      simp only [bind_ok_eq]
      rw [hM2]
      rfl
    · rw [← hs]
      refine wr_wr_append hM1 ?_
      simpa using hM2
    · simp only
      omega
  · intro h1
    have hs : st1.shrank = 0 := by omega
    unfold fill_shrank
    rw [if_neg (by omega)]
    rfl

/-! ## No step of the editor runs out of fuel

The loops of the model carry a bound on the number of their passes, and
answer `Fault.fuel` when it is used up.  The lemmas of this part show that
this never happens: every pass of a loop moves its pointer on inside a
buffer of fixed length. -/

theorem bind_eq_error {ε α β : Type} {x : Except ε α} {f : α → Except ε β} {e : ε} :
    (x >>= f) = .error e ↔ x = .error e ∨ ∃ a, x = .ok a ∧ f a = .error e := by
  cases x with
  | error e2 => simp
  | ok a => simp

theorem rd_nf (m : List Nat) (p : Nat) : rd m p ≠ .error .fuel := by
  unfold rd
  cases m[p]? <;> simp

theorem cstr_nf (m : List Nat) (p : Nat) : cstr m p ≠ .error .fuel := by
  unfold cstr
  cases cstrL (m.drop p) <;> simp

theorem wr_nf (m : List Nat) (p : Nat) (bs : List Nat) : wr m p bs ≠ .error .fuel := by
  unfold wr
  split <;> simp

theorem rdn_nf (m : List Nat) (p n : Nat) : rdn m p n ≠ .error .fuel := by
  unfold rdn
  split <;> simp

theorem memset_nf (m : List Nat) (p c n : Nat) : memset m p c n ≠ .error .fuel := by
  rw [memset_eq_wr]
  exact wr_nf _ _ _

theorem uleb_loop_nf : ∀ (l : List Nat) (r s n : Nat), uleb_loop l r s n ≠ .error .fuel := by
  intro l
  induction l with
  | nil => intro r s n; simp [uleb_loop]
  | cons c t ih =>
    intro r s n
    unfold uleb_loop
    simp only
    split
    · exact ih _ _ _
    · simp

theorem read_uleb128_nf (m : List Nat) (p : Nat) : read_uleb128 m p ≠ .error .fuel := by
  unfold read_uleb128
  simp only [ne_eq, bind_eq_error, uleb_loop_nf, false_or, pure_eq_ok, reduceCtorEq, and_false,
    exists_false, not_false_eq_true]

theorem do_read_16_nf (msb : Bool) (m : List Nat) (p : Nat) : do_read_16 msb m p ≠ .error .fuel := by
  unfold do_read_16
  simp only [ne_eq, bind_eq_error, rd_nf, false_or, pure_eq_ok, reduceCtorEq, and_false,
    exists_false, not_false_eq_true]

theorem do_read_32_nf (msb : Bool) (m : List Nat) (p : Nat) : do_read_32 msb m p ≠ .error .fuel := by
  unfold do_read_32
  simp only [ne_eq, bind_eq_error, rd_nf, false_or, pure_eq_ok, reduceCtorEq, and_false,
    exists_false, not_false_eq_true]

theorem has_prefix_opt_nf (s : List Nat) (p : Option (List Nat)) :
    has_prefix_opt s p ≠ .error .fuel := by
  unfold has_prefix_opt
  cases p <;> simp

theorem strlen_opt_nf (p : Option (List Nat)) : strlen_opt p ≠ .error .fuel := by
  unfold strlen_opt
  cases p <;> simp

theorem make_win_path_at_nf (m : List Nat) (p : Nat) : make_win_path_at m p ≠ .error .fuel := by
  unfold make_win_path_at
  simp only [ne_eq, bind_eq_error, cstr_nf, wr_nf, false_or, and_false, exists_false,
    not_false_eq_true]

theorem canonicalize_path_at_nf (src : List Nat) (s : Nat) (dst : List Nat) (d : Nat) :
    canonicalize_path_at src s dst d ≠ .error .fuel := by
  unfold canonicalize_path_at
  simp only [ne_eq, bind_eq_error, cstr_nf, wr_nf, false_or, and_false, exists_false,
    not_false_eq_true]

theorem do_read_32_relocated_nf (env : Env) (m : List Nat) (relptr ptr : Nat) :
    do_read_32_relocated env m relptr ptr ≠ .error .fuel := by
  unfold do_read_32_relocated
  simp only [ne_eq, bind_eq_error, do_read_32_nf, false_or, not_exists, not_and]
  intro a _
  split
  · split
    · split
      · split <;> simp
      · simp
    · simp
  · simp

/-! ## The walker keeps the length of `.debug_info` -/

theorem edit_inline_len {cfg : Config} {phase : Nat} {whole : Bool} {st st' : St} {p : Nat}
    {s : List Nat} (h : edit_inline cfg phase whole st p s = .ok st') :
    (info_of st').length = (info_of st).length := by
  unfold edit_inline at h
  obtain ⟨g, hg, k⟩ := bind_eq_ok.mp h
  clear h
  cases g with
  | none => rw [← ok_inj k]
  | some dest =>
    simp only at k
    obtain ⟨m1, h1, k1⟩ := bind_eq_ok.mp k
    obtain ⟨m2, h2, k2⟩ := bind_eq_ok.mp k1
    clear k k1
    have e1 : m1.length = (info_of st).length := by
      unfold rewrite_inline at h1
      obtain ⟨bl, _, j1⟩ := bind_eq_ok.mp h1
      obtain ⟨mA, hA, j2⟩ := bind_eq_ok.mp j1
      by_cases hc : dest.length < bl
      · rw [if_pos hc, memset_eq_wr] at j2
        rw [wr_length j2, wr_length hA]
      · rw [if_neg hc] at j2
        rw [← ok_inj j2, wr_length hA]
    have e2 : m2.length = m1.length := by
      by_cases hc : (whole && cfg.win_path) = true
      · rw [if_pos hc] at h2
        unfold make_win_path_at at h2
        obtain ⟨s1, _, j1⟩ := bind_eq_ok.mp h2
        exact wr_length j1
      · rw [if_neg hc] at h2
        rw [← ok_inj h2]
    rw [← ok_inj k2, info_of_some rfl, e2, e1]

theorem act_comp_dir_len {env : Env} {phase form : Nat} {a a' : AttrSt}
    (h : act_comp_dir env phase form a = .ok a') :
    (info_of a'.st).length = (info_of a.st).length := by
  unfold act_comp_dir at h
  by_cases hf : form = DW_FORM_string
  · rw [if_pos hf] at h
    obtain ⟨s, _, k⟩ := bind_eq_ok.mp h
    obtain ⟨st1, h1, k1⟩ := bind_eq_ok.mp k
    rw [← ok_inj k1]
    exact edit_inline_len h1
  · rw [if_neg hf] at h
    cases hs : a.st.debug_str with
    | none =>
      rw [hs] at h
      rw [← ok_inj h]
    | some str =>
      rw [hs] at h
      simp only at h
      by_cases hp : form = DW_FORM_strp
      · rw [if_pos hp] at h
        obtain ⟨r, _, k⟩ := bind_eq_ok.mp h
        obtain ⟨s, _, k1⟩ := bind_eq_ok.mp k
        obtain ⟨st1, h1, k2⟩ := bind_eq_ok.mp k1
        rw [← ok_inj k2]
        simp only
        rw [edit_strp_keep h1]
        rfl
      · rw [if_neg hp] at h
        rw [← ok_inj h]

theorem act_name_len {env : Env} {phase form : Nat} {a a' : AttrSt}
    (h : act_name env phase form a = .ok a') :
    (info_of a'.st).length = (info_of a.st).length := by
  unfold act_name at h
  cases hs : (if form = DW_FORM_strp then a.st.debug_str else none) with
  | some str =>
    rw [hs] at h
    simp only at h
    obtain ⟨r, _, k⟩ := bind_eq_ok.mp h
    obtain ⟨s, _, k1⟩ := bind_eq_ok.mp k
    obtain ⟨st1, h1, k2⟩ := bind_eq_ok.mp k1
    rw [← ok_inj k2]
    simp only
    rw [edit_strp_keep h1]
    rfl
  | none =>
    rw [hs] at h
    simp only at h
    by_cases hc : (decide (form = DW_FORM_string) && a.st.debug_info.isSome) = true
    · rw [if_pos hc] at h
      obtain ⟨s, _, k⟩ := bind_eq_ok.mp h
      obtain ⟨st1, h1, k1⟩ := bind_eq_ok.mp k
      rw [← ok_inj k1]
      exact edit_inline_len h1
    · rw [if_neg hc] at h
      cases h

theorem attr_actions_len {env : Env} {phase tag attr form : Nat} {a a' : AttrSt}
    (h : attr_actions env phase tag attr form a = .ok a') :
    (info_of a'.st).length = (info_of a.st).length := by
  unfold attr_actions at h
  obtain ⟨a1, h1, k⟩ := bind_eq_ok.mp h
  clear h
  obtain ⟨p1, i1⟩ := act_stmt_list_keep h1
  by_cases hc : attr = DW_AT_comp_dir
  · rw [if_pos hc] at k
    rw [act_comp_dir_len k, i1]
  · rw [if_neg hc] at k
    by_cases hn : ((decide (tag = DW_TAG_compile_unit) || decide (tag = DW_TAG_partial_unit)) &&
        decide (attr = DW_AT_name)) = true
    · rw [if_pos hn] at k
      rw [act_name_len k, i1]
    · rw [if_neg hn] at k
      rw [← ok_inj k, i1]

theorem attr_loop_len {env : Env} {phase tag attr : Nat} :
    ∀ (fuel form : Nat) (a : AttrSt) (r : Bool × AttrSt),
      attr_loop env phase tag attr fuel form a = .ok r →
        (info_of r.2.st).length = (info_of a.st).length := by
  intro fuel
  induction fuel with
  | zero => intro form a r h; simp [attr_loop] at h
  | succ n ih =>
    intro form a r h
    unfold attr_loop at h
    obtain ⟨a1, h1, k⟩ := bind_eq_ok.mp h
    obtain ⟨fs, h2, k2⟩ := bind_eq_ok.mp k
    clear h k
    have i1 := attr_actions_len h1
    cases fs with
    | done p =>
      simp only at k2
      rw [← ok_inj k2]
      exact i1
    | again f p =>
      simp only at k2
      have j := ih _ _ _ k2
      simp only at j
      rw [j, i1]
    | unknown =>
      simp only at k2
      rw [← ok_inj k2]
      exact i1

theorem attrs_loop_len {env : Env} {phase tag : Nat} :
    ∀ (attrs : List abbrev_attr) (a : AttrSt) (r : Bool × AttrSt),
      attrs_loop env phase tag attrs a = .ok r →
        (info_of r.2.st).length = (info_of a.st).length := by
  intro attrs
  induction attrs with
  | nil =>
    intro a r h
    simp only [attrs_loop] at h
    rw [← ok_inj h]
  | cons at1 rest ih =>
    intro a r h
    unfold attrs_loop at h
    obtain ⟨r1, h1, k⟩ := bind_eq_ok.mp h
    clear h
    have i1 := attr_loop_len _ _ _ _ h1
    by_cases hb : r1.1 = true
    · rw [if_pos hb] at k
      rw [ih _ _ k, i1]
    · rw [if_neg hb] at k
      rw [← ok_inj k]
      exact i1

/-- The line-header editor leaves `.debug_info` alone. -/
theorem edit_dwarf2_line_info {cfg : Config} {msb : Bool} {st : St} {off : Nat}
    {comp_dir : List Nat} {phase : Nat} {r : Nat × St}
    (h : edit_dwarf2_line cfg msb st off comp_dir phase = .ok r) :
    r.2.debug_info = st.debug_info := by
  unfold edit_dwarf2_line at h
  by_cases hp : phase ≠ 0
  · rw [if_pos hp] at h
    rw [← ok_inj h]
  · rw [if_neg hp] at h
    cases hl : st.debug_line with
    | none =>
      rw [hl] at h
      rw [← ok_inj h]
    | some m =>
      rw [hl] at h
      simp only at h
      obtain ⟨hdr, _, k⟩ := bind_eq_ok.mp h
      clear h
      cases hdr with
      | none =>
        rw [← ok_inj k]
      | some dir =>
        simp only at k
        obtain ⟨dt, _, k1⟩ := bind_eq_ok.mp k
        obtain ⟨fs, _, k2⟩ := bind_eq_ok.mp k1
        clear k k1
        by_cases hr : fs.ret ≠ 0
        · rw [if_pos hr] at k2
          rw [← ok_inj k2]
        · rw [if_neg hr] at k2
          cases hd : cfg.dest_dir with
          | none =>
            rw [hd] at k2
            rw [← ok_inj k2]
          | some dest =>
            rw [hd] at k2
            simp only at k2
            obtain ⟨r1, _, k3⟩ := bind_eq_ok.mp k2
            rw [← ok_inj k3]

theorem emit_comp_dir_info (cfg : Config) (a : AttrSt) :
    (emit_comp_dir cfg a).debug_info = a.st.debug_info := by
  unfold emit_comp_dir
  cases a.comp_dir with
  | none => rfl
  | some cd =>
    simp only
    split <;> rfl

/-- The pointer that `edit_attributes` returns is not before the one it
got, and the length of `.debug_info` is the one it was. -/
theorem edit_attributes_step {env : Env} {st : St} {ptr : Nat} {t : abbrev_tag} {phase : Nat}
    {res : Option Nat × St} (h : edit_attributes env st ptr t phase = .ok res) :
    (info_of res.2).length = (info_of st).length ∧ ∀ p, res.1 = some p → ptr ≤ p := by
  unfold edit_attributes at h
  obtain ⟨r, h1, k⟩ := bind_eq_ok.mp h
  clear h
  have hl := attrs_loop_len _ _ _ h1
  obtain ⟨hp, _⟩ := attrs_loop_keep _ _ _ h1
  simp only at hl hp
  have he : info_of (emit_comp_dir env.cfg r.2) = info_of r.2.st := by
    unfold info_of
    rw [emit_comp_dir_info]
  by_cases hb : r.1 = true
  · rw [if_pos hb] at k
    simp only at k
    cases hc : r.2.comp_dir with
    | none =>
      rw [hc] at k
      rw [← ok_inj k]
      refine ⟨by simp only; rw [he, hl], ?_⟩
      intro p hpe
      cases hpe
      exact hp
    | some cd =>
      rw [hc] at k
      simp only at k
      by_cases hf : r.2.found_list_offs = true
      · rw [if_pos hf] at k
        obtain ⟨r2, h2, k2⟩ := bind_eq_ok.mp k
        rw [← ok_inj k2]
        have hi := edit_dwarf2_line_info h2
        refine ⟨?_, ?_⟩
        · simp only
          have : info_of r2.2 = info_of (emit_comp_dir env.cfg r.2) := by
            unfold info_of
            rw [hi]
          rw [this, he, hl]
        · intro p hpe
          cases hpe
          exact hp
      · rw [if_neg hf] at k
        rw [← ok_inj k]
        refine ⟨by simp only; rw [he, hl], ?_⟩
        intro p hpe
        cases hpe
        exact hp
  · rw [if_neg hb] at k
    rw [← ok_inj k]
    refine ⟨hl, ?_⟩
    intro p hpe
    cases hpe

/-! ## The attribute loop does not run out of fuel -/

theorem rewrite_guard_nf (cfg : Config) (phase : Nat) (s : List Nat) :
    rewrite_guard cfg phase s ≠ .error .fuel := by
  unfold rewrite_guard
  split
  · cases cfg.dest_dir with
    | none => simp
    | some dest =>
      simp only [ne_eq, bind_eq_error, has_prefix_opt_nf, false_or, pure_eq_ok, reduceCtorEq,
        and_false, exists_false, not_false_eq_true]
  · simp

theorem rewrite_inline_nf (cfg : Config) (dest m : List Nat) (p : Nat) :
    rewrite_inline cfg dest m p ≠ .error .fuel := by
  unfold rewrite_inline
  simp only [ne_eq, bind_eq_error, strlen_opt_nf, wr_nf, false_or, not_exists, not_and]
  intro a _ b _
  split
  · exact memset_nf _ _ _ _
  · simp

theorem rewrite_strp_nf (cfg : Config) (dest m : List Nat) (p : Nat) :
    rewrite_strp cfg dest m p ≠ .error .fuel := by
  unfold rewrite_strp
  simp only [ne_eq, bind_eq_error, strlen_opt_nf, wr_nf, false_or, not_exists, not_and]
  intro a _ b _
  split
  · simp only [bind_eq_error, cstr_nf, wr_nf, false_or, and_false, exists_false,
      not_false_eq_true]
  · simp

theorem win_step_nf (c : Bool) (m : List Nat) (p : Nat) :
    (if c then make_win_path_at m p else pure m) ≠ .error .fuel := by
  split
  · exact make_win_path_at_nf _ _
  · simp

theorem edit_inline_nf (cfg : Config) (phase : Nat) (whole : Bool) (st : St) (p : Nat)
    (s : List Nat) : edit_inline cfg phase whole st p s ≠ .error .fuel := by
  unfold edit_inline
  simp only [ne_eq, bind_eq_error, rewrite_guard_nf, false_or, not_exists, not_and]
  intro g _
  cases g with
  | none => simp
  | some dest =>
    simp only [bind_eq_error, rewrite_inline_nf, false_or, not_exists, not_and]
    intro m1 _
    have := win_step_nf (whole && cfg.win_path) m1 p
    simp only [ne_eq, pure_eq_ok] at this
    simp only [pure_eq_ok, this, false_or, reduceCtorEq, and_false, exists_false, or_false,
      not_false_eq_true]

theorem edit_strp_nf (cfg : Config) (phase : Nat) (whole : Bool) (st : St) (str : List Nat)
    (off : Nat) (s : List Nat) : edit_strp cfg phase whole st str off s ≠ .error .fuel := by
  unfold edit_strp
  simp only [ne_eq, bind_eq_error, rewrite_guard_nf, false_or, not_exists, not_and]
  intro g _
  cases g with
  | none => simp
  | some dest =>
    simp only [bind_eq_error, rewrite_strp_nf, false_or, not_exists, not_and]
    intro m1 _
    have := win_step_nf (whole && cfg.win_path) m1 off
    simp only [ne_eq, pure_eq_ok] at this
    simp only [pure_eq_ok, this, false_or, reduceCtorEq, and_false, exists_false, or_false,
      not_false_eq_true]

theorem act_stmt_list_nf (env : Env) (attr form : Nat) (a : AttrSt) :
    act_stmt_list env attr form a ≠ .error .fuel := by
  unfold act_stmt_list
  split
  · simp only [ne_eq, bind_eq_error, do_read_32_relocated_nf, false_or, not_exists, not_and]
    intro r _
    simp
  · simp

theorem act_comp_dir_nf (env : Env) (phase form : Nat) (a : AttrSt) :
    act_comp_dir env phase form a ≠ .error .fuel := by
  unfold act_comp_dir
  split
  · simp only [ne_eq, bind_eq_error, cstr_nf, edit_inline_nf, false_or, pure_eq_ok, reduceCtorEq,
      and_false, exists_false, not_false_eq_true]
  · cases a.st.debug_str with
    | none => simp
    | some str =>
      simp only
      split
      · simp only [ne_eq, bind_eq_error, do_read_32_relocated_nf, cstr_nf, edit_strp_nf, false_or,
          pure_eq_ok, reduceCtorEq, and_false, exists_false, not_false_eq_true]
      · simp

theorem act_name_nf (env : Env) (phase form : Nat) (a : AttrSt) :
    act_name env phase form a ≠ .error .fuel := by
  unfold act_name
  cases (if form = DW_FORM_strp then a.st.debug_str else none) with
  | some str =>
    simp only [ne_eq, bind_eq_error, do_read_32_relocated_nf, cstr_nf, edit_strp_nf, false_or,
      pure_eq_ok, reduceCtorEq, and_false, exists_false, not_false_eq_true]
  | none =>
    simp only
    split
    · simp only [ne_eq, bind_eq_error, cstr_nf, edit_inline_nf, false_or, pure_eq_ok,
        reduceCtorEq, and_false, exists_false, not_false_eq_true]
    · simp

theorem attr_actions_nf (env : Env) (phase tag attr form : Nat) (a : AttrSt) :
    attr_actions env phase tag attr form a ≠ .error .fuel := by
  unfold attr_actions
  simp only [ne_eq, bind_eq_error, act_stmt_list_nf, false_or, not_exists, not_and]
  intro a1 _
  split
  · exact act_comp_dir_nf _ _ _ _
  · split
    · exact act_name_nf _ _ _ _
    · simp

theorem form_step_nf (msb : Bool) (ps cv : Nat) (m : List Nat) (form ptr : Nat) :
    form_step msb ps cv m form ptr ≠ .error .fuel := by
  intro h
  have hd : ∀ q, (pure q : Except Fault FormStep) ≠ .error .fuel := by
    intro q hq
    cases hq
  have hu : ∀ (p : Nat) (f : Nat × Nat → Except Fault FormStep),
      (∀ x, f x ≠ .error .fuel) → (read_uleb128 m p >>= f) ≠ .error .fuel := by
    intro p f hf hb
    rcases bind_eq_error.mp hb with h1 | ⟨x, _, h2⟩
    · exact read_uleb128_nf _ _ h1
    · exact hf x h2
  unfold form_step at h
  by_cases c1 : form = DW_FORM_ref_addr
  · rw [if_pos c1] at h; exact hd _ h
  rw [if_neg c1] at h
  by_cases c2 : form = DW_FORM_flag_present
  · rw [if_pos c2] at h; exact hd _ h
  rw [if_neg c2] at h
  by_cases c3 : form = DW_FORM_addr
  · rw [if_pos c3] at h; exact hd _ h
  rw [if_neg c3] at h
  by_cases c4 : (decide (form = DW_FORM_ref1) || decide (form = DW_FORM_flag)
      || decide (form = DW_FORM_data1)) = true
  · rw [if_pos c4] at h; exact hd _ h
  rw [if_neg c4] at h
  by_cases c5 : (decide (form = DW_FORM_ref2) || decide (form = DW_FORM_data2)) = true
  · rw [if_pos c5] at h; exact hd _ h
  rw [if_neg c5] at h
  by_cases c6 : (decide (form = DW_FORM_ref4) || decide (form = DW_FORM_data4)
      || decide (form = DW_FORM_sec_offset)) = true
  · rw [if_pos c6] at h; exact hd _ h
  rw [if_neg c6] at h
  by_cases c7 : (decide (form = DW_FORM_ref8) || decide (form = DW_FORM_data8)
      || decide (form = DW_FORM_ref_sig8)) = true
  · rw [if_pos c7] at h; exact hd _ h
  rw [if_neg c7] at h
  by_cases c8 : (decide (form = DW_FORM_sdata) || decide (form = DW_FORM_ref_udata)
      || decide (form = DW_FORM_udata)) = true
  · rw [if_pos c8] at h
    exact hu _ _ (fun x => hd _) h
  rw [if_neg c8] at h
  by_cases c9 : form = DW_FORM_strp
  · rw [if_pos c9] at h; exact hd _ h
  rw [if_neg c9] at h
  by_cases c10 : form = DW_FORM_string
  · rw [if_pos c10] at h
    rcases bind_eq_error.mp h with h1 | ⟨x, _, h2⟩
    · exact cstr_nf _ _ h1
    · exact hd _ h2
  rw [if_neg c10] at h
  by_cases c11 : form = DW_FORM_indirect
  · rw [if_pos c11] at h
    exact hu _ _ (fun x => hd _) h
  rw [if_neg c11] at h
  by_cases c12 : form = DW_FORM_block1
  · rw [if_pos c12] at h
    rcases bind_eq_error.mp h with h1 | ⟨x, _, h2⟩
    · exact rd_nf _ _ h1
    · exact hd _ h2
  rw [if_neg c12] at h
  by_cases c13 : form = DW_FORM_block2
  · rw [if_pos c13] at h
    rcases bind_eq_error.mp h with h1 | ⟨x, _, h2⟩
    · exact do_read_16_nf _ _ _ h1
    · exact hd _ h2
  rw [if_neg c13] at h
  by_cases c14 : form = DW_FORM_block4
  · rw [if_pos c14] at h
    rcases bind_eq_error.mp h with h1 | ⟨x, _, h2⟩
    · exact do_read_32_nf _ _ _ h1
    · exact hd _ h2
  rw [if_neg c14] at h
  by_cases c15 : (decide (form = DW_FORM_block) || decide (form = DW_FORM_exprloc)) = true
  · rw [if_pos c15] at h
    refine hu _ _ ?_ h
    intro x
    by_cases c16 : x.1 < UINT_MAX
    · simp only [c16, if_true]
      exact hd _
    · simp only [c16, if_false]
      intro hx
      cases hx
  · rw [if_neg c15] at h
    exact hd _ h

/-- A pass that ends in `continue` has read the new form at the pointer. -/
theorem form_step_again_read {msb : Bool} {ps cv : Nat} {m : List Nat} {form ptr f p : Nat}
    (h : form_step msb ps cv m form ptr = .ok (.again f p)) :
    read_uleb128 m ptr = .ok (f, p) := by
  have hf := form_step_again h
  subst hf
  cases hr : read_uleb128 m ptr with
  | error e =>
    have : form_step msb ps cv m DW_FORM_indirect ptr = .error e := by
      unfold form_step
      simp only [DW_FORM_block, DW_FORM_ref_addr, DW_FORM_flag_present, DW_FORM_addr,
        DW_FORM_ref1, DW_FORM_flag, DW_FORM_data1, DW_FORM_ref2, DW_FORM_data2, DW_FORM_ref4,
        DW_FORM_data4, DW_FORM_sec_offset, DW_FORM_ref8, DW_FORM_data8, DW_FORM_ref_sig8,
        DW_FORM_sdata, DW_FORM_ref_udata, DW_FORM_udata, DW_FORM_strp, DW_FORM_string,
        DW_FORM_indirect, DW_FORM_block1, DW_FORM_block2, DW_FORM_block4, DW_FORM_exprloc]
      simp [hr]
    rw [this] at h
    cases h
  | ok x =>
    have := @form_step_indirect msb ps cv m ptr x.1 x.2 hr
    rw [this] at h
    have h2 := ok_inj h
    injection h2 with e1 e2
    rw [← e1, ← e2]

/-- The loop over the forms of one attribute does not run out of fuel:
every `continue` has moved the pointer on inside `.debug_info`. -/
theorem attr_loop_nf {env : Env} {phase tag attr : Nat} :
    ∀ (fuel form : Nat) (a : AttrSt), (info_of a.st).length - a.ptr < fuel →
      attr_loop env phase tag attr fuel form a ≠ .error .fuel := by
  intro fuel
  induction fuel with
  | zero => intro form a h; omega
  | succ n ih =>
    intro form a hf h
    unfold attr_loop at h
    rcases bind_eq_error.mp h with h1 | ⟨a1, h1, k⟩
    · exact attr_actions_nf _ _ _ _ _ _ h1
    rcases bind_eq_error.mp k with h2 | ⟨fs, h2, k2⟩
    · exact form_step_nf _ _ _ _ _ _ h2
    obtain ⟨p1, _⟩ := attr_actions_keep h1
    have l1 := attr_actions_len h1
    cases fs with
    | done p => simp at k2
    | unknown => simp at k2
    | again f p =>
      simp only at k2
      have hr := form_step_again_read h2
      obtain ⟨c, q1, q2, q3, _⟩ := read_uleb128_local hr
      simp only at q1
      refine ih f { a1 with ptr := p } ?_ k2
      simp only
      omega

theorem attrs_loop_nf {env : Env} {phase tag : Nat} :
    ∀ (attrs : List abbrev_attr) (a : AttrSt),
      attrs_loop env phase tag attrs a ≠ .error .fuel := by
  intro attrs
  induction attrs with
  | nil => intro a; simp [attrs_loop]
  | cons at1 rest ih =>
    intro a h
    unfold attrs_loop at h
    rcases bind_eq_error.mp h with h1 | ⟨r, _, k⟩
    · exact attr_loop_nf _ _ _ (by omega) h1
    · by_cases hb : r.1 = true
      · rw [if_pos hb] at k
        exact ih _ k
      · rw [if_neg hb] at k
        cases k

/-! ## The line-header editor does not run out of fuel -/

theorem line_header_nf (msb : Bool) (m : List Nat) (off : Nat) :
    line_header msb m off ≠ .error .fuel := by
  unfold line_header
  simp only [ne_eq, bind_eq_error, do_read_32_nf, false_or, not_exists, not_and]
  intro len _
  split
  · simp
  split
  · simp
  simp only [bind_eq_error, do_read_16_nf, false_or, not_exists, not_and]
  intro v _
  split
  · simp
  simp only [bind_eq_error, do_read_32_nf, false_or, not_exists, not_and]
  intro hl _
  split
  · simp
  simp only [bind_eq_error, rd_nf, false_or, pure_eq_ok, reduceCtorEq, and_false, exists_false,
    not_false_eq_true]

theorem cstr_bound {m : List Nat} {p : Nat} {s : List Nat} (h : cstr m p = .ok s) :
    p + s.length + 1 ≤ m.length := by
  obtain ⟨_, r, hr⟩ := cstr_eq_ok.mp h
  have := congrArg List.length hr
  simp only [List.length_drop, List.length_append, List.length_cons] at this
  omega

theorem dir_table_nf (m : List Nat) : ∀ (fuel ptr : Nat) (dirt : List (Option Nat)),
    m.length - ptr < fuel → dir_table m fuel ptr dirt ≠ .error .fuel := by
  intro fuel
  induction fuel with
  | zero => intro ptr dirt h; omega
  | succ n ih =>
    intro ptr dirt hf h
    unfold dir_table at h
    rcases bind_eq_error.mp h with h1 | ⟨c, _, k⟩
    · exact rd_nf _ _ h1
    by_cases hc : c = 0
    · rw [if_pos hc] at k
      cases k
    rw [if_neg hc] at k
    rcases bind_eq_error.mp k with h2 | ⟨s, hs, k2⟩
    · exact cstr_nf _ _ h2
    have := cstr_bound hs
    exact ih _ _ (by omega) k2

theorem dirt_str_nf (m : List Nat) (e : Option Nat) : dirt_str m e ≠ .error .fuel := by
  unfold dirt_str
  cases e with
  | none => simp
  | some p => exact cstr_nf _ _

theorem count_abs_nf (cfg : Config) (c : Nat) (file : List Nat) (n : Nat) :
    count_abs cfg c file n ≠ .error .fuel := by
  unfold count_abs
  split
  · simp only [ne_eq, bind_eq_error, has_prefix_opt_nf, false_or, pure_eq_ok, reduceCtorEq,
      and_false, exists_false, not_false_eq_true]
  · simp

theorem list_suffix_nf (cfg : Config) (s : List Nat) : list_suffix cfg s ≠ .error .fuel := by
  unfold list_suffix
  cases cfg.base_dir with
  | none => simp
  | some base =>
    simp only
    split
    · simp
    · simp only [ne_eq, bind_eq_error, has_prefix_opt_nf, strlen_opt_nf, false_or, pure_eq_ok,
        reduceCtorEq, and_false, exists_false, not_false_eq_true]

theorem sink_file_nf (cfg : Config) (sink s : List Nat) : sink_file cfg sink s ≠ .error .fuel := by
  unfold sink_file
  split
  · simp only [ne_eq, bind_eq_error, list_suffix_nf, false_or, not_exists, not_and]
    intro p _
    cases p <;> simp
  · simp

theorem read_uleb128_bound {m : List Nat} {p : Nat} {r : Nat × Nat}
    (h : read_uleb128 m p = .ok r) : p + 1 ≤ r.2 ∧ r.2 ≤ m.length := by
  obtain ⟨c, h1, h2, h3, _⟩ := read_uleb128_local h
  omega

theorem file_scan_nf (cfg : Config) (comp_dir m : List Nat) (dirt : List (Option Nat)) :
    ∀ (fuel ptr cnt : Nat) (sink : List Nat), m.length - ptr < fuel →
      file_scan cfg comp_dir m dirt fuel ptr cnt sink ≠ .error .fuel := by
  intro fuel
  induction fuel with
  | zero => intro ptr cnt sink h; omega
  | succ n ih =>
    intro ptr cnt sink hf h
    unfold file_scan at h
    rcases bind_eq_error.mp h with h1 | ⟨c, _, k⟩
    · exact rd_nf _ _ h1
    by_cases hc : c = 0
    · rw [if_pos hc] at k
      cases k
    rw [if_neg hc] at k
    rcases bind_eq_error.mp k with h2 | ⟨s, hs, k2⟩
    · exact cstr_nf _ _ h2
    rcases bind_eq_error.mp k2 with h3 | ⟨v, hv, k3⟩
    · exact read_uleb128_nf _ _ h3
    by_cases hd : v.1 ≥ dirt.length
    · rw [if_pos hd] at k3
      cases k3
    rw [if_neg hd] at k3
    rcases bind_eq_error.mp k3 with h4 | ⟨d, _, k4⟩
    · exact dirt_str_nf _ _ h4
    rcases bind_eq_error.mp k4 with h5 | ⟨cn, _, k5⟩
    · exact count_abs_nf _ _ _ _ h5
    rcases bind_eq_error.mp k5 with h6 | ⟨sk, _, k6⟩
    · exact sink_file_nf _ _ _ h6
    rcases bind_eq_error.mp k6 with h7 | ⟨u1, hu1, k7⟩
    · exact read_uleb128_nf _ _ h7
    rcases bind_eq_error.mp k7 with h8 | ⟨u2, hu2, k8⟩
    · exact read_uleb128_nf _ _ h8
    have b0 := cstr_bound hs
    have b1 := read_uleb128_bound hv
    have b2 := read_uleb128_bound hu1
    have b3 := read_uleb128_bound hu2
    exact ih _ _ _ (by omega) k8

/-! ## The rewriting loops do not run out of fuel -/

theorem make_win_path_at_len {m m' : List Nat} {p : Nat} (h : make_win_path_at m p = .ok m') :
    m'.length = m.length := by
  unfold make_win_path_at at h
  obtain ⟨s, _, k⟩ := bind_eq_ok.mp h
  exact wr_length k

/-- One pass of the directory loop moves `srcptr` past the entry and keeps
the length of the section. -/
theorem dir_entry_adv {w : Bool} {base dest : List Nat} {buf : Option (List Nat)}
    {st st' : LineRw} {c : Nat} {orig : List Nat}
    (h : dir_entry w base dest buf st c orig = .ok st') :
    st'.srcptr = st.srcptr + (orig.length + 1) ∧ st'.mem.length = st.mem.length := by
  unfold dir_entry at h
  simp only at h
  obtain ⟨mem1, h1, k1⟩ := bind_eq_ok.mp h
  obtain ⟨mem2, h2, k2⟩ := bind_eq_ok.mp k1
  obtain ⟨mem3, h3, k3⟩ := bind_eq_ok.mp k2
  obtain ⟨out, _, k4⟩ := bind_eq_ok.mp k3
  clear h k1 k2 k3
  have l1 : mem1.length = st.mem.length := by
    by_cases hc : (decide (c = 47) && has_prefix orig base) = true
    · rw [if_pos hc] at h1
      exact wr_length h1
    · rw [if_neg hc] at h1
      rw [← ok_inj h1]
  have l2 : mem2.length = mem1.length := by
    unfold canonicalize_path_at at h2
    obtain ⟨s, _, k⟩ := bind_eq_ok.mp h2
    exact wr_length k
  have l3 : mem3.length = mem2.length := by
    by_cases hc : w = true
    · rw [if_pos hc] at h3
      exact make_win_path_at_len h3
    · rw [if_neg hc] at h3
      rw [← ok_inj h3]
  by_cases hover : out.length + 1 > orig.length + 1
  · rw [if_pos hover] at k4
    cases k4
  · rw [if_neg hover] at k4
    rw [← ok_inj k4]
    exact ⟨rfl, by simp only; omega⟩

theorem dir_entry_nf (w : Bool) (base dest : List Nat) (buf : Option (List Nat))
    (st : LineRw) (c : Nat) (orig : List Nat) :
    dir_entry w base dest buf st c orig ≠ .error .fuel := by
  intro h
  unfold dir_entry at h
  simp only at h
  rcases bind_eq_error.mp h with h1 | ⟨mem1, _, k1⟩
  · revert h1
    split
    · exact wr_nf _ _ _
    · simp
  rcases bind_eq_error.mp k1 with h2 | ⟨mem2, _, k2⟩
  · exact canonicalize_path_at_nf _ _ _ _ h2
  rcases bind_eq_error.mp k2 with h3 | ⟨mem3, _, k3⟩
  · exact win_step_nf _ _ _ h3
  rcases bind_eq_error.mp k3 with h4 | ⟨out, _, k4⟩
  · exact cstr_nf _ _ h4
  revert k4
  split <;> simp

theorem src_of_len_eq (buf : Option (List Nat)) {m1 m2 : List Nat} (h : m1.length = m2.length) :
    (src_of buf m1).length = (src_of buf m2).length := by
  cases buf with
  | none => simpa [src_of] using h
  | some B => simp [src_of]

theorem dir_rewrite_nf (w : Bool) (base dest : List Nat) (buf : Option (List Nat)) :
    ∀ (fuel : Nat) (st : LineRw), (src_of buf st.mem).length - st.srcptr < fuel →
      dir_rewrite w base dest buf fuel st ≠ .error .fuel := by
  intro fuel
  induction fuel with
  | zero => intro st h; omega
  | succ n ih =>
    intro st hf h
    unfold dir_rewrite at h
    rcases bind_eq_error.mp h with h1 | ⟨c, _, k⟩
    · exact rd_nf _ _ h1
    by_cases hc : c = 0
    · rw [if_pos hc] at k
      cases k
    rw [if_neg hc] at k
    rcases bind_eq_error.mp k with h2 | ⟨s, hs, k2⟩
    · exact cstr_nf _ _ h2
    rcases bind_eq_error.mp k2 with h3 | ⟨st1, hst1, k3⟩
    · exact dir_entry_nf _ _ _ _ _ _ _ h3
    obtain ⟨a1, a2⟩ := dir_entry_adv hst1
    have b := cstr_bound hs
    have l := src_of_len_eq buf a2
    exact ih st1 (by omega) k3

theorem dir_rewrite_len {w : Bool} {base dest : List Nat} {buf : Option (List Nat)} :
    ∀ (fuel : Nat) (st st' : LineRw), dir_rewrite w base dest buf fuel st = .ok st' →
      st'.mem.length = st.mem.length := by
  intro fuel
  induction fuel with
  | zero => intro st st' h; simp [dir_rewrite] at h
  | succ n ih =>
    intro st st' h
    unfold dir_rewrite at h
    obtain ⟨c, _, k⟩ := bind_eq_ok.mp h
    by_cases hc : c = 0
    · rw [if_pos hc] at k
      rw [← ok_inj k]
    rw [if_neg hc] at k
    obtain ⟨s, _, k2⟩ := bind_eq_ok.mp k
    obtain ⟨st1, hst1, k3⟩ := bind_eq_ok.mp k2
    rw [ih _ _ k3, (dir_entry_adv hst1).2]

theorem fill_shrank_nf (st : LineRw) : fill_shrank st ≠ .error .fuel := by
  unfold fill_shrank
  split
  · simp only
    split
    · simp
    · simp only [ne_eq, bind_eq_error, memset_nf, wr_nf, false_or, pure_eq_ok, reduceCtorEq,
        and_false, exists_false, not_false_eq_true]
  · simp

theorem fill_shrank_len {st st' : LineRw} (h : fill_shrank st = .ok st') :
    st'.mem.length = st.mem.length := by
  unfold fill_shrank at h
  by_cases h0 : st.shrank > 0
  · rw [if_pos h0] at h
    simp only at h
    by_cases h1 : st.shrank - 1 = 0
    · rw [if_pos h1] at h; cases h
    · rw [if_neg h1] at h
      obtain ⟨mem1, hm1, k1⟩ := bind_eq_ok.mp h
      obtain ⟨mem2, hm2, k2⟩ := bind_eq_ok.mp k1
      rw [memset_eq_wr] at hm1
      rw [← ok_inj k2]
      simp only
      rw [wr_length hm2, wr_length hm1]
  · rw [if_neg h0] at h
    rw [← ok_inj h]

theorem fill_abs_nf (b d afc : Nat) (st : LineRw) : fill_abs b d afc st ≠ .error .fuel := by
  unfold fill_abs
  split
  · simp only
    split
    · simp
    · simp only [ne_eq, bind_eq_error, memset_nf, wr_nf, false_or, pure_eq_ok, reduceCtorEq,
        and_false, exists_false, not_false_eq_true]
  · simp

theorem fill_abs_len {b d afc : Nat} {st st' : LineRw} (h : fill_abs b d afc st = .ok st') :
    st'.mem.length = st.mem.length := by
  unfold fill_abs at h
  by_cases h0 : st.abs_dir_cnt + afc ≠ 0
  · rw [if_pos h0] at h
    simp only at h
    split at h
    · cases h
    · obtain ⟨mem1, hm1, k1⟩ := bind_eq_ok.mp h
      obtain ⟨mem2, hm2, k2⟩ := bind_eq_ok.mp k1
      rw [memset_eq_wr] at hm1
      rw [← ok_inj k2]
      simp only
      rw [wr_length hm2, wr_length hm1]
  · rw [if_neg h0] at h
    rw [← ok_inj h]

theorem file_name_nf (base dest : List Nat) (buf : Option (List Nat)) (mem : List Nat)
    (srcptr ptr : Nat) (dirty : Bool) (c : Nat) (name : List Nat) :
    file_name base dest buf mem srcptr ptr dirty c name ≠ .error .fuel := by
  unfold file_name
  simp only
  split
  · simp only [ne_eq, bind_eq_error, wr_nf, false_or, not_exists, not_and]
    intro m1 _
    split
    · simp only [bind_eq_error, rdn_nf, wr_nf, false_or, pure_eq_ok, reduceCtorEq, and_false,
        exists_false, not_false_eq_true]
    · simp
  · split
    · simp only [ne_eq, bind_eq_error, rdn_nf, wr_nf, false_or, pure_eq_ok, reduceCtorEq,
        and_false, exists_false, not_false_eq_true]
    · simp

theorem file_name_len {base dest : List Nat} {buf : Option (List Nat)} {mem : List Nat}
    {srcptr ptr : Nat} {dirty : Bool} {c : Nat} {name : List Nat} {r : List Nat × Nat × Bool}
    (h : file_name base dest buf mem srcptr ptr dirty c name = .ok r) :
    r.1.length = mem.length := by
  unfold file_name at h
  simp only at h
  split at h
  · obtain ⟨m1, hm1, k1⟩ := bind_eq_ok.mp h
    split at k1
    · obtain ⟨tl, _, k2⟩ := bind_eq_ok.mp k1
      obtain ⟨m2, hm2, k3⟩ := bind_eq_ok.mp k2
      rw [← ok_inj k3]
      simp only
      rw [wr_length hm2, wr_length hm1]
    · rw [← ok_inj k1]
      exact wr_length hm1
  · split at h
    · obtain ⟨bs, _, k2⟩ := bind_eq_ok.mp h
      obtain ⟨m2, hm2, k3⟩ := bind_eq_ok.mp k2
      rw [← ok_inj k3]
      exact wr_length hm2
    · rw [← ok_inj h]

theorem file_ulebs_nf (buf : Option (List Nat)) (mem : List Nat) (dir ptr : Nat) :
    file_ulebs buf mem dir ptr ≠ .error .fuel := by
  unfold file_ulebs
  simp only [ne_eq, bind_eq_error, read_uleb128_nf, false_or, not_exists, not_and]
  intro u1 _ u2 _ u3 _
  split
  · simp only [bind_eq_error, rdn_nf, wr_nf, false_or, pure_eq_ok, reduceCtorEq, and_false,
      exists_false, not_false_eq_true]
  · simp

theorem file_ulebs_adv {buf : Option (List Nat)} {mem : List Nat} {dir ptr : Nat}
    {r : List Nat × Nat × Nat} (h : file_ulebs buf mem dir ptr = .ok r) :
    r.1.length = mem.length ∧ dir + 1 ≤ r.2.1 ∧ r.2.1 ≤ (src_of buf mem).length := by
  unfold file_ulebs at h
  obtain ⟨u1, h1, k1⟩ := bind_eq_ok.mp h
  obtain ⟨u2, h2, k2⟩ := bind_eq_ok.mp k1
  obtain ⟨u3, h3, k3⟩ := bind_eq_ok.mp k2
  have b1 := read_uleb128_bound h1
  have b2 := read_uleb128_bound h2
  have b3 := read_uleb128_bound h3
  simp only at k3
  split at k3
  · obtain ⟨bs, _, k4⟩ := bind_eq_ok.mp k3
    obtain ⟨m2, hm2, k5⟩ := bind_eq_ok.mp k4
    rw [← ok_inj k5]
    exact ⟨wr_length hm2, by simp only; omega, by simp only; omega⟩
  · rw [← ok_inj k3]
    exact ⟨rfl, by simp only; omega, by simp only; omega⟩

theorem file_rewrite_nf (base dest : List Nat) (buf : Option (List Nat)) :
    ∀ (fuel : Nat) (mem : List Nat) (srcptr ptr : Nat) (dirty : Bool),
      (src_of buf mem).length - srcptr < fuel →
      file_rewrite base dest buf fuel mem srcptr ptr dirty ≠ .error .fuel := by
  intro fuel
  induction fuel with
  | zero => intro mem srcptr ptr dirty h; omega
  | succ n ih =>
    intro mem srcptr ptr dirty hf h
    unfold file_rewrite at h
    rcases bind_eq_error.mp h with h1 | ⟨c, _, k⟩
    · exact rd_nf _ _ h1
    by_cases hc : c = 0
    · rw [if_pos hc] at k
      cases k
    rw [if_neg hc] at k
    rcases bind_eq_error.mp k with h2 | ⟨s, hs, k2⟩
    · exact cstr_nf _ _ h2
    rcases bind_eq_error.mp k2 with h3 | ⟨r, hr, k3⟩
    · exact file_name_nf _ _ _ _ _ _ _ _ _ h3
    rcases bind_eq_error.mp k3 with h4 | ⟨u, hu, k4⟩
    · exact file_ulebs_nf _ _ _ _ h4
    obtain ⟨a1, a2, a3⟩ := file_ulebs_adv hu
    have l1 := file_name_len hr
    have l2 := src_of_len_eq buf l1
    have l3 := src_of_len_eq buf a1
    exact ih _ _ _ _ (by omega) k4

theorem buf_step_nf (c : Prop) [Decidable c] (m : List Nat) (dir n : Nat) :
    (if c then (rdn m dir n).map some else pure none) ≠ .error .fuel := by
  by_cases hc : c
  · rw [if_pos hc]
    cases hr : rdn m dir n with
    | error e =>
      have := rdn_nf m dir n
      rw [hr] at this
      intro h2
      apply this
      simp only [Except.map] at h2
      cases h2
      rfl
    | ok bs => simp [Except.map]
  · rw [if_neg hc]
    simp

theorem buf_step_len {c : Prop} [Decidable c] {m : List Nat} {dir n : Nat}
    {buf : Option (List Nat)}
    (h : (if c then (rdn m dir n).map some else pure none) = .ok buf) :
    (src_of buf m).length ≤ m.length := by
  by_cases hc : c
  · rw [if_pos hc] at h
    cases hr : rdn m dir n with
    | error e => rw [hr] at h; simp [Except.map] at h
    | ok bs =>
      rw [hr] at h
      simp only [Except.map] at h
      rw [← ok_inj h]
      obtain ⟨q1, q2⟩ := rdn_eq_ok.mp hr
      simp only [src_of, Option.getD_some]
      rw [q2]
      simp only [List.length_take, List.length_drop]
      omega
  · rw [if_neg hc] at h
    rw [← ok_inj h]
    simp [src_of]

theorem line_rewrite_nf (cfg : Config) (dest m : List Nat) (dir ptr afc : Nat) :
    line_rewrite cfg dest m dir ptr afc ≠ .error .fuel := by
  intro h
  unfold line_rewrite at h
  rcases bind_eq_error.mp h with h1 | ⟨bl, _, k1⟩
  · exact strlen_opt_nf _ h1
  simp only at k1
  rcases bind_eq_error.mp k1 with h2 | ⟨buf, hbuf, k2⟩
  · exact buf_step_nf _ _ _ _ h2
  have hsrc : (src_of buf m).length ≤ m.length := buf_step_len hbuf
  rcases bind_eq_error.mp k2 with h3 | ⟨st1, hst1, k3⟩
  · exact dir_rewrite_nf _ _ _ _ _ _ (by simp only; omega) h3
  have l1 := dir_rewrite_len _ _ _ hst1
  simp only at l1
  rcases bind_eq_error.mp k3 with h4 | ⟨st2, hst2, k4⟩
  · exact fill_shrank_nf _ h4
  have l2 := fill_shrank_len hst2
  rcases bind_eq_error.mp k4 with h5 | ⟨st3, hst3, k5⟩
  · exact fill_abs_nf _ _ _ _ h5
  have l3 := fill_abs_len hst3
  rcases bind_eq_error.mp k5 with h6 | ⟨mem4, hm4, k6⟩
  · exact wr_nf _ _ _ h6
  have l4 := wr_length hm4
  have l5 : (src_of buf mem4).length ≤ m.length := by
    have := src_of_len_eq buf (show mem4.length = m.length by omega)
    omega
  rcases bind_eq_error.mp k6 with h7 | ⟨r, _, k7⟩
  · exact file_rewrite_nf _ _ _ _ _ _ _ _ (by omega) h7
  rcases bind_eq_error.mp k7 with h8 | ⟨m5, _, k8⟩
  · exact wr_nf _ _ _ h8
  cases k8

/-- The line-header editor does not run out of fuel. -/
theorem edit_dwarf2_line_nf (cfg : Config) (msb : Bool) (st : St) (off : Nat)
    (comp_dir : List Nat) (phase : Nat) :
    edit_dwarf2_line cfg msb st off comp_dir phase ≠ .error .fuel := by
  intro h
  unfold edit_dwarf2_line at h
  by_cases hp : phase ≠ 0
  · rw [if_pos hp] at h
    cases h
  rw [if_neg hp] at h
  cases hl : st.debug_line with
  | none =>
    rw [hl] at h
    cases h
  | some m =>
    rw [hl] at h
    simp only at h
    rcases bind_eq_error.mp h with h1 | ⟨hdr, _, k⟩
    · exact line_header_nf _ _ _ h1
    cases hdr with
    | none => cases k
    | some dir =>
      simp only at k
      rcases bind_eq_error.mp k with h2 | ⟨dt, _, k1⟩
      · exact dir_table_nf _ _ _ _ (by omega) h2
      rcases bind_eq_error.mp k1 with h3 | ⟨fs, _, k2⟩
      · exact file_scan_nf _ _ _ _ _ _ _ _ (by omega) h3
      by_cases hr : fs.ret ≠ 0
      · rw [if_pos hr] at k2
        cases k2
      rw [if_neg hr] at k2
      cases hd : cfg.dest_dir with
      | none =>
        rw [hd] at k2
        cases k2
      | some dest =>
        rw [hd] at k2
        simp only at k2
        rcases bind_eq_error.mp k2 with h4 | ⟨r1, _, k3⟩
        · exact line_rewrite_nf _ _ _ _ _ _ h4
        · cases k3

/-! ## The DIE loop does not run out of fuel -/

theorem edit_attributes_nf (env : Env) (st : St) (ptr : Nat) (t : abbrev_tag) (phase : Nat) :
    edit_attributes env st ptr t phase ≠ .error .fuel := by
  intro h
  unfold edit_attributes at h
  rcases bind_eq_error.mp h with h1 | ⟨r, _, k⟩
  · exact attrs_loop_nf _ _ h1
  simp only at k
  by_cases hb : r.1 = true
  · rw [if_pos hb] at k
    cases hc : r.2.comp_dir with
    | none =>
      rw [hc] at k
      cases k
    | some cd =>
      rw [hc] at k
      simp only at k
      by_cases hf : r.2.found_list_offs = true
      · rw [if_pos hf] at k
        rcases bind_eq_error.mp k with h2 | ⟨r2, _, k2⟩
        · exact edit_dwarf2_line_nf _ _ _ _ _ _ h2
        · cases k2
      · rw [if_neg hf] at k
        cases k
  · rw [if_neg hb] at k
    cases k

/-- The loop over the DIEs of a unit does not run out of fuel: every pass
has moved the pointer on inside `.debug_info`, whose length stays. -/
theorem die_loop_nf {env : Env} {abbr : List abbrev_tag} {phase endcu : Nat} :
    ∀ (fuel ptr : Nat) (st : St), (info_of st).length - ptr < fuel →
      die_loop env abbr phase endcu fuel ptr st ≠ .error .fuel := by
  intro fuel
  induction fuel with
  | zero => intro ptr st h; omega
  | succ n ih =>
    intro ptr st hf h
    unfold die_loop at h
    by_cases hp : ptr < endcu
    · rw [if_pos hp] at h
      rcases bind_eq_error.mp h with h1 | ⟨x, hx, k⟩
      · exact read_uleb128_nf _ _ h1
      obtain ⟨b1, b2⟩ := read_uleb128_bound hx
      obtain ⟨entry, p⟩ := x
      simp only at k b1 b2
      by_cases he : entry = 0
      · rw [if_pos he] at k
        exact ih p st (by omega) k
      rw [if_neg he] at k
      cases ht : htab_find abbr entry with
      | none =>
        rw [ht] at k
        cases k
      | some t =>
        rw [ht] at k
        simp only at k
        rcases bind_eq_error.mp k with h2 | ⟨r, hr, k2⟩
        · exact edit_attributes_nf _ _ _ _ _ h2
        obtain ⟨l1, l2⟩ := edit_attributes_step hr
        cases hq : r.1 with
        | none =>
          rw [hq] at k2
          cases k2
        | some q =>
          rw [hq] at k2
          simp only at k2
          have := l2 q hq
          exact ih q r.2 (by omega) k2
    · rw [if_neg hp] at h
      cases h

/-! ## `canonicalize_path` on a canonical path: the `..` branch -/

theorem skip_seps_id {s : List Nat} (h : s.head? ≠ some 47) : skip_seps s = s := by
  cases s with
  | nil => rfl
  | cons c t =>
    have hc : c ≠ 47 := by
      intro e
      apply h
      rw [e]
      rfl
    simp [skip_seps, IS_DIR_SEPARATOR, hc]

theorem back_seps_succ (out : List Nat) (droot n : Nat) :
    back_seps out droot (n + 1)
      = if droot < n + 1 && IS_DIR_SEPARATOR (out.getD (n + 1) 0) then back_seps out droot n
        else n + 1 := rfl

theorem back_seg_succ (out : List Nat) (droot n : Nat) :
    back_seg out droot (n + 1)
      = if droot < n + 1 && !IS_DIR_SEPARATOR (out.getD (n + 1) 0) then back_seg out droot n
        else n + 1 := rfl

theorem back_seps_low (out : List Nat) (droot n : Nat) (h : n ≤ droot) :
    back_seps out droot n = n := by
  cases n with
  | zero => rfl
  | succ k =>
    rw [back_seps_succ, if_neg]
    simp only [Bool.and_eq_true, decide_eq_true_eq, not_and]
    intro hlt
    omega

theorem back_seg_low (out : List Nat) (droot n : Nat) (h : n ≤ droot) :
    back_seg out droot n = n := by
  cases n with
  | zero => rfl
  | succ k =>
    rw [back_seg_succ, if_neg]
    simp only [Bool.and_eq_true, decide_eq_true_eq, not_and]
    intro hlt
    omega

/-- Nothing but the root has been written: the two dots are copied. -/
theorem canon_dotdot_copy_root (droot : Nat) (s out : List Nat) (h : out.length = droot) :
    canon_dotdot droot s out = (s.drop 2, out ++ s.take 2) := by
  unfold canon_dotdot
  by_cases h0 : out.length = 0
  · rw [if_pos h0]
  · rw [if_neg h0]
    simp only
    rw [back_seps_low out droot (out.length - 1) (by omega)]
    rw [if_neg]
    simp only [Bool.and_eq_true, decide_eq_true_eq, not_and]
    intro hle
    omega

/-- The output ends with a segment `..` and its separator, which starts
at `n`: the two dots are copied. -/
theorem canon_dotdot_copy_run (droot n : Nat) (s out : List Nat) (hlen : out.length = n + 3)
    (hd : droot ≤ n) (h2 : out.getD (n + 2) 0 = 47) (h1 : out.getD (n + 1) 0 = 46)
    (h0 : out.getD n 0 = 46) (hprev : droot < n → droot + 2 ≤ n ∧ out.getD (n - 1) 0 = 47) :
    canon_dotdot droot s out = (s.drop 2, out ++ s.take 2) := by
  have s47 : IS_DIR_SEPARATOR 47 = true := rfl
  have s46 : IS_DIR_SEPARATOR 46 = false := rfl
  have e1 : back_seps out droot (n + 2) = n + 1 := by
    rw [back_seps_succ, if_pos (by rw [h2, s47]; simp; omega), back_seps_succ, if_neg]
    rw [h1, s46]
    simp
  have e2 : back_seg out droot (n + 1) = if droot < n then n - 1 else n := by
    rw [back_seg_succ, if_pos (by rw [h1, s46]; simp; omega)]
    by_cases hlt : droot < n
    · rw [if_pos hlt]
      obtain ⟨k, rfl⟩ : ∃ k, n = k + 1 := ⟨n - 1, by omega⟩
      rw [back_seg_succ, if_pos (by rw [h0, s46]; simp; omega)]
      have hp := (hprev hlt).2
      simp only [Nat.add_sub_cancel] at hp ⊢
      cases k with
      | zero => rfl
      | succ j =>
        rw [back_seg_succ, if_neg]
        rw [hp, s47]
        simp
    · rw [if_neg hlt]
      exact back_seg_low out droot n (by omega)
  unfold canon_dotdot
  rw [if_neg (by omega)]
  simp only
  have e0 : out.length - 1 = n + 2 := by omega
  rw [e0, e1, if_pos (by rw [h1, s46]; simp; omega), e2]
  have e3 : (if droot < (if droot < n then n - 1 else n) then (if droot < n then n - 1 else n) + 1
      else (if droot < n then n - 1 else n)) = n := by
    by_cases hlt : droot < n
    · rw [if_pos hlt]
      have hp := (hprev hlt).1
      rw [if_pos (by omega)]
      omega
    · rw [if_neg hlt, if_neg hlt]
  rw [e3, if_pos]
  rw [hlen, h0, h1]
  simp

/-- After a run of segments `..` the two dots are copied. -/
theorem canon_dotdot_copy {droot : Nat} (s : List Nat) {out : List Nat} (hd : droot ≤ out.length)
    (hrun : DotsRun out droot out.length)
    (hhead : out.length = droot ∨ out[out.length - 1]? = some 47) :
    canon_dotdot droot s out = (s.drop 2, out ++ s.take 2) := by
  by_cases h0 : out.length = droot
  · exact canon_dotdot_copy_root droot s out h0
  · have hlast : out[out.length - 1]? = some 47 := by
      rcases hhead with h | h
      · exact absurd h h0
      · exact h
    have hj := hrun (out.length - 1) (by omega) (by omega)
    rw [hlast] at hj
    have hm : (out.length - 1 - droot) % 3 = 2 := by
      by_contra hne
      rw [if_neg hne] at hj
      cases hj
    obtain ⟨n, hn⟩ : ∃ n, out.length = n + 3 := ⟨out.length - 3, by omega⟩
    have g2 := hrun (n + 2) (by omega) (by omega)
    have g1 := hrun (n + 1) (by omega) (by omega)
    have g0 := hrun n (by omega) (by omega)
    rw [if_pos (by omega)] at g2
    rw [if_neg (by omega)] at g1 g0
    refine canon_dotdot_copy_run droot n s out hn (by omega) (getD_eq_of_getElem? g2)
      (getD_eq_of_getElem? g1) (getD_eq_of_getElem? g0) ?_
    intro hlt
    have g := hrun (n - 1) (by omega) (by omega)
    rw [if_pos (by omega)] at g
    exact ⟨by omega, getD_eq_of_getElem? g⟩

/-- The end of a pass of the main loop, when what has been written and what
is left make up the canonical path `R`: the separator that follows, if
any, is copied, and the next byte starts a segment. -/
theorem canon_finish_copy {R : List Nat} {r : List Nat × List Nat} (hr : r.2 ++ r.1 = R)
    (hnext : ∀ b s1, r.1 = b :: s1 → b = 47 ∧ s1.head? ≠ some 47) :
    (match r.1 with
      | [] => r
      | c :: s1 => if IS_DIR_SEPARATOR c then (skip_seps s1, r.2 ++ [c]) else r).2 ++
    (match r.1 with
      | [] => r
      | c :: s1 => if IS_DIR_SEPARATOR c then (skip_seps s1, r.2 ++ [c]) else r).1 = R ∧
    (match r.1 with
      | [] => r
      | c :: s1 => if IS_DIR_SEPARATOR c then (skip_seps s1, r.2 ++ [c]) else r).1.length
        ≤ r.1.length ∧
    r.2.length ≤ (match r.1 with
      | [] => r
      | c :: s1 => if IS_DIR_SEPARATOR c then (skip_seps s1, r.2 ++ [c]) else r).2.length ∧
    ((match r.1 with
      | [] => r
      | c :: s1 => if IS_DIR_SEPARATOR c then (skip_seps s1, r.2 ++ [c]) else r).1 = [] ∨
     ((match r.1 with
      | [] => r
      | c :: s1 => if IS_DIR_SEPARATOR c then (skip_seps s1, r.2 ++ [c]) else r).2.getLast?
        = some 47 ∧
      (match r.1 with
      | [] => r
      | c :: s1 => if IS_DIR_SEPARATOR c then (skip_seps s1, r.2 ++ [c]) else r).1.head?
        ≠ some 47)) := by
  cases hr1 : r.1 with
  | nil =>
    simp only
    rw [hr1] at hr
    exact ⟨by rw [hr1]; exact hr, by rw [hr1], Nat.le_refl _, Or.inl hr1⟩
  | cons b s1 =>
    obtain ⟨hb, hs1⟩ := hnext b s1 hr1
    subst hb
    have hsep : IS_DIR_SEPARATOR 47 = true := rfl
    simp only [hsep, if_true]
    rw [skip_seps_id hs1]
    rw [hr1] at hr
    refine ⟨by simpa using hr, by simp, by simp, Or.inr ⟨by simp, hs1⟩⟩

theorem getElem?_append_add (out X : List Nat) (j : Nat) :
    (out ++ X)[out.length + j]? = X[j]? := by
  rw [List.getElem?_append_right (by omega)]
  congr 1
  omega

/-- In a path without a double separator the byte after a separator is not
a separator. -/
theorem sep_next_ok {R Y s1 : List Nat} {b : Nat} (hR : Y ++ b :: s1 = R) (hY : Y ≠ [])
    (hb : b = 47) (hdbl : ∀ i, 1 ≤ i → ¬ (R[i]? = some 47 ∧ R[i + 1]? = some 47)) :
    s1.head? ≠ some 47 := by
  intro h
  have hpos : 0 < Y.length := List.length_pos.mpr hY
  apply hdbl Y.length hpos
  rw [← hR]
  constructor
  · have := getElem?_append_add Y (b :: s1) 0
    rw [Nat.add_zero] at this
    rw [this, hb]
    simp
  · rw [getElem?_append_add Y (b :: s1) 1]
    cases s1 with
    | nil => cases h
    | cons x y =>
      simp only [List.head?_cons, Option.some.injEq] at h
      simp [h]

theorem headForm_pos {droot : Nat} {out : List Nat} (h : HeadForm droot out)
    (hne : out.length ≠ droot) : 0 < out.length ∧ out[out.length - 1]? = some 47 := by
  rcases h with h | h
  · exact absurd h hne
  · refine ⟨?_, h⟩
    rcases Nat.eq_zero_or_pos out.length with h0 | h0
    · rw [List.length_eq_zero] at h0
      subst h0
      simp at h
    · exact h0

/-- One pass of the main loop over a canonical path `R`, entered at the start
of a segment with `out` written and `c :: t` left: the pass copies the
segment and the separator after it. -/
theorem canon_step_copy {R out t : List Nat} {droot c : Nat}
    (hR : out ++ c :: t = R)
    (hdbl : ∀ i, 1 ≤ i → ¬ (R[i]? = some 47 ∧ R[i + 1]? = some 47))
    (hdot : ∀ i, R[i]? = some 46 → (i = 0 ∨ R[i - 1]? = some 47) →
      ∃ c, R[i + 1]? = some c ∧ c ≠ 47)
    (hdd : DotsFirst droot R)
    (hd : droot ≤ out.length)
    (hroot : 0 < droot → R[droot - 1]? = some 47)
    (hhead : HeadForm droot out) (hc : c ≠ 47) :
    (canon_step droot (c :: t) out).2 ++ (canon_step droot (c :: t) out).1 = R ∧
    (canon_step droot (c :: t) out).1.length < (c :: t).length ∧
    droot ≤ (canon_step droot (c :: t) out).2.length ∧
    ((canon_step droot (c :: t) out).1 = [] ∨
      ((canon_step droot (c :: t) out).2.getLast? = some 47 ∧
        (canon_step droot (c :: t) out).1.head? ≠ some 47)) := by
  have hRi : ∀ j, R[out.length + j]? = (c :: t)[j]? := by
    intro j
    rw [← hR]
    exact getElem?_append_add out (c :: t) j
  have hprev : ∀ j, j < out.length → R[j]? = out[j]? := by
    intro j hj
    rw [← hR]
    exact List.getElem?_append_left hj
  have hstart : out.length = droot ∨ R[out.length - 1]? = some 47 := by
    by_cases h0 : out.length = droot
    · exact Or.inl h0
    · obtain ⟨hp, hl⟩ := headForm_pos hhead h0
      right
      rw [hprev _ (by omega)]
      exact hl
  have hstart0 : out.length = 0 ∨ R[out.length - 1]? = some 47 := by
    rcases hstart with h | h
    · by_cases h0 : droot = 0
      · left; omega
      · right
        rw [h]
        exact hroot (by omega)
    · exact Or.inr h
  have hc0 : R[out.length]? = some c := by
    have := hRi 0
    rw [Nat.add_zero] at this
    rw [this]
    simp
  unfold canon_step
  simp only
  have c1 : ¬ ((c :: t).head? = some 46 && end_or_sep ((c :: t).drop 1)) = true := by
    intro h
    simp only [Bool.and_eq_true, decide_eq_true_eq, List.head?_cons, Option.some.injEq,
      List.drop_succ_cons, List.drop_zero] at h
    obtain ⟨h46, hend⟩ := h
    subst h46
    obtain ⟨x, hx, hx47⟩ := hdot out.length hc0 hstart0
    rw [hRi 1] at hx
    cases t with
    | nil => cases hx
    | cons b u =>
      have hb : b = x := by simpa using hx
      have : IS_DIR_SEPARATOR b = true := hend
      rw [sep_iff] at this
      exact hx47 (hb ▸ this)
  rw [if_neg c1]
  by_cases c2 : ((c :: t).head? = some 46 && ((c :: t).drop 1).head? = some 46 &&
      end_or_sep ((c :: t).drop 2)) = true
  · rw [if_pos c2]
    simp only [Bool.and_eq_true, decide_eq_true_eq, List.head?_cons, Option.some.injEq,
      List.drop_succ_cons, List.drop_zero] at c2
    obtain ⟨⟨h46, h1⟩, hend⟩ := c2
    subst h46
    cases t with
    | nil => cases h1
    | cons b u =>
      have hb : b = 46 := by
        have : some b = some 46 := h1
        exact Option.some.inj this
      subst hb
      have hend2 : end_or_sep u = true := hend
      have hseg : dd_seg R droot out.length := by
        refine ⟨hstart, hc0, ?_, ?_⟩
        · rw [hRi 1]; simp
        · rw [hRi 2]
          cases u with
          | nil => left; simp
          | cons x y =>
            right
            have : IS_DIR_SEPARATOR x = true := hend2
            rw [sep_iff] at this
            simp [this]
      have hrunR := hdd out.length hd hseg
      have hrun : DotsRun out droot out.length := by
        intro j hj1 hj2
        rw [← hprev j hj2]
        exact hrunR j hj1 hj2
      rw [canon_dotdot_copy (46 :: 46 :: u) hd hrun hhead]
      have h1 : (((46 :: 46 :: u).drop 2, out ++ (46 :: 46 :: u).take 2) :
          List Nat × List Nat).2 ++
          (((46 :: 46 :: u).drop 2, out ++ (46 :: 46 :: u).take 2) : List Nat × List Nat).1
            = R := by
        rw [← hR]
        simp
      have h4 : ∀ b s1, (((46 :: 46 :: u).drop 2, out ++ (46 :: 46 :: u).take 2) :
          List Nat × List Nat).1 = b :: s1 → b = 47 ∧ s1.head? ≠ some 47 := by
        intro b s1 hbs
        have hu : u = b :: s1 := hbs
        subst hu
        have hb47 : b = 47 := by
          have : IS_DIR_SEPARATOR b = true := hend2
          rw [sep_iff] at this
          exact this
        refine ⟨hb47, ?_⟩
        refine @sep_next_ok R (out ++ [46, 46]) s1 b ?_ (by simp) hb47 hdbl
        rw [← hR]
        simp
      have f := canon_finish_copy h1 h4
      have hlt : u.length < u.length + 1 + 1 := by omega
      refine ⟨f.1, Nat.lt_of_le_of_lt f.2.1 hlt, Nat.le_trans ?_ f.2.2.1, f.2.2.2⟩
      simp only [List.length_append]
      omega
  · rw [if_neg c2]
    have h1 : (((c :: t).dropWhile (fun c => !IS_DIR_SEPARATOR c),
        out ++ (c :: t).takeWhile (fun c => !IS_DIR_SEPARATOR c)) : List Nat × List Nat).2 ++
        (((c :: t).dropWhile (fun c => !IS_DIR_SEPARATOR c),
        out ++ (c :: t).takeWhile (fun c => !IS_DIR_SEPARATOR c)) : List Nat × List Nat).1
          = R := by
      rw [← hR]
      simp only [List.append_assoc, List.takeWhile_append_dropWhile]
    have hcp : (fun c => !IS_DIR_SEPARATOR c) c = true := by
      simp [IS_DIR_SEPARATOR, hc]
    have h4 : ∀ b s1, (((c :: t).dropWhile (fun c => !IS_DIR_SEPARATOR c),
        out ++ (c :: t).takeWhile (fun c => !IS_DIR_SEPARATOR c)) : List Nat × List Nat).1
          = b :: s1 → b = 47 ∧ s1.head? ≠ some 47 := by
      intro b s1 hbs
      have hbs2 : (c :: t).dropWhile (fun c => !IS_DIR_SEPARATOR c) = b :: s1 := hbs
      have hb47 : b = 47 := by
        rcases dropWhile_nonsep_sep (c :: t) with h | h
        · rw [hbs2] at h
          cases h
        · rw [hbs2] at h
          have : IS_DIR_SEPARATOR b = true := h
          rw [sep_iff] at this
          exact this
      refine ⟨hb47, ?_⟩
      refine @sep_next_ok R (out ++ (c :: t).takeWhile (fun c => !IS_DIR_SEPARATOR c)) s1 b
        ?_ ?_ hb47 hdbl
      · rw [← hbs2, List.append_assoc, List.takeWhile_append_dropWhile]
        exact hR
      · rw [takeWhile_nonsep_cons t hc]
        simp
    have f := canon_finish_copy h1 h4
    have hlt : ((c :: t).dropWhile (fun c => !IS_DIR_SEPARATOR c)).length
        < (c :: t).length := by
      have e : (c :: t).dropWhile (fun c => !IS_DIR_SEPARATOR c)
          = t.dropWhile (fun c => !IS_DIR_SEPARATOR c) := by
        simp only [List.dropWhile]
        simp only [] at hcp
        rw [hcp]
      rw [e]
      have := (List.dropWhile_sublist (fun c => !IS_DIR_SEPARATOR c) (l := t)).length_le
      simp only [List.length_cons]
      omega
    refine ⟨f.1, Nat.lt_of_le_of_lt f.2.1 hlt, Nat.le_trans ?_ f.2.2.1, f.2.2.2⟩
    simp only [List.length_append]
    omega

/-- The main loop run on a canonical path `R` writes `R`. -/
theorem canon_loop_copy {R : List Nat} {droot : Nat}
    (hdbl : ∀ i, 1 ≤ i → ¬ (R[i]? = some 47 ∧ R[i + 1]? = some 47))
    (hdot : ∀ i, R[i]? = some 46 → (i = 0 ∨ R[i - 1]? = some 47) →
      ∃ c, R[i + 1]? = some c ∧ c ≠ 47)
    (hdd : DotsFirst droot R)
    (hroot : 0 < droot → R[droot - 1]? = some 47) :
    ∀ (fuel : Nat) (s out : List Nat), out ++ s = R → s.length ≤ fuel → droot ≤ out.length →
      HeadForm droot out → s.head? ≠ some 47 → canon_loop droot fuel s out = R := by
  intro fuel
  induction fuel with
  | zero =>
    intro s out hR hlen _ _ _
    have hs : s = [] := List.length_eq_zero.mp (Nat.le_zero.mp hlen)
    subst hs
    rw [List.append_nil] at hR
    exact hR
  | succ n ih =>
    intro s out hR hlen hd hhead hs
    cases s with
    | nil =>
      rw [List.append_nil] at hR
      exact hR
    | cons c t =>
      have hc : c ≠ 47 := by
        intro h
        apply hs
        rw [h]
        rfl
      obtain ⟨f1, f2, f3, f4⟩ := canon_step_copy hR hdbl hdot hdd hd hroot hhead hc
      show canon_loop droot n (canon_step droot (c :: t) out).1
        (canon_step droot (c :: t) out).2 = R
      rcases f4 with hnil | ⟨hl, hh⟩
      · rw [hnil] at f1 ⊢
        rw [List.append_nil] at f1
        cases n <;> exact f1
      · apply ih _ _ f1 _ f3 _ hh
        · simp only [List.length_cons] at f2 hlen
          omega
        · right
          rw [← List.getLast?_eq_getElem?]
          exact hl

theorem skip_seps_of_not_sep {t : List Nat} (ht : sep_at t = false) : skip_seps t = t := by
  apply skip_seps_id
  intro h
  cases t with
  | nil => cases h
  | cons c u =>
    simp only [List.head?_cons, Option.some.injEq] at h
    subst h
    cases ht

/-- The root of a path that is a root followed by the start of a segment. -/
theorem canon_root_of_root {root t : List Nat}
    (hroot : root = [] ∨ root = [47] ∨ root = [47, 47]) (ht : sep_at t = false) :
    canon_root (root ++ t) = (t, root) := by
  have hskip := skip_seps_of_not_sep ht
  rcases hroot with h | h | h
  · subst h
    cases t with
    | nil => rfl
    | cons c u =>
      have hc : IS_DIR_SEPARATOR c = false := ht
      show canon_root (c :: u) = (c :: u, [])
      unfold canon_root
      simp only [hc, Bool.false_eq_true, if_false]
  · subst h
    show canon_root (47 :: t) = (t, [47])
    unfold canon_root
    have h47 : IS_DIR_SEPARATOR 47 = true := rfl
    simp only [h47, if_true, ht, Bool.false_and, Bool.false_eq_true, if_false, hskip]
  · subst h
    show canon_root (47 :: 47 :: t) = (t, [47, 47])
    unfold canon_root
    have h47 : IS_DIR_SEPARATOR 47 = true := rfl
    have h1 : sep_at (47 :: t) = true := rfl
    have h2 : sep_at ((47 :: t).drop 1) = false := ht
    have h3 : skip_seps ((47 :: t).drop 1) = t := hskip
    have h4 : (47 :: t).take 1 = [47] := rfl
    simp only [h47, if_true, h1, h2, Bool.not_false, Bool.and_self, h3, h4]

theorem trim_seps_id {droot : Nat} {out : List Nat}
    (h : ¬ (droot < out.length ∧ out.getD (out.length - 1) 0 = 47)) (n : Nat) :
    trim_seps droot out n = out := by
  cases n with
  | zero => rfl
  | succ n =>
    unfold trim_seps
    rw [if_neg]
    intro hc
    simp only [Bool.and_eq_true, decide_eq_true_eq, sep_iff] at hc
    exact h hc

/-- A path that has the shape of a result of `canonicalize_path` is
left as it is. -/
theorem canonicalize_path_fixed {root R : List Nat}
    (hroot : root = [] ∨ root = [47] ∨ root = [47, 47]) (hpre : root <+: R)
    (hfirst : FirstOk root.length R) (hshape : canon_shape R)
    (hdd : DotsFirst root.length R) : canonicalize_path R = R := by
  obtain ⟨hne, hdbl, hlast, hdot⟩ := hshape
  rcases hdot with h46 | hdot
  · rw [h46]
    decide
  obtain ⟨t, ht⟩ := hpre
  have hts : sep_at t = false := by
    unfold FirstOk at hfirst
    rw [← ht] at hfirst
    have e := getElem?_append_add root t 0
    rw [Nat.add_zero] at e
    rw [e] at hfirst
    cases t with
    | nil => rfl
    | cons c u =>
      have hc : c ≠ 47 := by
        intro h
        apply hfirst
        simp [h]
      show IS_DIR_SEPARATOR c = false
      simp [IS_DIR_SEPARATOR, hc]
  have hcr : canon_root R = (t, root) := by
    rw [← ht]
    exact canon_root_of_root hroot hts
  have hrootR : 0 < root.length → R[root.length - 1]? = some 47 := by
    intro hpos
    rw [← ht, List.getElem?_append_left (by omega)]
    rcases hroot with h | h | h
    · subst h; simp at hpos
    · subst h; rfl
    · subst h; rfl
  have hhead : t.head? ≠ some 47 := by
    intro h
    cases t with
    | nil => cases h
    | cons c u =>
      simp only [List.head?_cons, Option.some.injEq] at h
      subst h
      cases hts
  have hloop : canon_loop root.length t.length t root = R :=
    canon_loop_copy hdbl hdot hdd hrootR t.length t root ht (Nat.le_refl _) (Nat.le_refl _)
      (Or.inl rfl) hhead
  have htrim : trim_seps root.length R R.length = R := by
    apply trim_seps_id
    rintro ⟨hlt, hl47⟩
    have hpos : 0 < R.length := by omega
    have hg : R.getLast? = some 47 := by
      rw [List.getLast?_eq_getElem?, getElem?_of_getD (by omega), hl47]
    have hlen := leading_seps_eq ⟨t, ht⟩ (root_all_sep hroot) hfirst
    rcases hlast hg with hR | hR
    · rw [hR] at hlen hlt
      have : ([47].takeWhile (fun c => c == 47)).length = 1 := by decide
      simp only [List.length_cons, List.length_nil] at hlt
      omega
    · rw [hR] at hlen hlt
      have : ([47, 47].takeWhile (fun c => c == 47)).length = 2 := by decide
      simp only [List.length_cons, List.length_nil] at hlt
      omega
  rw [canonicalize_path_eq]
  simp only
  rw [hcr]
  simp only
  rw [hloop, htrim]
  rw [if_neg]
  intro h0
  exact hne (List.length_eq_zero.mp h0)

/-- The errors of the line-header editor in phase 0, on a state with the
`.debug_line` section `m`, under a configuration in which a dest comes with
a base and a list file with a base comes with a dest (allocation taken to
succeed).  When the header at
`off` is rejected on its fixed part (unit length `0xffffffff`, unit past
the end of the section, version not 2, 3 or 4, header length past the
unit), or passes these checks and has a file entry whose directory index
is at least the number of directory entries plus one, `edit_dwarf2_line`
returns 1.  Whenever `edit_dwarf2_line` returns, the value is 0 or 1, it is
1 exactly in these cases, and with the value 1 `.debug_line`, like every
other section buffer and dirty flag, is as before the call. -/
theorem edit_dwarf2_line_errors {cfg : Config} {msb : Bool} {st : St} {off : Nat}
    {comp_dir m : List Nat} (hline : st.debug_line = some m)
    (hbase : cfg.dest_dir.isSome = true → cfg.base_dir.isSome = true)
    (hsink : cfg.list_file = true → cfg.base_dir.isSome = true → cfg.dest_dir.isSome = true) :
    ((HeaderRejected msb m off ∨
        ∃ dir, line_header msb m off = .ok (some dir) ∧ BadIndex m dir) →
      ∃ st', edit_dwarf2_line cfg msb st off comp_dir 0 = .ok (1, st')) ∧
    ∀ (r : Nat) (st' : St), edit_dwarf2_line cfg msb st off comp_dir 0 = .ok (r, st') →
      (r = 0 ∨ r = 1) ∧
      (r = 1 ↔ (HeaderRejected msb m off ∨
        ∃ dir, line_header msb m off = .ok (some dir) ∧ BadIndex m dir)) ∧
      (r = 1 → st'.debug_line = some m ∧ St.same st st') := by
  have total : (HeaderRejected msb m off ∨
        ∃ dir, line_header msb m off = .ok (some dir) ∧ BadIndex m dir) →
      ∃ st', edit_dwarf2_line cfg msb st off comp_dir 0 = .ok (1, st') := by
    rintro (h | ⟨dir, hh, h⟩)
    · exact ⟨st, edit_dwarf2_line_rejects hline h⟩
    · obtain ⟨sink, hs⟩ := edit_dwarf2_line_bad_index hline hbase hsink hh h
      exact ⟨_, hs⟩
  refine ⟨total, ?_⟩
  intro r st' h
  obtain ⟨h01, h1⟩ := edit_dwarf2_line_error_inv hline h
  refine ⟨h01, ⟨fun hr => (h1 hr).1, fun hc => ?_⟩, fun hr => ?_⟩
  · obtain ⟨st2, h2⟩ := total hc
    rw [h2] at h
    have := Except.ok.inj h
    simp only [Prod.mk.injEq] at this
    exact this.1.symm
  · obtain ⟨_, sink, hs⟩ := h1 hr
    rw [hs]
    exact ⟨hline, rfl, rfl, rfl, rfl, rfl, rfl, rfl, rfl, rfl⟩

/-! ## The line-program offset, with forms read through `DW_FORM_indirect` -/

theorem attr_actions_stmt_indirect (env : Env) (phase tag : Nat) (a : AttrSt) :
    attr_actions env phase tag DW_AT_stmt_list DW_FORM_indirect a = .ok a := by
  have h1 : act_stmt_list env DW_AT_stmt_list DW_FORM_indirect a = .ok a :=
    act_stmt_list_miss (by decide)
  unfold attr_actions
  rw [h1]
  simp only [bind_ok_eq]
  rw [if_neg (by decide), if_neg]
  · rfl
  · simp [DW_AT_stmt_list, DW_AT_name]

theorem form_step_indirect_inv {msb : Bool} {ps cv : Nat} {m : List Nat} {ptr : Nat}
    {r : FormStep} (h : form_step msb ps cv m DW_FORM_indirect ptr = .ok r) :
    ∃ f p, read_uleb128 m ptr = .ok (f, p) ∧ r = .again f p := by
  have e : form_step msb ps cv m DW_FORM_indirect ptr
      = (read_uleb128 m ptr >>= fun x => pure (.again x.1 x.2)) := rfl
  rw [e] at h
  obtain ⟨x, hx, k⟩ := bind_eq_ok.mp h
  exact ⟨x.1, x.2, hx, (ok_inj k).symm⟩

theorem eff_form_direct (m : List Nat) (fuel : Nat) {form : Nat} (ptr : Nat)
    (h : form ≠ DW_FORM_indirect) : eff_form m (fuel + 1) form ptr = some (form, ptr) := by
  unfold eff_form
  rw [if_neg h]

theorem eff_form_indirect {m : List Nat} (fuel : Nat) {ptr f p : Nat}
    (h : read_uleb128 m ptr = .ok (f, p)) :
    eff_form m (fuel + 1) DW_FORM_indirect ptr = eff_form m fuel f p := by
  conv => lhs; unfold eff_form
  rw [if_pos rfl, h]

/-- The loop for a `DW_AT_stmt_list`: `found_list_offs` is set, and
`list_offs` read, exactly when the form that the loop arrives at is `data4`
or `sec_offset`. -/
theorem attr_loop_stmt {env : Env} {phase tag : Nat} :
    ∀ (fuel form : Nat) (a : AttrSt) (r : Bool × AttrSt),
      attr_loop env phase tag DW_AT_stmt_list fuel form a = .ok r →
      (∀ f p, eff_form (info_of a.st) fuel form a.ptr = some (f, p) →
        f = DW_FORM_data4 ∨ f = DW_FORM_sec_offset →
        r.2.found_list_offs = true ∧
          ∃ v, do_read_32_relocated env (info_of a.st) a.st.relptr p = .ok v ∧
            r.2.list_offs = v.1) ∧
      ((∀ f p, eff_form (info_of a.st) fuel form a.ptr = some (f, p) →
        f ≠ DW_FORM_data4 ∧ f ≠ DW_FORM_sec_offset) →
        r.2.found_list_offs = a.found_list_offs ∧ r.2.list_offs = a.list_offs) := by
  intro fuel
  induction fuel with
  | zero => intro form a r h; simp [attr_loop] at h
  | succ n ih =>
    intro form a r h
    by_cases hform : form = DW_FORM_indirect
    · subst hform
      unfold attr_loop at h
      rw [attr_actions_stmt_indirect] at h
      simp only [bind_ok_eq] at h
      obtain ⟨fs, h2, k2⟩ := bind_eq_ok.mp h
      obtain ⟨f, p, hread, hfs⟩ := form_step_indirect_inv h2
      subst hfs
      simp only at k2
      have hrec := ih f { a with ptr := p } r k2
      simp only at hrec
      rw [eff_form_indirect n hread]
      exact hrec
    · rw [eff_form_direct _ n _ hform]
      obtain ⟨g1, g2⟩ := attr_loop_offs_direct hform h
      constructor
      · intro f p he hf
        have he2 := Option.some.inj he
        simp only [Prod.mk.injEq] at he2
        obtain ⟨e1, e2⟩ := he2
        subst e1 e2
        exact g1 ⟨rfl, hf⟩
      · intro hno
        obtain ⟨n1, n2⟩ := hno form a.ptr rfl
        apply g2
        rintro ⟨_, hf⟩
        rcases hf with hf | hf
        · exact n1 hf
        · exact n2 hf

/-- The loop for one attribute sets `found_list_offs` exactly when the
attribute gives the offset of the line program. -/
theorem attr_loop_found_at {env : Env} {phase tag : Nat} (x : abbrev_attr) (a : AttrSt)
    (r : Bool × AttrSt)
    (h : attr_loop env phase tag x.attr ((info_of a.st).length + 1) x.form a = .ok r) :
    (r.2.found_list_offs = true ↔
      a.found_list_offs = true ∨ ∃ p, stmt_list_at (info_of a.st) x a.ptr p) ∧
    (∀ p, stmt_list_at (info_of a.st) x a.ptr p →
      ∃ v, do_read_32_relocated env (info_of a.st) a.st.relptr p = .ok v ∧
        r.2.list_offs = v.1) ∧
    ((∀ p, ¬ stmt_list_at (info_of a.st) x a.ptr p) → r.2.list_offs = a.list_offs) := by
  by_cases hattr : x.attr = DW_AT_stmt_list
  · rw [hattr] at h
    obtain ⟨g1, g2⟩ := attr_loop_stmt _ _ _ _ h
    cases he : eff_form (info_of a.st) ((info_of a.st).length + 1) x.form a.ptr with
    | none =>
      have hno : ∀ p, ¬ stmt_list_at (info_of a.st) x a.ptr p := by
        rintro p ⟨_, hp | hp⟩
        · rw [he] at hp; cases hp
        · rw [he] at hp; cases hp
      obtain ⟨n1, n2⟩ := g2 (by
        intro f p hfp
        rw [he] at hfp
        cases hfp)
      refine ⟨?_, fun p hp => absurd hp (hno p), fun _ => n2⟩
      rw [n1]
      constructor
      · intro h0; exact Or.inl h0
      · rintro (h0 | ⟨p, hp⟩)
        · exact h0
        · exact absurd hp (hno p)
    | some fp =>
      obtain ⟨f, p⟩ := fp
      by_cases hf : f = DW_FORM_data4 ∨ f = DW_FORM_sec_offset
      · obtain ⟨y1, v, y2, y3⟩ := g1 f p he hf
        have hat : stmt_list_at (info_of a.st) x a.ptr p := by
          refine ⟨hattr, ?_⟩
          rcases hf with hf | hf
          · left; rw [he, hf]
          · right; rw [he, hf]
        refine ⟨?_, ?_, fun hno => absurd hat (hno p)⟩
        · constructor
          · intro _; exact Or.inr ⟨p, hat⟩
          · intro _; exact y1
        · rintro q ⟨_, hq | hq⟩
          · rw [he] at hq
            have := Option.some.inj hq
            simp only [Prod.mk.injEq] at this
            rw [← this.2]
            exact ⟨v, y2, y3⟩
          · rw [he] at hq
            have := Option.some.inj hq
            simp only [Prod.mk.injEq] at this
            rw [← this.2]
            exact ⟨v, y2, y3⟩
      · have hno : ∀ q, ¬ stmt_list_at (info_of a.st) x a.ptr q := by
          rintro q ⟨_, hq | hq⟩
          · rw [he] at hq
            have := Option.some.inj hq
            simp only [Prod.mk.injEq] at this
            exact hf (Or.inl this.1)
          · rw [he] at hq
            have := Option.some.inj hq
            simp only [Prod.mk.injEq] at this
            exact hf (Or.inr this.1)
        obtain ⟨n1, n2⟩ := g2 (by
          intro f2 p2 hfp
          rw [he] at hfp
          have := Option.some.inj hfp
          simp only [Prod.mk.injEq] at this
          rw [← this.1]
          exact ⟨fun c => hf (Or.inl c), fun c => hf (Or.inr c)⟩)
        refine ⟨?_, fun q hq => absurd hq (hno q), fun _ => n2⟩
        rw [n1]
        constructor
        · intro h0; exact Or.inl h0
        · rintro (h0 | ⟨q, hq⟩)
          · exact h0
          · exact absurd hq (hno q)
  · have hno : ∀ p, ¬ stmt_list_at (info_of a.st) x a.ptr p := fun p hp => hattr hp.1
    obtain ⟨n1, n2⟩ := attr_loop_offs_other hattr _ _ _ _ h
    refine ⟨?_, fun p hp => absurd hp (hno p), fun _ => n2⟩
    rw [n1]
    constructor
    · intro h0; exact Or.inl h0
    · rintro (h0 | ⟨p, hp⟩)
      · exact h0
      · exact absurd hp (hno p)

theorem attrs_loop_nil_ok {env : Env} {phase tag : Nat} {a a1 : AttrSt} {b : Bool}
    (h : attrs_loop env phase tag [] a = .ok (b, a1)) : b = true ∧ a1 = a := by
  have e : attrs_loop env phase tag [] a = .ok (true, a) := rfl
  rw [e] at h
  have := Except.ok.inj h
  simp only [Prod.mk.injEq] at this
  exact ⟨this.1.symm, this.2.symm⟩

theorem attrs_loop_cons_ok {env : Env} {phase tag : Nat} {at1 : abbrev_attr}
    {rest : List abbrev_attr} {a : AttrSt} {r1 : Bool × AttrSt}
    (h1 : attr_loop env phase tag at1.attr ((info_of a.st).length + 1) at1.form a = .ok r1)
    (hb : r1.1 = true) :
    attrs_loop env phase tag (at1 :: rest) a = attrs_loop env phase tag rest r1.2 := by
  rw [attrs_loop_cons, h1]
  simp only [bind_ok_eq]
  rw [if_pos hb]

/-- After the loop over the attributes `found_list_offs` is set exactly when
it was set before or one of the attributes, in the state in which the loop
comes to it, gives the offset of the line program. -/
theorem attrs_loop_found_at {env : Env} {phase tag : Nat} :
    ∀ (attrs : List abbrev_attr) (a : AttrSt) (r : Bool × AttrSt),
      attrs_loop env phase tag attrs a = .ok r → r.1 = true →
      (r.2.found_list_offs = true ↔
        a.found_list_offs = true ∨
          ∃ (pre : List abbrev_attr) (x : abbrev_attr) (post : List abbrev_attr) (a1 : AttrSt)
            (p : Nat), attrs = pre ++ x :: post ∧
              attrs_loop env phase tag pre a = .ok (true, a1) ∧
              stmt_list_at (info_of a1.st) x a1.ptr p) := by
  intro attrs
  induction attrs with
  | nil =>
    intro a r h _
    obtain ⟨_, e⟩ := @attrs_loop_nil_ok env phase tag a r.2 r.1 h
    rw [e]
    constructor
    · intro h0; exact Or.inl h0
    · rintro (h0 | ⟨pre, x, post, a1, p, hsplit, _⟩)
      · exact h0
      · cases pre <;> cases hsplit
  | cons at1 rest ih =>
    intro a r h hr
    rw [attrs_loop_cons] at h
    obtain ⟨r1, h1, k⟩ := bind_eq_ok.mp h
    clear h
    have hb : r1.1 = true := by
      by_contra hb
      rw [if_neg hb] at k
      rw [← ok_inj k] at hr
      exact hb hr
    rw [if_pos hb] at k
    have hrec := ih r1.2 r k hr
    obtain ⟨g, _, _⟩ := attr_loop_found_at at1 a r1 h1
    rw [hrec, g]
    constructor
    · rintro ((h0 | ⟨p, hp⟩) | ⟨pre, x, post, a1, p, hsplit, hpre, hat⟩)
      · exact Or.inl h0
      · exact Or.inr ⟨[], at1, rest, a, p, rfl, rfl, hp⟩
      · refine Or.inr ⟨at1 :: pre, x, post, a1, p, by rw [hsplit]; rfl, ?_, hat⟩
        rw [attrs_loop_cons_ok h1 hb]
        exact hpre
    · rintro (h0 | ⟨pre, x, post, a1, p, hsplit, hpre, hat⟩)
      · exact Or.inl (Or.inl h0)
      · cases pre with
        | nil =>
          obtain ⟨_, e⟩ := attrs_loop_nil_ok hpre
          have hx : at1 = x := by
            have := List.cons.inj hsplit
            exact this.1
          subst hx e
          exact Or.inl (Or.inr ⟨p, hat⟩)
        | cons p0 pre2 =>
          have hs := List.cons.inj hsplit
          have hp0 : at1 = p0 := hs.1
          subst hp0
          rw [attrs_loop_cons_ok h1 hb] at hpre
          exact Or.inr ⟨pre2, x, post, a1, p, hs.2, hpre, hat⟩

/-- The loop over attributes none of which gives the offset of the line
program leaves `list_offs` alone. -/
theorem attrs_loop_offs_keep {env : Env} {phase tag : Nat} :
    ∀ (attrs : List abbrev_attr) (a : AttrSt) (r : Bool × AttrSt),
      attrs_loop env phase tag attrs a = .ok r → r.1 = true →
      (∀ (pre : List abbrev_attr) (x : abbrev_attr) (post : List abbrev_attr) (a1 : AttrSt)
        (p : Nat), attrs = pre ++ x :: post →
          attrs_loop env phase tag pre a = .ok (true, a1) →
          ¬ stmt_list_at (info_of a1.st) x a1.ptr p) →
      r.2.list_offs = a.list_offs := by
  intro attrs
  induction attrs with
  | nil =>
    intro a r h _ _
    obtain ⟨_, e⟩ := @attrs_loop_nil_ok env phase tag a r.2 r.1 h
    rw [e]
  | cons at1 rest ih =>
    intro a r h hr hno
    rw [attrs_loop_cons] at h
    obtain ⟨r1, h1, k⟩ := bind_eq_ok.mp h
    clear h
    have hb : r1.1 = true := by
      by_contra hb
      rw [if_neg hb] at k
      rw [← ok_inj k] at hr
      exact hb hr
    rw [if_pos hb] at k
    obtain ⟨_, _, g3⟩ := attr_loop_found_at at1 a r1 h1
    have e1 := g3 (fun p => hno [] at1 rest a p rfl rfl)
    rw [← e1]
    apply ih r1.2 r k hr
    intro pre x post a1 p hsplit hpre
    apply hno (at1 :: pre) x post a1 p (by rw [hsplit]; rfl)
    rw [attrs_loop_cons_ok h1 hb]
    exact hpre

/-! ## The loop of `edit_symtab` over symbols that share a name -/

/-- A name that `make_win_path` has gone over does not start with a base
that holds a separator. -/
theorem win_not_under {base : List Nat} (X : List Nat) (hb : 47 ∈ base) :
    has_prefix (make_win_path X) base = false := by
  cases h : has_prefix (make_win_path X) base with
  | false => rfl
  | true =>
    obtain ⟨_, ht⟩ := has_prefix_iff.mp h
    exfalso
    apply make_win_path_no_sep X
    apply List.mem_of_mem_take (n := base.length)
    rw [ht]
    exact hb

theorem edit_symtab_twins {cfg : Config} {base dest : List Nat}
    (hb : cfg.base_dir = some base) (hd : cfg.dest_dir = some dest)
    (hlen : dest.length ≤ base.length) (hdest : ∀ c ∈ dest, c ≠ 0) :
    ∀ (syms : List Sym) (t : List Nat) (st : St), st.strtab = some t →
      (∀ x ∈ syms, ∃ S, cstr t x.st_name = .ok S) →
      syms.Pairwise (fun x y => sym_hit base t x ∨ sym_hit base t y →
        sym_apart t x y ∨ sym_twin base x y) →
      ∃ t2 d, edit_symtab cfg st syms = .ok { st with strtab := some t2, dirty_strtab := d } ∧
        t2.length = t.length ∧
        (∀ x ∈ syms, ∀ S, cstr t x.st_name = .ok S →
          cstr t2 x.st_name = .ok (new_sym_name base dest S x)) ∧
        (∀ q S2, cstr t q = .ok S2 →
          (∀ x ∈ syms, sym_hit base t x → ∀ Sx, cstr t x.st_name = .ok Sx →
            x.st_name + Sx.length < q ∨ q + S2.length < x.st_name) →
          cstr t2 q = .ok S2) := by
  intro syms
  induction syms with
  | nil =>
    intro t st hstr _ _
    refine ⟨t, st.dirty_strtab, ?_, rfl, ?_, ?_⟩
    · unfold edit_symtab
      rw [← hstr]
      rfl
    · intro x hx
      cases hx
    · intro q S2 hq _
      exact hq
  | cons x rest ih =>
    intro t st hstr hnames hpair
    obtain ⟨S, hS⟩ := hnames x (List.mem_cons_self _ _)
    have hp := List.pairwise_cons.mp hpair
    by_cases hhit : x.st_info % 16 = STT_FILE ∧ has_prefix S base = true
    · have hxhit : sym_hit base t x := ⟨hhit.1, S, hS, hhit.2⟩
      obtain ⟨t1, e1, l1, tk1, dr1, c1, wl⟩ :=
        @edit_sym_hit cfg st x t S base dest hb hd hlen hdest hstr hS hhit.1 hhit.2
      -- the name of a later symbol after the rewrite of `x`
      have hname1 : ∀ y ∈ rest, ∀ Sy, cstr t y.st_name = .ok Sy →
          (sym_apart t x y ∧ cstr t1 y.st_name = .ok Sy) ∨
          (sym_twin base x y ∧ Sy = S ∧
            cstr t1 y.st_name = .ok (make_win_path (dest ++ S.drop base.length))) := by
        intro y hy Sy hSy
        rcases hp.1 y hy (Or.inl hxhit) with hap | htw
        · left
          have := hap S Sy hS hSy
          exact ⟨hap, cstr_frame l1 tk1 dr1 hSy (by omega)⟩
        · right
          have hSS : Sy = S := by
            rw [← htw.1] at hSy
            exact cstr_inj hSy hS
          refine ⟨htw, hSS, ?_⟩
          rw [← htw.1]
          exact c1
      have hback : ∀ y ∈ rest, ∀ Sy1, cstr t1 y.st_name = .ok Sy1 →
          ∃ Sy, cstr t y.st_name = .ok Sy ∧ Sy1.length ≤ Sy.length ∧
            ( has_prefix Sy1 base = true → sym_apart t x y ∧ Sy1 = Sy) := by
        intro y hy Sy1 hSy1
        obtain ⟨Sy, hSy⟩ := hnames y (List.mem_cons_of_mem _ hy)
        rcases hname1 y hy Sy hSy with ⟨hap, h1⟩ | ⟨htw, hSS, h1⟩
        · have := cstr_inj h1 hSy1
          subst this
          exact ⟨Sy, hSy, Nat.le_refl _, fun _ => ⟨hap, rfl⟩⟩
        · have := cstr_inj h1 hSy1
          subst this
          refine ⟨Sy, hSy, by rw [hSS]; exact wl, ?_⟩
          intro hpre
          rw [win_not_under _ htw.2.2.2] at hpre
          cases hpre
      have hhitback : ∀ y ∈ rest, sym_hit base t1 y →
          sym_hit base t y ∧ sym_apart t x y ∧
            ∀ Sy, cstr t1 y.st_name = .ok Sy → cstr t y.st_name = .ok Sy := by
        rintro y hy ⟨a1, Sy1, a2, a3⟩
        obtain ⟨Sy, b1, _, b3⟩ := hback y hy Sy1 a2
        obtain ⟨hap, hSS⟩ := b3 a3
        subst hSS
        refine ⟨⟨a1, Sy1, b1, a3⟩, hap, ?_⟩
        intro Sy2 hSy2
        have := cstr_inj a2 hSy2
        rw [← this]
        exact b1
      have hpair1 : rest.Pairwise (fun y z => sym_hit base t1 y ∨ sym_hit base t1 z →
          sym_apart t1 y z ∨ sym_twin base y z) := by
        apply List.Pairwise.imp_of_mem _ hp.2
        intro y z hy hz hR hor
        have hor2 : sym_hit base t y ∨ sym_hit base t z := by
          rcases hor with h | h
          · exact Or.inl (hhitback y hy h).1
          · exact Or.inr (hhitback z hz h).1
        rcases hR hor2 with hap | htw
        · left
          intro Sy1 Sz1 hSy1 hSz1
          obtain ⟨Sy, b1, b2, _⟩ := hback y hy Sy1 hSy1
          obtain ⟨Sz, d1, d2, _⟩ := hback z hz Sz1 hSz1
          have := hap Sy Sz b1 d1
          omega
        · exact Or.inr htw
      obtain ⟨t2, d, e2, l2, n2, f2⟩ := ih t1 { st with strtab := some t1, dirty_strtab := true }
        rfl (by
          intro y hy
          obtain ⟨Sy, h2⟩ := hnames y (List.mem_cons_of_mem _ hy)
          rcases hname1 y hy Sy h2 with ⟨_, h1⟩ | ⟨_, _, h1⟩
          · exact ⟨_, h1⟩
          · exact ⟨_, h1⟩) hpair1
      have hnx : new_sym_name base dest S x = make_win_path (dest ++ S.drop base.length) := by
        unfold new_sym_name
        rw [if_pos hhit]
      refine ⟨t2, d, ?_, by omega, ?_, ?_⟩
      · unfold edit_symtab
        rw [e1]
        simp only [bind_ok_eq]
        rw [e2]
      · intro y hy Sy hSy
        rcases List.mem_cons.mp hy with hy | hy
        · subst hy
          have hSS := cstr_inj hS hSy
          subst hSS
          rw [hnx]
          apply f2 _ _ c1
          intro z hz hzhit Sz hSz
          obtain ⟨_, hap, hnm⟩ := hhitback z hz hzhit
          have := hap S Sz hS (hnm Sz hSz)
          omega
        · rcases hname1 y hy Sy hSy with ⟨_, h1⟩ | ⟨htw, hSS, h1⟩
          · exact n2 y hy Sy h1
          · have h2 := n2 y hy _ h1
            rw [h2]
            have e3 : new_sym_name base dest (make_win_path (dest ++ S.drop base.length)) y
                = make_win_path (dest ++ S.drop base.length) := by
              unfold new_sym_name
              rw [if_neg]
              rintro ⟨_, hpre⟩
              rw [win_not_under _ htw.2.2.2] at hpre
              cases hpre
            have e4 : new_sym_name base dest Sy y
                = make_win_path (dest ++ S.drop base.length) := by
              unfold new_sym_name
              rw [hSS, if_pos ⟨htw.2.2.1, hhit.2⟩]
            rw [e3, e4]
      · intro q S2 hq hfar
        have hq1 : cstr t1 q = .ok S2 := by
          have := hfar x (List.mem_cons_self _ _) hxhit S hS
          exact cstr_frame l1 tk1 dr1 hq (by omega)
        apply f2 q S2 hq1
        intro z hz hzhit Sz hSz
        obtain ⟨hzt, _, hnm⟩ := hhitback z hz hzhit
        exact hfar z (List.mem_cons_of_mem _ hz) hzt Sz (hnm Sz hSz)
    · have e1 := @edit_sym_miss cfg st x t S base dest hb hd hstr hS hhit
      obtain ⟨t2, d, e2, l2, n2, f2⟩ := ih t st hstr
        (fun y hy => hnames y (List.mem_cons_of_mem _ hy)) hp.2
      refine ⟨t2, d, ?_, l2, ?_, ?_⟩
      · unfold edit_symtab
        rw [e1]
        simp only [bind_ok_eq]
        exact e2
      · intro y hy Sy hSy
        rcases List.mem_cons.mp hy with hy | hy
        · subst hy
          have hSS := cstr_inj hS hSy
          subst hSS
          have hn : new_sym_name base dest S y = S := by
            unfold new_sym_name
            rw [if_neg hhit]
          rw [hn]
          apply f2 _ _ hS
          intro z hz hzhit Sz hSz
          rcases hp.1 z hz (Or.inr hzhit) with hap | htw
          · have := hap S Sz hS hSz
            omega
          · exfalso
            apply hhit
            refine ⟨htw.2.1, ?_⟩
            obtain ⟨_, Sz2, k1, k2⟩ := hzhit
            rw [← htw.1] at k1
            rw [cstr_inj hS k1]
            exact k2
        · exact n2 y hy Sy hSy
      · intro q S2 hq hfar
        apply f2 q S2 hq
        intro z hz hzhit Sz hSz
        exact hfar z (List.mem_cons_of_mem _ hz) hzhit Sz hSz

/-! ## What the later attributes of a DIE do to `.debug_str` -/

theorem edit_inline_str {cfg : Config} {phase : Nat} {whole : Bool} {st st' : St} {p : Nat}
    {s : List Nat} (h : edit_inline cfg phase whole st p s = .ok st') :
    st'.debug_str = st.debug_str := by
  unfold edit_inline at h
  obtain ⟨g, _, k⟩ := bind_eq_ok.mp h
  cases g with
  | none =>
    rw [← ok_inj k]
  | some dest =>
    simp only at k
    obtain ⟨m1, _, k1⟩ := bind_eq_ok.mp k
    obtain ⟨m2, _, k2⟩ := bind_eq_ok.mp k1
    rw [← ok_inj k2]

/-- The actions of a pass at the form `DW_FORM_indirect` change nothing. -/
theorem attr_actions_indirect {env : Env} {phase tag attr : Nat} {a a1 : AttrSt}
    (h : attr_actions env phase tag attr DW_FORM_indirect a = .ok a1) : a1 = a := by
  have h0 : act_stmt_list env attr DW_FORM_indirect a = .ok a :=
    act_stmt_list_miss (fun hs => by
      rcases hs.2 with h | h
      · exact absurd h (by decide)
      · exact absurd h (by decide))
  unfold attr_actions at h
  rw [h0] at h
  simp only [bind_ok_eq] at h
  by_cases hc : attr = DW_AT_comp_dir
  · rw [if_pos hc] at h
    unfold act_comp_dir at h
    rw [if_neg (by decide)] at h
    cases hs : a.st.debug_str with
    | none =>
      rw [hs] at h
      exact (ok_inj h).symm
    | some str =>
      rw [hs] at h
      simp only at h
      rw [if_neg (by decide)] at h
      exact (ok_inj h).symm
  · rw [if_neg hc] at h
    by_cases hn : ((decide (tag = DW_TAG_compile_unit) || decide (tag = DW_TAG_partial_unit)) &&
        decide (attr = DW_AT_name)) = true
    · rw [if_pos hn] at h
      unfold act_name at h
      rw [if_neg (by decide)] at h
      simp only at h
      rw [if_neg (by simp [DW_FORM_indirect, DW_FORM_string])] at h
      cases h
    · rw [if_neg hn] at h
      exact (ok_inj h).symm

/-- The actions of one pass change `.debug_str` only through the guarded
rewrite of the string of a `DW_AT_comp_dir` or a unit's `DW_AT_name` of form
`strp`. -/
theorem attr_actions_str {env : Env} {phase tag attr form : Nat} {a a1 : AttrSt}
    (h : attr_actions env phase tag attr form a = .ok a1) :
    a1.st.debug_str = a.st.debug_str ∨
    (path_attr tag attr ∧ form = DW_FORM_strp ∧
      ∃ (str : List Nat) (r : Nat × Nat) (S : List Nat) (whole : Bool),
        a.st.debug_str = some str ∧
        do_read_32_relocated env (info_of a.st) a.st.relptr a.ptr = .ok r ∧
        cstr str r.1 = .ok S ∧
        edit_strp env.cfg phase whole { a.st with relptr := r.2 } str r.1 S = .ok a1.st) := by
  unfold attr_actions at h
  obtain ⟨a0, h0, k⟩ := bind_eq_ok.mp h
  clear h
  obtain ⟨hsame, hne⟩ := act_stmt_list_same h0
  by_cases hc : attr = DW_AT_comp_dir
  · rw [if_pos hc] at k
    have ha0 : a0 = a := hne (by rw [hc]; decide)
    subst ha0
    unfold act_comp_dir at k
    by_cases hf : form = DW_FORM_string
    · rw [if_pos hf] at k
      obtain ⟨s, _, k1⟩ := bind_eq_ok.mp k
      obtain ⟨st1, h1, k2⟩ := bind_eq_ok.mp k1
      rw [← ok_inj k2]
      exact Or.inl (edit_inline_str h1)
    · rw [if_neg hf] at k
      cases hs : a0.st.debug_str with
      | none =>
        rw [hs] at k
        rw [← ok_inj k]
        exact Or.inl hs
      | some str =>
        rw [hs] at k
        simp only at k
        by_cases hp : form = DW_FORM_strp
        · rw [if_pos hp] at k
          obtain ⟨r, hr, k1⟩ := bind_eq_ok.mp k
          obtain ⟨s, hS, k2⟩ := bind_eq_ok.mp k1
          obtain ⟨st1, h1, k3⟩ := bind_eq_ok.mp k2
          rw [← ok_inj k3]
          exact Or.inr ⟨Or.inl hc, hp, str, r, s, false, rfl, hr, hS, h1⟩
        · rw [if_neg hp] at k
          rw [← ok_inj k]
          exact Or.inl hs
  · rw [if_neg hc] at k
    by_cases hn : ((decide (tag = DW_TAG_compile_unit) || decide (tag = DW_TAG_partial_unit)) &&
        decide (attr = DW_AT_name)) = true
    · rw [if_pos hn] at k
      simp only [Bool.and_eq_true, Bool.or_eq_true, decide_eq_true_eq] at hn
      have ha0 : a0 = a := hne (by rw [hn.2]; decide)
      subst ha0
      unfold act_name at k
      by_cases hp : form = DW_FORM_strp
      · rw [if_pos hp] at k
        cases hs : a0.st.debug_str with
        | none =>
          rw [hs] at k
          simp only at k
          by_cases hc2 : (decide (form = DW_FORM_string) && a0.st.debug_info.isSome) = true
          · rw [if_pos hc2] at k
            obtain ⟨s, _, k1⟩ := bind_eq_ok.mp k
            obtain ⟨st1, h1, k2⟩ := bind_eq_ok.mp k1
            rw [← ok_inj k2]
            left
            rw [edit_inline_str h1]
            exact hs
          · rw [if_neg hc2] at k
            cases k
        | some str =>
          rw [hs] at k
          simp only at k
          obtain ⟨r, hr, k1⟩ := bind_eq_ok.mp k
          obtain ⟨s, hS, k2⟩ := bind_eq_ok.mp k1
          obtain ⟨st1, h1, k3⟩ := bind_eq_ok.mp k2
          rw [← ok_inj k3]
          exact Or.inr ⟨Or.inr hn, hp, str, r, s, true, rfl, hr, hS, h1⟩
      · rw [if_neg hp] at k
        simp only at k
        by_cases hc2 : (decide (form = DW_FORM_string) && a0.st.debug_info.isSome) = true
        · rw [if_pos hc2] at k
          obtain ⟨s, _, k1⟩ := bind_eq_ok.mp k
          obtain ⟨st1, h1, k2⟩ := bind_eq_ok.mp k1
          rw [← ok_inj k2]
          left
          rw [edit_inline_str h1]
        · rw [if_neg hc2] at k
          cases k
    · rw [if_neg hn] at k
      rw [← ok_inj k]
      exact Or.inl hsame.2.2.2.1

/-- The guarded rewrite of a `.debug_str` string (non-Windows mode) leaves
a string that shares no byte with the rewritten one as it was. -/
theorem edit_strp_keep_other {cfg : Config} {whole : Bool} {st st' : St}
    {str S X base dest : List Nat} {off o : Nat}
    (hwin : cfg.win_path = false) (hb : cfg.base_dir = some base)
    (hd : cfg.dest_dir = some dest) (hlen : dest.length ≤ base.length)
    (hst : st.debug_str = some str) (hS : cstr str off = .ok S)
    (h : edit_strp cfg 1 whole st str off S = .ok st') (hX : cstr str o = .ok X)
    (hap : has_prefix S base = true → off + S.length < o ∨ o + X.length < off) :
    ∃ str', st'.debug_str = some str' ∧ cstr str' o = .ok X := by
  by_cases hpre : has_prefix S base = true
  · rw [edit_strp_hit hwin hb hd hlen hS hpre] at h
    obtain ⟨_, hfit⟩ := @rewrite_strp_ok _ _ _ _ dest _ hb hlen hS hpre
    obtain ⟨hbl, _⟩ := has_prefix_iff.mp hpre
    have hw : wr str off (dest ++ S.drop base.length ++ [0])
        = .ok (str.take off ++ (dest ++ S.drop base.length ++ [0])
            ++ str.drop (off + (dest ++ S.drop base.length ++ [0]).length)) :=
      wr_eq_ok.mpr ⟨hfit, rfl⟩
    have hl2 : (dest ++ S.drop base.length ++ [0]).length ≤ S.length + 1 := by
      simp; omega
    rw [← Except.ok.inj h]
    refine ⟨_, rfl, ?_⟩
    have := hap hpre
    exact cstr_frame (wr_length hw) (wr_take_le hw (Nat.le_refl _))
      (wr_drop hw (q := off + S.length + 1) (by omega)) hX (by omega)
  · have hpre2 : has_prefix S base = false := by
      cases hv : has_prefix S base with
      | true => exact absurd hv hpre
      | false => rfl
    rw [edit_strp_miss hb hd hpre2] at h
    rw [← Except.ok.inj h]
    exact ⟨str, hst, hX⟩

/-- The loop for one attribute leaves the string `X` at `o` of `.debug_str`
as it is, when the string that the attribute has rewritten, if any, shares
no byte with it. -/
theorem attr_loop_strp_keep {env : Env} {tag attr : Nat} {base dest X : List Nat} {o : Nat}
    (hwin : env.cfg.win_path = false) (hb : env.cfg.base_dir = some base)
    (hd : env.cfg.dest_dir = some dest) (hlen : dest.length ≤ base.length) :
    ∀ (fuel form : Nat) (a : AttrSt) (r : Bool × AttrSt),
      attr_loop env 1 tag attr fuel form a = .ok r →
      (∃ str, a.st.debug_str = some str ∧ cstr str o = .ok X) →
      (∀ (p2 : Nat) (str2 : List Nat) (r2 : Nat × Nat) (S2 : List Nat),
        path_attr tag attr →
        eff_form (info_of a.st) fuel form a.ptr = some (DW_FORM_strp, p2) →
        a.st.debug_str = some str2 →
        do_read_32_relocated env (info_of a.st) a.st.relptr p2 = .ok r2 →
        cstr str2 r2.1 = .ok S2 → has_prefix S2 base = true →
        r2.1 + S2.length < o ∨ o + X.length < r2.1) →
      ∃ str', r.2.st.debug_str = some str' ∧ cstr str' o = .ok X := by
  intro fuel
  induction fuel with
  | zero => intro form a r h; simp [attr_loop] at h
  | succ n ih =>
    intro form a r h hX hprot
    unfold attr_loop at h
    obtain ⟨a1, h1, k⟩ := bind_eq_ok.mp h
    obtain ⟨fs, h2, k2⟩ := bind_eq_ok.mp k
    clear h k
    by_cases hform : form = DW_FORM_indirect
    · subst hform
      have ha1 := attr_actions_indirect h1
      subst ha1
      obtain ⟨f, p, hread, hfs⟩ := form_step_indirect_inv h2
      subst hfs
      simp only at k2
      apply ih f { a1 with ptr := p } r k2 hX
      intro p2 str2 r2 S2 hpa he hs hr hS hpre
      apply hprot p2 str2 r2 S2 hpa _ hs hr hS hpre
      rw [eff_form_indirect n hread]
      exact he
    · have hstr1 : ∃ str1, a1.st.debug_str = some str1 ∧ cstr str1 o = .ok X := by
        obtain ⟨str0, hs0, hX0⟩ := hX
        rcases attr_actions_str h1 with hsame | ⟨hpa, hf, str, r2, S2, whole, hs, hr, hS, he⟩
        · exact ⟨str0, by rw [hsame, hs0], hX0⟩
        · have hss : str0 = str := by
            rw [hs0] at hs
            exact Option.some.inj hs
          subst hss
          exact @edit_strp_keep_other _ _ { a.st with relptr := r2.2 } _ _ _ _ _ _ _ _
            hwin hb hd hlen hs0 hS he hX0
            (fun hpre => hprot a.ptr str0 r2 S2 hpa
              (by rw [eff_form_direct _ n _ hform, hf]) hs0 hr hS hpre)
      cases fs with
      | done p =>
        simp only at k2
        rw [← ok_inj k2]
        exact hstr1
      | again f p =>
        exact absurd (form_step_again h2) hform
      | unknown =>
        simp only at k2
        rw [← ok_inj k2]
        exact hstr1

/-- The loop over the attributes leaves the string `X` at `o` of
`.debug_str` as it is, when none of the strings that the attributes rewrite
shares a byte with it. -/
theorem attrs_loop_strp_keep {env : Env} {tag : Nat} {base dest X : List Nat} {o : Nat}
    (hwin : env.cfg.win_path = false) (hb : env.cfg.base_dir = some base)
    (hd : env.cfg.dest_dir = some dest) (hlen : dest.length ≤ base.length) :
    ∀ (post : List abbrev_attr) (a : AttrSt) (r : Bool × AttrSt),
      attrs_loop env 1 tag post a = .ok r →
      (∃ str, a.st.debug_str = some str ∧ cstr str o = .ok X) →
      (∀ (mid : List abbrev_attr) (y : abbrev_attr) (rest : List abbrev_attr) (a2 : AttrSt)
        (p2 : Nat) (str2 : List Nat) (r2 : Nat × Nat) (S2 : List Nat),
        post = mid ++ y :: rest →
        attrs_loop env 1 tag mid a = .ok (true, a2) →
        path_attr tag y.attr →
        eff_form (info_of a2.st) ((info_of a2.st).length + 1) y.form a2.ptr
          = some (DW_FORM_strp, p2) →
        a2.st.debug_str = some str2 →
        do_read_32_relocated env (info_of a2.st) a2.st.relptr p2 = .ok r2 →
        cstr str2 r2.1 = .ok S2 → has_prefix S2 base = true →
        r2.1 + S2.length < o ∨ o + X.length < r2.1) →
      ∃ str', r.2.st.debug_str = some str' ∧ cstr str' o = .ok X := by
  intro post
  induction post with
  | nil =>
    intro a r h hX _
    obtain ⟨_, e⟩ := @attrs_loop_nil_ok env 1 tag a r.2 r.1 h
    rw [e]
    exact hX
  | cons at1 rest ih =>
    intro a r h hX hlater
    rw [attrs_loop_cons] at h
    obtain ⟨r1, h1, k⟩ := bind_eq_ok.mp h
    clear h
    have hX1 := attr_loop_strp_keep hwin hb hd hlen _ _ _ _ h1 hX
      (fun p2 str2 r2 S2 hpa he hs hr hS hpre =>
        hlater [] at1 rest a p2 str2 r2 S2 rfl rfl hpa he hs hr hS hpre)
    by_cases hb1 : r1.1 = true
    · rw [if_pos hb1] at k
      apply ih r1.2 r k hX1
      intro mid y rest2 a2 p2 str2 r2 S2 hsplit hmid
      apply hlater (at1 :: mid) y rest2 a2 p2 str2 r2 S2 (by rw [hsplit]; rfl)
      rw [attrs_loop_cons_ok h1 hb1]
      exact hmid
    · rw [if_neg hb1] at k
      rw [← ok_inj k]
      exact hX1

/-- In phase 1 `edit_attributes` leaves `.debug_str` as its loop over the
attributes left it. -/
theorem edit_attributes_str {env : Env} {st : St} {ptr : Nat} {t : abbrev_tag}
    {res : Option Nat × St} (h : edit_attributes env st ptr t 1 = .ok res) :
    ∃ r, attrs_loop env 1 t.tag t.attr ⟨st, ptr, none, 0, false⟩ = .ok r ∧
      res.2.debug_str = r.2.st.debug_str := by
  unfold edit_attributes at h
  obtain ⟨r, h1, k⟩ := bind_eq_ok.mp h
  clear h
  refine ⟨r, h1, ?_⟩
  by_cases hb : r.1 = true
  · simp only [hb, if_true] at k
    have hs2 := emit_comp_dir_same env.cfg r.2
    cases hcd : r.2.comp_dir with
    | none =>
      simp only [hcd] at k
      rw [← ok_inj k]
      exact hs2.2.2.2.1
    | some cd =>
      simp only [hcd] at k
      by_cases hf : r.2.found_list_offs = true
      · simp only [hf, if_true] at k
        obtain ⟨r2, h2, k2⟩ := bind_eq_ok.mp k
        rw [← ok_inj k2]
        have hs3 := edit_dwarf2_line_same (Or.inl (by decide)) h2
        exact (St.same_trans hs2 hs3).2.2.2.1
      · simp only [hf] at k
        rw [← ok_inj k]
        exact hs2.2.2.2.1
  · simp only [hb] at k
    rw [← ok_inj k]

/-! ## A second pass of `edit_symtab` -/

theorem rewritten_length {cfg : Config} {whole : Bool} {base dest S : List Nat}
    (heq : dest.length = base.length) : (rewritten cfg whole base dest S).length = S.length := by
  unfold rewritten
  by_cases h : has_prefix S base = true
  · obtain ⟨hl, _⟩ := has_prefix_iff.mp h
    rw [if_pos h]
    split
    · rw [make_win_path_length, List.length_append, List.length_drop]; omega
    · rw [List.length_append, List.length_drop]; omega
  · rw [if_neg h]

/-- C1: for a line-program header accepted by `edit_dwarf2_line` in phase 0
(return value 0), with dest configured, not empty and no longer than base,
whose tables are `ds` and `fs`: the section keeps its size, every byte
before the first directory entry and every byte after the terminator of the
original file table is unchanged, and the section again holds a directory
table and a file table at `dir` whose sizes add up to the original ones, so
that the terminating NUL of the rewritten file table is at the offset of
the original one. -/
theorem C1_line_edit_frame {cfg : Config} {msb : Bool} {st st' : St} {off dir : Nat}
    {comp_dir m base dest : List Nat} {ds : List (List Nat)} {fs : List (List Nat × List Nat)}
    (hline : st.debug_line = some m) (hb : cfg.base_dir = some base)
    (hd : cfg.dest_dir = some dest) (hlen : dest.length ≤ base.length)
    (hblen : base.length < 2 ^ 63) (hfit : m.length < 2 ^ 63)
    (hdest : ∀ x ∈ dest, x ≠ 0) (hdne : dest ≠ [])
    (hh : line_header msb m off = .ok (some dir)) (ht : LineTables m dir ds fs)
    (h : edit_dwarf2_line cfg msb st off comp_dir 0 = .ok (0, st')) :
    ∃ m' ds' fs', st'.debug_line = some m' ∧ m'.length = m.length ∧
      (∀ i, i < dir → m'[i]? = m[i]?) ∧
      (∀ i, dir + (encD ds).length + 1 + (encF fs).length < i → m'[i]? = m[i]?) ∧
      LineTables m' dir ds' fs' ∧
      (encD ds').length + (encF fs').length = (encD ds).length + (encF fs).length ∧
      dir + (encD ds').length + 1 + (encF fs').length
        = dir + (encD ds).length + 1 + (encF fs).length ∧
      m'[dir + (encD ds).length + 1 + (encF fs).length]? = some 0 ∧
      m[dir + (encD ds).length + 1 + (encF fs).length]? = some 0 := by
  obtain ⟨n1, n2, m', h1, _, _, h4, h5, h6, h7, h8⟩ :=
    edit_dwarf2_line_of_tables hline hb hd hlen hblen hfit hdest hdne hh ht h
  refine ⟨m', _, _, h1, h6, fun i hi => getElem?_of_take_eq h7 hi,
    fun i hi => getElem?_of_drop_eq h8 (by omega), h4, h5, by omega, ?_, LineTables_term ht⟩
  have := LineTables_term h4
  have e : dir + (encD ds).length + 1 + (encF fs).length
      = dir + (encD (ds.map (new_dir cfg.win_path base dest) ++ fill_entries n1
        ++ fill_entries n2)).length + 1 + (encF (fs.map (new_file base dest))).length := by
    omega
  rw [e]
  exact this

/-- C1 on a header with two directories and two files, base `/build/` and
dest `/o/`. -/
theorem C1_line_edit_frame_witness :
    ∃ m' ds' fs', c1_st.debug_line = some m' ∧ m'.length = (ex_line c1_ds c1_fs).length ∧
      (∀ i, i < 15 → m'[i]? = (ex_line c1_ds c1_fs)[i]?) ∧
      (∀ i, 15 + (encD c1_ds).length + 1 + (encF c1_fs).length < i →
        m'[i]? = (ex_line c1_ds c1_fs)[i]?) ∧
      LineTables m' 15 ds' fs' ∧
      (encD ds').length + (encF fs').length = (encD c1_ds).length + (encF c1_fs).length ∧
      15 + (encD ds').length + 1 + (encF fs').length
        = 15 + (encD c1_ds).length + 1 + (encF c1_fs).length ∧
      m'[15 + (encD c1_ds).length + 1 + (encF c1_fs).length]? = some 0 ∧
      (ex_line c1_ds c1_fs)[15 + (encD c1_ds).length + 1 + (encF c1_fs).length]? = some 0 :=
  @C1_line_edit_frame c1_cfg false (ex_st (ex_line c1_ds c1_fs)) c1_st 0 15 []
    (ex_line c1_ds c1_fs) (bytes "/build/") (bytes "/o/") c1_ds c1_fs
    rfl rfl rfl (by decide) (by decide) (by decide) (by decide) (by decide)
    rfl c1_tables rfl

/-- C2: in phase 1 and non-Windows mode, with dest configured and no longer
than base, the pass of `edit_attributes` over a `DW_AT_comp_dir`, or a
`DW_AT_name` of a compile or partial unit, of form `DW_FORM_string` whose
inline string `S` starts with base returns normally and leaves
`.debug_info` equal to the old bytes with the first `len(base)` bytes of the
string replaced by dest followed by `len(base) - len(dest)` bytes `/`; the
string read at that position is dest, the separators and `S[len(base)..]`,
it has the length of `S` (the pointer steps over the same number of bytes),
`.debug_info` is marked dirty and `.debug_str` and its flag are as before.
The passes over the attributes that follow do not touch these bytes: when
the attribute is one of an abbreviation `t` and the loop has reached it in
the state `a`, then after `edit_attributes` the section still holds, up to
the end of the string, what this pass left. -/
theorem C2_inline_string_rewrite {env : Env} {a : AttrSt} {tag attr fuel : Nat}
    {m S base dest : List Nat}
    (hwin : env.cfg.win_path = false) (hb : env.cfg.base_dir = some base)
    (hd : env.cfg.dest_dir = some dest) (hlen : dest.length ≤ base.length)
    (hdest : ∀ x ∈ dest, x ≠ 0) (hattr : path_attr tag attr)
    (hm : a.st.debug_info = some m) (hS : cstr m a.ptr = .ok S)
    (hpre : has_prefix S base = true) :
    ∃ a' m', attr_loop env 1 tag attr (fuel + 1) DW_FORM_string a = .ok (true, a') ∧
      a'.st.debug_info = some m' ∧
      m' = m.take a.ptr ++ (dest ++ List.replicate (base.length - dest.length) 47)
        ++ m.drop (a.ptr + base.length) ∧
      cstr m' a.ptr
        = .ok (dest ++ List.replicate (base.length - dest.length) 47 ++ S.drop base.length) ∧
      (dest ++ List.replicate (base.length - dest.length) 47 ++ S.drop base.length).length
        = S.length ∧
      a'.ptr = a.ptr + S.length + 1 ∧
      a'.st.dirty_info = true ∧ a'.st.dirty_str = a.st.dirty_str ∧
      a'.st.debug_str = a.st.debug_str ∧
      ∀ (t : abbrev_tag) (pre post : List abbrev_attr) (st0 : St) (p0 : Nat)
        (res : Option Nat × St),
        t.tag = tag → t.attr = pre ++ ⟨attr, DW_FORM_string⟩ :: post →
        fuel = (info_of a.st).length →
        attrs_loop env 1 tag pre ⟨st0, p0, none, 0, false⟩ = .ok (true, a) →
        edit_attributes env st0 p0 t 1 = .ok res →
          (info_of res.2).take (a.ptr + S.length + 1) = m'.take (a.ptr + S.length + 1) := by
  obtain ⟨hS0, r, hdrop⟩ := cstr_eq_ok.mp hS
  obtain ⟨hbl, htake⟩ := has_prefix_iff.mp hpre
  obtain ⟨cd, hact⟩ := attr_actions_inline hwin hb hd hlen hattr hm hS hpre
  have hml : a.ptr + S.length + 1 ≤ m.length := by
    have := congrArg List.length hdrop
    simp at this
    omega
  have hlen2 : (dest ++ List.replicate (base.length - dest.length) 47 ++ S.drop base.length).length
      = S.length := by
    simp; omega
  have hd2 : m.drop (a.ptr + base.length) = S.drop base.length ++ 0 :: r := by
    rw [← List.drop_drop, hdrop, List.drop_append_of_le_length hbl]
  have hc : cstr (m.take a.ptr ++ (dest ++ List.replicate (base.length - dest.length) 47)
      ++ m.drop (a.ptr + base.length)) a.ptr
      = .ok (dest ++ List.replicate (base.length - dest.length) 47 ++ S.drop base.length) := by
    apply cstr_of_drop (r := r)
    · have hl : (m.take a.ptr).length = a.ptr := by simp; omega
      rw [List.append_assoc, List.drop_left' hl, hd2]
      simp
    · intro c hc
      simp only [List.mem_append, List.mem_replicate] at hc
      rcases hc with (hc | hc) | hc
      · exact hdest c hc
      · rw [hc.2]; decide
      · exact hS0 c (List.mem_of_mem_drop hc)
  have hi : ∀ (x : St) (y : List Nat), x.debug_info = some y → info_of x = y := by
    intro x y h; unfold info_of; rw [h]; rfl
  have hloop : attr_loop env 1 tag attr (fuel + 1) DW_FORM_string a
      = .ok (true, { a with
          st := { a.st with
            debug_info := some (m.take a.ptr
              ++ (dest ++ List.replicate (base.length - dest.length) 47)
              ++ m.drop (a.ptr + base.length)),
            dirty_info := true },
          ptr := a.ptr + S.length + 1,
          comp_dir := cd }) := by
    unfold attr_loop
    rw [hact]
    simp only [bind_ok_eq]
    rw [hi _ _ rfl, form_step_string hc]
    simp only [bind_ok_eq, pure_eq_ok, hlen2]
  refine ⟨_, _, hloop, rfl, rfl, hc, hlen2, rfl, rfl, rfl, rfl, ?_⟩
  intro t pre post st0 p0 res htag hattrs hfuel hpreloop hed
  obtain ⟨r2, hr2, hinfo⟩ := edit_attributes_info hed
  rw [htag, hattrs, attrs_loop_append, hpreloop] at hr2
  simp only [bind_ok_eq, if_true] at hr2
  rw [attrs_loop_cons] at hr2
  simp only at hr2
  rw [← hfuel, hloop] at hr2
  simp only [bind_ok_eq, if_true] at hr2
  obtain ⟨_, hk⟩ := attrs_loop_keep _ _ _ hr2
  simp only at hk
  rw [hinfo, hk, info_of_some rfl]

/-- C2 at scenario S1: `/build/src/a` becomes `/proj1/out/a`. -/
theorem C2_inline_string_rewrite_witness :
    ∃ a' m', attr_loop ⟨s1_cfg, false, [], 0⟩ 1 DW_TAG_compile_unit DW_AT_comp_dir (13 + 1)
        DW_FORM_string s1_a = .ok (true, a') ∧
      a'.st.debug_info = some m' ∧
      m' = (bytes "/build/src/a" ++ [0]).take s1_a.ptr ++ (bytes "/proj1/out/"
          ++ List.replicate ((bytes "/build/src/").length - (bytes "/proj1/out/").length) 47)
        ++ (bytes "/build/src/a" ++ [0]).drop (s1_a.ptr + (bytes "/build/src/").length) ∧
      cstr m' s1_a.ptr
        = .ok (bytes "/proj1/out/"
          ++ List.replicate ((bytes "/build/src/").length - (bytes "/proj1/out/").length) 47
          ++ (bytes "/build/src/a").drop (bytes "/build/src/").length) ∧
      (bytes "/proj1/out/"
          ++ List.replicate ((bytes "/build/src/").length - (bytes "/proj1/out/").length) 47
          ++ (bytes "/build/src/a").drop (bytes "/build/src/").length).length
        = (bytes "/build/src/a").length ∧
      a'.ptr = s1_a.ptr + (bytes "/build/src/a").length + 1 ∧
      a'.st.dirty_info = true ∧ a'.st.dirty_str = s1_a.st.dirty_str ∧
      a'.st.debug_str = s1_a.st.debug_str ∧
      ∀ (t : abbrev_tag) (pre post : List abbrev_attr) (st0 : St) (p0 : Nat)
        (res : Option Nat × St),
        t.tag = DW_TAG_compile_unit → t.attr = pre ++ ⟨DW_AT_comp_dir, DW_FORM_string⟩ :: post →
        13 = (info_of s1_a.st).length →
        attrs_loop ⟨s1_cfg, false, [], 0⟩ 1 DW_TAG_compile_unit pre ⟨st0, p0, none, 0, false⟩
          = .ok (true, s1_a) →
        edit_attributes ⟨s1_cfg, false, [], 0⟩ st0 p0 t 1 = .ok res →
          (info_of res.2).take (s1_a.ptr + (bytes "/build/src/a").length + 1)
            = m'.take (s1_a.ptr + (bytes "/build/src/a").length + 1) :=
  C2_inline_string_rewrite rfl rfl rfl (by decide)
    (by decide) (Or.inl rfl) rfl rfl rfl

/-- C3, as stated, fails, with base `/a/a/` and dest `/a/` on a compile unit
whose `DW_AT_comp_dir` and `DW_AT_name` are both of form `strp`.  When both
offsets are 0 and point at `/a/a/a/x`, the first attribute leaves
`/a/a/x`, which starts with base again, and the second rewrites it once
more: after `edit_attributes` the string at the offset is `/a/x`, not
`dest ++ S[len(base)..]`.  When the offsets 0 and 7 point at `/a/a/p` and
at `/a/a/q`, which follows it, the rewrite of the second string changes
bytes after the terminating NUL of the first. -/
theorem C3_counterexample :
    cstr (bytes "/a/a/a/x" ++ [0]) 0 = .ok (bytes "/a/a/a/x") ∧
    has_prefix (bytes "/a/a/a/x") (bytes "/a/a/") = true ∧
    edit_attributes ⟨c3_cfg, false, [], 0⟩
        (c3_st [0, 0, 0, 0, 0, 0, 0, 0] (bytes "/a/a/a/x" ++ [0])) 0 c3_tag 1
      = .ok (some 8, { c3_st [0, 0, 0, 0, 0, 0, 0, 0] (bytes "/a/x" ++ [0, 120, 0, 120, 0]) with
          dirty_str := true }) ∧
    cstr (bytes "/a/x" ++ [0, 120, 0, 120, 0]) 0 = .ok (bytes "/a/x") ∧
    bytes "/a/x" ≠ bytes "/a/" ++ (bytes "/a/a/a/x").drop (bytes "/a/a/").length ∧
    cstr (bytes "/a/a/p" ++ 0 :: bytes "/a/a/q" ++ [0]) 0 = .ok (bytes "/a/a/p") ∧
    edit_attributes ⟨c3_cfg, false, [], 0⟩
        (c3_st [0, 0, 0, 0, 7, 0, 0, 0] (bytes "/a/a/p" ++ 0 :: bytes "/a/a/q" ++ [0])) 0 c3_tag 1
      = .ok (some 8, { c3_st [0, 0, 0, 0, 7, 0, 0, 0]
            (bytes "/a/p" ++ [0, 112, 0] ++ bytes "/a/q" ++ [0, 113, 0]) with
          dirty_str := true }) ∧
    (bytes "/a/p" ++ [0, 112, 0] ++ bytes "/a/q" ++ [0, 113, 0]).drop
        (0 + (bytes "/a/a/p").length + 1)
      ≠ (bytes "/a/a/p" ++ 0 :: bytes "/a/a/q" ++ [0]).drop (0 + (bytes "/a/a/p").length + 1) := by
  refine ⟨rfl, rfl, rfl, rfl, by decide, rfl, rfl, by decide⟩

/-- C3, amended: in phase 1 and non-Windows mode, with dest configured and no
longer than base, the pass of `edit_attributes` over a `DW_AT_comp_dir`, or a
`DW_AT_name` of a compile or partial unit, of form `DW_FORM_strp` whose
relocated offset `r.1` points at a `.debug_str` string `S` starting with
base returns normally; when the pass is done the string at that offset is
`dest ++ S[len(base)..]`, `.debug_str` is marked dirty, its bytes before the
offset and after the terminator of `S` are the old ones, its size and
`.debug_info` are unchanged, and the pointer has advanced by 4.  The
attributes of the DIE that follow rewrite the strings they point at in the
same way: when the attribute is one of an abbreviation `t` and the loop has
reached it in the state `a`, then after `edit_attributes` the string at the
offset is still `dest ++ S[len(base)..]`, provided that no later
`DW_AT_comp_dir` or unit `DW_AT_name` of the DIE whose form is, or is read
through `DW_FORM_indirect` as, `strp` points at a string that starts with
base and shares a byte with this string (its NUL included). -/
theorem C3_strp_rewrite {env : Env} {a : AttrSt} {tag attr fuel : Nat}
    {str S base dest : List Nat} {r : Nat × Nat}
    (hwin : env.cfg.win_path = false) (hb : env.cfg.base_dir = some base)
    (hd : env.cfg.dest_dir = some dest) (hlen : dest.length ≤ base.length)
    (hdest : ∀ x ∈ dest, x ≠ 0) (hattr : path_attr tag attr)
    (hstr : a.st.debug_str = some str)
    (hr : do_read_32_relocated env (info_of a.st) a.st.relptr a.ptr = .ok r)
    (hS : cstr str r.1 = .ok S) (hpre : has_prefix S base = true) :
    ∃ a' str', attr_loop env 1 tag attr (fuel + 1) DW_FORM_strp a = .ok (true, a') ∧
      a'.st.debug_str = some str' ∧
      cstr str' r.1 = .ok (dest ++ S.drop base.length) ∧
      a'.st.dirty_str = true ∧
      str'.take r.1 = str.take r.1 ∧
      str'.drop (r.1 + S.length + 1) = str.drop (r.1 + S.length + 1) ∧
      str'.length = str.length ∧
      a'.ptr = a.ptr + 4 ∧
      a'.st.debug_info = a.st.debug_info ∧ a'.st.dirty_info = a.st.dirty_info ∧
      ∀ (t : abbrev_tag) (pre post : List abbrev_attr) (st0 : St) (p0 : Nat)
        (res : Option Nat × St),
        t.tag = tag → t.attr = pre ++ ⟨attr, DW_FORM_strp⟩ :: post →
        fuel = (info_of a.st).length →
        attrs_loop env 1 tag pre ⟨st0, p0, none, 0, false⟩ = .ok (true, a) →
        edit_attributes env st0 p0 t 1 = .ok res →
        (∀ (mid : List abbrev_attr) (y : abbrev_attr) (rest : List abbrev_attr) (a2 : AttrSt)
          (p2 : Nat) (str2 : List Nat) (r2 : Nat × Nat) (S2 : List Nat),
          post = mid ++ y :: rest →
          attrs_loop env 1 tag (pre ++ ⟨attr, DW_FORM_strp⟩ :: mid) ⟨st0, p0, none, 0, false⟩
            = .ok (true, a2) →
          path_attr tag y.attr →
          eff_form (info_of a2.st) ((info_of a2.st).length + 1) y.form a2.ptr
            = some (DW_FORM_strp, p2) →
          a2.st.debug_str = some str2 →
          do_read_32_relocated env (info_of a2.st) a2.st.relptr p2 = .ok r2 →
          cstr str2 r2.1 = .ok S2 → has_prefix S2 base = true →
          r2.1 + S2.length < r.1 ∨ r.1 + (dest ++ S.drop base.length).length < r2.1) →
        ∃ strf, res.2.debug_str = some strf ∧
          cstr strf r.1 = .ok (dest ++ S.drop base.length) := by
  obtain ⟨hS0, t, hdrop⟩ := cstr_eq_ok.mp hS
  obtain ⟨hbl, htake⟩ := has_prefix_iff.mp hpre
  obtain ⟨cd, hact⟩ := attr_actions_strp hwin hb hd hlen hattr hstr hr hS hpre
  obtain ⟨_, hfit⟩ := @rewrite_strp_ok _ _ _ _ dest _ hb hlen hS hpre
  have hw : wr str r.1 (dest ++ S.drop base.length ++ [0])
      = .ok (str.take r.1 ++ (dest ++ S.drop base.length ++ [0])
          ++ str.drop (r.1 + (dest ++ S.drop base.length ++ [0]).length)) :=
    wr_eq_ok.mpr ⟨hfit, rfl⟩
  have hc := cstr_after_wr hw (by
    intro c hc
    rcases List.mem_append.mp hc with hc | hc
    · exact hdest c hc
    · exact hS0 c (List.mem_of_mem_drop hc))
  have hl2 : (dest ++ S.drop base.length ++ [0]).length ≤ S.length + 1 := by
    simp; omega
  have hloop : attr_loop env 1 tag attr (fuel + 1) DW_FORM_strp a
      = .ok (true, { a with
          st := { a.st with
            relptr := r.2,
            debug_str := some (str.take r.1
              ++ (dest ++ S.drop base.length ++ [0])
              ++ str.drop (r.1 + (dest ++ S.drop base.length ++ [0]).length)),
            dirty_str := true },
          ptr := a.ptr + 4,
          comp_dir := cd }) := by
    unfold attr_loop
    rw [hact]
    simp only [bind_ok_eq]
    rw [form_step_strp]
    simp only [bind_ok_eq, pure_eq_ok]
  refine ⟨_, _, hloop, rfl, hc, rfl, wr_take_le hw (Nat.le_refl _), wr_drop hw (by omega),
    wr_length hw, rfl, rfl, rfl, ?_⟩
  intro t pre post st0 p0 res htag hattrs hfuel hpreloop hed hlater
  obtain ⟨r2, hr2, hstrf⟩ := edit_attributes_str hed
  rw [htag, hattrs, attrs_loop_append, hpreloop] at hr2
  simp only [bind_ok_eq, if_true] at hr2
  rw [attrs_loop_cons] at hr2
  simp only at hr2
  rw [← hfuel, hloop] at hr2
  simp only [bind_ok_eq, if_true] at hr2
  rw [hstrf]
  apply attrs_loop_strp_keep hwin hb hd hlen post _ r2 hr2 ⟨_, rfl, hc⟩
  intro mid y rest a2 p2 str2 q2 S2 hsplit hmid hpa he hs hq hS2 hpre2
  apply hlater mid y rest a2 p2 str2 q2 S2 hsplit _ hpa he hs hq hS2 hpre2
  rw [attrs_loop_append, hpreloop]
  simp only [bind_ok_eq, if_true]
  rw [attrs_loop_cons]
  simp only
  rw [← hfuel, hloop]
  simp only [bind_ok_eq, if_true]
  exact hmid

/-- C3, amended, at scenario S2 (`/home/alice/work/proj` becomes
`/src/proj`), and on the unit with the strings `/a/a/p` at 0 and `/a/a/q`
at 7: after `edit_attributes` the string at 0 is `/a/p`. -/
theorem C3_strp_rewrite_witness :
    (∃ a' str', attr_loop ⟨s2_cfg, false, [], 0⟩ 1 DW_TAG_compile_unit DW_AT_comp_dir (0 + 1)
        DW_FORM_strp s2_a = .ok (true, a') ∧
      a'.st.debug_str = some str' ∧
      cstr str' (1, 0).1
        = .ok (bytes "/src/" ++ (bytes "/home/alice/work/proj").drop (bytes "/home/alice/work/").length) ∧
      a'.st.dirty_str = true ∧
      str'.take (1, 0).1
        = (65 :: bytes "/home/alice/work/proj" ++ 0 :: bytes "tail" ++ [0]).take (1, 0).1 ∧
      str'.drop ((1, 0).1 + (bytes "/home/alice/work/proj").length + 1)
        = (65 :: bytes "/home/alice/work/proj" ++ 0 :: bytes "tail" ++ [0]).drop
          ((1, 0).1 + (bytes "/home/alice/work/proj").length + 1) ∧
      str'.length = (65 :: bytes "/home/alice/work/proj" ++ 0 :: bytes "tail" ++ [0]).length ∧
      a'.ptr = s2_a.ptr + 4 ∧
      a'.st.debug_info = s2_a.st.debug_info ∧ a'.st.dirty_info = s2_a.st.dirty_info) ∧
    ∃ strf, (({ c3_st [0, 0, 0, 0, 7, 0, 0, 0]
          (bytes "/a/p" ++ [0, 112, 0] ++ bytes "/a/q" ++ [0, 113, 0]) with
        dirty_str := true } : St)).debug_str = some strf ∧
      cstr strf (0, 0).1 = .ok (bytes "/a/" ++ (bytes "/a/a/p").drop (bytes "/a/a/").length) := by
  constructor
  · obtain ⟨a', str', h1, h2, h3, h4, h5, h6, h7, h8, h9, h10, _⟩ :=
      @C3_strp_rewrite ⟨s2_cfg, false, [], 0⟩ s2_a DW_TAG_compile_unit DW_AT_comp_dir 0 _ _ _ _
        (1, 0) rfl rfl rfl (by decide) (by decide) (Or.inl rfl) rfl rfl rfl rfl
    exact ⟨a', str', h1, h2, h3, h4, h5, h6, h7, h8, h9, h10⟩
  · obtain ⟨a', str', _, _, _, _, _, _, _, _, _, _, hlast⟩ :=
      @C3_strp_rewrite ⟨c3_cfg, false, [], 0⟩
        ⟨c3_st [0, 0, 0, 0, 7, 0, 0, 0] (bytes "/a/a/p" ++ 0 :: bytes "/a/a/q" ++ [0]),
          0, none, 0, false⟩
        DW_TAG_compile_unit DW_AT_comp_dir 8 (bytes "/a/a/p" ++ 0 :: bytes "/a/a/q" ++ [0])
        (bytes "/a/a/p") (bytes "/a/a/") (bytes "/a/")
        (0, 0) rfl rfl rfl (by decide) (by decide) (Or.inl rfl) rfl (by rfl) (by rfl) (by rfl)
    refine hlast c3_tag [] [⟨DW_AT_name, DW_FORM_strp⟩]
      (c3_st [0, 0, 0, 0, 7, 0, 0, 0] (bytes "/a/a/p" ++ 0 :: bytes "/a/a/q" ++ [0])) 0
      (some 8, { c3_st [0, 0, 0, 0, 7, 0, 0, 0]
          (bytes "/a/p" ++ [0, 112, 0] ++ bytes "/a/q" ++ [0, 113, 0]) with
        dirty_str := true }) rfl rfl rfl rfl rfl ?_
    intro mid y rest a2 p2 str2 r2 S2 hsplit hmid _ he hs hr hS2 _
    have hm : mid = [] := by
      cases mid with
      | nil => rfl
      | cons m0 ms =>
        have := congrArg List.length hsplit
        simp at this
    subst hm
    have hy : y = ⟨DW_AT_name, DW_FORM_strp⟩ := (List.cons.inj hsplit).1.symm
    subst hy
    have hev : attrs_loop ⟨c3_cfg, false, [], 0⟩ 1 DW_TAG_compile_unit
        ([] ++ (⟨DW_AT_comp_dir, DW_FORM_strp⟩ : abbrev_attr) :: [])
        ⟨c3_st [0, 0, 0, 0, 7, 0, 0, 0] (bytes "/a/a/p" ++ 0 :: bytes "/a/a/q" ++ [0]),
          0, none, 0, false⟩
        = .ok (true, ⟨{ c3_st [0, 0, 0, 0, 7, 0, 0, 0]
            (bytes "/a/p" ++ [0, 112, 0] ++ bytes "/a/a/q" ++ [0]) with dirty_str := true },
          4, some (bytes "/a/a/p"), 0, false⟩) := rfl
    rw [hev] at hmid
    have ha2 := (Prod.mk.inj (Except.ok.inj hmid)).2
    subst ha2
    have hp2 : p2 = 4 := by
      have h4 : eff_form [0, 0, 0, 0, 7, 0, 0, 0] (8 + 1) DW_FORM_strp 4
          = some (DW_FORM_strp, 4) := rfl
      have he2 : eff_form [0, 0, 0, 0, 7, 0, 0, 0] (8 + 1) DW_FORM_strp 4
          = some (DW_FORM_strp, p2) := he
      rw [h4] at he2
      exact ((Prod.mk.inj (Option.some.inj he2)).2).symm
    subst hp2
    have hr2 : r2 = (7, 0) := by
      have h7 : do_read_32_relocated ⟨c3_cfg, false, [], 0⟩ [0, 0, 0, 0, 7, 0, 0, 0] 0 4
          = .ok (7, 0) := rfl
      have hr3 : do_read_32_relocated ⟨c3_cfg, false, [], 0⟩ [0, 0, 0, 0, 7, 0, 0, 0] 0 4
          = .ok r2 := hr
      rw [h7] at hr3
      exact (Except.ok.inj hr3).symm
    subst hr2
    right
    decide

/-- C4: the writes of `edit_attributes` for one attribute (one pass of the
body of its loop, the call of the line-header editor not included): if
they change a section buffer or a dirty flag, then phase is 1, base and
dest are configured and the string of the attribute starts with base.  So
in phase 0 nothing changes, for one attribute and for the whole loop over
the attributes with the emission of `comp_dir` that follows it, and an
attribute whose string does not start with base leaves buffers and flags as
they are. -/
theorem C4_attribute_writes_only_on_match {env : Env} {phase tag attr form : Nat} {a a' : AttrSt}
    (h : attr_actions env phase tag attr form a = .ok a') :
    (¬ St.same a.st a'.st →
      phase = 1 ∧ ∃ base dest s, env.cfg.base_dir = some base ∧ env.cfg.dest_dir = some dest ∧
        attr_string env a form s ∧ has_prefix s base = true) ∧
    (phase = 0 → St.same a.st a'.st) ∧
    (∀ (t : Nat) (attrs : List abbrev_attr) (b : AttrSt) (r : Bool × AttrSt),
      attrs_loop env 0 t attrs b = .ok r →
        St.same b.st r.2.st ∧ St.same b.st (emit_comp_dir env.cfg r.2)) ∧
    (∀ base s, env.cfg.base_dir = some base → attr_string env a form s →
      has_prefix s base = false → St.same a.st a'.st) := by
  have hf := attr_actions_frame h
  refine ⟨?_, ?_, ?_, ?_⟩
  · intro hn
    rcases hf with hs | hm
    · exact absurd hs hn
    · exact hm
  · intro hp
    rcases hf with hs | ⟨hp1, _⟩
    · exact hs
    · omega
  · intro t attrs b r hr
    have h1 := attrs_loop_same (Or.inl (by decide)) attrs b r hr
    exact ⟨h1, St.same_trans h1 (emit_comp_dir_same env.cfg r.2)⟩
  · intro base s hb hs hnp
    rcases hf with hsame | ⟨_, base2, dest, s2, hb2, _, hs2, hp2⟩
    · exact hsame
    · exfalso
      rw [hb] at hb2
      have hbb : base = base2 := Option.some.inj hb2
      subst hbb
      have hss : s = s2 := by
        rcases hs with ⟨f1, c1⟩ | ⟨f1, str, r, e1, e2, e3⟩
        · rcases hs2 with ⟨_, c2⟩ | ⟨f2, _⟩
          · exact cstr_inj c1 c2
          · rw [f1] at f2; exact absurd f2 (by decide)
        · rcases hs2 with ⟨f2, _⟩ | ⟨_, str2, r2, g1, g2, g3⟩
          · rw [f1] at f2; exact absurd f2 (by decide)
          · rw [e1] at g1
            have hstr : str = str2 := Option.some.inj g1
            subst hstr
            rw [e2] at g2
            have hr : r = r2 := Except.ok.inj g2
            subst hr
            exact cstr_inj e3 g3
      subst hss
      rw [hnp] at hp2
      exact absurd hp2 (by decide)

/-- C4 at scenario S3: base `/a/`, dest `/b/`, the inline `comp_dir`
`/unrelated/dir` in phase 1 is left as it is. -/
theorem C4_attribute_writes_only_on_match_witness :
    attr_actions s3_env 1 DW_TAG_compile_unit DW_AT_comp_dir DW_FORM_string s3_a
      = .ok { s3_a with comp_dir := some (bytes "/unrelated/dir") } ∧
    St.same s3_a.st ({ s3_a with comp_dir := some (bytes "/unrelated/dir") } : AttrSt).st :=
  ⟨rfl, (@C4_attribute_writes_only_on_match s3_env 1 DW_TAG_compile_unit DW_AT_comp_dir
    DW_FORM_string s3_a { s3_a with comp_dir := some (bytes "/unrelated/dir") } rfl).2.2.2
      (bytes "/a/") (bytes "/unrelated/dir") rfl (Or.inl ⟨rfl, rfl⟩) rfl⟩

/-- C5: when no dest prefix is configured, a run of the editor that returns
(`edit_symtab`, both phases of the DIE walk and every call of
`edit_dwarf2_line`) leaves `.debug_info`, `.debug_abbrev`, `.debug_line`,
`.debug_str`, the symbol string table and all dirty flags as they were; of
the state only the list sink (and the walker's bookkeeping) can differ. -/
theorem C5_no_dest_no_change {cfg : Config} {dso : Dso} {st : St} {r : Nat × St}
    (hd : cfg.dest_dir = none) (h : edit_dwarf2 cfg dso st = .ok r) :
    r.2.debug_info = st.debug_info ∧ r.2.debug_abbrev = st.debug_abbrev ∧
    r.2.debug_line = st.debug_line ∧ r.2.debug_str = st.debug_str ∧ r.2.strtab = st.strtab ∧
    r.2.dirty_info = st.dirty_info ∧ r.2.dirty_str = st.dirty_str ∧
    r.2.dirty_line = st.dirty_line ∧ r.2.dirty_strtab = st.dirty_strtab :=
  edit_dwarf2_same hd h

/-- C5 on an object with one unit and one line-program header, base
`/build/`, no dest, list file wanted: the run returns 0, has sent three
strings to the list sink, and sections and flags are as before. -/
theorem C5_no_dest_no_change_witness :
    edit_dwarf2 c5_cfg ex_dso c5_obj = .ok (0, c5_res) ∧
    (c5_res.debug_info = c5_obj.debug_info ∧ c5_res.debug_abbrev = c5_obj.debug_abbrev ∧
    c5_res.debug_line = c5_obj.debug_line ∧ c5_res.debug_str = c5_obj.debug_str ∧
    c5_res.strtab = c5_obj.strtab ∧
    c5_res.dirty_info = c5_obj.dirty_info ∧ c5_res.dirty_str = c5_obj.dirty_str ∧
    c5_res.dirty_line = c5_obj.dirty_line ∧ c5_res.dirty_strtab = c5_obj.dirty_strtab) :=
  ⟨rfl, @C5_no_dest_no_change c5_cfg ex_dso c5_obj (0, c5_res) rfl rfl⟩

/-- C6, as stated, fails for a relative base: with base `b/` and dest `d/`
the header with the directory entry `b/x` is accepted, the entry starts with
base, and after `edit_dwarf2_line` the section is the one it was: the entry
is still `b/x`, which does not start with dest. -/
theorem C6_counterexample :
    edit_dwarf2_line rel_cfg false (ex_st (ex_line [bytes "b/x"] [(bytes "f.c", [1, 0, 0])])) 0 [] 0
      = .ok (0, ex_st (ex_line [bytes "b/x"] [(bytes "f.c", [1, 0, 0])])) ∧
    rel_cfg.base_dir = some (bytes "b/") ∧ rel_cfg.dest_dir = some (bytes "d/") ∧
    has_prefix (bytes "b/x") (bytes "b/") = true ∧
    cstr (ex_line [bytes "b/x"] [(bytes "f.c", [1, 0, 0])]) 15 = .ok (bytes "b/x") ∧
    has_prefix (bytes "b/x") (bytes "d/") = false :=
  ⟨rfl, rfl, rfl, rfl, rfl, rfl⟩

/-- C6, amended: for an accepted header with the tables `ds` and `fs`, dest
configured, not empty and no longer than base, the directory table after
`edit_dwarf2_line` consists of the rewritten original entries, in their
order, followed by filler entries (bytes `X` only); an entry that starts
with `/` and with base is found at its index as dest followed by the
canonicalised remainder (with the separator translation of Windows mode),
which starts with dest. -/
theorem C6_dir_entries_rewritten {cfg : Config} {msb : Bool} {st st' : St} {off dir : Nat}
    {comp_dir m base dest : List Nat} {ds : List (List Nat)} {fs : List (List Nat × List Nat)}
    (hline : st.debug_line = some m) (hb : cfg.base_dir = some base)
    (hd : cfg.dest_dir = some dest) (hlen : dest.length ≤ base.length)
    (hblen : base.length < 2 ^ 63) (hfit : m.length < 2 ^ 63)
    (hdest : ∀ x ∈ dest, x ≠ 0) (hdne : dest ≠ [])
    (hh : line_header msb m off = .ok (some dir)) (ht : LineTables m dir ds fs)
    (h : edit_dwarf2_line cfg msb st off comp_dir 0 = .ok (0, st')) :
    ∃ m' F fs', st'.debug_line = some m' ∧
      LineTables m' dir (ds.map (new_dir cfg.win_path base dest) ++ F) fs' ∧
      (∀ e ∈ F, ∀ x ∈ e, x = 88) ∧
      ∀ (i : Nat) (e : List Nat), ds[i]? = some e → e.head? = some 47 → has_prefix e base = true →
        (ds.map (new_dir cfg.win_path base dest) ++ F)[i]?
          = some (dest ++ win cfg.win_path (canonicalize_path (e.drop base.length))) ∧
        has_prefix (dest ++ win cfg.win_path (canonicalize_path (e.drop base.length))) dest
          = true := by
  obtain ⟨n1, n2, m', h1, _, _, h4, _⟩ :=
    edit_dwarf2_line_of_tables hline hb hd hlen hblen hfit hdest hdne hh ht h
  rw [List.append_assoc] at h4
  refine ⟨m', fill_entries n1 ++ fill_entries n2, _, h1, h4, ?_, ?_⟩
  · intro e he
    rcases List.mem_append.mp he with he | he
    · exact fill_entries_X n1 e he
    · exact fill_entries_X n2 e he
  · intro i e hi h47 hpre
    have hu : under_base base e = true := under_base_iff.mpr ⟨h47, hpre⟩
    have hil : i < ds.length := by
      rcases List.getElem?_eq_some_iff.mp hi with ⟨hl, _⟩
      exact hl
    constructor
    · rw [List.getElem?_append_left (by simpa using hil), List.getElem?_map, hi]
      simp only [Option.map_some', new_dir, dir_rest, hu, if_true]
    · apply has_prefix_iff.mpr
      simp

/-- C6, amended, on a header with two directories under base `/build/`,
dest `/o/`: the second entry `/build/b/c` becomes `/o/b/c`. -/
theorem C6_dir_entries_rewritten_witness :
    ∃ m' F fs', c1_st.debug_line = some m' ∧
      LineTables m' 15 (c1_ds.map (new_dir c1_cfg.win_path (bytes "/build/") (bytes "/o/")) ++ F) fs' ∧
      (∀ e ∈ F, ∀ x ∈ e, x = 88) ∧
      ∀ (i : Nat) (e : List Nat), c1_ds[i]? = some e → e.head? = some 47 → has_prefix e (bytes "/build/") = true →
        (c1_ds.map (new_dir c1_cfg.win_path (bytes "/build/") (bytes "/o/")) ++ F)[i]?
          = some (bytes "/o/" ++ win c1_cfg.win_path
              (canonicalize_path (e.drop (bytes "/build/").length))) ∧
        has_prefix (bytes "/o/" ++ win c1_cfg.win_path
              (canonicalize_path (e.drop (bytes "/build/").length))) (bytes "/o/")
          = true :=
  @C6_dir_entries_rewritten c1_cfg false (ex_st (ex_line c1_ds c1_fs)) c1_st 0 15 []
    (ex_line c1_ds c1_fs) (bytes "/build/") (bytes "/o/") c1_ds c1_fs
    rfl rfl rfl (by decide) (by decide) (by decide) (by decide) (by decide) rfl c1_tables rfl

/-- C7, as stated, fails: with base `/build/` and dest `/o/` (non-Windows
mode) the header with the directory entry `a/./b`, which does not start
with base, is accepted, and afterwards the entry is `a/b`, followed by a
filler entry `X`. -/
theorem C7_counterexample :
    edit_dwarf2_line c1_cfg false (ex_st (ex_line [bytes "a/./b"] [(bytes "f.c", [1, 0, 0])])) 0 [] 0
      = .ok (0, { ex_st (ex_line [bytes "a/b", [88]] [(bytes "f.c", [1, 0, 0])]) with
          dirty_str := true }) ∧
    c1_cfg.win_path = false ∧ c1_cfg.base_dir = some (bytes "/build/") ∧
    has_prefix (bytes "a/./b") (bytes "/build/") = false ∧
    cstr (ex_line [bytes "a/./b"] [(bytes "f.c", [1, 0, 0])]) 15 = .ok (bytes "a/./b") ∧
    cstr (ex_line [bytes "a/b", [88]] [(bytes "f.c", [1, 0, 0])]) 15 = .ok (bytes "a/b") ∧
    bytes "a/b" ≠ bytes "a/./b" :=
  ⟨rfl, rfl, rfl, rfl, rfl, rfl, by decide⟩

/-- C7, amended: for an accepted header with the tables `ds` and `fs`, dest
configured, not empty and no longer than base, in non-Windows mode, a
directory entry `S` that is not rewritten with dest (it does not start with
`/`, or not with base) is found at its index as `canonicalize_path (S)`; it
is byte-identical exactly when `S` is already canonical. -/
theorem C7_other_dir_entries_canonicalized {cfg : Config} {msb : Bool} {st st' : St}
    {off dir : Nat} {comp_dir m base dest : List Nat} {ds : List (List Nat)}
    {fs : List (List Nat × List Nat)}
    (hwin : cfg.win_path = false)
    (hline : st.debug_line = some m) (hb : cfg.base_dir = some base)
    (hd : cfg.dest_dir = some dest) (hlen : dest.length ≤ base.length)
    (hblen : base.length < 2 ^ 63) (hfit : m.length < 2 ^ 63)
    (hdest : ∀ x ∈ dest, x ≠ 0) (hdne : dest ≠ [])
    (hh : line_header msb m off = .ok (some dir)) (ht : LineTables m dir ds fs)
    (h : edit_dwarf2_line cfg msb st off comp_dir 0 = .ok (0, st')) :
    ∃ m' ds' fs', st'.debug_line = some m' ∧ LineTables m' dir ds' fs' ∧
      ∀ (i : Nat) (S : List Nat), ds[i]? = some S →
        ¬ (S.head? = some 47 ∧ has_prefix S base = true) →
          ds'[i]? = some (canonicalize_path S) ∧
          (ds'[i]? = some S ↔ canonicalize_path S = S) := by
  obtain ⟨n1, n2, m', h1, _, _, h4, _⟩ :=
    edit_dwarf2_line_of_tables hline hb hd hlen hblen hfit hdest hdne hh ht h
  rw [List.append_assoc] at h4
  refine ⟨m', _, _, h1, h4, ?_⟩
  intro i S hi hnot
  have hu : under_base base S = false := by
    cases hc : under_base base S with
    | false => rfl
    | true => exact absurd (under_base_iff.mp hc) hnot
  have hil : i < ds.length := by
    rcases List.getElem?_eq_some_iff.mp hi with ⟨hl, _⟩
    exact hl
  have hget : (ds.map (new_dir cfg.win_path base dest) ++ (fill_entries n1 ++ fill_entries n2))[i]?
      = some (canonicalize_path S) := by
    rw [List.getElem?_append_left (by simpa using hil), List.getElem?_map, hi]
    simp [new_dir, dir_rest, hu, win, hwin]
  refine ⟨hget, ?_⟩
  rw [hget]
  constructor
  · intro hs; exact Option.some.inj hs
  · intro hs; rw [hs]

/-- C7, amended, on the header with the directory entry `a/./b`. -/
theorem C7_other_dir_entries_canonicalized_witness :
    ∃ m' ds' fs', ({ ex_st (ex_line [bytes "a/b", [88]] [(bytes "f.c", [1, 0, 0])]) with
          dirty_str := true } : St).debug_line = some m' ∧ LineTables m' 15 ds' fs' ∧
      ∀ (i : Nat) (S : List Nat), [bytes "a/./b"][i]? = some S →
        ¬ (S.head? = some 47 ∧ has_prefix S (bytes "/build/") = true) →
          ds'[i]? = some (canonicalize_path S) ∧
          (ds'[i]? = some S ↔ canonicalize_path S = S) :=
  @C7_other_dir_entries_canonicalized c1_cfg false
    (ex_st (ex_line [bytes "a/./b"] [(bytes "f.c", [1, 0, 0])]))
    { ex_st (ex_line [bytes "a/b", [88]] [(bytes "f.c", [1, 0, 0])]) with dirty_str := true }
    0 15 [] (ex_line [bytes "a/./b"] [(bytes "f.c", [1, 0, 0])]) (bytes "/build/") (bytes "/o/")
    [bytes "a/./b"] [(bytes "f.c", [1, 0, 0])]
    rfl rfl rfl rfl (by decide) (by decide) (by decide) (by decide) (by decide) rfl
    (ex_line_tables
      (by intro e he; rw [List.mem_singleton.mp he]; exact wf_str_bytes (by decide) (by decide))
      (by
        intro f hf
        rw [List.mem_singleton.mp hf]
        exact ⟨wf_str_bytes (by decide) (by decide),
          three_ulebs_small (by decide) (by decide) (by decide)⟩))
    rfl

/-- C8, as stated, fails for a relative base: with base `b/` and dest `d/`
the header with the file entry `b/f.c` is accepted, the filename starts with
base, and after `edit_dwarf2_line` the section is the one it was: the
filename is still `b/f.c`, not `d/f.c`. -/
theorem C8_counterexample :
    edit_dwarf2_line rel_cfg false (ex_st (ex_line [bytes "x"] [(bytes "b/f.c", [1, 0, 0])])) 0 [] 0
      = .ok (0, ex_st (ex_line [bytes "x"] [(bytes "b/f.c", [1, 0, 0])])) ∧
    rel_cfg.base_dir = some (bytes "b/") ∧ rel_cfg.dest_dir = some (bytes "d/") ∧
    has_prefix (bytes "b/f.c") (bytes "b/") = true ∧
    cstr (ex_line [bytes "x"] [(bytes "b/f.c", [1, 0, 0])]) 18 = .ok (bytes "b/f.c") ∧
    bytes "b/f.c" ≠ bytes "d/" ++ (bytes "b/f.c").drop (bytes "b/").length :=
  ⟨rfl, rfl, rfl, rfl, rfl, by decide⟩

/-- C8, amended: for an accepted header with the tables `ds` and `fs`, dest
configured, not empty and no longer than base, the file table after
`edit_dwarf2_line` has as many entries as before, in the same order; an
entry whose filename starts with `/` and with base has the filename
`dest ++ original[len(base)..]`, any other filename is unchanged, and the
bytes of the three uLEB fields of each entry are the original ones. -/
theorem C8_file_entries_rewritten {cfg : Config} {msb : Bool} {st st' : St} {off dir : Nat}
    {comp_dir m base dest : List Nat} {ds : List (List Nat)} {fs : List (List Nat × List Nat)}
    (hline : st.debug_line = some m) (hb : cfg.base_dir = some base)
    (hd : cfg.dest_dir = some dest) (hlen : dest.length ≤ base.length)
    (hblen : base.length < 2 ^ 63) (hfit : m.length < 2 ^ 63)
    (hdest : ∀ x ∈ dest, x ≠ 0) (hdne : dest ≠ [])
    (hh : line_header msb m off = .ok (some dir)) (ht : LineTables m dir ds fs)
    (h : edit_dwarf2_line cfg msb st off comp_dir 0 = .ok (0, st')) :
    ∃ m' ds' fs', st'.debug_line = some m' ∧ LineTables m' dir ds' fs' ∧
      fs'.length = fs.length ∧
      ∀ (i : Nat) (f : List Nat × List Nat), fs[i]? = some f →
        ∃ f', fs'[i]? = some f' ∧ f'.2 = f.2 ∧
          ((f.1.head? = some 47 ∧ has_prefix f.1 base = true) →
            f'.1 = dest ++ f.1.drop base.length) ∧
          (¬ (f.1.head? = some 47 ∧ has_prefix f.1 base = true) → f'.1 = f.1) := by
  obtain ⟨n1, n2, m', h1, _, _, h4, _⟩ :=
    edit_dwarf2_line_of_tables hline hb hd hlen hblen hfit hdest hdne hh ht h
  refine ⟨m', _, _, h1, h4, by simp, ?_⟩
  intro i f hi
  refine ⟨new_file base dest f, by rw [List.getElem?_map, hi]; rfl, ?_, ?_, ?_⟩
  · unfold new_file
    by_cases hu : under_base base f.1 = true
    · rw [if_pos hu]
    · rw [if_neg hu]
  · intro hc
    have hu := under_base_iff.mpr hc
    unfold new_file
    rw [if_pos hu]
  · intro hc
    have hu : ¬ under_base base f.1 = true := fun hu => hc (under_base_iff.mp hu)
    unfold new_file
    rw [if_neg hu]

/-- C8, amended, on a header with a relative file and a file under base
`/build/`, dest `/o/`. -/
theorem C8_file_entries_rewritten_witness :
    ∃ m' ds' fs', c1_st.debug_line = some m' ∧ LineTables m' 15 ds' fs' ∧
      fs'.length = c1_fs.length ∧
      ∀ (i : Nat) (f : List Nat × List Nat), c1_fs[i]? = some f →
        ∃ f', fs'[i]? = some f' ∧ f'.2 = f.2 ∧
          ((f.1.head? = some 47 ∧ has_prefix f.1 (bytes "/build/") = true) →
            f'.1 = bytes "/o/" ++ f.1.drop (bytes "/build/").length) ∧
          (¬ (f.1.head? = some 47 ∧ has_prefix f.1 (bytes "/build/") = true) → f'.1 = f.1) :=
  @C8_file_entries_rewritten c1_cfg false (ex_st (ex_line c1_ds c1_fs)) c1_st 0 15 []
    (ex_line c1_ds c1_fs) (bytes "/build/") (bytes "/o/") c1_ds c1_fs
    rfl rfl rfl (by decide) (by decide) (by decide) (by decide) (by decide) rfl c1_tables rfl

/-- C10, as stated, fails: with base `/build/` and dest `/o/` the accepted
header with the directory entry `/build//x` is left with the entry `/o//x`,
which has a run `//` that is not at its start, and the accepted header with
the entry `/build/../x` is left with the entry `/o/../x`, an absolute path
with a segment `..`.  The canonicalised part itself can be a rooted path
that keeps `..` (`/../x`), the path `//`, which ends in a separator, and
the path `.`. -/
theorem C10_counterexample :
    edit_dwarf2_line c1_cfg false (ex_st (ex_line [bytes "/build//x"] [(bytes "f.c", [1, 0, 0])]))
        0 [] 0
      = .ok (0, { ex_st (ex_line [bytes "/o//x", List.replicate 3 88]
          [(bytes "f.c", [1, 0, 0])]) with dirty_str := true }) ∧
    cstr (ex_line [bytes "/o//x", List.replicate 3 88] [(bytes "f.c", [1, 0, 0])]) 15
      = .ok (bytes "/o//x") ∧
    (bytes "/o//x")[2]? = some 47 ∧ (bytes "/o//x")[3]? = some 47 ∧
    edit_dwarf2_line c1_cfg false (ex_st (ex_line [bytes "/build/../x"] [(bytes "f.c", [1, 0, 0])]))
        0 [] 0
      = .ok (0, { ex_st (ex_line [bytes "/o/../x", List.replicate 3 88]
          [(bytes "f.c", [1, 0, 0])]) with dirty_str := true }) ∧
    cstr (ex_line [bytes "/o/../x", List.replicate 3 88] [(bytes "f.c", [1, 0, 0])]) 15
      = .ok (bytes "/o/" ++ bytes "../" ++ bytes "x") ∧
    canonicalize_path (bytes "/../x") = bytes "/../x" ∧
    canonicalize_path (bytes "//") = bytes "//" ∧
    canonicalize_path (bytes ".") = bytes "." :=
  ⟨rfl, rfl, rfl, rfl, rfl, rfl, rfl, rfl, rfl⟩

/-- C10, amended: for an accepted header with the tables `ds` and `fs`, dest
configured, not empty and no longer than base, the directory entry left at
the index of an original entry `e` is `P ++ R`, where `P` is dest when `e`
starts with `/` and with base and is empty otherwise, and `R` is the
canonicalised remainder (after the separator translation in Windows mode);
the canonical shape holds of `R` as `canonicalize_path` gives it: it is not
empty, has no segment `.` unless it is `.` itself, has segments `..` only in
a run at its start, after the leading separators, has no doubled separator
except at its very start, and ends in a separator only when it is `/` or
`//`. -/
theorem C10_dir_entries_shape {cfg : Config} {msb : Bool} {st st' : St} {off dir : Nat}
    {comp_dir m base dest : List Nat} {ds : List (List Nat)} {fs : List (List Nat × List Nat)}
    (hline : st.debug_line = some m) (hb : cfg.base_dir = some base)
    (hd : cfg.dest_dir = some dest) (hlen : dest.length ≤ base.length)
    (hblen : base.length < 2 ^ 63) (hfit : m.length < 2 ^ 63)
    (hdest : ∀ x ∈ dest, x ≠ 0) (hdne : dest ≠ [])
    (hh : line_header msb m off = .ok (some dir)) (ht : LineTables m dir ds fs)
    (h : edit_dwarf2_line cfg msb st off comp_dir 0 = .ok (0, st')) :
    ∃ m' ds' fs', st'.debug_line = some m' ∧ LineTables m' dir ds' fs' ∧
      ∀ (i : Nat) (e : List Nat), ds[i]? = some e →
        ∃ P R, ds'[i]? = some (P ++ (if cfg.win_path then make_win_path R else R)) ∧
          (P = if e.head? = some 47 ∧ has_prefix e base = true then dest else []) ∧
          (R = canonicalize_path
            (if e.head? = some 47 ∧ has_prefix e base = true then e.drop base.length else e)) ∧
          canon_shape R ∧ DotsFirst (R.takeWhile (fun c => c == 47)).length R := by
  obtain ⟨n1, n2, m', h1, _, _, h4, _⟩ :=
    edit_dwarf2_line_of_tables hline hb hd hlen hblen hfit hdest hdne hh ht h
  rw [List.append_assoc] at h4
  refine ⟨m', _, _, h1, h4, ?_⟩
  intro i e hi
  have hil : i < ds.length := by
    rcases List.getElem?_eq_some_iff.mp hi with ⟨hl, _⟩
    exact hl
  have hget : (ds.map (new_dir cfg.win_path base dest) ++ (fill_entries n1 ++ fill_entries n2))[i]?
      = some (new_dir cfg.win_path base dest e) := by
    rw [List.getElem?_append_left (by simpa using hil), List.getElem?_map, hi]
    rfl
  refine ⟨_, _, ?_, rfl, rfl, canonicalize_path_shape _, canonicalize_path_dots _⟩
  rw [hget]
  unfold new_dir dir_rest win
  by_cases hu : under_base base e = true
  · have hc := under_base_iff.mp hu
    simp only [hu, if_true, if_pos hc]
  · have hc : ¬ (e.head? = some 47 ∧ has_prefix e base = true) :=
      fun hc => hu (under_base_iff.mpr hc)
    simp only [hu, if_neg hc]
    rfl

/-- C10, amended, on a header with two directories under base `/build/`,
dest `/o/`. -/
theorem C10_dir_entries_shape_witness :
    ∃ m' ds' fs', c1_st.debug_line = some m' ∧ LineTables m' 15 ds' fs' ∧
      ∀ (i : Nat) (e : List Nat), c1_ds[i]? = some e →
        ∃ P R, ds'[i]? = some (P ++ (if c1_cfg.win_path then make_win_path R else R)) ∧
          (P = if e.head? = some 47 ∧ has_prefix e (bytes "/build/") = true then bytes "/o/"
            else []) ∧
          (R = canonicalize_path
            (if e.head? = some 47 ∧ has_prefix e (bytes "/build/") = true
              then e.drop (bytes "/build/").length else e)) ∧
          canon_shape R ∧ DotsFirst (R.takeWhile (fun c => c == 47)).length R :=
  @C10_dir_entries_shape c1_cfg false (ex_st (ex_line c1_ds c1_fs)) c1_st 0 15 []
    (ex_line c1_ds c1_fs) (bytes "/build/") (bytes "/o/") c1_ds c1_fs
    rfl rfl rfl (by decide) (by decide) (by decide) (by decide) (by decide) rfl c1_tables rfl

/-- C11: scenario S6.  With base `/build/` and dest `/o/`, on the header
with the directories `/build/a`, `/build/b/c` and the files `f.c` (directory
1), `/build/g.c` (directory 0), `edit_dwarf2_line` returns 0; afterwards the
directory table, still at offset 15, starts with the entries `/o/a` and
`/o/b/c`, which are followed by a filler of eleven bytes `X` and a NUL and
then by the terminator of the table; the file table holds `f.c` with the
uLEB fields `1, 0, 0` and `/o/g.c` with the fields `0, 0, 0` and then its
terminator; the two tables together are as long as the original ones, and
so is the section. -/
theorem C11_scenario_S6 :
    edit_dwarf2_line c1_cfg false (ex_st (ex_line c1_ds c1_fs)) 0 [] 0 = .ok (0, c1_st) ∧
    c1_st.debug_line = some (ex_line s6_ds s6_fs) ∧
    line_header false (ex_line c1_ds c1_fs) 0 = .ok (some 15) ∧
    LineTables (ex_line c1_ds c1_fs) 15 c1_ds c1_fs ∧
    line_header false (ex_line s6_ds s6_fs) 0 = .ok (some 15) ∧
    LineTables (ex_line s6_ds s6_fs) 15 s6_ds s6_fs ∧
    cstr (ex_line s6_ds s6_fs) 15 = .ok (bytes "/o/a") ∧
    cstr (ex_line s6_ds s6_fs) 20 = .ok (bytes "/o/b/c") ∧
    rdn (ex_line s6_ds s6_fs) 27 12 = .ok (filler 12) ∧
    rd (ex_line s6_ds s6_fs) 39 = .ok 0 ∧
    cstr (ex_line s6_ds s6_fs) 40 = .ok (bytes "f.c") ∧
    rdn (ex_line s6_ds s6_fs) 44 3 = .ok [1, 0, 0] ∧
    cstr (ex_line s6_ds s6_fs) 47 = .ok (bytes "/o/g.c") ∧
    rdn (ex_line s6_ds s6_fs) 54 3 = .ok [0, 0, 0] ∧
    rd (ex_line s6_ds s6_fs) 57 = .ok 0 ∧
    (encD s6_ds).length + 1 + (encF s6_fs).length + 1
      = (encD c1_ds).length + 1 + (encF c1_fs).length + 1 ∧
    (ex_line s6_ds s6_fs).length = (ex_line c1_ds c1_fs).length := by
  refine ⟨rfl, rfl, rfl, c1_tables, rfl, ?_, rfl, rfl, rfl, rfl, rfl, rfl, rfl, rfl, rfl,
    by decide, by decide⟩
  apply ex_line_tables
  · intro e he
    simp only [s6_ds, List.mem_cons, List.mem_singleton, List.not_mem_nil, or_false] at he
    rcases he with rfl | rfl | rfl <;> exact wf_str_bytes (by decide) (by decide)
  · intro f hf
    simp only [s6_fs, List.mem_cons, List.mem_singleton, List.not_mem_nil, or_false] at hf
    rcases hf with rfl | rfl <;>
      exact ⟨wf_str_bytes (by decide) (by decide),
        three_ulebs_small (by decide) (by decide) (by decide)⟩

/-- C12, as stated, fails: at scenario S4 the string left by phase 1 starts
with a backslash, `out` and a backslash, not with `/out/`: the dest prefix
has its separators turned into backslashes together with the rest. -/
theorem C12_counterexample :
    ∃ a' s, attr_loop s4_env 1 DW_TAG_compile_unit DW_AT_name 16 DW_FORM_string
        (at_string (bytes "/build/sub/x.c")) = .ok (true, a') ∧
      cstr (info_of a'.st) 0 = .ok s ∧
      s = [92] ++ bytes "out" ++ [92] ++ [92, 92] ++ bytes "sub" ++ [92] ++ bytes "x.c" ∧
      s.take 5 ≠ bytes "/out/" := by
  refine ⟨_, _, rfl, rfl, rfl, ?_⟩
  decide

/-- C12, amended: in Windows mode and phase 1, with dest configured and no
longer than base, the pass of `edit_attributes` over a `DW_AT_name` of a
compile or partial unit of form `DW_FORM_string` whose inline string `S`
starts with base returns normally; the string read at that position
afterwards is dest with every `/` turned into a backslash, then
`len(base) - len(dest)` backslashes, then `S[len(base)..]` with every `/`
turned into a backslash, so that no `/` is left in the string; it has the
length of `S`, the bytes of `.debug_info` before and after the string are
as before, and `.debug_info` is marked dirty. -/
theorem C12_win_name_rewrite {env : Env} {a : AttrSt} {tag fuel : Nat}
    {m S base dest : List Nat}
    (hwin : env.cfg.win_path = true) (hb : env.cfg.base_dir = some base)
    (hd : env.cfg.dest_dir = some dest) (hlen : dest.length ≤ base.length)
    (hdest : ∀ x ∈ dest, x ≠ 0)
    (htag : tag = DW_TAG_compile_unit ∨ tag = DW_TAG_partial_unit)
    (hm : a.st.debug_info = some m) (hS : cstr m a.ptr = .ok S)
    (hpre : has_prefix S base = true) :
    ∃ a' m', attr_loop env 1 tag DW_AT_name (fuel + 1) DW_FORM_string a = .ok (true, a') ∧
      a'.st.debug_info = some m' ∧
      cstr m' a.ptr
        = .ok (make_win_path dest ++ List.replicate (base.length - dest.length) 92
          ++ make_win_path (S.drop base.length)) ∧
      47 ∉ make_win_path dest ++ List.replicate (base.length - dest.length) 92
          ++ make_win_path (S.drop base.length) ∧
      (make_win_path dest ++ List.replicate (base.length - dest.length) 92
          ++ make_win_path (S.drop base.length)).length = S.length ∧
      m'.length = m.length ∧
      m'.take a.ptr = m.take a.ptr ∧
      m'.drop (a.ptr + S.length) = m.drop (a.ptr + S.length) ∧
      a'.ptr = a.ptr + S.length + 1 ∧
      a'.st.dirty_info = true ∧ a'.st.dirty_str = a.st.dirty_str ∧
      a'.st.debug_str = a.st.debug_str := by
  obtain ⟨hS0, r, hdrop⟩ := cstr_eq_ok.mp hS
  obtain ⟨hbl, htake⟩ := has_prefix_iff.mp hpre
  obtain ⟨cd, hact⟩ := attr_actions_name_win hwin hb hd hlen hdest htag hm hS hpre
  have hml : a.ptr + S.length + 1 ≤ m.length := by
    have := congrArg List.length hdrop
    simp at this
    omega
  have hX : make_win_path (dest ++ List.replicate (base.length - dest.length) 92
      ++ S.drop base.length)
      = make_win_path dest ++ List.replicate (base.length - dest.length) 92
          ++ make_win_path (S.drop base.length) := by
    rw [make_win_path_append, make_win_path_append, make_win_path_replicate]
  rw [hX] at hact
  generalize hXd : make_win_path dest ++ List.replicate (base.length - dest.length) 92
      ++ make_win_path (S.drop base.length) = X at hact hX
  have hlen2 : X.length = S.length := by
    rw [← hXd]
    simp [make_win_path_length]
    omega
  have hX47 : 47 ∉ X := by
    rw [← hX]
    exact make_win_path_no_sep _
  have hX0 : ∀ c ∈ X, c ≠ 0 := by
    rw [← hX]
    apply make_win_path_no_nul
    intro c hc
    simp only [List.mem_append, List.mem_replicate] at hc
    rcases hc with (hc | hc) | hc
    · exact hdest c hc
    · rw [hc.2]; decide
    · exact hS0 c (List.mem_of_mem_drop hc)
  have hl : (m.take a.ptr).length = a.ptr := by simp; omega
  have hd2 : m.drop (a.ptr + S.length) = 0 :: r := by
    rw [← List.drop_drop, hdrop, List.drop_left]
  have hc : cstr (m.take a.ptr ++ X ++ m.drop (a.ptr + S.length)) a.ptr = .ok X := by
    apply cstr_of_drop (r := r) _ hX0
    rw [List.append_assoc, List.drop_left' hl, hd2]
  have hi : ∀ (x : St) (y : List Nat), x.debug_info = some y → info_of x = y := by
    intro x y h; unfold info_of; rw [h]; rfl
  have hloop : attr_loop env 1 tag DW_AT_name (fuel + 1) DW_FORM_string a
      = .ok (true, { a with
          st := { a.st with
            debug_info := some (m.take a.ptr ++ X ++ m.drop (a.ptr + S.length)),
            dirty_info := true },
          ptr := a.ptr + S.length + 1,
          comp_dir := cd }) := by
    unfold attr_loop
    rw [hact]
    simp only [bind_ok_eq]
    rw [hi _ _ rfl, form_step_string hc]
    simp only [bind_ok_eq, pure_eq_ok, hlen2]
  refine ⟨_, _, hloop, rfl, hc, hX47, hlen2, ?_, ?_, ?_, rfl, rfl, rfl, rfl⟩
  · simp [hlen2]
    omega
  · rw [List.append_assoc, List.take_left' hl]
  · have e1 : a.ptr + S.length = (m.take a.ptr ++ X).length := by
      simp [hlen2]; omega
    rw [e1, List.drop_left]

/-- C12 at scenario S4: the name `/build/sub/x.c` with base `/build/` and
dest `/out/`. -/
theorem C12_win_name_rewrite_witness :
    ∃ a' m', attr_loop s4_env 1 DW_TAG_compile_unit DW_AT_name (15 + 1) DW_FORM_string
        (at_string (bytes "/build/sub/x.c")) = .ok (true, a') ∧
      a'.st.debug_info = some m' ∧
      cstr m' (at_string (bytes "/build/sub/x.c")).ptr
        = .ok (make_win_path (bytes "/out/")
          ++ List.replicate ((bytes "/build/").length - (bytes "/out/").length) 92
          ++ make_win_path ((bytes "/build/sub/x.c").drop (bytes "/build/").length)) ∧
      47 ∉ make_win_path (bytes "/out/")
          ++ List.replicate ((bytes "/build/").length - (bytes "/out/").length) 92
          ++ make_win_path ((bytes "/build/sub/x.c").drop (bytes "/build/").length) ∧
      (make_win_path (bytes "/out/")
          ++ List.replicate ((bytes "/build/").length - (bytes "/out/").length) 92
          ++ make_win_path ((bytes "/build/sub/x.c").drop (bytes "/build/").length)).length
        = (bytes "/build/sub/x.c").length ∧
      m'.length = (bytes "/build/sub/x.c" ++ [0]).length ∧
      m'.take (at_string (bytes "/build/sub/x.c")).ptr
        = (bytes "/build/sub/x.c" ++ [0]).take (at_string (bytes "/build/sub/x.c")).ptr ∧
      m'.drop ((at_string (bytes "/build/sub/x.c")).ptr + (bytes "/build/sub/x.c").length)
        = (bytes "/build/sub/x.c" ++ [0]).drop
          ((at_string (bytes "/build/sub/x.c")).ptr + (bytes "/build/sub/x.c").length) ∧
      a'.ptr = (at_string (bytes "/build/sub/x.c")).ptr + (bytes "/build/sub/x.c").length + 1 ∧
      a'.st.dirty_info = true ∧
      a'.st.dirty_str = (at_string (bytes "/build/sub/x.c")).st.dirty_str ∧
      a'.st.debug_str = (at_string (bytes "/build/sub/x.c")).st.debug_str :=
  @C12_win_name_rewrite s4_env (at_string (bytes "/build/sub/x.c")) DW_TAG_compile_unit 15
    (bytes "/build/sub/x.c" ++ [0]) (bytes "/build/sub/x.c") (bytes "/build/") (bytes "/out/")
    rfl rfl rfl (by decide) (by decide) (Or.inl rfl) rfl rfl rfl

/-- C13: in Windows mode, with base `/build/` and dest `/out/`, the pass
of phase 1 over an inline `DW_AT_comp_dir` `/build/sub/dir` leaves the
string `/out/`, two backslashes and `sub/dir`: the remainder after the dest
prefix still contains `/`.  Likewise a `DW_AT_comp_dir` in `.debug_str` is
left as `/out/sub/dir`, and a file name `/build/u/g.c` of the file table
(base `/build/`, dest `/o/`) is left as `/o/u/g.c`, whereas the directory
entry `/build/a/b` of the same header becomes `/o/a` followed by a
backslash and `b`. -/
theorem C13_win_path_not_applied :
    (∃ a', attr_loop s4_env 1 DW_TAG_compile_unit DW_AT_comp_dir 16 DW_FORM_string
          (at_string (bytes "/build/sub/dir")) = .ok (true, a') ∧
        a'.st.debug_info = some (bytes "/out/" ++ [92, 92] ++ bytes "sub/dir" ++ [0]) ∧
        47 ∈ bytes "sub/dir") ∧
    (∃ a', attr_loop s4_env 1 DW_TAG_compile_unit DW_AT_comp_dir 16 DW_FORM_strp
          (at_strp (bytes "/build/sub/dir")) = .ok (true, a') ∧
        a'.st.debug_str = some (bytes "/out/" ++ bytes "sub/dir" ++ [0, 114, 0]) ∧
        47 ∈ bytes "sub/dir") ∧
    (∃ st', edit_dwarf2_line win_cfg false
          (ex_st (ex_line [bytes "/build/a/b"] [(bytes "/build/u/g.c", [0, 0, 0])])) 0 [] 0
          = .ok (0, st') ∧
        st'.debug_line = some (ex_line [bytes "/o/a" ++ [92] ++ bytes "b", List.replicate 7 88]
          [(bytes "/o/" ++ bytes "u/g.c", [0, 0, 0])]) ∧
        47 ∈ bytes "u/g.c") := by
  refine ⟨⟨_, rfl, rfl, by decide⟩, ⟨_, rfl, rfl, by decide⟩, ⟨_, rfl, rfl, by decide⟩⟩

/-- C14, as stated, fails: the input may be the empty string, and there
`canonicalize_path` gives the path `.`, of length 1. -/
theorem C14_counterexample :
    canonicalize_path [] = bytes "." ∧
      ¬ (canonicalize_path []).length ≤ ([] : List Nat).length := by
  refine ⟨rfl, ?_⟩
  decide

/-- C14, amended: the length of `canonicalize_path s` is at most the
length of `s` for every input `s` but the empty string, for which the
result is the path `.`, of length 1. -/
theorem C14_canonicalize_length (s : List Nat) :
    (s ≠ [] → (canonicalize_path s).length ≤ s.length) ∧
      (s = [] → canonicalize_path s = [46]) ∧
      (canonicalize_path s).length ≤ max s.length 1 := by
  refine ⟨fun h => canonicalize_path_length_le h, ?_, canonicalize_path_length s⟩
  intro h
  rw [h]
  rfl

/-- C14 on the inputs `/a/../b/` and the empty string. -/
theorem C14_canonicalize_length_witness :
    (bytes "/a/../b/" ≠ [] ∧
      (canonicalize_path (bytes "/a/../b/")).length ≤ (bytes "/a/../b/").length) ∧
    canonicalize_path [] = [46] :=
  ⟨⟨by decide, (C14_canonicalize_length (bytes "/a/../b/")).1 (by decide)⟩,
    (C14_canonicalize_length []).2.1 rfl⟩

/-- C15, as stated, fails: for the input `//` (and so for `//` followed by
segments that cancel, as in `//a/..`) the result is `//`, which ends with
`/` and is not the path `/`. -/
theorem C15_counterexample :
    canonicalize_path (bytes "//") = bytes "//" ∧
      canonicalize_path (bytes "//a/..") = bytes "//" ∧
      (bytes "//").getLast? = some 47 ∧ bytes "//" ≠ bytes "/" := by
  refine ⟨rfl, rfl, rfl, ?_⟩
  decide

/-- C15, amended: the result of `canonicalize_path` does not end with `/`
unless it is exactly `/` or exactly `//`. -/
theorem C15_canonicalize_no_trailing_sep (s : List Nat)
    (h : (canonicalize_path s).getLast? = some 47) :
    canonicalize_path s = bytes "/" ∨ canonicalize_path s = bytes "//" :=
  (canonicalize_path_shape s).2.2.1 h

/-- C15 on the inputs `///` and `//`. -/
theorem C15_canonicalize_no_trailing_sep_witness :
    ((canonicalize_path (bytes "///")).getLast? = some 47 ∧
      (canonicalize_path (bytes "///") = bytes "/" ∨
        canonicalize_path (bytes "///") = bytes "//")) ∧
    (canonicalize_path (bytes "//") = bytes "/" ∨ canonicalize_path (bytes "//") = bytes "//") :=
  ⟨⟨rfl, C15_canonicalize_no_trailing_sep (bytes "///") rfl⟩,
    C15_canonicalize_no_trailing_sep (bytes "//") rfl⟩

/-- C16: on an object with one unit whose `DW_AT_stmt_list` points at a
line-program header that `edit_dwarf2_line` rejects (return value 1: a file
entry with a directory index out of range, version 5, unit length
`0xffffffff`, a unit that reaches past the end of the section),
`edit_dwarf2` returns 0: the value of `edit_dwarf2_line` is not used. -/
theorem C16_rejected_header_not_fatal :
    (∃ st, edit_dwarf2_line c1_cfg false (ex_obj xw_info bad_index_line) 0 (bytes "/w") 0
        = .ok (1, st)) ∧
    (∃ st, edit_dwarf2 c1_cfg ex_dso (ex_obj xw_info bad_index_line) = .ok (0, st)) ∧
    (∃ st, edit_dwarf2_line c1_cfg false (ex_obj xw_info v5_line) 0 (bytes "/w") 0
        = .ok (1, st)) ∧
    (∃ st, edit_dwarf2 c1_cfg ex_dso (ex_obj xw_info v5_line) = .ok (0, st)) ∧
    (∃ st, edit_dwarf2_line c1_cfg false (ex_obj xw_info len64_line) 0 (bytes "/w") 0
        = .ok (1, st)) ∧
    (∃ st, edit_dwarf2 c1_cfg ex_dso (ex_obj xw_info len64_line) = .ok (0, st)) ∧
    (∃ st, edit_dwarf2_line c1_cfg false (ex_obj xw_info long_line) 0 (bytes "/w") 0
        = .ok (1, st)) ∧
    (∃ st, edit_dwarf2 c1_cfg ex_dso (ex_obj xw_info long_line) = .ok (0, st)) :=
  ⟨⟨_, rfl⟩, ⟨_, rfl⟩, ⟨_, rfl⟩, ⟨_, rfl⟩, ⟨_, rfl⟩, ⟨_, rfl⟩, ⟨_, rfl⟩, ⟨_, rfl⟩⟩

/-- C17: the code breaks the claim on a configuration that `main` accepts,
a base and a list file without a dest (`-b /build/ -l list`).  The header
of `bad_index_line2` passes the checks of its fixed part and has the file
entries `x.c` (directory 0) and `f.c`, whose directory index 1 is not below
the directory count 1, so that the editor is to return 1.  The first loop
over the file table sends the path of `x.c`, which is not under base, to
the list file and calls `has_prefix (s, dest_dir)` with `dest_dir` `NULL`
on the way: the run is undefined before the second entry is looked at.
With a dest configured the same header gives the return value 1 and
leaves the state as it was. -/
theorem C17_bad_index_without_dest :
    front_end (some (bytes "/build/")) none false = .ok (c5_cfg.base_dir, c5_cfg.dest_dir) ∧
    c5_cfg.list_file = true ∧
    line_header false bad_index_line2 0 = .ok (some 15) ∧
    BadIndex bad_index_line2 15 ∧
    edit_dwarf2_line c5_cfg false (ex_st bad_index_line2) 0 [] 0 = .error .undefined ∧
    edit_dwarf2_line c1_cfg false (ex_st bad_index_line2) 0 [] 0
      = .ok (1, ex_st bad_index_line2) := by
  refine ⟨rfl, rfl, rfl, ?_, rfl, rfl⟩
  refine ⟨[], [(bytes "x.c", [0, 0, 0])], bytes "f.c", [1, 0, 0, 0], 1, 1,
    fun _ h => absurd h (List.not_mem_nil _), ?_, wf_str_bytes (by decide) (by decide),
    rfl, rfl, by decide⟩
  intro f hf
  rw [List.mem_singleton.mp hf]
  exact ⟨wf_str_bytes (by decide) (by decide),
    three_ulebs_small (by decide) (by decide) (by decide)⟩

/-- C18: with base `/build/` set, dest unset and the list file wanted, on
a header with the file entry `f.c` (directory 0) and the `comp_dir`
`/elsewhere`, the canonical path `/elsewhere/f.c` does not start with base,
and the file loop of `edit_dwarf2_line` then calls `has_prefix` on the
`NULL` dest: the behaviour is undefined, where the claim has nothing
emitted.  With the `comp_dir` `/build/x` the suffix `x/f.c` is emitted. -/
theorem C18_sink_without_dest :
    canonicalize_path (join_path (bytes "/elsewhere") (bytes ".") (bytes "f.c"))
      = bytes "/elsewhere/f.c" ∧
    has_prefix (bytes "/elsewhere/f.c") (bytes "/build/") = false ∧
    edit_dwarf2_line c5_cfg false (ex_st (ex_line [] [(bytes "f.c", [0, 0, 0])])) 0
      (bytes "/elsewhere") 0 = .error .undefined ∧
    edit_dwarf2_line c5_cfg false (ex_st (ex_line [] [(bytes "f.c", [0, 0, 0])])) 0
      (bytes "/build/x") 0
      = .ok (0, { ex_st (ex_line [] [(bytes "f.c", [0, 0, 0])]) with sink := bytes "x/f.c" ++ [0] }) :=
  ⟨rfl, rfl, rfl, rfl⟩

/-- C19: the run of `edit_dwarf2_line` of scenario S6 (base `/build/`,
dest `/o/`) changes bytes of `.debug_line` and leaves the dirty flag of
`.debug_line` down; the flag it raises is the one of `.debug_str`, a
section that is not there.  So does the whole run of `edit_dwarf2` on an
object with that header. -/
theorem C19_line_dirty_flag :
    edit_dwarf2_line c1_cfg false (ex_st (ex_line c1_ds c1_fs)) 0 [] 0 = .ok (0, c1_st) ∧
    c1_st.debug_line ≠ (ex_st (ex_line c1_ds c1_fs)).debug_line ∧
    (ex_st (ex_line c1_ds c1_fs)).dirty_line = false ∧
    c1_st.dirty_line = false ∧
    (ex_st (ex_line c1_ds c1_fs)).dirty_str = false ∧
    c1_st.dirty_str = true ∧ c1_st.debug_str = none ∧
    (∃ st, edit_dwarf2 c1_cfg ex_dso (ex_obj xw_info (ex_line c1_ds c1_fs)) = .ok (0, st) ∧
      st.debug_line = some (ex_line s6_ds s6_fs) ∧
      st.debug_line ≠ (ex_obj xw_info (ex_line c1_ds c1_fs)).debug_line ∧
      st.dirty_line = false ∧ st.dirty_str = true) := by
  refine ⟨rfl, by decide, rfl, rfl, rfl, rfl, rfl, _, rfl, rfl, by decide, rfl, rfl⟩

/-- C20: the front end accepts base `/build/` with dest `/output`, which
are of the same length, and then appends the separator to dest only: the
editor runs with base `/build/`, of length 7, and dest `/output/`, of
length 8.  The length check of `main` comes before the trailing
separators are appended. -/
theorem C20_dest_longer_after_normalisation :
    front_end (some (bytes "/build/")) (some (bytes "/output")) false
      = .ok (some (bytes "/build/"), some (bytes "/output/")) ∧
    front_end (some (bytes "/build/")) (some (bytes "/output")) true
      = .ok (some (bytes "/build/"), some (bytes "/output" ++ [92])) ∧
    (bytes "/output").length ≤ (bytes "/build/").length ∧
    ¬ (bytes "/output/").length ≤ (bytes "/build/").length := by
  refine ⟨rfl, rfl, by decide, by decide⟩

/-- C21: for a relocation index sorted by pointer and relocated reads at
the nondecreasing pointers `ps` (each inside the section), the cursor
starting at the start of the index: every read returns, and the read at a
pointer `p` with the raw value `raw` gives `rel_value env raw p`, that is
`(raw + addend) mod 2^32` for a `SHT_REL` section, and the addend for a
`SHT_RELA` section, of the (first) record of the index with pointer `p`,
and `raw` when the index has no such record or is empty; the cursors are
nondecreasing from read to read, and after the read at `p` every record
before the cursor has a pointer below `p` and the record at the cursor, if
any, a pointer at or above `p`. -/
theorem C21_relocated_reads {env : Env} {m : List Nat} {ps : List Nat}
    (hsorted : env.relbuf.Pairwise (fun a b => a.ptr ≤ b.ptr))
    (hq : ps.Pairwise (fun a b => a ≤ b))
    (hraw : ∀ p ∈ ps, ∃ raw, do_read_32 env.msb m p = .ok raw) :
    ∃ rs, rel_reads env m 0 ps = .ok rs ∧ rs.length = ps.length ∧
      List.Chain (fun a b => a ≤ b) 0 (rs.map Prod.snd) ∧
      (∀ (i p raw : Nat), ps[i]? = some p → do_read_32 env.msb m p = .ok raw →
        ∃ c, rs[i]? = some (rel_value env raw p, c) ∧ c ≤ env.relbuf.length ∧
          (∀ j r, j < c → env.relbuf[j]? = some r → r.ptr < (p : Int)) ∧
          (∀ r, env.relbuf[c]? = some r → (p : Int) ≤ r.ptr)) ∧
      (∀ (raw p : Nat) (r : REL), env.relbuf.find? (fun x => decide (x.ptr = (p : Int))) = some r →
        (env.reltype = SHT_REL → rel_value env raw p = (raw + r.addend) % 2 ^ 32) ∧
        (env.reltype = SHT_RELA → rel_value env raw p = r.addend)) ∧
      (∀ (raw p : Nat), (∀ r ∈ env.relbuf, r.ptr ≠ (p : Int)) → rel_value env raw p = raw) := by
  obtain ⟨rs, h1, h2, h3, h4⟩ := rel_reads_spec hsorted ps 0 (Nat.zero_le _) hq
    (by intro p _ j r hj; omega) hraw
  refine ⟨rs, h1, h2, h3, h4, ?_, ?_⟩
  · intro raw p r hf
    unfold rel_value
    rw [hf]
    constructor
    · intro ht
      simp only [ht, if_true]
    · intro ht
      have : env.reltype ≠ SHT_REL := by rw [ht]; decide
      simp only [this, if_false]
  · intro raw p hn
    unfold rel_value
    have : env.relbuf.find? (fun x => decide (x.ptr = (p : Int))) = none := by
      rw [List.find?_eq_none]
      intro x hx
      simpa using hn x hx
    rw [this]

/-- C21 on an index with records at the pointers 4 and 10 (`SHT_REL`) and
the reads at 0, 4, 4, 8, 10, 12: the values are the raw 1, then twice
2 + 100, then the raw 0x40003, then 4 + 7, then the raw 0x50000. -/
theorem C21_relocated_reads_witness :
    ∃ rs, rel_reads ⟨c1_cfg, false, rel_ex, SHT_REL⟩ rel_mem 0 [0, 4, 4, 8, 10, 12] = .ok rs ∧
      rs.length = [0, 4, 4, 8, 10, 12].length ∧
      List.Chain (fun a b => a ≤ b) 0 (rs.map Prod.snd) ∧
      (∀ (i p raw : Nat), [0, 4, 4, 8, 10, 12][i]? = some p → do_read_32 false rel_mem p = .ok raw →
        ∃ c, rs[i]? = some (rel_value ⟨c1_cfg, false, rel_ex, SHT_REL⟩ raw p, c) ∧
          c ≤ rel_ex.length ∧
          (∀ j r, j < c → rel_ex[j]? = some r → r.ptr < (p : Int)) ∧
          (∀ r, rel_ex[c]? = some r → (p : Int) ≤ r.ptr)) ∧
      (∀ (raw p : Nat) (r : REL), rel_ex.find? (fun x => decide (x.ptr = (p : Int))) = some r →
        (SHT_REL = SHT_REL →
          rel_value ⟨c1_cfg, false, rel_ex, SHT_REL⟩ raw p = (raw + r.addend) % 2 ^ 32) ∧
        (SHT_REL = SHT_RELA → rel_value ⟨c1_cfg, false, rel_ex, SHT_REL⟩ raw p = r.addend)) ∧
      (∀ (raw p : Nat), (∀ r ∈ rel_ex, r.ptr ≠ (p : Int)) →
        rel_value ⟨c1_cfg, false, rel_ex, SHT_REL⟩ raw p = raw) :=
  @C21_relocated_reads ⟨c1_cfg, false, rel_ex, SHT_REL⟩ rel_mem [0, 4, 4, 8, 10, 12]
    (by decide) (by decide)
    (by
      intro p hp
      simp only [List.mem_cons, List.mem_singleton, List.not_mem_nil, or_false] at hp
      rcases hp with rfl | rfl | rfl | rfl | rfl | rfl <;> exact ⟨_, rfl⟩)

/-- C22: for a `.debug_abbrev` subtable that holds at `off` the
declarations `ds` (each with a code other than 0, attributes other than 0
and a terminating zero attribute, the numbers being LEB128 numbers) in
which some code occurs twice, or in which the terminating zero attribute of
some declaration is followed by a number other than 0, `read_abbrev`
returns `NULL`. -/
theorem C22_read_abbrev_fails {m rest : List Nat} {off : Nat} {ds : List AbbrevDecl}
    (hwf : ∀ d ∈ ds, d.wf) (hm : m.drop off = enc_decls ds ++ rest)
    (hbad : ¬ (ds.map (fun d => d.code.2)).Nodup ∨ ∃ d ∈ ds, d.z2.2 ≠ 0) :
    read_abbrev m off = .ok none := by
  have hlen := congrArg List.length hm
  simp only [List.length_drop, List.length_append] at hlen
  have := enc_decls_length_ge ds hwf
  unfold read_abbrev
  exact read_abbrev_loop_bad ds (m.length + 1) off [] hwf hm (by omega) (Or.inr hbad)

/-- C22 on a table that declares the code 1 twice, and on a table whose
second declaration ends with the numbers 0 and 5. -/
theorem C22_read_abbrev_fails_witness :
    read_abbrev (enc_decls [decl_one, decl_one] ++ [0]) 0 = .ok none ∧
    read_abbrev (enc_decls [decl_one, decl_bad_end] ++ [0]) 0 = .ok none ∧
    read_abbrev (enc_decls [decl_one] ++ [0]) 0
      = .ok (some [⟨1, DW_TAG_compile_unit, []⟩]) :=
  ⟨@C22_read_abbrev_fails (enc_decls [decl_one, decl_one] ++ [0]) [0] 0 [decl_one, decl_one]
      (by
        intro d hd
        simp only [List.mem_cons, List.mem_singleton, List.not_mem_nil, or_false, or_self] at hd
        rw [hd]
        exact decl_one_wf)
      rfl (Or.inl (by decide)),
    @C22_read_abbrev_fails (enc_decls [decl_one, decl_bad_end] ++ [0]) [0] 0
      [decl_one, decl_bad_end]
      (by
        intro d hd
        simp only [List.mem_cons, List.mem_singleton, List.not_mem_nil, or_false] at hd
        rcases hd with hd | hd
        · rw [hd]; exact decl_one_wf
        · rw [hd]; exact decl_bad_end_wf)
      rfl (Or.inr ⟨decl_bad_end, by simp, by decide⟩),
    rfl⟩

/-- C23: `read_abbrev` accepts the table with an attribute of form 0, a
form that is neither 0x01, nor one of 0x03..0x16, nor one of 0x17, 0x18,
0x19, 0x20, and stores that form; for the form 0, which is not
`DW_FORM_indirect`, the `switch` of `edit_attributes` takes its branch
`Unknown DWARF DW_FORM` (whatever the section and the pointer), so that
`edit_attributes` returns `NULL` on the DIE of the example, and the driver
then reads a unit header through that `NULL` pointer. -/
theorem C23_form_zero_accepted :
    read_abbrev form0_abbrev 0 = .ok (some [⟨1, DW_TAG_compile_unit, [⟨0x25, 0⟩]⟩]) ∧
    ¬ ((0 : Nat) = 0x01 ∨ (0x03 ≤ (0 : Nat) ∧ (0 : Nat) ≤ 0x16) ∨ (0 : Nat) = DW_FORM_sec_offset ∨
      (0 : Nat) = DW_FORM_exprloc ∨ (0 : Nat) = DW_FORM_flag_present ∨
      (0 : Nat) = DW_FORM_ref_sig8) ∧
    (0 : Nat) ≠ DW_FORM_indirect ∧
    (∀ (msb : Bool) (ps cv : Nat) (m : List Nat) (ptr : Nat),
      form_step msb ps cv m 0 ptr = .ok .unknown) ∧
    edit_attributes ⟨c1_cfg, false, [], 0⟩ { form0_obj with ptr_size := 8, cu_version := 2 } 12
        ⟨1, DW_TAG_compile_unit, [⟨0x25, 0⟩]⟩ 0
      = .ok (none, { form0_obj with ptr_size := 8, cu_version := 2 }) ∧
    edit_dwarf2 c1_cfg ex_dso form0_obj = .error .undefined := by
  refine ⟨rfl, by decide, by decide, ?_, rfl, rfl⟩
  intro msb ps cv m ptr
  rfl

/-- C25, as stated, fails: in the string table `sym_tab` the `STT_FILE`
symbol at offset 1 has the name `/build/x.c` and the `STT_OBJECT` symbol at
offset 2 has the name `build/x.c`, a tail of the same bytes.  Under base
`/build/` and dest `/o/`, `edit_symtab` rewrites the first name in place to
`\o\x.c`, and the name of the second symbol, which is not `STT_FILE`, reads
`o\x.c` afterwards. -/
theorem C25_counterexample :
    c1_cfg.base_dir = some (bytes "/build/") ∧ c1_cfg.dest_dir = some (bytes "/o/") ∧
      (bytes "/o/").length ≤ (bytes "/build/").length ∧
      (⟨2, 1, 0, 0⟩ : Sym).st_info % 16 ≠ STT_FILE ∧
      cstr sym_tab 2 = .ok (bytes "build/x.c") ∧
      ∃ t2, edit_symtab c1_cfg (sym_st sym_tab) [⟨1, 4, 0, 0⟩, ⟨2, 1, 0, 0⟩]
          = .ok { sym_st sym_tab with strtab := some t2, dirty_strtab := true } ∧
        cstr t2 1 = .ok (bytes "\\o\\x.c") ∧
        cstr t2 2 = .ok (bytes "o\\x.c") ∧
        bytes "o\\x.c" ≠ bytes "build/x.c" := by
  refine ⟨rfl, rfl, by decide, by decide, rfl, ?_⟩
  refine ⟨[0, 92, 111, 92, 120, 46, 99, 0, 120, 46, 99, 0, 109, 97, 105, 110, 0],
    rfl, rfl, rfl, by decide⟩

/-- C25, amended: with base and dest configured, len(dest) <= len(base)
(dest a C string, so without a NUL byte), over a string table `t` in which
every symbol of the table has a name, and in which the name (with its NUL)
of a symbol that is rewritten shares no byte with the name of another
symbol of the table, unless the two are `STT_FILE` symbols with one and the
same `st_name` (and base holds a `/`), `edit_symtab` returns, the string
table keeps its length, and afterwards: the name of every `STT_FILE` symbol
whose name `S` started with base is `dest ++ S[len(base)..]` with every `/`
replaced by `\`, whatever the win-path flag; the name of every symbol that
is not `STT_FILE` and of every `STT_FILE` symbol whose name did not start
with base is the one it was. -/
theorem C25_symtab_names (cfg : Config) (base dest t : List Nat) (st : St) (syms : List Sym)
    (hb : cfg.base_dir = some base) (hd : cfg.dest_dir = some dest)
    (hlen : dest.length ≤ base.length) (hdest : ∀ c ∈ dest, c ≠ 0)
    (hstr : st.strtab = some t)
    (hnames : ∀ x ∈ syms, ∃ S, cstr t x.st_name = .ok S)
    (hpair : syms.Pairwise (fun x y => sym_hit base t x ∨ sym_hit base t y →
      sym_apart t x y ∨ sym_twin base x y)) :
    ∃ t2 d, edit_symtab cfg st syms = .ok { st with strtab := some t2, dirty_strtab := d } ∧
      t2.length = t.length ∧
      ∀ x ∈ syms, ∀ S, cstr t x.st_name = .ok S →
        (x.st_info % 16 = STT_FILE → has_prefix S base = true →
          cstr t2 x.st_name
            = .ok ((dest ++ S.drop base.length).map (fun c => if c = 47 then 92 else c))) ∧
        (x.st_info % 16 ≠ STT_FILE → cstr t2 x.st_name = .ok S) ∧
        ( has_prefix S base = false → cstr t2 x.st_name = .ok S) := by
  obtain ⟨t2, d, e, l, n, _⟩ := edit_symtab_twins hb hd hlen hdest syms t st hstr hnames hpair
  refine ⟨t2, d, e, l, ?_⟩
  intro x hx S hS
  have hn := n x hx S hS
  refine ⟨?_, ?_, ?_⟩
  · intro h1 h2
    rw [hn]
    unfold new_sym_name
    rw [if_pos ⟨h1, h2⟩]
    rfl
  · intro h1
    rw [hn]
    unfold new_sym_name
    rw [if_neg (fun h => h1 h.1)]
  · intro h2
    rw [hn]
    unfold new_sym_name
    rw [if_neg (fun h => by rw [h2] at h; exact Bool.noConfusion h.2)]

/-- C25, amended, at the string table `sym_tab` with two `STT_FILE` symbols
of the name `/build/x.c` at offset 1 and the `STT_FUNC` symbol `main` at
offset 12, under base `/build/` and dest `/o/` without the win-path flag:
the names afterwards are `\o\x.c`, `main` and `\o\x.c`. -/
theorem C25_symtab_names_witness :
    c1_cfg.win_path = false ∧
    ∃ t2 d, edit_symtab c1_cfg (sym_st sym_tab) [⟨1, 4, 0, 0⟩, ⟨12, 2, 0, 0⟩, ⟨1, 4, 0, 7⟩]
        = .ok { sym_st sym_tab with strtab := some t2, dirty_strtab := d } ∧
      t2.length = sym_tab.length ∧
      ∀ x ∈ ([⟨1, 4, 0, 0⟩, ⟨12, 2, 0, 0⟩, ⟨1, 4, 0, 7⟩] : List Sym), ∀ S,
        cstr sym_tab x.st_name = .ok S →
        (x.st_info % 16 = STT_FILE → has_prefix S (bytes "/build/") = true →
          cstr t2 x.st_name
            = .ok ((bytes "/o/" ++ S.drop (bytes "/build/").length).map
                (fun c => if c = 47 then 92 else c))) ∧
        (x.st_info % 16 ≠ STT_FILE → cstr t2 x.st_name = .ok S) ∧
        ( has_prefix S (bytes "/build/") = false → cstr t2 x.st_name = .ok S) := by
  have hx : cstr sym_tab 1 = .ok (bytes "/build/x.c") := rfl
  have hm : cstr sym_tab 12 = .ok (bytes "main") := rfl
  refine ⟨rfl, C25_symtab_names c1_cfg (bytes "/build/") (bytes "/o/") sym_tab (sym_st sym_tab)
    [⟨1, 4, 0, 0⟩, ⟨12, 2, 0, 0⟩, ⟨1, 4, 0, 7⟩] rfl rfl (by decide) (by decide) rfl ?_ ?_⟩
  · intro x hx
    simp only [List.mem_cons, List.mem_singleton, List.not_mem_nil, or_false] at hx
    rcases hx with rfl | rfl | rfl
    · exact ⟨bytes "/build/x.c", rfl⟩
    · exact ⟨bytes "main", rfl⟩
    · exact ⟨bytes "/build/x.c", rfl⟩
  · refine List.pairwise_cons.mpr ⟨?_, List.pairwise_cons.mpr ⟨?_,
      List.pairwise_cons.mpr ⟨?_, List.Pairwise.nil⟩⟩⟩
    · intro y hy _
      simp only [List.mem_cons, List.mem_singleton, List.not_mem_nil, or_false] at hy
      rcases hy with rfl | rfl
      · left
        intro Sx Sy hSx hSy
        rw [cstr_inj hSx hx, cstr_inj hSy hm]
        left
        decide
      · right
        exact ⟨rfl, rfl, rfl, by decide⟩
    · intro y hy _
      simp only [List.mem_singleton] at hy
      subst hy
      left
      intro Sx Sy hSx hSy
      rw [cstr_inj hSx hm, cstr_inj hSy hx]
      right
      decide
    · intro y hy
      cases hy

/-- C26: for every input `s`, the result of `canonicalize_path` is not
empty and is the path `.` or has no segment `.` (a `.` that starts a
segment is followed by a byte other than `/`); two adjacent `/` stand only
at its first two positions, and they stand there exactly when the input
starts with exactly two `/`; for an input that starts with three `/` the
result starts with one `/` only. -/
theorem C26_canonicalize_dot_and_slashes (s : List Nat) :
    canonicalize_path s ≠ [] ∧
    (canonicalize_path s = bytes "." ∨
      ∀ i, (canonicalize_path s)[i]? = some 46 →
        (i = 0 ∨ (canonicalize_path s)[i - 1]? = some 47) →
        ∃ c, (canonicalize_path s)[i + 1]? = some c ∧ c ≠ 47) ∧
    (∀ i, (canonicalize_path s)[i]? = some 47 → (canonicalize_path s)[i + 1]? = some 47 →
      i = 0) ∧
    (((canonicalize_path s)[0]? = some 47 ∧ (canonicalize_path s)[1]? = some 47) ↔
      (s[0]? = some 47 ∧ s[1]? = some 47 ∧ s[2]? ≠ some 47)) ∧
    (s[0]? = some 47 → s[1]? = some 47 → s[2]? = some 47 →
      (canonicalize_path s)[0]? = some 47 ∧ (canonicalize_path s)[1]? ≠ some 47) := by
  obtain ⟨h1, h2, _, h4⟩ := canonicalize_path_shape s
  obtain ⟨hpre, hfirst⟩ := canonicalize_path_root s
  obtain ⟨hroot, _⟩ := canon_root_inv s
  unfold FirstOk at hfirst
  refine ⟨h1, h4, ?_, ?_, ?_⟩
  · intro i ha hb
    by_contra hi
    exact h2 i (by omega) ⟨ha, hb⟩
  · constructor
    · rintro ⟨ha, hb⟩
      rcases hroot with hr | hr | hr
      · rw [hr] at hfirst
        exact absurd ha hfirst
      · rw [hr] at hfirst
        exact absurd hb hfirst
      · exact (canon_root_two s).mp hr
    · intro h
      have hr := (canon_root_two s).mpr h
      rw [hr] at hpre
      obtain ⟨t, ht⟩ := hpre
      rw [← ht]
      simp
  · intro a b c
    have hr := canon_root_three s a b c
    rw [hr] at hpre hfirst
    obtain ⟨t, ht⟩ := hpre
    refine ⟨?_, hfirst⟩
    rw [← ht]
    simp

/-- C26 on the inputs `//a/./b`, `///a//b` and `./`. -/
theorem C26_canonicalize_dot_and_slashes_witness :
    ((canonicalize_path (bytes "//a/./b"))[0]? = some 47 ∧
      (canonicalize_path (bytes "//a/./b"))[1]? = some 47) ∧
    ((canonicalize_path (bytes "///a//b"))[0]? = some 47 ∧
      (canonicalize_path (bytes "///a//b"))[1]? ≠ some 47) ∧
    canonicalize_path (bytes "//a/./b") = bytes "//a/b" ∧
    canonicalize_path (bytes "///a//b") = bytes "/a/b" ∧
    canonicalize_path (bytes "./") = bytes "." :=
  ⟨(C26_canonicalize_dot_and_slashes (bytes "//a/./b")).2.2.2.1.mpr ⟨rfl, rfl, by decide⟩,
    (C26_canonicalize_dot_and_slashes (bytes "///a//b")).2.2.2.2 rfl rfl rfl,
    rfl, rfl, rfl⟩

/-- C28, as stated, fails: for a `DW_FORM_block` whose length 1 is encoded
in five LEB128 bytes and is followed by the one byte of the block, the step
does not advance the cursor by 5 + 1: `read_uleb128` gives `UINT_MAX` for
an encoding of five bytes, and the step stops in `assert (len < UINT_MAX)`. -/
theorem C28_counterexample :
    leb_len long_leb_block = some 5 ∧ leb_val long_leb_block = some 1 ∧
      5 + 1 ≤ long_leb_block.length ∧
      read_uleb128 long_leb_block 0 = .ok (UINT_MAX, 5) ∧
      form_step false 8 4 long_leb_block DW_FORM_block 0 = .error .abort ∧
      form_step false 8 4 long_leb_block DW_FORM_exprloc 0 = .error .abort := by
  refine ⟨rfl, rfl, by decide, rfl, rfl, rfl⟩

/-- C28, amended: the `switch` of `edit_attributes`, at the pointer `ptr`
of the section `m` (where the bytes it reads are inside the section),
advances the pointer by: the address size for `addr`; the address size for
`ref_addr` when the unit version is 2, else 4; 0 for `flag_present`; 1 for
`ref1`, `flag`, `data1`; 2 for `ref2`, `data2`; 4 for `ref4`, `data4`,
`sec_offset`, `strp`; 8 for `ref8`, `data8`, `ref_sig8`; the length of the
LEB128 encoding for `sdata`, `udata`, `ref_udata`; the length of the string
plus 1 for `string`; 1, 2, 4 plus the length read for `block1`, `block2`,
`block4`; for `block` and `exprloc` the length of the LEB128 encoding plus
the length that `read_uleb128` gives, when that is below `UINT_MAX`, while
otherwise the step aborts; for `indirect` it advances by the length of the
LEB128 form code and the loop goes on with the decoded form.  A pass of the
loop ends with the pointer that the `switch` gives (the actions before it
leave the pointer alone). -/
theorem C28_form_steps (msb : Bool) (ps cv : Nat) (m : List Nat) (ptr : Nat) :
    form_step msb ps cv m DW_FORM_addr ptr = .ok (.done (ptr + ps)) ∧
    form_step msb ps cv m DW_FORM_ref_addr ptr
      = .ok (.done (ptr + if cv = 2 then ps else 4)) ∧
    form_step msb ps cv m DW_FORM_flag_present ptr = .ok (.done (ptr + 0)) ∧
    (∀ f, f = DW_FORM_ref1 ∨ f = DW_FORM_flag ∨ f = DW_FORM_data1 →
      form_step msb ps cv m f ptr = .ok (.done (ptr + 1))) ∧
    (∀ f, f = DW_FORM_ref2 ∨ f = DW_FORM_data2 →
      form_step msb ps cv m f ptr = .ok (.done (ptr + 2))) ∧
    (∀ f, f = DW_FORM_ref4 ∨ f = DW_FORM_data4 ∨ f = DW_FORM_sec_offset ∨ f = DW_FORM_strp →
      form_step msb ps cv m f ptr = .ok (.done (ptr + 4))) ∧
    (∀ f, f = DW_FORM_ref8 ∨ f = DW_FORM_data8 ∨ f = DW_FORM_ref_sig8 →
      form_step msb ps cv m f ptr = .ok (.done (ptr + 8))) ∧
    (∀ f k, f = DW_FORM_sdata ∨ f = DW_FORM_udata ∨ f = DW_FORM_ref_udata →
      leb_len (m.drop ptr) = some k → form_step msb ps cv m f ptr = .ok (.done (ptr + k))) ∧
    (∀ s, cstr m ptr = .ok s →
      form_step msb ps cv m DW_FORM_string ptr = .ok (.done (ptr + (s.length + 1)))) ∧
    (∀ len, rd m ptr = .ok len →
      form_step msb ps cv m DW_FORM_block1 ptr = .ok (.done (ptr + (1 + len)))) ∧
    (∀ len, do_read_16 msb m ptr = .ok len →
      form_step msb ps cv m DW_FORM_block2 ptr = .ok (.done (ptr + (2 + len)))) ∧
    (∀ len, do_read_32 msb m ptr = .ok len →
      form_step msb ps cv m DW_FORM_block4 ptr = .ok (.done (ptr + (4 + len)))) ∧
    (∀ f len p, f = DW_FORM_block ∨ f = DW_FORM_exprloc → read_uleb128 m ptr = .ok (len, p) →
      ∃ k, leb_len (m.drop ptr) = some k ∧ p = ptr + k ∧
        (len < UINT_MAX → form_step msb ps cv m f ptr = .ok (.done (ptr + (k + len)))) ∧
        (¬ len < UINT_MAX → form_step msb ps cv m f ptr = .error .abort)) ∧
    (∀ f p, read_uleb128 m ptr = .ok (f, p) →
      ∃ k, leb_len (m.drop ptr) = some k ∧
        form_step msb ps cv m DW_FORM_indirect ptr = .ok (.again f (ptr + k))) ∧
    (∀ (env : Env) (phase tag attr fuel form : Nat) (a a1 : AttrSt) (p : Nat),
      attr_actions env phase tag attr form a = .ok a1 →
      form_step env.msb a1.st.ptr_size a1.st.cu_version (info_of a1.st) form a1.ptr
        = .ok (.done p) →
      a1.ptr = a.ptr ∧
        attr_loop env phase tag attr (fuel + 1) form a = .ok (true, { a1 with ptr := p })) ∧
    (∀ (env : Env) (phase tag attr fuel form : Nat) (a a1 : AttrSt) (f p : Nat),
      attr_actions env phase tag attr form a = .ok a1 →
      form_step env.msb a1.st.ptr_size a1.st.cu_version (info_of a1.st) form a1.ptr
        = .ok (.again f p) →
      a1.ptr = a.ptr ∧
        attr_loop env phase tag attr (fuel + 1) form a
          = attr_loop env phase tag attr fuel f { a1 with ptr := p }) := by
  refine ⟨rfl, ?_, rfl, ?_, ?_, ?_, ?_, ?_, ?_, ?_, ?_, ?_, ?_, ?_, ?_, ?_⟩
  · unfold form_step
    rw [if_pos rfl]
    by_cases h2 : cv = 2
    · rw [if_pos h2, if_pos h2]; rfl
    · rw [if_neg h2, if_neg h2]; rfl
  · rintro f (rfl | rfl | rfl) <;> rfl
  · rintro f (rfl | rfl) <;> rfl
  · rintro f (rfl | rfl | rfl | rfl) <;> rfl
  · rintro f (rfl | rfl | rfl) <;> rfl
  · intro f k hf hk
    obtain ⟨v, hv⟩ := read_uleb128_of_len hk
    rcases hf with rfl | rfl | rfl <;>
    · unfold form_step
      simp only [DW_FORM_string, DW_FORM_ref_addr, DW_FORM_flag_present, DW_FORM_addr, DW_FORM_ref1,
        DW_FORM_flag, DW_FORM_data1, DW_FORM_ref2, DW_FORM_data2, DW_FORM_ref4, DW_FORM_data4,
        DW_FORM_sec_offset, DW_FORM_ref8, DW_FORM_data8, DW_FORM_ref_sig8, DW_FORM_sdata,
        DW_FORM_ref_udata, DW_FORM_udata, DW_FORM_strp]
      simp [hv]
  · intro s hs
    rw [form_step_string hs]
    rfl
  · intro len hl
    unfold form_step
    simp only [DW_FORM_string, DW_FORM_ref_addr, DW_FORM_flag_present, DW_FORM_addr, DW_FORM_ref1,
      DW_FORM_flag, DW_FORM_data1, DW_FORM_ref2, DW_FORM_data2, DW_FORM_ref4, DW_FORM_data4,
      DW_FORM_sec_offset, DW_FORM_ref8, DW_FORM_data8, DW_FORM_ref_sig8, DW_FORM_sdata,
      DW_FORM_ref_udata, DW_FORM_udata, DW_FORM_strp, DW_FORM_indirect, DW_FORM_block1]
    simp [hl, Nat.add_assoc]
  · intro len hl
    unfold form_step
    simp only [DW_FORM_string, DW_FORM_ref_addr, DW_FORM_flag_present, DW_FORM_addr, DW_FORM_ref1,
      DW_FORM_flag, DW_FORM_data1, DW_FORM_ref2, DW_FORM_data2, DW_FORM_ref4, DW_FORM_data4,
      DW_FORM_sec_offset, DW_FORM_ref8, DW_FORM_data8, DW_FORM_ref_sig8, DW_FORM_sdata,
      DW_FORM_ref_udata, DW_FORM_udata, DW_FORM_strp, DW_FORM_indirect, DW_FORM_block1,
      DW_FORM_block2]
    simp [hl, Nat.add_assoc]
  · intro len hl
    unfold form_step
    simp only [DW_FORM_string, DW_FORM_ref_addr, DW_FORM_flag_present, DW_FORM_addr, DW_FORM_ref1,
      DW_FORM_flag, DW_FORM_data1, DW_FORM_ref2, DW_FORM_data2, DW_FORM_ref4, DW_FORM_data4,
      DW_FORM_sec_offset, DW_FORM_ref8, DW_FORM_data8, DW_FORM_ref_sig8, DW_FORM_sdata,
      DW_FORM_ref_udata, DW_FORM_udata, DW_FORM_strp, DW_FORM_indirect, DW_FORM_block1,
      DW_FORM_block2, DW_FORM_block4]
    simp [hl, Nat.add_assoc]
  · intro f len p hf hr
    obtain ⟨k, hk, hp⟩ := read_uleb128_len hr
    simp only at hp
    refine ⟨k, hk, hp, ?_, ?_⟩
    · intro hlt
      rcases hf with rfl | rfl <;>
      · unfold form_step
        simp only [DW_FORM_string, DW_FORM_ref_addr, DW_FORM_flag_present, DW_FORM_addr,
          DW_FORM_ref1, DW_FORM_flag, DW_FORM_data1, DW_FORM_ref2, DW_FORM_data2, DW_FORM_ref4,
          DW_FORM_data4, DW_FORM_sec_offset, DW_FORM_ref8, DW_FORM_data8, DW_FORM_ref_sig8,
          DW_FORM_sdata, DW_FORM_ref_udata, DW_FORM_udata, DW_FORM_strp, DW_FORM_indirect,
          DW_FORM_block1, DW_FORM_block2, DW_FORM_block4, DW_FORM_block, DW_FORM_exprloc]
        simp [hr, hlt, hp, Nat.add_assoc]
    · intro hge
      rcases hf with rfl | rfl <;>
      · unfold form_step
        simp only [DW_FORM_string, DW_FORM_ref_addr, DW_FORM_flag_present, DW_FORM_addr,
          DW_FORM_ref1, DW_FORM_flag, DW_FORM_data1, DW_FORM_ref2, DW_FORM_data2, DW_FORM_ref4,
          DW_FORM_data4, DW_FORM_sec_offset, DW_FORM_ref8, DW_FORM_data8, DW_FORM_ref_sig8,
          DW_FORM_sdata, DW_FORM_ref_udata, DW_FORM_udata, DW_FORM_strp, DW_FORM_indirect,
          DW_FORM_block1, DW_FORM_block2, DW_FORM_block4, DW_FORM_block, DW_FORM_exprloc]
        simp [hr, hge]
  · intro f p hr
    obtain ⟨k, hk, hp⟩ := read_uleb128_len hr
    simp only at hp
    refine ⟨k, hk, ?_⟩
    unfold form_step
    simp only [DW_FORM_string, DW_FORM_ref_addr, DW_FORM_flag_present, DW_FORM_addr, DW_FORM_ref1,
      DW_FORM_flag, DW_FORM_data1, DW_FORM_ref2, DW_FORM_data2, DW_FORM_ref4, DW_FORM_data4,
      DW_FORM_sec_offset, DW_FORM_ref8, DW_FORM_data8, DW_FORM_ref_sig8, DW_FORM_sdata,
      DW_FORM_ref_udata, DW_FORM_udata, DW_FORM_strp, DW_FORM_indirect]
    simp [hr, hp]
  · intro env phase tag attr fuel form a a1 p ha hs
    refine ⟨(attr_actions_keep ha).1, ?_⟩
    unfold attr_loop
    rw [ha]
    simp only [bind_ok_eq]
    rw [hs]
    rfl
  · intro env phase tag attr fuel form a a1 f p ha hs
    refine ⟨(attr_actions_keep ha).1, ?_⟩
    conv => lhs; unfold attr_loop
    rw [ha]
    simp only [bind_ok_eq]
    rw [hs]
    rfl

/-- C28 on a `block1` of three bytes, a `block` of two bytes with a length
of one LEB128 byte, and the string `ab`. -/
theorem C28_form_steps_witness :
    form_step false 8 4 [3, 65, 66, 67, 0] DW_FORM_block1 0 = .ok (.done (0 + (1 + 3))) ∧
    (∃ k, leb_len ([2, 9, 9].drop 0) = some k ∧ 1 = 0 + k ∧
      (2 < UINT_MAX → form_step false 8 4 [2, 9, 9] DW_FORM_block 0
        = .ok (.done (0 + (k + 2)))) ∧
      (¬ 2 < UINT_MAX → form_step false 8 4 [2, 9, 9] DW_FORM_block 0 = .error .abort)) ∧
    form_step false 8 4 (bytes "ab" ++ [0]) DW_FORM_string 0
      = .ok (.done (0 + ((bytes "ab").length + 1))) :=
  ⟨(C28_form_steps false 8 4 [3, 65, 66, 67, 0] 0).2.2.2.2.2.2.2.2.2.1 3 rfl,
    (C28_form_steps false 8 4 [2, 9, 9] 0).2.2.2.2.2.2.2.2.2.2.2.2.1 DW_FORM_block 2 1
      (Or.inl rfl) rfl,
    (C28_form_steps false 8 4 (bytes "ab" ++ [0]) 0).2.2.2.2.2.2.2.2.1 (bytes "ab") rfl⟩

/-- C29: for the `DW_AT_name` of a compile or partial unit whose string
`N` (inline, or in `.debug_str`) starts with `/`, met while `comp_dir` is
still `NULL`, with `N = D ++ "/" ++ F` and no `/` in `F`: the pass of
`edit_attributes` over the attribute sets `comp_dir` to `D`, the name up to
but excluding its last `/`, or to `/` when `D` is empty.  In phase 0 the
pass returns and leaves every section buffer and dirty flag as it is; in
either phase the state after the pass is the one that the pass gives when
`comp_dir` is already set (and then kept), so the synthesis changes no byte
of a section. -/
theorem C29_synth_comp_dir {env : Env} {a : AttrSt} {tag form : Nat} {N D F : List Nat}
    (htag : tag = DW_TAG_compile_unit ∨ tag = DW_TAG_partial_unit)
    (hN : attr_string env a form N) (habs : N.head? = some 47) (hcd : a.comp_dir = none)
    (hsplit : N = D ++ 47 :: F) (hF : 47 ∉ F) :
    (∃ a', attr_actions env 0 tag DW_AT_name form a = .ok a' ∧
      a'.comp_dir = some (if D = [] then [47] else D) ∧ St.same a.st a'.st ∧ a'.ptr = a.ptr) ∧
    (∀ phase a', attr_actions env phase tag DW_AT_name form a = .ok a' →
      a'.comp_dir = some (if D = [] then [47] else D) ∧
      ∀ cd0, ∃ a'', attr_actions env phase tag DW_AT_name form { a with comp_dir := some cd0 }
          = .ok a'' ∧ a''.st = a'.st ∧ a''.comp_dir = some cd0) := by
  have hsyn : name_comp_dir N a.comp_dir = some (if D = [] then [47] else D) := by
    unfold name_comp_dir
    rw [hcd, habs]
    simp only [Option.isNone_none, Bool.and_true, decide_True, if_true]
    rw [hsplit, synth_comp_dir_split hF]
  constructor
  · obtain ⟨a', h1, h2⟩ := @act_name_phase0 env form a N hN
    obtain ⟨k1, k2, _⟩ := act_name_spec hN h1
    refine ⟨a', ?_, ?_, h2, k2⟩
    · rw [attr_actions_name htag]
      exact h1
    · rw [k1, hsyn]
  · intro phase a' h
    rw [attr_actions_name htag] at h
    obtain ⟨k1, _, k3⟩ := act_name_spec hN h
    refine ⟨by rw [k1, hsyn], ?_⟩
    intro cd0
    refine ⟨{ a' with comp_dir := name_comp_dir N (some cd0) }, ?_, rfl, ?_⟩
    · rw [attr_actions_name htag]
      exact k3 (some cd0)
    · simp [name_comp_dir]

/-- C29 at scenario S5: the name `/u/lib/x.c` gives the `comp_dir`
`/u/lib`. -/
theorem C29_synth_comp_dir_witness :
    (∃ a', attr_actions s3_env 0 DW_TAG_compile_unit DW_AT_name DW_FORM_string
        (at_string (bytes "/u/lib/x.c")) = .ok a' ∧
      a'.comp_dir = some (if bytes "/u/lib" = [] then [47] else bytes "/u/lib") ∧
      St.same (at_string (bytes "/u/lib/x.c")).st a'.st ∧
      a'.ptr = (at_string (bytes "/u/lib/x.c")).ptr) ∧
    (∀ phase a', attr_actions s3_env phase DW_TAG_compile_unit DW_AT_name DW_FORM_string
        (at_string (bytes "/u/lib/x.c")) = .ok a' →
      a'.comp_dir = some (if bytes "/u/lib" = [] then [47] else bytes "/u/lib") ∧
      ∀ cd0, ∃ a'', attr_actions s3_env phase DW_TAG_compile_unit DW_AT_name DW_FORM_string
          { at_string (bytes "/u/lib/x.c") with comp_dir := some cd0 } = .ok a'' ∧
        a''.st = a'.st ∧ a''.comp_dir = some cd0) :=
  @C29_synth_comp_dir s3_env (at_string (bytes "/u/lib/x.c")) DW_TAG_compile_unit DW_FORM_string
    (bytes "/u/lib/x.c") (bytes "/u/lib") (bytes "x.c") (Or.inl rfl) (Or.inl ⟨rfl, rfl⟩) rfl rfl
    rfl (by decide)

/-- C30, as stated, fails: the DIE of `ind_info` has a `DW_AT_stmt_list` of
form `data4` and the `comp_dir` `/w`, and a last attribute declared
`DW_FORM_indirect` whose form is read as 0x30.  The loop over the
attributes sets `found_list_offs` and `comp_dir` and then comes to the
unknown form, on which `edit_attributes` returns `NULL` at once: the
line-header editor is not invoked and `.debug_line` stays as it was, while
the call `edit_dwarf2_line (dso, 0, "/w", 0)` in that state rewrites the
header. -/
theorem C30_counterexample :
    (∃ x ∈ ind_tag.attr, stmt_list_attr x.attr x.form) ∧
    attrs_loop ⟨c1_cfg, false, [], 0⟩ 0 ind_tag.tag ind_tag.attr
        ⟨ind_st (ex_line c1_ds c1_fs), 12, none, 0, false⟩
      = .ok (false, ⟨ind_st (ex_line c1_ds c1_fs), 24, some (bytes "/w"), 0, true⟩) ∧
    edit_attributes ⟨c1_cfg, false, [], 0⟩ (ind_st (ex_line c1_ds c1_fs)) 12 ind_tag 0
      = .ok (none, ind_st (ex_line c1_ds c1_fs)) ∧
    edit_dwarf2_line c1_cfg false (ind_st (ex_line c1_ds c1_fs)) 0 (bytes "/w") 0
      = .ok (0, { ind_st (ex_line c1_ds c1_fs) with
          debug_line := some (ex_line s6_ds s6_fs), dirty_str := true }) ∧
    ex_line s6_ds s6_fs ≠ ex_line c1_ds c1_fs := by
  refine ⟨⟨⟨DW_AT_stmt_list, DW_FORM_data4⟩, by decide, by decide⟩, rfl, rfl, rfl, by decide⟩

/-- C30, amended: for every DIE of an abbreviation `t` at `ptr` on which
the loop of `edit_attributes` over the attributes returns.  When the loop
stops at an unknown form, `edit_attributes` returns `NULL` and the state the
loop left, without a call of the line-header editor.  When all attributes
are stepped, the loop ending in the state `a`: `found_list_offs` is set
exactly when `t` has a `DW_AT_stmt_list` whose form, declared or read
through `DW_FORM_indirect` when the loop comes to the attribute, is
`data4` or `sec_offset`; when it is set and `comp_dir` (explicit or
synthesised) is the non-null `cd`, `edit_attributes` is the one call
`edit_dwarf2_line (dso, list_offs, cd, phase)`, made in the state after the
loop and the emission of `comp_dir`, and returns the pointer after the
attributes; otherwise it returns that pointer and that state without a
call.  `list_offs` is the value of the relocated 32-bit read at the last
such attribute. -/
theorem C30_line_editor_call {env : Env} {st : St} {ptr phase : Nat} {t : abbrev_tag}
    {r : Bool × AttrSt}
    (hloop : attrs_loop env phase t.tag t.attr ⟨st, ptr, none, 0, false⟩ = .ok r) :
    (r.1 = false → edit_attributes env st ptr t phase = .ok (none, r.2.st)) ∧
    (r.1 = true →
      (r.2.found_list_offs = true ↔
        ∃ (pre : List abbrev_attr) (x : abbrev_attr) (post : List abbrev_attr) (a1 : AttrSt)
          (p : Nat), t.attr = pre ++ x :: post ∧
            attrs_loop env phase t.tag pre ⟨st, ptr, none, 0, false⟩ = .ok (true, a1) ∧
            stmt_list_at (info_of a1.st) x a1.ptr p) ∧
      (∀ cd, r.2.found_list_offs = true → r.2.comp_dir = some cd →
        edit_attributes env st ptr t phase
          = (edit_dwarf2_line env.cfg env.msb (emit_comp_dir env.cfg r.2) r.2.list_offs cd phase
              >>= fun q => pure (some r.2.ptr, q.2))) ∧
      (r.2.found_list_offs = false ∨ r.2.comp_dir = none →
        edit_attributes env st ptr t phase = .ok (some r.2.ptr, emit_comp_dir env.cfg r.2)) ∧
      (∀ (pre : List abbrev_attr) (x : abbrev_attr) (post : List abbrev_attr) (a1 : AttrSt)
        (p : Nat) (v : Nat × Nat),
        t.attr = pre ++ x :: post →
        attrs_loop env phase t.tag pre ⟨st, ptr, none, 0, false⟩ = .ok (true, a1) →
        stmt_list_at (info_of a1.st) x a1.ptr p →
        (∀ (mid : List abbrev_attr) (y : abbrev_attr) (rest : List abbrev_attr) (a2 : AttrSt)
          (q : Nat), post = mid ++ y :: rest →
            attrs_loop env phase t.tag (pre ++ x :: mid) ⟨st, ptr, none, 0, false⟩
              = .ok (true, a2) →
            ¬ stmt_list_at (info_of a2.st) y a2.ptr q) →
        do_read_32_relocated env (info_of a1.st) a1.st.relptr p = .ok v →
        r.2.list_offs = v.1)) := by
  constructor
  · intro hr
    unfold edit_attributes
    rw [hloop]
    simp only [bind_ok_eq, hr]
    rfl
  intro hr
  refine ⟨?_, ?_, ?_, ?_⟩
  · have := attrs_loop_found_at t.attr _ _ hloop hr
    rw [this]
    simp
  · intro cd hf hcd
    unfold edit_attributes
    rw [hloop]
    simp only [bind_ok_eq, hr, if_true, hcd, hf]
  · intro h
    unfold edit_attributes
    rw [hloop]
    simp only [bind_ok_eq, hr, if_true]
    rcases h with h | h
    · cases hcd : r.2.comp_dir with
      | none => rfl
      | some cd =>
        simp only [h]
        rfl
    · rw [h]
      rfl
  · intro pre x post a1 p v hattr hpre hat hlast hv
    rw [hattr, attrs_loop_append, hpre] at hloop
    simp only [bind_ok_eq, if_true] at hloop
    rw [attrs_loop_cons] at hloop
    obtain ⟨r1, h1, k⟩ := bind_eq_ok.mp hloop
    have hb : r1.1 = true := by
      by_contra hb
      rw [if_neg hb] at k
      rw [← ok_inj k] at hr
      exact hb hr
    rw [if_pos hb] at k
    obtain ⟨_, g2, _⟩ := attr_loop_found_at x a1 r1 h1
    obtain ⟨v2, hv2, hl⟩ := g2 p hat
    rw [hv] at hv2
    have hvv := Except.ok.inj hv2
    rw [attrs_loop_offs_keep post r1.2 r k hr, hl, hvv]
    intro mid y rest a2 q hsplit hmid
    apply hlast mid y rest a2 q hsplit
    rw [attrs_loop_append, hpre]
    simp only [bind_ok_eq, if_true]
    rw [attrs_loop_cons_ok h1 hb]
    exact hmid

/-- C30, amended, on the DIE of `ind2_info` (name `x.c`, `comp_dir` `/w`, a
`DW_AT_stmt_list` declared `DW_FORM_indirect` and read as `data4`, offset
0), where the line-header editor is called, and on the DIE of `ind_info`,
where the loop stops at an unknown form. -/
theorem C30_line_editor_call_witness :
    ((⟨ind2_st bad_index_line, 24, some (bytes "/w"), 0, true⟩ : AttrSt).found_list_offs = true ↔
      ∃ (pre : List abbrev_attr) (x : abbrev_attr) (post : List abbrev_attr) (a1 : AttrSt)
        (p : Nat), ind2_tag.attr = pre ++ x :: post ∧
          attrs_loop ⟨c1_cfg, false, [], 0⟩ 0 ind2_tag.tag pre
            ⟨ind2_st bad_index_line, 12, none, 0, false⟩ = .ok (true, a1) ∧
          stmt_list_at (info_of a1.st) x a1.ptr p) ∧
    edit_attributes ⟨c1_cfg, false, [], 0⟩ (ind2_st bad_index_line) 12 ind2_tag 0
      = (edit_dwarf2_line c1_cfg false
          (emit_comp_dir c1_cfg ⟨ind2_st bad_index_line, 24, some (bytes "/w"), 0, true⟩)
          0 (bytes "/w") 0
          >>= fun q => pure (some 24, q.2)) ∧
    edit_attributes ⟨c1_cfg, false, [], 0⟩ (ind_st (ex_line c1_ds c1_fs)) 12 ind_tag 0
      = .ok (none, ind_st (ex_line c1_ds c1_fs)) :=
  ⟨((@C30_line_editor_call ⟨c1_cfg, false, [], 0⟩ (ind2_st bad_index_line) 12 0 ind2_tag
      (true, ⟨ind2_st bad_index_line, 24, some (bytes "/w"), 0, true⟩) rfl).2 rfl).1,
    ((@C30_line_editor_call ⟨c1_cfg, false, [], 0⟩ (ind2_st bad_index_line) 12 0 ind2_tag
      (true, ⟨ind2_st bad_index_line, 24, some (bytes "/w"), 0, true⟩) rfl).2 rfl).2.1
      (bytes "/w") rfl rfl,
    (@C30_line_editor_call ⟨c1_cfg, false, [], 0⟩ (ind_st (ex_line c1_ds c1_fs)) 12 0 ind_tag
      (false, ⟨ind_st (ex_line c1_ds c1_fs), 24, some (bytes "/w"), 0, true⟩) rfl).1 rfl⟩

/-- C31: take the directory loop of `edit_dwarf2_line` over a table with
the entries `ds` at `dir` (read in place or from the snapshot `buf`).  When
the loop returns it has gone through entries `done` of the table, `ptr` is
right after the last rewritten entry, and with `k = shr base done`, the
total over these entries of the bytes consumed from the source entry after
any base prefix minus the bytes produced by canonicalization: if `k = 1`
the filler step ends in `error (EXIT_FAILURE, ...)`; if `k > 1` it writes
exactly `k - 1` filler bytes `X` followed by one NUL at `ptr` and advances
`ptr` by `k`; if `k = 0` it writes nothing and leaves `ptr` where it is.
The loop has gone through all of the table unless `k < 0`; and it does
return, having gone through all of the table, when no entry grows under the
rewrite. -/
theorem C31_shrank_filler {w : Bool} {base dest m : List Nat} {buf : Option (List Nat)}
    {dir s0 : Nat} {T : List Nat} {ds : List (List Nat)}
    (hlen : dest.length ≤ base.length)
    (hsrc0 : (src_of buf m).drop s0 = encD ds ++ 0 :: T)
    (hds : ∀ e ∈ ds, wf_str e) (hinp : buf = none → s0 = dir)
    (hroom : dir + (encD ds).length + 1 ≤ m.length) (hfit : m.length < 2 ^ 63) :
    (∀ done, shr base done = (done.map (fun e => ((dir_rest base e).length : Int)
        - (canonicalize_path (dir_rest base e)).length)).sum) ∧
    (∀ st1, dir_rewrite w base dest buf (m.length + 1) ⟨m, s0, dir, 0, 0, false⟩ = .ok st1 →
      ∃ done todo, ds = done ++ todo ∧
        st1.ptr = dir + (encD (done.map (new_dir w base dest))).length ∧
        wr m dir (encD (done.map (new_dir w base dest))) = .ok st1.mem ∧
        (todo ≠ [] → shr base done < 0) ∧
        (shr base done = 1 → fill_shrank st1 = .error .exit) ∧
        (1 < shr base done → ∃ st2, fill_shrank st1 = .ok st2 ∧
          wr st1.mem st1.ptr (List.replicate ((shr base done).toNat - 1) 88 ++ [0])
            = .ok st2.mem ∧
          st2.ptr = st1.ptr + (shr base done).toNat) ∧
        (shr base done = 0 → fill_shrank st1 = .ok st1)) ∧
    ((∀ e ∈ ds, (new_dir w base dest e).length ≤ e.length) →
      ∃ st1, dir_rewrite w base dest buf (m.length + 1) ⟨m, s0, dir, 0, 0, false⟩ = .ok st1 ∧
        st1.ptr = dir + (encD (ds.map (new_dir w base dest))).length) := by
  have e1 := SIZE_MOD_eq
  have hwf : ∀ e ∈ ds, e ≠ [] ∧ (∀ x ∈ e, x ≠ 0) ∧ e.length + 2 < SIZE_MOD := by
    intro e he
    have := mem_encD_length he
    refine ⟨(hds e he).1, (hds e he).2, ?_⟩
    rw [e1]; omega
  have hinv0 : DirInv w base dest m dir s0 [] ⟨m, s0, dir, 0, 0, false⟩ := by
    refine ⟨by simp [encD], by simp [encD], ?_, by simp [shr], by simp [cnt_under]⟩
    simp only [List.map_nil, encD_nil]
    exact wr_nil (by omega)
  refine ⟨fun _ => rfl, ?_, ?_⟩
  · intro st1 hst1
    have hmode0 : buf = none → dir ≤ s0 := fun hb => by rw [hinp hb]
    obtain ⟨done, todo, hdt, ⟨i1, i2, i3, i4, i5⟩, hq⟩ :=
      dir_rewrite_spec hlen hsrc0 hwf (m.length + 1) ds [] _ st1 (by simp) hinv0 hmode0 hst1
    have hds2 : ∀ e ∈ done, wf_str e :=
      fun e he => hds e (by rw [hdt]; exact List.mem_append_left _ he)
    obtain ⟨hb1, hb2⟩ := shr_bounds base done hds2
    have hdl : (encD done).length ≤ (encD ds).length := by rw [hdt, encD_append]; simp
    have hml := wr_length i3
    have hnew := encD_new_length w base dest done
    have hcnt : (0 : Int) ≤ (cnt_under base done : Int) * ((base.length : Int) - dest.length) :=
      Int.mul_nonneg (by omega) (by omega)
    rw [e1] at i4
    obtain ⟨c1, c2, c3⟩ := @fill_shrank_cases st1 (shr base done) i4 (by omega) (by omega)
      (by intro hk; omega)
    refine ⟨done, todo, hdt, i2, i3, ?_, c1, c2, c3⟩
    intro hne
    rcases hq with hq | ⟨hb, hlt⟩
    · exact absurd hq hne
    · rw [i1, i2, hinp hb] at hlt
      omega
  · intro hgrow
    have hlenle := enc_list_length_le ds
    obtain ⟨st1, hst1, _, i2, _⟩ :=
      dir_rewrite_total hlen hsrc0 hwf hinp hroom hgrow ds [] (m.length + 1) _ (by simp) hinv0
        (by omega)
    exact ⟨st1, hst1, i2⟩

/-- C31 on tables read in place at offset 0, under base `/build/` and dest
`/o/`: the entry `a/./b` (`k = 2`) is rewritten to `a/b` and gets one filler
byte and a NUL after it; the whole `edit_dwarf2_line` exits on the header
with the one directory entry `a//b` (`k = 1`). -/
theorem C31_shrank_filler_witness :
    shr (bytes "/build/") [bytes "a/./b"] = 2 ∧ shr (bytes "/build/") [bytes "a//b"] = 1 ∧
    (∃ st1, dir_rewrite false (bytes "/build/") (bytes "/o/") none
        ((bytes "a/./b" ++ [0, 0]).length + 1) ⟨bytes "a/./b" ++ [0, 0], 0, 0, 0, 0, false⟩
          = .ok st1 ∧
      st1.ptr = 0 + (encD ([bytes "a/./b"].map
        (new_dir false (bytes "/build/") (bytes "/o/")))).length) ∧
    dir_rewrite false (bytes "/build/") (bytes "/o/") none
        ((bytes "a/./b" ++ [0, 0]).length + 1) ⟨bytes "a/./b" ++ [0, 0], 0, 0, 0, 0, false⟩
      = .ok ⟨bytes "a/b" ++ [0, 98, 0, 0], 6, 4, 2, 0, true⟩ ∧
    fill_shrank ⟨bytes "a/b" ++ [0, 98, 0, 0], 6, 4, 2, 0, true⟩
      = .ok ⟨bytes "a/b" ++ [0, 88, 0, 0], 6, 6, 1, 0, true⟩ ∧
    edit_dwarf2_line c1_cfg false (ex_st (ex_line [bytes "a//b"] [])) 0 (bytes "/w") 0
      = .error .exit :=
  ⟨by decide, by decide,
    (@C31_shrank_filler false (bytes "/build/") (bytes "/o/") (bytes "a/./b" ++ [0, 0]) none 0 0
      [] [bytes "a/./b"] (by decide) (by decide)
      (by
        intro e he
        simp only [List.mem_singleton] at he
        rw [he]
        exact wf_str_bytes (by decide) rfl)
      (fun _ => rfl) (by decide) (by decide)).2.2
      (by
        intro e he
        simp only [List.mem_singleton] at he
        rw [he]
        decide),
    rfl, rfl, rfl⟩

/-- C32: for an object whose `.debug_info` has the relocation section
`(sh_type, entries, syms)` (every entry names a symbol of the table, and in
a `SHT_REL` section `r_addend` is 0), and in which every entry that gets a
record has a relocation type that `edit_dwarf2` handles for the machine
(else it exits): the index is built, it holds exactly one record for each
entry whose symbol's section index is that of `.debug_str`, `.debug_line`
or `.debug_abbrev` (and, for `SHT_REL`, whose symbol value is not 0) and no
other record, the record of an entry has the pointer
`r_offset - sh_addr` (from the base of the buffer) and the addend
`(r_addend + st_value) mod 2^32`, and the records are sorted in
nondecreasing pointer order. -/
theorem C32_relocation_index (dso : Dso) (sh_type : Nat) (entries : List RelEntry)
    (syms : List Sym) (hrel : dso.relsec = some (sh_type, entries, syms))
    (hsym : ∀ r ∈ entries, r.r_sym < syms.length)
    (hrep : sh_type = SHT_REL → ∀ r ∈ entries, r.r_addend = 0)
    (htype : ∀ r ∈ entries, rel_kept dso sh_type syms r = true →
      rtype_ok dso.e_machine r.r_type = true) :
    ∃ buf, build_relbuf dso = .ok buf ∧
      buf.Perm ((entries.filter (rel_kept dso sh_type syms)).map (rel_record dso sh_type syms)) ∧
      buf.Pairwise (fun a b => a.ptr ≤ b.ptr) ∧
      (∀ r ∈ entries, ∀ sym, syms[r.r_sym]? = some sym →
        (rel_kept dso sh_type syms r = true ↔
          (sym.st_shndx = dso.str_sec ∨ sym.st_shndx = dso.line_sec
              ∨ sym.st_shndx = dso.abbrev_sec) ∧
            ¬ (sh_type = SHT_REL ∧ sym.st_value = 0)) ∧
        (rel_record dso sh_type syms r).ptr = (r.r_offset : Int) - dso.info_addr ∧
        ((rel_record dso sh_type syms r).addend : Int)
          = (r.r_addend + sym.st_value) % 2 ^ 32) := by
  refine ⟨rel_sort ((entries.filter (rel_kept dso sh_type syms)).map
    (rel_record dso sh_type syms)), ?_, rel_sort_perm _, rel_sort_sorted _, ?_⟩
  · unfold build_relbuf
    rw [hrel]
    simp only
    rw [rel_collect_spec entries [] hsym hrep htype]
    rfl
  · intro r hr sym hs
    refine ⟨?_, rfl, ?_⟩
    · simp only [rel_kept, hs, decide_eq_true_eq]
    · unfold rel_record
      rw [hs]
      simp only [Option.map_some', Option.getD_some]
      have hpos : (0 : Int) ≤ ((if sh_type = SHT_REL then 0 else r.r_addend) + sym.st_value)
          % 2 ^ 32 := Int.emod_nonneg _ (by norm_num)
      rw [Int.toNat_of_nonneg hpos]
      by_cases ht : sh_type = SHT_REL
      · rw [if_pos ht, hrep ht r hr]
      · rw [if_neg ht]

/-- C32 on the object `rel_dso`: of its four relocation entries the third
is against a symbol of another section; the index holds the records of the
other three, sorted by pointer: 0x06 (addend 0), 0x0c (addend -1 + 0x40),
0x16 (addend 3 + 0x40). -/
theorem C32_relocation_index_witness :
    build_relbuf rel_dso = .ok [⟨6, 0⟩, ⟨12, 63⟩, ⟨22, 67⟩] ∧
    ∃ buf, build_relbuf rel_dso = .ok buf ∧
      buf.Perm ((([⟨0x116, 1, 10, 3⟩, ⟨0x106, 2, 10, 0⟩, ⟨0x120, 3, 10, 4⟩,
          ⟨0x10c, 1, 10, -1⟩] : List RelEntry).filter
        (rel_kept rel_dso SHT_RELA [⟨0, 0, 0, 0⟩, ⟨0, 3, 5, 0x40⟩, ⟨0, 3, 7, 0⟩, ⟨0, 3, 2, 8⟩])).map
        (rel_record rel_dso SHT_RELA
          [⟨0, 0, 0, 0⟩, ⟨0, 3, 5, 0x40⟩, ⟨0, 3, 7, 0⟩, ⟨0, 3, 2, 8⟩])) ∧
      buf.Pairwise (fun a b => a.ptr ≤ b.ptr) := by
  refine ⟨rfl, ?_⟩
  obtain ⟨buf, h1, h2, h3, _⟩ := C32_relocation_index rel_dso SHT_RELA
    [⟨0x116, 1, 10, 3⟩, ⟨0x106, 2, 10, 0⟩, ⟨0x120, 3, 10, 4⟩, ⟨0x10c, 1, 10, -1⟩]
    [⟨0, 0, 0, 0⟩, ⟨0, 3, 5, 0x40⟩, ⟨0, 3, 7, 0⟩, ⟨0, 3, 2, 8⟩] rfl (by decide) (by decide)
    (by decide)
  exact ⟨buf, h1, h2, h3⟩

/-- C33, as stated, fails: the subtable with the one declaration of the
code `2^28` (in its shortest encoding `80 80 80 80 01`), the tag 0x11 and no
attributes is well formed, but `read_abbrev` stores the declaration under
the code `0xffffffff`, so that looking up the code `2^28` yields nothing;
and for the well-formed subtable with the two codes `2^28` and `2^28 + 1`
`read_abbrev` returns no table, both codes being read as `0xffffffff`. -/
theorem C33_counterexample :
    uleb_enc (2 ^ 28) = [0x80, 0x80, 0x80, 0x80, 0x01] ∧
    uleb_enc (2 ^ 28 + 1) = [0x81, 0x80, 0x80, 0x80, 0x01] ∧
    read_abbrev (uleb_enc (2 ^ 28) ++ [0x11, 0, 0, 0, 0]) 0
      = .ok (some [⟨UINT_MAX, 0x11, []⟩]) ∧
    htab_find [⟨UINT_MAX, 0x11, []⟩] (2 ^ 28) = none ∧
    read_abbrev (uleb_enc (2 ^ 28) ++ [0x11, 0, 0, 0] ++ uleb_enc (2 ^ 28 + 1)
      ++ [0x11, 0, 0, 0, 0]) 0 = .ok none := by
  refine ⟨rfl, rfl, rfl, rfl, rfl⟩

/-- C33, amended: for a `.debug_abbrev` subtable that holds at `off` the
declarations `ds` (each a code other than 0, a tag, one children byte, pairs
of an attribute other than 0 and an allowed form, and a terminating pair of
two zeros), every code, tag, attribute and form being encoded in at most
four LEB128 bytes, with codes that differ from one another, followed by a
code 0: `read_abbrev` returns a table in which the code of each declaration
finds its tag and its pairs of attribute and form, in their order and
number (the children byte, whatever it is, is skipped), and in which any
other code finds nothing.  The numbers are the values of the encodings,
the sums of `(b_i & 0x7f) * 2^(7i)`. -/
theorem C33_read_abbrev_table {m zend rest : List Nat} {off : Nat} {ds : List AbbrevDecl}
    (hwf : ∀ d ∈ ds, d.wf) (hforms : ∀ d ∈ ds, ∀ p ∈ d.pairs, form_allowed p.2.2)
    (hend : ∀ d ∈ ds, d.z2.2 = 0) (hnd : (ds.map (fun d => d.code.2)).Nodup)
    (hshort : ∀ d ∈ ds, d.code.1.length ≤ 4 ∧ d.tag.1.length ≤ 4 ∧
      ∀ p ∈ d.pairs, p.1.1.length ≤ 4 ∧ p.2.1.length ≤ 4)
    (hz : is_uleb zend 0) (hm : m.drop off = enc_decls ds ++ (zend ++ rest)) :
    ∃ h, read_abbrev m off = .ok (some h) ∧
      (∀ d ∈ ds, htab_find h d.code.2
        = some ⟨d.code.2, d.tag.2, d.pairs.map (fun p => ⟨p.1.2, p.2.2⟩)⟩) ∧
      (∀ c, (∀ d ∈ ds, d.code.2 ≠ c) → htab_find h c = none) ∧
      (∀ d ∈ ds, d.code.2 = leb_sum d.code.1 ∧ d.tag.2 = leb_sum d.tag.1 ∧
        ∀ p ∈ d.pairs, p.1.2 = leb_sum p.1.1 ∧ p.2.2 = leb_sum p.2.1) := by
  have hlen := congrArg List.length hm
  simp only [List.length_drop, List.length_append] at hlen
  have := enc_decls_length_ge ds hwf
  refine ⟨ds.map AbbrevDecl.entry, ?_, ?_, ?_, ?_⟩
  · unfold read_abbrev
    rw [read_abbrev_loop_ok hz ds (m.length + 1) off [] hwf hforms hend hnd
      (by intro d _ t ht; cases ht) hm (by omega)]
    rfl
  · intro d hd
    exact htab_find_entry ds hnd d hd
  · intro c hc
    exact htab_find_other ds c hc
  · intro d hd
    obtain ⟨w1, _, w3, w4, _, _⟩ := hwf d hd
    obtain ⟨s1, s2, s3⟩ := hshort d hd
    refine ⟨is_uleb_short w1 s1, is_uleb_short w3 s2, ?_⟩
    intro p hp
    exact ⟨is_uleb_short (w4 p hp).1 (s3 p hp).1, is_uleb_short (w4 p hp).2.2 (s3 p hp).2⟩

/-- C33, amended, on the table with the declarations `decl_one` (code 1,
no attributes, children byte 0) and `decl_two` (code 2, two attributes,
children byte 1), the code 0 and one more byte. -/
theorem C33_read_abbrev_table_witness :
    read_abbrev (enc_decls [decl_one, decl_two] ++ ([0] ++ [9])) 0
      = .ok (some [⟨1, 0x11, []⟩, ⟨2, 0x24, [⟨3, 8⟩, ⟨0x0b, 0x0b⟩]⟩]) ∧
    ∃ h, read_abbrev (enc_decls [decl_one, decl_two] ++ ([0] ++ [9])) 0 = .ok (some h) ∧
      (∀ d ∈ [decl_one, decl_two], htab_find h d.code.2
        = some ⟨d.code.2, d.tag.2, d.pairs.map (fun p => ⟨p.1.2, p.2.2⟩)⟩) ∧
      (∀ c, (∀ d ∈ [decl_one, decl_two], d.code.2 ≠ c) → htab_find h c = none) ∧
      (∀ d ∈ [decl_one, decl_two], d.code.2 = leb_sum d.code.1 ∧ d.tag.2 = leb_sum d.tag.1 ∧
        ∀ p ∈ d.pairs, p.1.2 = leb_sum p.1.1 ∧ p.2.2 = leb_sum p.2.1) :=
  ⟨rfl, @C33_read_abbrev_table (enc_decls [decl_one, decl_two] ++ ([0] ++ [9])) [0] [9] 0
    [decl_one, decl_two]
    (by
      intro d hd
      simp only [List.mem_cons, List.mem_singleton, List.not_mem_nil, or_false] at hd
      rcases hd with hd | hd
      · rw [hd]; exact decl_one_wf
      · rw [hd]; exact decl_two_wf)
    (by
      intro d hd p hp
      simp only [List.mem_cons, List.mem_singleton, List.not_mem_nil, or_false] at hd
      rcases hd with hd | hd
      · rw [hd] at hp; cases hp
      · rw [hd] at hp
        simp only [decl_two, List.mem_cons, List.mem_singleton, List.not_mem_nil, or_false] at hp
        rcases hp with hp | hp
        · rw [hp]; right; left; decide
        · rw [hp]; right; left; decide)
    (by
      intro d hd
      simp only [List.mem_cons, List.mem_singleton, List.not_mem_nil, or_false] at hd
      rcases hd with hd | hd
      · rw [hd]; rfl
      · rw [hd]; rfl)
    (by decide)
    (by
      intro d hd
      simp only [List.mem_cons, List.mem_singleton, List.not_mem_nil, or_false] at hd
      rcases hd with hd | hd
      · rw [hd]
        refine ⟨by decide, by decide, ?_⟩
        intro p hp
        cases hp
      · rw [hd]
        refine ⟨by decide, by decide, ?_⟩
        intro p hp
        simp only [decl_two, List.mem_cons, List.mem_singleton, List.not_mem_nil, or_false] at hp
        rcases hp with hp | hp
        · rw [hp]; exact ⟨by decide, by decide⟩
        · rw [hp]; exact ⟨by decide, by decide⟩)
    (fun T => rfl) rfl⟩

/-- C34, as stated, fails: the value `2^28` is below `2^32`, its shortest
LEB128 encoding is the five bytes `80 80 80 80 01`, and `read_uleb128`
reads them as `UINT_MAX`, not as `2^28`. -/
theorem C34_counterexample :
    (2 : Nat) ^ 28 < 2 ^ 32 ∧ uleb_enc (2 ^ 28) = [0x80, 0x80, 0x80, 0x80, 0x01] ∧
      leb_sum [0x80, 0x80, 0x80, 0x80, 0x01] = 2 ^ 28 ∧
      read_uleb128 (uleb_enc (2 ^ 28)) 0 = .ok (UINT_MAX, 5) ∧ UINT_MAX ≠ 2 ^ 28 := by
  refine ⟨by decide, rfl, rfl, rfl, by decide⟩

/-- C34, amended: at the bytes `u` with bit 7 set followed by the byte `c`
with bit 7 clear, `read_uleb128` advances the pointer just past `c`; when
this encoding is at most 4 bytes long it returns the sum over its bytes of
`(b_i & 0x7f) * 2^(7i)`, and when it is 5 or more bytes long it returns
`0xffffffff`.  It yields the sentinel for every encoding of 5 or more
bytes: a value below `2^28` given in its shortest LEB128 encoding is
decoded exactly, and a value from `2^28` on, whose shortest encoding has
at least 5 bytes, is read as `0xffffffff`. -/
theorem C34_read_uleb128 (m : List Nat) (p : Nat) (u : List Nat) (c : Nat) (T : List Nat)
    (hm : m.drop p = u ++ c :: T) (hu : ∀ b ∈ u, b &&& 0x80 ≠ 0) (hc : c &&& 0x80 = 0) :
    read_uleb128 m p
        = .ok (if u.length + 1 ≤ 4 then leb_sum (u ++ [c]) else UINT_MAX, p + (u.length + 1)) ∧
      UINT_MAX = 0xffffffff ∧
      (∀ v T2, v < 2 ^ 28 → read_uleb128 (uleb_enc v ++ T2) 0 = .ok (v, (uleb_enc v).length)) ∧
      (∀ v T2, 2 ^ 28 ≤ v → 5 ≤ (uleb_enc v).length ∧
        read_uleb128 (uleb_enc v ++ T2) 0 = .ok (UINT_MAX, (uleb_enc v).length)) := by
  refine ⟨?_, rfl, fun v T2 hv => read_uleb_enc_small v T2 hv,
    fun v T2 hv => read_uleb_enc_big v T2 hv⟩
  have hl : leb_len (m.drop p) = some (u.length + 1) := by
    rw [hm]
    exact leb_len_split u c T hu hc
  rw [read_uleb128_value hl, hm]
  have e : (u ++ c :: T).take (u.length + 1) = u ++ [c] := by
    rw [List.take_append_eq_append_take]
    simp
  rw [e]

/-- C34, amended, at the bytes `ac 02` followed by a byte 7: the value is
`0x2c + 2 * 128 = 300` and the pointer is advanced by 2. -/
theorem C34_read_uleb128_witness :
    read_uleb128 [0xac, 0x02, 7] 0
        = .ok (if [0xac].length + 1 ≤ 4 then leb_sum ([0xac] ++ [0x02]) else UINT_MAX,
            0 + ([0xac].length + 1)) ∧
      leb_sum ([0xac] ++ [0x02]) = 300 :=
  ⟨(C34_read_uleb128 [0xac, 0x02, 7] 0 [0xac] 0x02 [7] rfl (by decide) (by decide)).1, rfl⟩

/-- C35, as stated, fails: in the table `sat_abbrev` the abbreviation
code, the tag and the attribute are each read as `0xffffffff`, and
`read_abbrev` accepts the table and stores the three as values; the DIE of
`sat_info` has an abbreviation code read as `0xffffffff`, which selects
that declaration, and `edit_dwarf2` walks the unit and returns 0. -/
theorem C35_counterexample :
    UINT_MAX = 0xffffffff ∧
    read_uleb128 sat_abbrev 0 = .ok (UINT_MAX, 5) ∧
    read_uleb128 sat_abbrev 5 = .ok (UINT_MAX, 10) ∧
    read_uleb128 sat_abbrev 11 = .ok (UINT_MAX, 16) ∧
    read_abbrev sat_abbrev 0 = .ok (some [⟨UINT_MAX, UINT_MAX, [⟨UINT_MAX, DW_FORM_data1⟩]⟩]) ∧
    read_uleb128 sat_info 11 = .ok (UINT_MAX, 16) ∧
    edit_dwarf2 c1_cfg ex_dso sat_obj
      = .ok (0, { sat_obj with
          ptr_size := 8
          cu_version := 2 }) := by
  refine ⟨rfl, rfl, rfl, rfl, rfl, rfl, rfl⟩

/-- C35, amended: the call sites of `read_uleb128` that check the value
turn the saturated value `0xffffffff` into a rejection.  In `read_abbrev`
the pass of the inner loop that reads a form as `0xffffffff` returns
`NULL`, and so does the pass of the outer loop around it.  In the walker a
`block` or `exprloc` length read as `0xffffffff` fails the assertion; a form
read as `0xffffffff` under `indirect` is handed to the `switch`, which has
no case for it and takes `Unknown DWARF DW_FORM`.  In the file table a
directory index read as `0xffffffff` gives `return 1` (the directory count
is an unsigned 32-bit number).  A DIE abbreviation code read as
`0xffffffff` gives `return 1` when the table has no declaration under that
code.  The abbreviation code, the tag and the attribute in `read_abbrev`
are stored as they are read, `0xffffffff` included, and a DIE abbreviation
code read as `0xffffffff` selects the declaration stored under that code. -/
theorem C35_saturated_sites :
    (∀ (m : List Nat) (fuel ptr attr p1 p2 : Nat) (acc : List abbrev_attr),
      read_uleb128 m ptr = .ok (attr, p1) → attr ≠ 0 →
      read_uleb128 m p1 = .ok (UINT_MAX, p2) →
      read_abbrev_attrs m (fuel + 1) ptr acc = .ok none) ∧
    (∀ (m : List Nat) (fuel ptr code tag p1 p2 : Nat) (h : List abbrev_tag),
      read_uleb128 m ptr = .ok (code, p1) → code ≠ 0 →
      h.any (fun t => t.entry == code) = false →
      read_uleb128 m p1 = .ok (tag, p2) →
      read_abbrev_attrs m (m.length + 1) (p2 + 1) [] = .ok none →
      read_abbrev_loop m (fuel + 1) ptr h = .ok none) ∧
    (∀ (msb : Bool) (ps cv : Nat) (m : List Nat) (form ptr p : Nat),
      form = DW_FORM_block ∨ form = DW_FORM_exprloc →
      read_uleb128 m ptr = .ok (UINT_MAX, p) →
      form_step msb ps cv m form ptr = .error .abort) ∧
    (∀ (msb : Bool) (ps cv : Nat) (m : List Nat) (ptr p q : Nat),
      read_uleb128 m ptr = .ok (UINT_MAX, p) →
      form_step msb ps cv m DW_FORM_indirect ptr = .ok (.again UINT_MAX p) ∧
        form_step msb ps cv m UINT_MAX q = .ok .unknown) ∧
    (∀ (cfg : Config) (comp_dir m : List Nat) (dirt : List (Option Nat))
      (fuel ptr cnt c p : Nat) (sink file : List Nat),
      dirt.length ≤ UINT_MAX → rd m ptr = .ok c → c ≠ 0 → cstr m ptr = .ok file →
      read_uleb128 m (ptr + file.length + 1) = .ok (UINT_MAX, p) →
      file_scan cfg comp_dir m dirt (fuel + 1) ptr cnt sink = .ok ⟨1, p, cnt, sink⟩) ∧
    (∀ (env : Env) (abbr : List abbrev_tag) (phase endcu fuel ptr p : Nat) (st : St),
      ptr < endcu → read_uleb128 (info_of st) ptr = .ok (UINT_MAX, p) →
      htab_find abbr UINT_MAX = none →
      die_loop env abbr phase endcu (fuel + 1) ptr st = .ok (1, some p, st)) ∧
    (∀ (env : Env) (abbr : List abbrev_tag) (phase endcu fuel ptr p : Nat) (st : St)
      (t : abbrev_tag),
      ptr < endcu → read_uleb128 (info_of st) ptr = .ok (UINT_MAX, p) →
      htab_find abbr UINT_MAX = some t →
      die_loop env abbr phase endcu (fuel + 1) ptr st
        = (edit_attributes env st p t phase >>= fun r =>
            match r.1 with
            | none => pure (0, none, r.2)
            | some q => die_loop env abbr phase endcu fuel q r.2)) ∧
    (∀ (m : List Nat) (fuel ptr attr form p1 p2 : Nat) (acc : List abbrev_attr),
      read_uleb128 m ptr = .ok (attr, p1) → attr ≠ 0 →
      read_uleb128 m p1 = .ok (form, p2) →
      (decide (form = 2) || (decide (form > DW_FORM_flag_present)
        && (form != DW_FORM_ref_sig8))) = false →
      read_abbrev_attrs m (fuel + 1) ptr acc
        = read_abbrev_attrs m fuel p2 (acc ++ [⟨attr, form⟩])) ∧
    (∀ (m : List Nat) (fuel ptr code tag p1 p2 p3 p4 : Nat) (h : List abbrev_tag)
      (attrs : List abbrev_attr),
      read_uleb128 m ptr = .ok (code, p1) → code ≠ 0 →
      h.any (fun t => t.entry == code) = false →
      read_uleb128 m p1 = .ok (tag, p2) →
      read_abbrev_attrs m (m.length + 1) (p2 + 1) [] = .ok (some (attrs, p3)) →
      read_uleb128 m p3 = .ok (0, p4) →
      read_abbrev_loop m (fuel + 1) ptr h
        = read_abbrev_loop m fuel p4 (h ++ [⟨code, tag, attrs⟩])) := by
  refine ⟨?_, ?_, ?_, ?_, ?_, ?_, ?_, ?_, ?_⟩
  · intro m fuel ptr attr p1 p2 acc h1 ha h2
    exact read_abbrev_attrs_sat h1 ha h2
  · intro m fuel ptr code tag p1 p2 h h1 hc hnew h2 h3
    exact read_abbrev_loop_none h1 hc hnew h2 h3
  · intro msb ps cv m form ptr p hf h
    exact form_step_block_abort hf h (Nat.lt_irrefl _)
  · intro msb ps cv m ptr p q h
    exact ⟨form_step_indirect h, form_step_sat msb ps cv m q⟩
  · intro cfg comp_dir m dirt fuel ptr cnt c p sink file hd h1 hc h2 h3
    exact file_scan_sat hd h1 hc h2 h3
  · intro env abbr phase endcu fuel ptr p st hp h1 h2
    exact die_loop_not_found hp h1 (by decide) h2
  · intro env abbr phase endcu fuel ptr p st t hp h1 h2
    exact die_loop_found hp h1 (by decide) h2
  · intro m fuel ptr attr form p1 p2 acc h1 ha h2 hf
    exact read_abbrev_attrs_step h1 ha h2 hf
  · intro m fuel ptr code tag p1 p2 p3 p4 h attrs h1 hc hnew h2 h3 h4
    exact read_abbrev_loop_step h1 hc hnew h2 h3 h4

/-- C35, amended, at a table whose one attribute has a form given in five
LEB128 bytes, at a `DW_FORM_block` whose length is given in five LEB128
bytes, and at a file entry `f.c` whose directory index is given in five
LEB128 bytes. -/
theorem C35_saturated_sites_witness :
    read_abbrev_attrs [3, 0xff, 0xff, 0xff, 0xff, 0x0f] (0 + 1) 0 [] = .ok none ∧
    form_step false 8 4 long_leb_block DW_FORM_block 0 = .error .abort ∧
    file_scan c1_cfg [] (bytes "f.c" ++ [0, 0xff, 0xff, 0xff, 0xff, 0x0f]) [none] (0 + 1) 0 0 []
      = .ok ⟨1, 9, 0, []⟩ :=
  ⟨C35_saturated_sites.1 [3, 0xff, 0xff, 0xff, 0xff, 0x0f] 0 0 3 1 6 [] rfl (by decide) rfl,
    C35_saturated_sites.2.2.1 false 8 4 long_leb_block DW_FORM_block 0 5 (Or.inl rfl) rfl,
    C35_saturated_sites.2.2.2.2.1 c1_cfg [] (bytes "f.c" ++ [0, 0xff, 0xff, 0xff, 0xff, 0x0f])
      [none] 0 0 0 102 9 [] (bytes "f.c") (by decide) rfl (by decide) rfl rfl⟩

/-- C36: `canonicalize_path` is idempotent: for every path `s` (the bytes of
a C string), running `canonicalize_path` on its own result gives that result
again. -/
theorem C36_canonicalize_idempotent (s : List Nat) :
    canonicalize_path (canonicalize_path s) = canonicalize_path s := by
  have hroot := (canon_root_inv s).1
  obtain ⟨hpre, hfirst⟩ := canonicalize_path_root s
  have hdd := canonicalize_path_dots s
  rw [leading_seps_eq hpre (root_all_sep hroot) hfirst] at hdd
  exact canonicalize_path_fixed hroot hpre hfirst (canonicalize_path_shape s) hdd

/-- C37: the walk over the DIEs of one unit terminates, for every
`.debug_info` buffer, abbreviation table, start pointer and end of the unit:
the loop `die_loop`, run with the bound of `edit_dwarf2` on its passes (the
length of `.debug_info` plus 1) or any bound above the number of bytes left,
never uses the bound up (the answer is a result or one of the faults of
the C code), and neither does any loop inside it.  Every pass of the DIE
loop consumes at least the one byte of an abbreviation code (of a null DIE
or of an attribute-bearing DIE) inside the buffer; `edit_attributes` keeps
the length of the buffer and returns a pointer that is not before the one
it got; every retry of a `DW_FORM_indirect` attribute consumes at least the
one byte of the new form inside the buffer. -/
theorem C37_die_walk_terminates (env : Env) (abbr : List abbrev_tag) (phase endcu ptr : Nat)
    (st : St) :
    die_loop env abbr phase endcu ((info_of st).length + 1) ptr st ≠ .error .fuel ∧
    (∀ fuel, (info_of st).length - ptr < fuel →
      die_loop env abbr phase endcu fuel ptr st ≠ .error .fuel) ∧
    (∀ code p, read_uleb128 (info_of st) ptr = .ok (code, p) →
      ptr + 1 ≤ p ∧ p ≤ (info_of st).length) ∧
    (∀ (t : abbrev_tag) (p : Nat) (res : Option Nat × St),
      edit_attributes env st p t phase = .ok res →
      (info_of res.2).length = (info_of st).length ∧ ∀ q, res.1 = some q → p ≤ q) ∧
    (∀ (t : abbrev_tag) (p : Nat), edit_attributes env st p t phase ≠ .error .fuel) ∧
    (∀ (msb : Bool) (ps cv : Nat) (m : List Nat) (form p f q : Nat),
      form_step msb ps cv m form p = .ok (.again f q) →
      form = DW_FORM_indirect ∧ p + 1 ≤ q ∧ q ≤ m.length) ∧
    (∀ (tag attr fuel form : Nat) (a : AttrSt), (info_of a.st).length - a.ptr < fuel →
      attr_loop env phase tag attr fuel form a ≠ .error .fuel) := by
  refine ⟨die_loop_nf _ _ _ (by omega), fun fuel hf => die_loop_nf _ _ _ hf, ?_, ?_, ?_, ?_, ?_⟩
  · intro code p h
    exact read_uleb128_bound h
  · intro t p res h
    exact edit_attributes_step h
  · intro t p
    exact edit_attributes_nf _ _ _ _ _
  · intro msb ps cv m form p f q h
    exact ⟨form_step_again h, read_uleb128_bound (form_step_again_read h)⟩
  · intro tag attr fuel form a hf
    exact attr_loop_nf _ _ _ hf

/-- C37 on the unit of `sat_info`: its one DIE starts at offset 11 with an
abbreviation code of five bytes, the walk ends at the end of the unit, and
a walk over a unit said to end at offset 99 ends with a read past the
buffer. -/
theorem C37_die_walk_terminates_witness :
    read_uleb128 (info_of sat_obj) 11 = .ok (UINT_MAX, 16) ∧
    (11 + 1 ≤ 16 ∧ 16 ≤ (info_of sat_obj).length) ∧
    die_loop ⟨c1_cfg, false, [], 0⟩ [⟨UINT_MAX, UINT_MAX, [⟨UINT_MAX, DW_FORM_data1⟩]⟩] 0 17
        ((info_of sat_obj).length + 1) 11 sat_obj
      = .ok (0, some 17, sat_obj) ∧
    die_loop ⟨c1_cfg, false, [], 0⟩ [⟨UINT_MAX, UINT_MAX, [⟨UINT_MAX, DW_FORM_data1⟩]⟩] 0 99
        ((info_of sat_obj).length + 1) 11 sat_obj
      = .error .undefined :=
  ⟨rfl, (C37_die_walk_terminates ⟨c1_cfg, false, [], 0⟩
      [⟨UINT_MAX, UINT_MAX, [⟨UINT_MAX, DW_FORM_data1⟩]⟩] 0 17 11 sat_obj).2.2.1 UINT_MAX 16 rfl,
    rfl, rfl⟩

end DebugEdit
